import Mathlib

set_option linter.unusedVariables false

/-! Verification of the karpo_hackathon compute core.

Shallow embedding of `solver.c` and `step_loop.c`.

* A C `double` is a value of `Dbl`: an exact rational, one of the two
  infinities, or NaN.  Arithmetic on finite values is exact (no rounding, no
  overflow); the special values follow the IEEE-754 rules.  Zero is unsigned.
* A C array (a pointer into linear memory, or a stack array) is a total map
  from index to value; loops `for (i = 0; i < n; i++)` are folds over
  `List.range n`.
* A C `int` is an `Int` where its sign matters (`nCoeffs`, `trackIter`).
-/

namespace Karpo

/-! ## Doubles -/

/-- A double: finite (exact rational), plus infinity, minus infinity or NaN. -/
inductive Dbl where
  | fin (q : ℚ)
  | pinf
  | ninf
  | nan
  deriving DecidableEq

namespace Dbl

/-- Unary minus. -/
def neg : Dbl → Dbl
  | fin q => fin (-q)
  | pinf => ninf
  | ninf => pinf
  | nan => nan

/-- Addition; the sum of opposite infinities is NaN. -/
def add : Dbl → Dbl → Dbl
  | fin a, fin b => fin (a + b)
  | nan, _ => nan
  | _, nan => nan
  | pinf, ninf => nan
  | ninf, pinf => nan
  | pinf, _ => pinf
  | ninf, _ => ninf
  | _, pinf => pinf
  | _, ninf => ninf

/-- Subtraction is addition of the negation. -/
def sub (a b : Dbl) : Dbl := add a (neg b)

/-- An infinity with the sign of `q` times the sign of `s`; NaN when `q = 0`. -/
def infTimes (positive : Bool) (q : ℚ) : Dbl :=
  if q = 0 then nan else if (0 < q) = positive then pinf else ninf

/-- Multiplication; zero times an infinity is NaN. -/
def mul : Dbl → Dbl → Dbl
  | fin a, fin b => fin (a * b)
  | nan, _ => nan
  | _, nan => nan
  | pinf, fin b => infTimes true b
  | ninf, fin b => infTimes false b
  | fin a, pinf => infTimes true a
  | fin a, ninf => infTimes false a
  | pinf, pinf => pinf
  | ninf, ninf => pinf
  | pinf, ninf => ninf
  | ninf, pinf => ninf

/-- Division; a finite value over an infinity is zero, `0/0` and
infinity over infinity are NaN, a non-zero value over zero is an infinity. -/
def div : Dbl → Dbl → Dbl
  | fin a, fin b => if b = 0 then infTimes true a else fin (a / b)
  | nan, _ => nan
  | _, nan => nan
  | fin _, pinf => fin 0
  | fin _, ninf => fin 0
  | pinf, fin b => if 0 ≤ b then pinf else ninf
  | ninf, fin b => if 0 ≤ b then ninf else pinf
  | pinf, pinf => nan
  | pinf, ninf => nan
  | ninf, pinf => nan
  | ninf, ninf => nan

/-- The C comparison `a < b`: false as soon as one side is NaN. -/
def lt : Dbl → Dbl → Bool
  | fin a, fin b => decide (a < b)
  | fin _, pinf => true
  | ninf, fin _ => true
  | ninf, pinf => true
  | _, _ => false

/-- The C comparison `a <= b`: false as soon as one side is NaN. -/
def le : Dbl → Dbl → Bool
  | fin a, fin b => decide (a ≤ b)
  | fin _, pinf => true
  | ninf, fin _ => true
  | ninf, pinf => true
  | pinf, pinf => true
  | ninf, ninf => true
  | _, _ => false

/-- The C comparison `a == b`: false as soon as one side is NaN. -/
def feq : Dbl → Dbl → Bool
  | fin a, fin b => decide (a = b)
  | pinf, pinf => true
  | ninf, ninf => true
  | _, _ => false

/-- Test for NaN. -/
def isNaN : Dbl → Bool
  | nan => true
  | _ => false

/-- Test for a finite value. -/
def isFinite : Dbl → Bool
  | fin _ => true
  | _ => false

/-- The rational held by a finite double (0 for the special values). -/
def toRat : Dbl → ℚ
  | fin q => q
  | _ => 0

/-- The double is finite and lies within `eps` of `c`: `|x - c| < eps`. -/
def near (x : Dbl) (c eps : ℚ) : Bool :=
  match x with
  | fin q => decide (|q - c| < eps)
  | _ => false

instance : Neg Dbl := ⟨neg⟩
instance : Add Dbl := ⟨add⟩
instance : Sub Dbl := ⟨sub⟩
instance : Mul Dbl := ⟨mul⟩
instance : Div Dbl := ⟨div⟩
instance (n : Nat) : OfNat Dbl n := ⟨fin n⟩
instance : Inhabited Dbl := ⟨fin 0⟩

end Dbl

/-- The literal `1e-30`. -/
def c1em30 : Dbl := Dbl.fin (1 / 10 ^ 30)
/-- The literal `1e-60`. -/
def c1em60 : Dbl := Dbl.fin (1 / 10 ^ 60)
/-- The literal `1e300`. -/
def c1e300 : Dbl := Dbl.fin (10 ^ 300)
/-- The literal `1e18`. -/
def c1e18 : Dbl := Dbl.fin (10 ^ 18)

/-- A C array of doubles. -/
abbrev DArr := Nat → Dbl
/-- A C array of bytes or of ints holding small non-negative values. -/
abbrev NArr := Nat → Nat

/-- The array holding the listed values, then zeros. -/
def arr (xs : List Dbl) : DArr := fun i => xs.getD i 0

/-- The array that holds the values of `pre` followed by the array `a`. -/
def prepend (pre : List Dbl) (a : DArr) : DArr :=
  fun i => if i < pre.length then pre.getD i 0 else a (i - pre.length)

/-- The store `a[i] = x`. -/
def wr {α : Type} (a : Nat → α) (i : Nat) (x : α) : Nat → α :=
  fun k => if k = i then x else a k

/-! ## The Ehrlich-Aberth solver -/

/-- `MAX_ITER` of solver.c, `SOLVER_MAX_ITER` of step_loop.c. -/
def MAX_ITER : Nat := 64
/-- `TOL2` of solver.c, `SOLVER_TOL2` of step_loop.c. -/
def TOL2 : Dbl := Dbl.fin (1 / 10 ^ 16)

/-- Squared magnitude `re*re + im*im`. -/
def mag2 (re im : Dbl) : Dbl := re * re + im * im

/-- The loop `while (start < nCoeffs - 1 && |c[start]|^2 < 1e-30) start++`,
run for at most `fuel` iterations from `start`. -/
def stripLoop (cRe cIm : DArr) (nCoeffs : Int) : Nat → Nat → Nat
  | 0, start => start
  | fuel + 1, start =>
    if (start : Int) < nCoeffs - 1 ∧ (mag2 (cRe start) (cIm start)).lt c1em30 = true then
      stripLoop cRe cIm nCoeffs fuel (start + 1)
    else start

/-- The condition of the strip loop at index `k`. -/
def stripCond (cRe cIm : DArr) (nCoeffs : Int) (k : Nat) : Prop :=
  (k : Int) < nCoeffs - 1 ∧ (mag2 (cRe k) (cIm k)).lt c1em30 = true

instance (cRe cIm : DArr) (nCoeffs : Int) (k : Nat) :
    Decidable (stripCond cRe cIm nCoeffs k) := by
  unfold stripCond; infer_instance

/-- The index of the first coefficient kept: the strip loop started at 0.
The loop cannot run more than `nCoeffs - 1` times, so that much fuel never
runs out (`stripStart_exit`). -/
def stripStart (cRe cIm : DArr) (nCoeffs : Int) : Nat :=
  stripLoop cRe cIm nCoeffs (nCoeffs - 1).toNat 0

/-- The effective degree: `nCoeffs - 1 - start` after the strip loop. -/
def effDegree (cRe cIm : DArr) (nCoeffs : Int) : Int :=
  nCoeffs - 1 - stripStart cRe cIm nCoeffs

/-- The registers of the Horner pass: `p` and `dp`. -/
structure Horner where
  pR : Dbl
  pI : Dbl
  dpR : Dbl
  dpI : Dbl

/-- One step of the Horner pass, for coefficient `k`. -/
def hornerStep (cr ci : DArr) (zR zI : Dbl) (h : Horner) (k : Nat) : Horner :=
  let ndR := h.dpR * zR - h.dpI * zI + h.pR
  let ndI := h.dpR * zI + h.dpI * zR + h.pI
  let npR := h.pR * zR - h.pI * zI + cr k
  let npI := h.pR * zI + h.pI * zR + ci k
  { pR := npR, pI := npI, dpR := ndR, dpI := ndI }

/-- The Horner pass `for (k = 1; k < n; k++)` evaluating `p(z)` and `p'(z)`. -/
def horner (cr ci : DArr) (n : Nat) (zR zI : Dbl) : Horner :=
  ((List.range (n - 1)).map (· + 1)).foldl (hornerStep cr ci zR zI)
    { pR := cr 0, pI := ci 0, dpR := 0, dpI := 0 }

/-- One term of the Aberth sum, for the other root `j`. -/
def aberthStep (rRe rIm : DArr) (i : Nat) (zR zI : Dbl) (s : Dbl × Dbl) (j : Nat) :
    Dbl × Dbl :=
  if j = i then s
  else
    let dR := zR - rRe j
    let dI := zI - rIm j
    let dM := dR * dR + dI * dI
    if dM.lt c1em60 then s
    else (s.1 + dR / dM, s.2 + (-dI) / dM)

/-- The Aberth sum `S = sum_{j != i} 1/(z_i - z_j)`. -/
def aberthSum (rRe rIm : DArr) (degree i : Nat) (zR zI : Dbl) : Dbl × Dbl :=
  (List.range degree).foldl (aberthStep rRe rIm i zR zI) (0, 0)

/-- The correction computed for root `i`, or `none` when one of the three
`continue` guards fires. -/
def correction (cr ci : DArr) (n degree : Nat) (rRe rIm : DArr) (i : Nat) :
    Option (Dbl × Dbl) :=
  let zR := rRe i
  let zI := rIm i
  let h := horner cr ci n zR zI
  let dpM := h.dpR * h.dpR + h.dpI * h.dpI
  if dpM.lt c1em60 then none
  else
    let wR := (h.pR * h.dpR + h.pI * h.dpI) / dpM
    let wI := (h.pI * h.dpR - h.pR * h.dpI) / dpM
    let s := aberthSum rRe rIm degree i zR zI
    let wsR := wR * s.1 - wI * s.2
    let wsI := wR * s.2 + wI * s.1
    let dnR := 1 - wsR
    let dnI := -wsI
    let dnM := dnR * dnR + dnI * dnI
    if dnM.lt c1em60 then none
    else
      let crrR := (wR * dnR + wI * dnI) / dnM
      let crrI := (wI * dnR - wR * dnI) / dnM
      some (crrR, crrI)

/-- The write-back loop shared by both solvers: root `i` is copied to the
warm-start buffers when `rRe[i] == rRe[i] && rIm[i] == rIm[i]`. -/
def writeBackStep (rRe rIm : DArr) (w : DArr × DArr) (i : Nat) : DArr × DArr :=
  if (rRe i).feq (rRe i) && (rIm i).feq (rIm i) then
    (wr w.1 i (rRe i), wr w.2 i (rIm i))
  else w

/-- The loop `for (i = 0; i < degree; i++)` over `writeBackStep`. -/
def writeBack (rRe rIm : DArr) (degree : Nat) (warmRe warmIm : DArr) : DArr × DArr :=
  (List.range degree).foldl (writeBackStep rRe rIm) (warmRe, warmIm)

/-- The real part written by the degree-1 closed form. -/
def linearRe (aR aI bR bI : Dbl) : Dbl := -(bR * aR + bI * aI) / (aR * aR + aI * aI)
/-- The imaginary part written by the degree-1 closed form. -/
def linearIm (aR aI bR bI : Dbl) : Dbl := -(bI * aR - bR * aI) / (aR * aR + aI * aI)

/-- What a call of `solveEA` leaves behind: the warm-start buffers, the
iteration-count buffer (`none` for a null pointer; step_loop.c has none), and
as a ghost value the number of sweeps of the main loop that were executed. -/
structure EAResult where
  warmRe : DArr
  warmIm : DArr
  iterCounts : Option NArr
  sweeps : Nat

namespace Solver

/-- The locals of the main loop of solver.c: the root estimates, `maxCorr2`,
the `conv` flags, the caller's `iterCounts` buffer, and the ghost sweep count. -/
structure EAState where
  rRe : DArr
  rIm : DArr
  maxCorr2 : Dbl
  conv : NArr
  iterCounts : Option NArr
  sweeps : Nat

/-- The body of `for (i = 0; i < degree; i++)` inside sweep `iter`. -/
def rootStep (cr ci : DArr) (n degree : Nat) (trackIter : Int) (iter : Nat)
    (s : EAState) (i : Nat) : EAState :=
  if trackIter ≠ 0 ∧ s.conv i ≠ 0 then s
  else
    match correction cr ci n degree s.rRe s.rIm i with
    | none => s
    | some (crrR, crrI) =>
      let rRe := wr s.rRe i (s.rRe i - crrR)
      let rIm := wr s.rIm i (s.rIm i - crrI)
      let h2 := crrR * crrR + crrI * crrI
      let maxCorr2 := if s.maxCorr2.lt h2 then h2 else s.maxCorr2
      if trackIter ≠ 0 ∧ h2.lt TOL2 = true then
        { s with rRe := rRe, rIm := rIm, maxCorr2 := maxCorr2, conv := wr s.conv i 1,
                 iterCounts := s.iterCounts.map (fun ic => wr ic i ((iter + 1) % 256)) }
      else
        { s with rRe := rRe, rIm := rIm, maxCorr2 := maxCorr2 }

/-- One sweep: `maxCorr2 = 0`, then every root in turn. -/
def sweep (cr ci : DArr) (n degree : Nat) (trackIter : Int) (iter : Nat) (s : EAState) :
    EAState :=
  (List.range degree).foldl (rootStep cr ci n degree trackIter iter)
    { s with maxCorr2 := 0, sweeps := s.sweeps + 1 }

/-- The loop run when a sweep ends below tolerance: every root not yet
flagged is flagged and gets the count `iter + 1`. -/
def markStep (iter : Nat) (ci : NArr × NArr) (i : Nat) : NArr × NArr :=
  if ci.1 i = 0 then (wr ci.1 i 1, wr ci.2 i ((iter + 1) % 256)) else ci

/-- The loop after the main loop: every root not flagged gets `MAX_ITER`. -/
def fillStep (conv : NArr) (ic : NArr) (i : Nat) : NArr :=
  if conv i = 0 then wr ic i (MAX_ITER % 256) else ic

/-- What happens at the `break`: the marking loop, when tracking is on and
the count buffer is not null. -/
def onConverged (degree : Nat) (trackIter : Int) (iter : Nat) (s : EAState) : EAState :=
  match s.iterCounts with
  | some ic =>
    if trackIter ≠ 0 then
      let r := (List.range degree).foldl (markStep iter) (s.conv, ic)
      { s with conv := r.1, iterCounts := some r.2 }
    else s
  | none => s

/-- The main loop `for (iter = ...; iter < MAX_ITER; iter++)` with `remaining`
iterations left, the next one being `iter`. -/
def iterLoop (cr ci : DArr) (n degree : Nat) (trackIter : Int) :
    Nat → Nat → EAState → EAState
  | 0, _, s => s
  | remaining + 1, iter, s =>
    let s1 := sweep cr ci n degree trackIter iter s
    if s1.maxCorr2.lt TOL2 then onConverged degree trackIter iter s1
    else iterLoop cr ci n degree trackIter remaining (iter + 1) s1

/-- The locals after the main loop and the final fill of the counts, for a
polynomial of effective degree at least 2 whose kept coefficients start at
index `start`. -/
def iterate (cRe cIm : DArr) (start n degree : Nat) (warmRe warmIm : DArr)
    (trackIter : Int) (iterCounts : Option NArr) : EAState :=
  let cr : DArr := fun k => cRe (start + k)
  let ci : DArr := fun k => cIm (start + k)
  let rRe : DArr := fun i => if i < degree then warmRe i else 0
  let rIm : DArr := fun i => if i < degree then warmIm i else 0
  let s := iterLoop cr ci n degree trackIter MAX_ITER 0
    { rRe := rRe, rIm := rIm, maxCorr2 := 0, conv := fun _ => 0,
      iterCounts := iterCounts, sweeps := 0 }
  match s.iterCounts with
  | some ic =>
    if trackIter ≠ 0 then
      { s with iterCounts := some ((List.range degree).foldl (fillStep s.conv) ic) }
    else s
  | none => s

/-- The exported `solveEA` of solver.c.  `nRoots` is not used by the code. -/
def solveEA (cRe cIm : DArr) (nCoeffs : Int) (warmRe warmIm : DArr) (nRoots : Int)
    (trackIter : Int) (iterCounts : Option NArr) : EAResult :=
  let start := stripStart cRe cIm nCoeffs
  let degree : Int := nCoeffs - 1 - start
  if degree ≤ 0 then
    { warmRe := warmRe, warmIm := warmIm, iterCounts := iterCounts, sweeps := 0 }
  else if degree = 1 then
    let aR := cRe start
    let aI := cIm start
    let bR := cRe (start + 1)
    let bI := cIm (start + 1)
    let d := aR * aR + aI * aI
    if d.lt c1em30 then
      { warmRe := warmRe, warmIm := warmIm, iterCounts := iterCounts, sweeps := 0 }
    else
      { warmRe := wr warmRe 0 (-(bR * aR + bI * aI) / d),
        warmIm := wr warmIm 0 (-(bI * aR - bR * aI) / d),
        iterCounts := if trackIter ≠ 0 then iterCounts.map (fun ic => wr ic 0 1) else iterCounts,
        sweeps := 0 }
  else
    let n := (nCoeffs - start).toNat
    let s := iterate cRe cIm start n degree.toNat warmRe warmIm trackIter iterCounts
    let w := writeBack s.rRe s.rIm degree.toNat warmRe warmIm
    { warmRe := w.1, warmIm := w.2, iterCounts := s.iterCounts, sweeps := s.sweeps }

/-- The locals of `solveEA` when it reaches its write-back loop (effective
degree at least 2): the values the iteration computed. -/
def afterLoop (cRe cIm : DArr) (nCoeffs : Int) (warmRe warmIm : DArr)
    (trackIter : Int) (iterCounts : Option NArr) : EAState :=
  iterate cRe cIm (stripStart cRe cIm nCoeffs)
    (nCoeffs - stripStart cRe cIm nCoeffs).toNat (effDegree cRe cIm nCoeffs).toNat
    warmRe warmIm trackIter iterCounts

end Solver

namespace StepLoop

/-- The locals of the main loop of the step-loop solver, and the ghost sweep
count. -/
structure EAState where
  rRe : DArr
  rIm : DArr
  maxCorr2 : Dbl
  sweeps : Nat

/-- The body of `for (i = 0; i < degree; i++)` inside a sweep. -/
def rootStep (cr ci : DArr) (n degree : Nat) (s : EAState) (i : Nat) : EAState :=
  match correction cr ci n degree s.rRe s.rIm i with
  | none => s
  | some (crrR, crrI) =>
    let rRe := wr s.rRe i (s.rRe i - crrR)
    let rIm := wr s.rIm i (s.rIm i - crrI)
    let h2 := crrR * crrR + crrI * crrI
    { s with rRe := rRe, rIm := rIm, maxCorr2 := if s.maxCorr2.lt h2 then h2 else s.maxCorr2 }

/-- One sweep: `maxCorr2 = 0`, then every root in turn. -/
def sweep (cr ci : DArr) (n degree : Nat) (s : EAState) : EAState :=
  (List.range degree).foldl (rootStep cr ci n degree)
    { s with maxCorr2 := 0, sweeps := s.sweeps + 1 }

/-- The main loop with `remaining` iterations left. -/
def iterLoop (cr ci : DArr) (n degree : Nat) : Nat → EAState → EAState
  | 0, s => s
  | remaining + 1, s =>
    let s1 := sweep cr ci n degree s
    if s1.maxCorr2.lt TOL2 then s1 else iterLoop cr ci n degree remaining s1

/-- The locals after the main loop, for effective degree at least 2. -/
def iterate (cRe cIm : DArr) (start n degree : Nat) (warmRe warmIm : DArr) : EAState :=
  let cr : DArr := fun k => cRe (start + k)
  let ci : DArr := fun k => cIm (start + k)
  let rRe : DArr := fun i => if i < degree then warmRe i else 0
  let rIm : DArr := fun i => if i < degree then warmIm i else 0
  iterLoop cr ci n degree MAX_ITER { rRe := rRe, rIm := rIm, maxCorr2 := 0, sweeps := 0 }

/-- The static `solveEA` of step_loop.c.  `nr` is not used by the code. -/
def solveEA (cRe cIm : DArr) (nc : Int) (warmRe warmIm : DArr) (nr : Int) : EAResult :=
  let start := stripStart cRe cIm nc
  let degree : Int := nc - 1 - start
  if degree ≤ 0 then
    { warmRe := warmRe, warmIm := warmIm, iterCounts := none, sweeps := 0 }
  else if degree = 1 then
    let aR := cRe start
    let aI := cIm start
    let bR := cRe (start + 1)
    let bI := cIm (start + 1)
    let d := aR * aR + aI * aI
    if d.lt c1em30 then
      { warmRe := warmRe, warmIm := warmIm, iterCounts := none, sweeps := 0 }
    else
      { warmRe := wr warmRe 0 (-(bR * aR + bI * aI) / d),
        warmIm := wr warmIm 0 (-(bI * aR - bR * aI) / d),
        iterCounts := none, sweeps := 0 }
  else
    let n := (nc - start).toNat
    let s := iterate cRe cIm start n degree.toNat warmRe warmIm
    let w := writeBack s.rRe s.rIm degree.toNat warmRe warmIm
    { warmRe := w.1, warmIm := w.2, iterCounts := none, sweeps := s.sweeps }

/-- The locals of `solveEA` when it reaches its write-back loop (effective
degree at least 2): the values the iteration computed. -/
def afterLoop (cRe cIm : DArr) (nc : Int) (warmRe warmIm : DArr) : EAState :=
  iterate cRe cIm (stripStart cRe cIm nc)
    (nc - stripStart cRe cIm nc).toNat (effDegree cRe cIm nc).toNat warmRe warmIm

end StepLoop

/-! ## Root matching -/

/-- The squared distance `dx*dx + dy*dy` between solved root `j` and
predecessor `i`, as both matchers compute it. -/
def dist2 (newRe newIm oldRe oldIm : DArr) (i j : Nat) : Dbl :=
  (newRe j - oldRe i) * (newRe j - oldRe i) + (newIm j - oldIm i) * (newIm j - oldIm i)

/-- The `n` roots held in a pair of arrays, as a list of `(Re, Im)` pairs. -/
def rootList (re im : DArr) (n : Nat) : List (Dbl × Dbl) :=
  (List.range n).map (fun k => (re k, im k))

/-- The loop `for (i = 0; i < n; i++) dst[i] = src[i]`. -/
def copyBack {α : Type} (n : Nat) (src dst : Nat → α) : Nat → α :=
  (List.range n).foldl (fun a i => wr a i (src i)) dst

namespace StepLoop

/-- `HUNGARIAN_MAX`. -/
def HUNGARIAN_MAX : Nat := 32

/-- The body of the inner loop of the greedy matcher: `b` is
`(bestJ, bestD)`. -/
def greedyScan (newRe newIm oldRe oldIm : DArr) (used : NArr) (i : Nat)
    (b : Nat × Dbl) (j : Nat) : Nat × Dbl :=
  if used j ≠ 0 then b
  else if (dist2 newRe newIm oldRe oldIm i j).lt b.2 then (j, dist2 newRe newIm oldRe oldIm i j)
  else b

/-- The inner loop of the greedy matcher for predecessor `i`, from
`bestJ = 0`, `bestD = 1e300`. -/
def greedyBest (newRe newIm oldRe oldIm : DArr) (n : Nat) (used : NArr) (i : Nat) : Nat × Dbl :=
  (List.range n).foldl (greedyScan newRe newIm oldRe oldIm used i) (0, c1e300)

/-- The locals of the greedy matcher. -/
structure GreedyState where
  used : NArr
  tRe : DArr
  tIm : DArr

/-- The body of the outer loop of the greedy matcher. -/
def greedyStep (newRe newIm oldRe oldIm : DArr) (n : Nat) (s : GreedyState) (i : Nat) :
    GreedyState :=
  let bestJ := (greedyBest newRe newIm oldRe oldIm n s.used i).1
  { used := wr s.used bestJ 1,
    tRe := wr s.tRe i (newRe bestJ),
    tIm := wr s.tIm i (newIm bestJ) }

/-- The locals of the greedy matcher after its outer loop. -/
def greedyRun (newRe newIm oldRe oldIm : DArr) (n : Nat) : GreedyState :=
  (List.range n).foldl (greedyStep newRe newIm oldRe oldIm n)
    { used := fun _ => 0, tRe := fun _ => 0, tIm := fun _ => 0 }

/-- The function `matchRootsGreedy`: the new contents of `newRe`, `newIm`.
A negative `n` behaves as 0. -/
def matchRootsGreedy (newRe newIm oldRe oldIm : DArr) (n : Nat) : DArr × DArr :=
  (copyBack n (greedyRun newRe newIm oldRe oldIm n).tRe newRe,
   copyBack n (greedyRun newRe newIm oldRe oldIm n).tIm newIm)

/-! ### The Hungarian matcher

The assignment loops are written once for any number type `α` with `+`, `-`,
a comparison `lt` and the sentinel `INF`; `hungarianMatch` runs them on
doubles, with `Dbl.lt` and `1e18`. -/

section Hungarian

variable {α : Type} [Add α] [Sub α]

/-- The locals of one augmentation phase. -/
structure HState (α : Type) where
  u : Nat → α
  v : Nat → α
  p : NArr
  way : NArr
  minv : Nat → α
  used : NArr
  j0 : Nat

/-- The locals the column scan changes; `j1` is a C `int`, `-1` at first. -/
structure Scan (α : Type) where
  minv : Nat → α
  way : NArr
  delta : α
  j1 : Int

/-- The body of the scan `for (j = 1; j <= n; j++)`.  The row `i0 = p[j0]` is
at least 1 whenever the loop runs, so `i0 - 1` and `j - 1` are the C values. -/
def scanStep (lt : α → α → Bool) (cost : Nat → α) (n : Nat) (u v : Nat → α) (used : NArr)
    (i0 j0 : Nat) (s : Scan α) (j : Nat) : Scan α :=
  if used j ≠ 0 then s
  else
    let cur := cost ((i0 - 1) * n + (j - 1)) - u i0 - v j
    let s1 : Scan α :=
      if lt cur (s.minv j) then { s with minv := wr s.minv j cur, way := wr s.way j j0 } else s
    if lt (s1.minv j) s1.delta then { s1 with delta := s1.minv j, j1 := j } else s1

/-- The locals the potential update changes. -/
structure Pots (α : Type) where
  u : Nat → α
  v : Nat → α
  minv : Nat → α

/-- The body of the update `for (j = 0; j <= n; j++)`. -/
def updateStep (p used : NArr) (delta : α) (s : Pots α) (j : Nat) : Pots α :=
  if used j ≠ 0 then
    { s with u := wr s.u (p j) (s.u (p j) + delta), v := wr s.v j (s.v j - delta) }
  else { s with minv := wr s.minv j (s.minv j - delta) }

/-- The first `do ... while (p[j0] != 0)` loop, cut after `fuel` iterations.
`none` stands for a run that leaves the defined behaviour of C (the read
`p[-1]` when no column was selected) or that needs more than `fuel`
iterations. -/
def phaseLoop (lt : α → α → Bool) (INF : α) (cost : Nat → α) (n : Nat) :
    Nat → HState α → Option (HState α)
  | 0, _ => none
  | fuel + 1, s =>
    let used := wr s.used s.j0 1
    let i0 := s.p s.j0
    let sc := (List.range' 1 n).foldl (scanStep lt cost n s.u s.v used i0 s.j0)
      { minv := s.minv, way := s.way, delta := INF, j1 := -1 }
    let pt := (List.range (n + 1)).foldl (updateStep s.p used sc.delta)
      { u := s.u, v := s.v, minv := sc.minv }
    if sc.j1 < 0 then none
    else
      let s1 : HState α :=
        { u := pt.u, v := pt.v, p := s.p, way := sc.way, minv := pt.minv, used := used,
          j0 := sc.j1.toNat }
      if s1.p s1.j0 ≠ 0 then phaseLoop lt INF cost n fuel s1 else some s1

/-- The second `do ... while (j0)` loop, cut after `fuel` iterations. -/
def augmentLoop (way : NArr) : Nat → NArr → Nat → Option NArr
  | 0, _, _ => none
  | fuel + 1, p, j0 =>
    let jj := way j0
    let p1 := wr p j0 (p jj)
    if jj ≠ 0 then augmentLoop way fuel p1 jj else some p1

/-- The arrays that live across the phases. -/
structure HPots (α : Type) where
  u : Nat → α
  v : Nat → α
  p : NArr
  way : NArr

/-- One phase: the body of `for (i = 1; i <= n; i++)`.  Each of the two
do-while loops gets `n + 1` iterations. -/
def phase (lt : α → α → Bool) (INF : α) (cost : Nat → α) (n : Nat) (g : HPots α) (i : Nat) :
    Option (HPots α) :=
  match phaseLoop lt INF cost n (n + 1)
      { u := g.u, v := g.v, p := wr g.p 0 i, way := g.way, minv := fun _ => INF,
        used := fun _ => 0, j0 := 0 } with
  | none => none
  | some s =>
    match augmentLoop s.way (n + 1) s.p s.j0 with
    | none => none
    | some p1 => some { u := s.u, v := s.v, p := p1, way := s.way }

/-- The phases for the rows of the list, in turn. -/
def phases (lt : α → α → Bool) (INF : α) (cost : Nat → α) (n : Nat) :
    List Nat → HPots α → Option (HPots α)
  | [], g => some g
  | i :: rest, g =>
    match phase lt INF cost n g i with
    | none => none
    | some g1 => phases lt INF cost n rest g1

/-- The array `p` after all `n` phases, from `u = v = 0`, `p = 0`. -/
def hungarianAssign (lt : α → α → Bool) (INF : α) (zero : α) (cost : Nat → α) (n : Nat) :
    Option NArr :=
  (phases lt INF cost n (List.range' 1 n)
    { u := fun _ => zero, v := fun _ => zero, p := fun _ => 0, way := fun _ => 0 }).map
    (fun g => g.p)

/-! ### The Hungarian matcher with its array accesses checked

The same loops, stopped with `none` as soon as an index leaves the declared
bounds of its array (`cost` has `HUNGARIAN_MAX * HUNGARIAN_MAX` entries; `u`,
`v`, `p`, `way`, `minv` and `used` have `HUNGARIAN_MAX + 2`; `tRe` and `tIm`
have `HUNGARIAN_MAX`), as soon as the column selected by a scan is not in
`1..n`, or when a do-while loop needs more than `n + 1` iterations. -/

/-- The index checks of one iteration of the first do-while loop, at the
state `s` of the loop head: `used[j0]` and `p[j0]`; in the scan, for
`j = 1..n`, `used[j]`, and for a column not flagged `cost[(i0-1)*n + (j-1)]`,
`u[i0]`, `v[j]`, `minv[j]`, `way[j]`; in the update, for `j = 0..n`,
`used[j]`, `v[j]`, `minv[j]`, and for a flagged column `p[j]` and `u[p[j]]`. -/
def iterOk (n : Nat) (s : HState α) : Bool :=
  decide (s.j0 < HUNGARIAN_MAX + 2) &&
  (List.range' 1 n).all (fun j =>
    decide (j < HUNGARIAN_MAX + 2) &&
    (wr s.used s.j0 1 j != 0 ||
      (decide (1 ≤ s.p s.j0) && decide (s.p s.j0 < HUNGARIAN_MAX + 2) &&
        decide ((s.p s.j0 - 1) * n + (j - 1) < HUNGARIAN_MAX * HUNGARIAN_MAX)))) &&
  (List.range (n + 1)).all (fun j =>
    decide (j < HUNGARIAN_MAX + 2) &&
    (wr s.used s.j0 1 j == 0 || decide (s.p j < HUNGARIAN_MAX + 2)))

/-- The first do-while loop, checked: every index of the iteration is within
bounds and the selected column `j1`, read as `p[j1]` by the loop condition,
lies in `1..n`. -/
def phaseLoopChk (lt : α → α → Bool) (INF : α) (cost : Nat → α) (n : Nat) :
    Nat → HState α → Option (HState α)
  | 0, _ => none
  | fuel + 1, s =>
    if iterOk n s then
      let used := wr s.used s.j0 1
      let i0 := s.p s.j0
      let sc := (List.range' 1 n).foldl (scanStep lt cost n s.u s.v used i0 s.j0)
        { minv := s.minv, way := s.way, delta := INF, j1 := -1 }
      let pt := (List.range (n + 1)).foldl (updateStep s.p used sc.delta)
        { u := s.u, v := s.v, minv := sc.minv }
      if sc.j1 < 1 ∨ (n : Int) < sc.j1 then none
      else
        let s1 : HState α :=
          { u := pt.u, v := pt.v, p := s.p, way := sc.way, minv := pt.minv, used := used,
            j0 := sc.j1.toNat }
        if s1.p s1.j0 ≠ 0 then phaseLoopChk lt INF cost n fuel s1 else some s1
    else none

/-- The second do-while loop, checked: `way[j0]`, `p[j0]` and `p[jj]`. -/
def augmentLoopChk (way : NArr) : Nat → NArr → Nat → Option NArr
  | 0, _, _ => none
  | fuel + 1, p, j0 =>
    if j0 < HUNGARIAN_MAX + 2 ∧ way j0 < HUNGARIAN_MAX + 2 then
      let jj := way j0
      let p1 := wr p j0 (p jj)
      if jj ≠ 0 then augmentLoopChk way fuel p1 jj else some p1
    else none

/-- One phase, checked: the loop `for (jj = 0; jj <= n; jj++)` that fills
`minv` and `used` needs `n < HUNGARIAN_MAX + 2`. -/
def phaseChk (lt : α → α → Bool) (INF : α) (cost : Nat → α) (n : Nat) (g : HPots α) (i : Nat) :
    Option (HPots α) :=
  if n < HUNGARIAN_MAX + 2 then
    match phaseLoopChk lt INF cost n (n + 1)
        { u := g.u, v := g.v, p := wr g.p 0 i, way := g.way, minv := fun _ => INF,
          used := fun _ => 0, j0 := 0 } with
    | none => none
    | some s =>
      match augmentLoopChk s.way (n + 1) s.p s.j0 with
      | none => none
      | some p1 => some { u := s.u, v := s.v, p := p1, way := s.way }
  else none

/-- The phases for the rows of the list, checked. -/
def phasesChk (lt : α → α → Bool) (INF : α) (cost : Nat → α) (n : Nat) :
    List Nat → HPots α → Option (HPots α)
  | [], g => some g
  | i :: rest, g =>
    match phaseChk lt INF cost n g i with
    | none => none
    | some g1 => phasesChk lt INF cost n rest g1

/-- The array `p` after all `n` phases, checked.  The code does not
initialise `way`; `way0` is what the array holds at first. -/
def hungarianAssignChk (lt : α → α → Bool) (INF : α) (zero : α) (cost : Nat → α) (n : Nat)
    (way0 : NArr) : Option NArr :=
  if n < HUNGARIAN_MAX + 2 then
    (phasesChk lt INF cost n (List.range' 1 n)
      { u := fun _ => zero, v := fun _ => zero, p := fun _ => 0, way := way0 }).map
      (fun g => g.p)
  else none

end Hungarian

/-- The loops that fill the cost matrix: `cost[i * n + j]` is the squared
distance between solved root `j` and predecessor `i`. -/
def costMatrix (newRe newIm oldRe oldIm : DArr) (n : Nat) : DArr :=
  (List.range n).foldl
    (fun c i => (List.range n).foldl
      (fun c j => wr c (i * n + j) (dist2 newRe newIm oldRe oldIm i j)) c)
    (fun _ => 0)

/-- The body of `for (j = 1; j <= n; j++) t[p[j] - 1] = new[j - 1]`; the store
is outside the array when `p[j]` is 0. -/
def placeStep (p : NArr) (newRe newIm : DArr) (t : Option (DArr × DArr)) (j : Nat) :
    Option (DArr × DArr) :=
  match t with
  | none => none
  | some t =>
    if p j = 0 then none
    else some (wr t.1 (p j - 1) (newRe (j - 1)), wr t.2 (p j - 1) (newIm (j - 1)))

/-- The function `hungarianMatch`: the new contents of `newRe`, `newIm`, or
`none` when the run leaves the defined behaviour of C. -/
def hungarianMatch (newRe newIm oldRe oldIm : DArr) (n : Nat) : Option (DArr × DArr) :=
  if n > HUNGARIAN_MAX then some (matchRootsGreedy newRe newIm oldRe oldIm n)
  else
    match hungarianAssign Dbl.lt c1e18 0 (costMatrix newRe newIm oldRe oldIm n) n with
    | none => none
    | some p =>
      match (List.range' 1 n).foldl (placeStep p newRe newIm)
          (some (fun _ => 0, fun _ => 0)) with
      | none => none
      | some t => some (copyBack n t.1 newRe, copyBack n t.2 newIm)

/-- The index check of the loops that fill the cost matrix: `cost[i * n + j]`. -/
def costIdxOk (n : Nat) : Bool :=
  (List.range n).all (fun i =>
    (List.range n).all (fun j => decide (i * n + j < HUNGARIAN_MAX * HUNGARIAN_MAX)))

/-- The body of the placement loop, checked: the store `t[p[j] - 1]` into an
array of `HUNGARIAN_MAX` entries. -/
def placeStepChk (p : NArr) (newRe newIm : DArr) (t : Option (DArr × DArr)) (j : Nat) :
    Option (DArr × DArr) :=
  match t with
  | none => none
  | some t =>
    if p j = 0 ∨ HUNGARIAN_MAX ≤ p j - 1 then none
    else some (wr t.1 (p j - 1) (newRe (j - 1)), wr t.2 (p j - 1) (newIm (j - 1)))

/-- The function `hungarianMatch` with every access to its stack arrays
checked. -/
def hungarianMatchChk (newRe newIm oldRe oldIm : DArr) (n : Nat) (way0 : NArr) :
    Option (DArr × DArr) :=
  if n > HUNGARIAN_MAX then some (matchRootsGreedy newRe newIm oldRe oldIm n)
  else if costIdxOk n then
    match hungarianAssignChk Dbl.lt c1e18 0 (costMatrix newRe newIm oldRe oldIm n) n way0 with
    | none => none
    | some p =>
      match (List.range' 1 n).foldl (placeStepChk p newRe newIm)
          (some (fun _ => 0, fun _ => 0)) with
      | none => none
      | some t => some (copyBack n t.1 newRe, copyBack n t.2 newIm)
  else none

end StepLoop

/-! ## Rank normalisation (step_loop.c) -/

/-- The literal `-1e300`. -/
def cm1e300 : Dbl := Dbl.fin (-(10 ^ 300))
/-- The literal `0.5`. -/
def chalf : Dbl := Dbl.fin (1 / 2)

/-- The test `raw[i] == raw[i] && raw[i] < 1e300` of `rankNorm`. -/
def rankOk (x : Dbl) : Bool := x.feq x && x.lt c1e300

/-- The body of the first loop of `rankNorm`:
`if (raw[i] == raw[i] && raw[i] < 1e300 && raw[i] > maxFinite) maxFinite = raw[i]`. -/
def maxFiniteStep (raw : DArr) (mf : Dbl) (i : Nat) : Dbl :=
  if rankOk (raw i) && mf.lt (raw i) then raw i else mf

/-- The value of `maxFinite` after the first loop of `rankNorm`, from `-1e300`. -/
def maxFinite (raw : DArr) (n : Nat) : Dbl :=
  (List.range n).foldl (maxFiniteStep raw) cm1e300

/-- The loop `for (i = 0; i < n; i++) result[i] = 0.5`. -/
def fillHalf (result : DArr) (n : Nat) : DArr :=
  (List.range n).foldl (fun r i => wr r i chalf) result

/-- The stack arrays `vals` and `idxs` of `rankNorm`. -/
structure Pairs where
  vals : DArr
  idxs : NArr

/-- The value stored in `vals[i]`: `raw[i]` when it passes the test, else
`maxFinite`. -/
def rankVal (raw : DArr) (mf : Dbl) (i : Nat) : Dbl :=
  if rankOk (raw i) then raw i else mf

/-- The loop that builds the `(value, index)` pairs. -/
def buildPairs (raw : DArr) (mf : Dbl) (n : Nat) : Pairs :=
  (List.range n).foldl
    (fun s i => { vals := wr s.vals i (rankVal raw mf i), idxs := wr s.idxs i i })
    { vals := fun _ => 0, idxs := fun _ => 0 }

/-- The inner loop `while (j >= 0 && vals[j] > v)` of the insertion sort; the
counter `k` is `j + 1`, and the result carries the final `j + 1`. -/
def shiftLoop (v : Dbl) : Nat → Pairs → Pairs × Nat
  | 0, s => (s, 0)
  | k + 1, s =>
    if v.lt (s.vals k) then
      shiftLoop v k { vals := wr s.vals (k + 1) (s.vals k), idxs := wr s.idxs (k + 1) (s.idxs k) }
    else (s, k + 1)

/-- The body of the outer loop of the insertion sort, for `i >= 1`. -/
def insertStep (s : Pairs) (i : Nat) : Pairs :=
  { vals := wr (shiftLoop (s.vals i) i s).1.vals (shiftLoop (s.vals i) i s).2 (s.vals i),
    idxs := wr (shiftLoop (s.vals i) i s).1.idxs (shiftLoop (s.vals i) i s).2 (s.idxs i) }

/-- The insertion sort `for (i = 1; i < n; i++)`. -/
def insertionSort (s : Pairs) (n : Nat) : Pairs :=
  (List.range' 1 (n - 1)).foldl insertStep s

/-- The body of the rank loop: the state is `(rank, result)`. -/
def rankStep (s : Pairs) (st : Nat × DArr) (p : Nat) : Nat × DArr :=
  (if 0 < p ∧ (s.vals p).feq (s.vals (p - 1)) = false then p else st.1,
   wr st.2 (s.idxs p)
     (Dbl.fin ((if 0 < p ∧ (s.vals p).feq (s.vals (p - 1)) = false then p else st.1 : Nat) : ℚ)))

/-- The function `rankNorm`: the new contents of `result`.  A negative `n`
behaves as 0. -/
def rankNorm (raw result : DArr) (n : Nat) : DArr :=
  if (maxFinite raw n).le cm1e300 then fillHalf result n
  else if (n : Int) - 1 = 0 then
    fillHalf ((List.range n).foldl
      (rankStep (insertionSort (buildPairs raw (maxFinite raw n) n) n)) (0, result)).2 n
  else
    (List.range n).foldl (fun r i => wr r i (r i / Dbl.fin (((n : Int) - 1 : Int) : ℚ)))
      ((List.range n).foldl
        (rankStep (insertionSort (buildPairs raw (maxFinite raw n) n) n)) (0, result)).2

/-! ## Casts and the fractional part (step_loop.c) -/

/-- Truncation toward zero, the rounding of the C casts from `double` to an
integer type. -/
def truncQ (q : ℚ) : Int := if 0 ≤ q then ⌊q⌋ else -⌊-q⌋

/-- The cast `(long long)t`: `none` when `t` is NaN or infinite or its
truncation is outside the range of `long long` (undefined behaviour in C). -/
def castLL (t : Dbl) : Option Int :=
  match t with
  | Dbl.fin q => if -(2 ^ 63) ≤ truncQ q ∧ truncQ q < 2 ^ 63 then some (truncQ q) else none
  | _ => none

/-- The cast `(int)t`: `none` when `t` is NaN or infinite or its truncation is
outside the range of `int` (undefined behaviour in C). -/
def castInt (t : Dbl) : Option Int :=
  match t with
  | Dbl.fin q => if -(2 ^ 31) ≤ truncQ q ∧ truncQ q < 2 ^ 31 then some (truncQ q) else none
  | _ => none

/-- The function `frac01`: `f = t - (double)(long long)t; if (f < 0.0) f += 1.0`. -/
def frac01 (t : Dbl) : Option Dbl :=
  match castLL t with
  | none => none
  | some z =>
    some (if (t - Dbl.fin z).lt 0 then t - Dbl.fin z + 1 else t - Dbl.fin z)

/-! ## The line morph blend (step 6 of `runStepLoop`) -/

/-- The literal `1e-14`. -/
def c1em14 : Dbl := Dbl.fin (1 / 10 ^ 14)

/-- The test `morphCosT >= 1.0 - 1e-14 && morphSinT > -1e-14 && morphSinT < 1e-14`
under which the blend is skipped. -/
def blendSkip (cosT sinT : Dbl) : Bool :=
  ((1 : Dbl) - c1em14).le cosT && (-c1em14).lt sinT && sinT.lt c1em14

/-- The body of the loop over the coefficients on the line path:
`work[m] = work[m] * omu + morph[m] * mu`, for both parts. -/
def lineBlendStep (omu mu : Dbl) (morphRe morphIm : DArr) (w : DArr × DArr) (m : Nat) :
    DArr × DArr :=
  (wr w.1 m (w.1 m * omu + morphRe m * mu), wr w.2 m (w.2 m * omu + morphIm m * mu))

/-- The line path (`morphPathType == 0`): `mu = 0.5 - 0.5 * cosT`,
`omu = 1.0 - mu`, then the loop over the `nc` coefficients. -/
def lineBlend (cosT : Dbl) (workRe workIm morphRe morphIm : DArr) (nc : Nat) : DArr × DArr :=
  (List.range nc).foldl
    (lineBlendStep (1 - (chalf - chalf * cosT)) (chalf - chalf * cosT) morphRe morphIm)
    (workRe, workIm)

/-- Step 6 of `runStepLoop` on the line path: the working coefficients after
the blend, which runs when morph is enabled and the skip test fails. -/
def morphBlendLine (morphEnabled : Bool) (cosT sinT : Dbl)
    (workRe workIm morphRe morphIm : DArr) (nc : Nat) : DArr × DArr :=
  if morphEnabled && !blendSkip cosT sinT then lineBlend cosT workRe workIm morphRe morphIm nc
  else (workRe, workIm)

/-! ## The colouring pass and the step loop (step_loop.c)

The output buffers `paintIdx`, `paintR`, `paintG`, `paintB` and the count
`pc` form the record `Paint`.  A run that leaves the defined behaviour of C
(a cast to `int` out of range, an `int` overflow, the read `p[-1]` of the
Hungarian matcher) is `none`. -/

/-- The canvas and the viewport: `canvasW`, `canvasH`, `bitmapRange`,
`centerX`, `centerY`. -/
structure Canvas where
  W : Int
  H : Int
  range : Dbl
  centerX : Dbl
  centerY : Dbl

/-- The column `(int)(((re - centerX) / range + 1.0) * 0.5 * W)`. -/
def projX (cv : Canvas) (re : Dbl) : Option Int :=
  castInt (((re - cv.centerX) / cv.range + 1) * chalf * Dbl.fin cv.W)

/-- The row `(int)((1.0 - (im - centerY) / range) * 0.5 * H)`. -/
def projY (cv : Canvas) (im : Dbl) : Option Int :=
  castInt ((1 - (im - cv.centerY) / cv.range) * chalf * Dbl.fin cv.H)

/-- The `int` value `iy * W + ix`; `none` on overflow. -/
def pixelIndex (cv : Canvas) (ix iy : Int) : Option Int :=
  if -(2 ^ 31) ≤ iy * cv.W + ix ∧ iy * cv.W + ix < 2 ^ 31 then some (iy * cv.W + ix) else none

/-- The output buffers and the paint count.  The field `log` is a ghost: the
indices of the output arrays written so far, in order. -/
structure Paint where
  pc : Nat
  idx : Nat → Int
  r : NArr
  g : NArr
  b : NArr
  log : List Nat

/-- The body of a paint loop `for (i = 0; i < nr; i++)`, the same in the four
colour modes: both casts, the drop test, then the colour of root `i` (`none`
when the palette index is undefined) and the four stores at `pc`. -/
def paintStep (cv : Canvas) (rootsRe rootsIm : DArr) (col : Nat → Option (Nat × Nat × Nat))
    (s : Option Paint) (i : Nat) : Option Paint :=
  match s, projX cv (rootsRe i), projY cv (rootsIm i) with
  | some s, some ix, some iy =>
    if ix < 0 ∨ ix ≥ cv.W ∨ iy < 0 ∨ iy ≥ cv.H then some s
    else
      match col i, pixelIndex cv ix iy with
      | some c, some k =>
        some { pc := s.pc + 1, idx := wr s.idx s.pc k, r := wr s.r s.pc c.1,
               g := wr s.g s.pc c.2.1, b := wr s.b s.pc c.2.2, log := s.log ++ [s.pc] }
      | _, _ => none
  | _, _, _ => none

/-- A paint loop over the `nr` roots. -/
def paintLoop (cv : Canvas) (rootsRe rootsIm : DArr) (col : Nat → Option (Nat × Nat × Nat))
    (nr : Nat) (s : Paint) : Option Paint :=
  (List.range nr).foldl (paintStep cv rootsRe rootsIm col) (some s)

/-- The clamp `if (palIdx > 15) palIdx = 15`. -/
def clamp15 (p : Int) : Int := if p > 15 then 15 else p

/-- The palette index of derivative mode:
`palIdx = (int)(normSens[i] * 15.0 + 0.5)`, clamped to 15. -/
def palDeriv (norm : Dbl) : Option Int :=
  (castInt (norm * 15 + chalf)).map clamp15

/-- The value `t` of proximity mode: 1 unless `proxRunMax > 0`, else
`1 - min(minDists[i] / proxRunMax, 1)`. -/
def proxT (minDist proxRunMax : Dbl) : Dbl :=
  if (0 : Dbl).lt proxRunMax then
    1 - (if (1 : Dbl).lt (minDist / proxRunMax) then 1 else minDist / proxRunMax)
  else 1

/-- The palette index of proximity mode: `palIdx = (int)(t * 15.0)`, clamped
to 15. -/
def palProx (minDist proxRunMax : Dbl) : Option Int :=
  (castInt (proxT minDist proxRunMax * 15)).map clamp15

/-- The body of the pair loop of proximity mode, for the pair `i < j`:
`if (d2 < minDists[i]) minDists[i] = d2; if (d2 < minDists[j]) minDists[j] = d2`. -/
def proxPairStep (tmpRe tmpIm : DArr) (i : Nat) (md : DArr) (j : Nat) : DArr :=
  let d2 := (tmpRe i - tmpRe j) * (tmpRe i - tmpRe j)
    + (tmpIm i - tmpIm j) * (tmpIm i - tmpIm j)
  let md1 := if d2.lt (md i) then wr md i d2 else md
  if d2.lt (md1 j) then wr md1 j d2 else md1

/-- The squared minimum distances of proximity mode: every entry starts at
`1e300`, then the loop over the pairs `i < j < nr`. -/
def proxMinDist2 (tmpRe tmpIm : DArr) (nr : Nat) : DArr :=
  (List.range nr).foldl
    (fun md i => (List.range' (i + 1) (nr - (i + 1))).foldl (proxPairStep tmpRe tmpIm i) md)
    ((List.range nr).foldl (fun md i => wr md i c1e300) (fun _ => 0))

/-- The array `minDists` after `minDists[i] = __builtin_sqrt(minDists[i])`;
the square root is a parameter. -/
def proxMinDists (sqrt : Dbl → Dbl) (tmpRe tmpIm : DArr) (nr : Nat) : DArr :=
  (List.range nr).foldl (fun md i => wr md i (sqrt (md i))) (proxMinDist2 tmpRe tmpIm nr)

/-- The running maximum after a step: raised to every `minDists[i]` above
it, then `proxRunMax *= 0.999`. -/
def proxRunMaxNext (md : DArr) (nr : Nat) (proxRunMax : Dbl) : Dbl :=
  (List.range nr).foldl (fun m i => if m.lt (md i) then md i else m) proxRunMax
    * Dbl.fin (999 / 1000)

/-- The configuration read by `init` that the colouring pass uses: the
canvas, `nRoots` (a negative count behaves as 0), `colorMode`,
`matchStrategy`, the uniform colour `cfgI[CI_UNIFORM_R..B]`, the per-root
colours and the two 16-entry palettes (read at an `int` index). -/
structure Config where
  canvas : Canvas
  nRoots : Nat
  colorMode : Int
  matchStrategy : Int
  uniformR : Int
  uniformG : Int
  uniformB : Int
  colorsR : NArr
  colorsG : NArr
  colorsB : NArr
  proxPalR : Int → Nat
  proxPalG : Int → Nat
  proxPalB : Int → Nat
  derivPalR : Int → Nat
  derivPalG : Int → Nat
  derivPalB : Int → Nat

/-- The parts of a step that the colouring pass takes as given.  The state
`σ` holds what steps 1 to 8 of the loop body keep between steps (working
coefficients, PRNG words, morph angle).  `pre` is steps 1 to 8 (coefficient
animation, solve, NaN rescue), from the state, the step number and the
current roots to the new state and the solved roots `tmp`, or `none` when
they leave the defined behaviour of C; `sens` is `computeSens` on the working
coefficients of the state; `sqrt` is `__builtin_sqrt`. -/
structure Env (σ : Type) where
  pre : σ → Int → DArr × DArr → Option (σ × (DArr × DArr))
  sens : σ → DArr × DArr → DArr
  sqrt : Dbl → Dbl

/-- What the step loop carries from step to step. -/
structure LoopState (σ : Type) where
  env : σ
  rootsRe : DArr
  rootsIm : DArr
  proxRunMax : Dbl
  paint : Paint

/-- The colour of uniform mode: `(unsigned char)ur`, `ug`, `ub`. -/
def colUniform (cfg : Config) : Nat → Option (Nat × Nat × Nat) :=
  fun _ => some ((cfg.uniformR % 256).toNat, (cfg.uniformG % 256).toNat,
    (cfg.uniformB % 256).toNat)

/-- The colour of index-rainbow mode: `colorsR[i]`, `colorsG[i]`, `colorsB[i]`. -/
def colIndex (cfg : Config) : Nat → Option (Nat × Nat × Nat) :=
  fun i => some (cfg.colorsR i, cfg.colorsG i, cfg.colorsB i)

/-- The colour of proximity mode: the proximity palette at `palIdx`. -/
def colProx (cfg : Config) (md : DArr) (proxRunMax : Dbl) : Nat → Option (Nat × Nat × Nat) :=
  fun i => (palProx (md i) proxRunMax).map
    (fun p => (cfg.proxPalR p, cfg.proxPalG p, cfg.proxPalB p))

/-- The colour of derivative mode: the derivative palette at `palIdx`. -/
def colDeriv (cfg : Config) (norm : DArr) : Nat → Option (Nat × Nat × Nat) :=
  fun i => (palDeriv (norm i)).map
    (fun p => (cfg.derivPalR p, cfg.derivPalG p, cfg.derivPalB p))

/-- The matching of index-rainbow mode: Hungarian for strategy 2, greedy for
strategy 1, else greedy on every fourth step; `k` is `step - stepStart`. -/
def matchIndex (cfg : Config) (k : Nat) (tmp : DArr × DArr) (rootsRe rootsIm : DArr) :
    Option (DArr × DArr) :=
  if cfg.matchStrategy = 2 then
    StepLoop.hungarianMatch tmp.1 tmp.2 rootsRe rootsIm cfg.nRoots
  else if cfg.matchStrategy = 1 then
    some (StepLoop.matchRootsGreedy tmp.1 tmp.2 rootsRe rootsIm cfg.nRoots)
  else if k % 4 = 0 then
    some (StepLoop.matchRootsGreedy tmp.1 tmp.2 rootsRe rootsIm cfg.nRoots)
  else some tmp

/-- Step 9 of the loop body: the colour-mode dependent processing and the
pixel output, from the solved roots `tmp`; `k` is `step - stepStart`. -/
def postSolve {σ : Type} (cfg : Config) (E : Env σ) (k : Nat) (st : LoopState σ) (env1 : σ)
    (tmp : DArr × DArr) : Option (LoopState σ) :=
  if cfg.colorMode = 3 then
    let t := if k % 4 = 0 then
        StepLoop.matchRootsGreedy tmp.1 tmp.2 st.rootsRe st.rootsIm cfg.nRoots
      else tmp
    let norm := rankNorm (E.sens env1 t) (fun _ => 0) cfg.nRoots
    let re := copyBack cfg.nRoots t.1 st.rootsRe
    let im := copyBack cfg.nRoots t.2 st.rootsIm
    (paintLoop cfg.canvas re im (colDeriv cfg norm) cfg.nRoots st.paint).map
      (fun p => { env := env1, rootsRe := re, rootsIm := im, proxRunMax := st.proxRunMax,
                  paint := p })
  else if cfg.colorMode = 2 then
    let md := proxMinDists E.sqrt tmp.1 tmp.2 cfg.nRoots
    let prm := proxRunMaxNext md cfg.nRoots st.proxRunMax
    let re := copyBack cfg.nRoots tmp.1 st.rootsRe
    let im := copyBack cfg.nRoots tmp.2 st.rootsIm
    (paintLoop cfg.canvas re im (colProx cfg md prm) cfg.nRoots st.paint).map
      (fun p => { env := env1, rootsRe := re, rootsIm := im, proxRunMax := prm, paint := p })
  else if cfg.colorMode = 0 then
    let re := copyBack cfg.nRoots tmp.1 st.rootsRe
    let im := copyBack cfg.nRoots tmp.2 st.rootsIm
    (paintLoop cfg.canvas re im (colUniform cfg) cfg.nRoots st.paint).map
      (fun p => { env := env1, rootsRe := re, rootsIm := im, proxRunMax := st.proxRunMax,
                  paint := p })
  else
    match matchIndex cfg k tmp st.rootsRe st.rootsIm with
    | none => none
    | some t =>
      let re := copyBack cfg.nRoots t.1 st.rootsRe
      let im := copyBack cfg.nRoots t.2 st.rootsIm
      (paintLoop cfg.canvas re im (colIndex cfg) cfg.nRoots st.paint).map
        (fun p => { env := env1, rootsRe := re, rootsIm := im, proxRunMax := st.proxRunMax,
                    paint := p })

/-- The body of the loop over the steps, for the step `stepStart + k`. -/
def stepBody {σ : Type} (cfg : Config) (E : Env σ) (stepStart : Int)
    (st : Option (LoopState σ)) (k : Nat) : Option (LoopState σ) :=
  match st with
  | none => none
  | some st =>
    match E.pre st.env (stepStart + k) (st.rootsRe, st.rootsIm) with
    | none => none
    | some r => postSolve cfg E k st r.1 r.2

/-- The function `runStepLoop`: the state after the steps
`stepStart .. stepEnd - 1`, from `pc = 0` and `proxRunMax = 1.0`; the value
returned by the C function is the field `paint.pc`.  `out` holds the contents
of the output buffers before the call.  The argument `elapsedOffset` is read
only in steps 1 to 8, so it is part of `E.pre`; the progress report of step
10 changes no state. -/
def runStepLoop {σ : Type} (cfg : Config) (E : Env σ) (env0 : σ)
    (passRootsRe passRootsIm : DArr) (out : Paint) (stepStart stepEnd : Int) :
    Option (LoopState σ) :=
  (List.range (stepEnd - stepStart).toNat).foldl (stepBody cfg E stepStart)
    (some { env := env0, rootsRe := passRootsRe, rootsIm := passRootsIm, proxRunMax := 1,
            paint := { pc := 0, idx := out.idx, r := out.r, g := out.g, b := out.b,
                       log := [] } })

/-! ## Curve sampling (steps 2 and 4 of `runStepLoop`) -/

/-- The value fits a C `int`. -/
def intOk (z : Int) : Bool := decide (-(2 ^ 31) ≤ z ∧ z < 2 ^ 31)

/-- The `int` index `base + k * 2 + off` into a flat curve array (`off` is 0
for the real part, 1 for the imaginary part); `none` on overflow. -/
def curveAddr (base k off : Int) : Option Int :=
  if intOk (k * 2) && intOk (base + k * 2) && intOk (base + k * 2 + off) then
    some (base + k * 2 + off)
  else none

/-- The safety clamp `if (k >= N) k = N - 1`. -/
def clampIdx (k N : Int) : Option Int :=
  if k ≥ N then (if intOk (N - 1) then some (N - 1) else none) else some k

/-- What sampling one curve entry produces: the value stored in the working
coefficient, and as a ghost value the indices of the flat curve array that
were read. -/
structure CurveSample where
  re : Dbl
  im : Dbl
  reads : List Int

/-- The cloud branch: `k = (int)rawIdx`, clamp, then the point `k`. -/
def sampleCloud (flat : Int → Dbl) (base N : Int) (rawIdx : Dbl) : Option CurveSample :=
  match castInt rawIdx with
  | none => none
  | some k0 =>
    match clampIdx k0 N with
    | none => none
    | some k =>
      match curveAddr base k 0, curveAddr base k 1 with
      | some iRe, some iIm => some { re := flat iRe, im := flat iIm, reads := [iRe, iIm] }
      | _, _ => none

/-- The polyline branch: `lo = (int)rawIdx`, clamp, `hi = lo + 1` wrapped to 0
at `N`, `frac = rawIdx - (double)lo`, then the interpolation of the points
`lo` and `hi`. -/
def samplePoly (flat : Int → Dbl) (base N : Int) (rawIdx : Dbl) : Option CurveSample :=
  match castInt rawIdx with
  | none => none
  | some lo0 =>
    match clampIdx lo0 N with
    | none => none
    | some lo =>
      if intOk (lo + 1) then
        let hi := if lo + 1 = N then 0 else lo + 1
        let frac := rawIdx - Dbl.fin lo
        match curveAddr base lo 0, curveAddr base hi 0, curveAddr base lo 1,
            curveAddr base hi 1 with
        | some aRe, some bRe, some aIm, some bIm =>
          some { re := flat aRe * (1 - frac) + flat bRe * frac,
                 im := flat aIm * (1 - frac) + flat bIm * frac,
                 reads := [aRe, bRe, aIm, bIm] }
        | _, _, _, _ => none
      else none

/-- Sampling a curve of `N` points stored from point `offset` on, at time
parameter `t`: `u = frac01(t)`, `rawIdx = u * N`, `base = offset * 2`, then
the cloud or the polyline branch. -/
def sampleAt (flat : Int → Dbl) (isCloud offset N : Int) (t : Dbl) : Option CurveSample :=
  match frac01 t with
  | none => none
  | some u =>
    if intOk (offset * 2) then
      if isCloud ≠ 0 then sampleCloud flat (offset * 2) N (u * Dbl.fin N)
      else samplePoly flat (offset * 2) N (u * Dbl.fin N)
    else none

/-- One entry of step 2 (C-curves) or step 4 (D-curves), before the dither:
`dir = ccw ? -1.0 : 1.0`, `t = elapsed * speed * dir`, then the sample. -/
def sampleEntry (flat : Int → Dbl) (isCloud ccw offset N : Int) (elapsed speed : Dbl) :
    Option CurveSample :=
  sampleAt flat isCloud offset N (elapsed * speed * (if ccw ≠ 0 then -1 else 1))

/-! ## The non-line morph paths and the morph angle (step 6 of `runStepLoop`)

`__builtin_sqrt` is a parameter `sqrt`. -/

/-- The body of the loop over the coefficients on a non-line path
(`morphPathType != 0`): circle for type 1, ellipse for type 2, figure-8
otherwise.  A coefficient with `len2 < 1e-30` is left alone. -/
def pathBlendStep (sqrt : Dbl → Dbl) (pathType ccw : Int) (minor cosT sinT : Dbl)
    (morphRe morphIm : DArr) (w : DArr × DArr) (m : Nat) : DArr × DArr :=
  let sign : Dbl := if ccw ≠ 0 then 1 else -1
  let sin2T := 2 * sinT * cosT
  let cR := w.1 m
  let cI := w.2 m
  let dR := morphRe m
  let dI := morphIm m
  let dx := dR - cR
  let dy := dI - cI
  let len2 := dx * dx + dy * dy
  if len2.lt c1em30 then w
  else
    let len := sqrt len2
    let ux := dx / len
    let uy := dy / len
    let vx := -uy
    let vy := ux
    let midR := (cR + dR) * chalf
    let midI := (cI + dI) * chalf
    let semi := len * chalf
    let lx := -semi * cosT
    let ly :=
      if pathType = 1 then sign * semi * sinT
      else if pathType = 2 then sign * (minor * semi) * sinT
      else sign * (semi * chalf) * sin2T
    (wr w.1 m (midR + lx * ux + ly * vx), wr w.2 m (midI + lx * uy + ly * vy))

/-- The non-line branch: the loop over the `nc` coefficients. -/
def pathBlend (sqrt : Dbl → Dbl) (pathType ccw : Int) (minor cosT sinT : Dbl)
    (workRe workIm morphRe morphIm : DArr) (nc : Nat) : DArr × DArr :=
  (List.range nc).foldl (pathBlendStep sqrt pathType ccw minor cosT sinT morphRe morphIm)
    (workRe, workIm)

/-- The blend of step 6, before the path dither: it runs when morph is
enabled and the skip test fails, on the line for `morphPathType == 0` and on
the non-line path otherwise. -/
def morphBlend (sqrt : Dbl → Dbl) (morphEnabled : Bool) (pathType ccw : Int)
    (minor cosT sinT : Dbl) (workRe workIm morphRe morphIm : DArr) (nc : Nat) : DArr × DArr :=
  if morphEnabled && !blendSkip cosT sinT then
    if pathType = 0 then lineBlend cosT workRe workIm morphRe morphIm nc
    else pathBlend sqrt pathType ccw minor cosT sinT workRe workIm morphRe morphIm nc
  else (workRe, workIm)

/-- What step 6 does to the pair `(morphCosT, morphSinT)` at the step with
`step - stepStart = k`: inside the block guarded by the skip test, the pair is
rotated by `(morphCosD, morphSinD)` and, when `k & 1023 == 0`, renormalised;
outside the block nothing happens. -/
def angleStep (sqrt : Dbl → Dbl) (morphEnabled : Bool) (cosD sinD : Dbl) (a : Dbl × Dbl)
    (k : Nat) : Dbl × Dbl :=
  if morphEnabled && !blendSkip a.1 a.2 then
    let nc2 := a.1 * cosD - a.2 * sinD
    let ns := a.2 * cosD + a.1 * sinD
    if k % 1024 = 0 then
      let invLen := 1 / sqrt (nc2 * nc2 + ns * ns)
      (nc2 * invLen, ns * invLen)
    else (nc2, ns)
  else a

/-- The pair `(morphCosT, morphSinT)` at the start of step `stepStart + n` of
a batch that began with the pair `a0`. -/
def angleRun (sqrt : Dbl → Dbl) (morphEnabled : Bool) (cosD sinD : Dbl) (a0 : Dbl × Dbl)
    (n : Nat) : Dbl × Dbl :=
  (List.range n).foldl (angleStep sqrt morphEnabled cosD sinD) a0

/-! ## The pseudo-random number generator (step_loop.c)

An `unsigned int` is a natural number below `2^32`; the left shift is reduced
modulo `2^32`. -/

/-- The four words `rngS[0..3]`. -/
structure Rng where
  s0 : Nat
  s1 : Nat
  s2 : Nat
  s3 : Nat
  deriving DecidableEq

/-- Every word of the state is a 32-bit word. -/
def Rng.Valid (r : Rng) : Prop :=
  r.s0 < 2 ^ 32 ∧ r.s1 < 2 ^ 32 ∧ r.s2 < 2 ^ 32 ∧ r.s3 < 2 ^ 32

/-- The state is all-zero. -/
def Rng.IsZero (r : Rng) : Prop := r.s0 = 0 ∧ r.s1 = 0 ∧ r.s2 = 0 ∧ r.s3 = 0

instance (r : Rng) : Decidable r.Valid := by unfold Rng.Valid; infer_instance
instance (r : Rng) : Decidable r.IsZero := by unfold Rng.IsZero; infer_instance

/-- The cast `(unsigned int)` of an `int`. -/
def toU32 (z : Int) : Nat := (z % 2 ^ 32).toNat

/-- The seeding of `init`: the four seed words of the configuration, or the
fixed tuple when they are all zero. -/
def seedRng (c0 c1 c2 c3 : Int) : Rng :=
  if toU32 c0 = 0 ∧ toU32 c1 = 0 ∧ toU32 c2 = 0 ∧ toU32 c3 = 0 then
    { s0 := 0xDEADBEEF, s1 := 0x12345678, s2 := 0xABCDEF01, s3 := 0x87654321 }
  else { s0 := toU32 c0, s1 := toU32 c1, s2 := toU32 c2, s3 := toU32 c3 }

/-- The two shifts applied to `t`: `t ^= t << 11; t ^= t >> 8`. -/
def mixT (t : Nat) : Nat :=
  (t ^^^ ((t <<< 11) % 2 ^ 32)) ^^^ ((t ^^^ ((t <<< 11) % 2 ^ 32)) >>> 8)

/-- The function `xorshift128`: the word returned and the new state. -/
def xorshift128 (r : Rng) : Nat × Rng :=
  let t := r.s3
  let s := r.s0
  let x := mixT t ^^^ s ^^^ (s >>> 19)
  (x, { s0 := x, s1 := s, s2 := r.s1, s3 := r.s2 })

/-- The state after `n` calls of `xorshift128`. -/
def draws : Nat → Rng → Rng
  | 0, r => r
  | n + 1, r => draws n (xorshift128 r).2

/-- The function `rngUniform`: `(double)(xorshift128() >> 1) / 2147483648.0`. -/
def rngUniform (r : Rng) : Dbl × Rng :=
  (Dbl.fin (((xorshift128 r).1 >>> 1 : Nat) : ℚ) / Dbl.fin 2147483648, (xorshift128 r).2)

/-- The function `rngDither`: `dist ? (rngUniform() - 0.5) * 2.0 : rngGauss()`.
The Gaussian draw, which calls the host's `log`, `sin` and `cos`, is the
parameter `gauss`. -/
def rngDither (gauss : Rng → Dbl × Rng) (dist : Int) (r : Rng) : Dbl × Rng :=
  if dist ≠ 0 then (((rngUniform r).1 - chalf) * 2, (rngUniform r).2) else gauss r

/-- The term `(rngUniform() - 0.5) * 2.0 * ds` of the morph path dither. -/
def pathNoise (ds : Dbl) (r : Rng) : Dbl × Rng :=
  (((rngUniform r).1 - chalf) * 2 * ds, (rngUniform r).2)

/-- The body of the loop of the morph path dither: the noise is added to the
real part, then to the imaginary part of coefficient `m`. -/
def pathDitherStep (ds : Dbl) (st : (DArr × DArr) × Rng) (m : Nat) : (DArr × DArr) × Rng :=
  ((wr st.1.1 m (st.1.1 m + (pathNoise ds st.2).1),
    wr st.1.2 m (st.1.2 m + (pathNoise ds (pathNoise ds st.2).2).1)),
   (pathNoise ds (pathNoise ds st.2).2).2)

/-! ## Measures used in the statements -/

/-- The total cost of an arrangement `(re, im)` of the solved roots against
the predecessors: the sum over `i < n` of the squared distance between entry
`i` and predecessor `i`, accumulated in index order from 0. -/
def totalCost (re im oldRe oldIm : DArr) (n : Nat) : Dbl :=
  (List.range n).foldl (fun acc i => acc + dist2 re im oldRe oldIm i i) 0

/-! ## Invariants used in the proofs -/

/-- The invariant of the count buffer during the main loop of solver.c: every
flagged root below `degree` has a count in `[1, 64]`, and no entry from
`degree` on has been written. -/
def CountsInv (degree : Nat) (ic0 : NArr) (conv : NArr) (ic : NArr) : Prop :=
  (∀ i, i < degree → conv i ≠ 0 → 1 ≤ ic i ∧ ic i ≤ 64) ∧ (∀ i, degree ≤ i → ic i = ic0 i)

/-- The invariant of the outer loop of the greedy matcher after `m` steps:
`js` lists the solved roots chosen so far, in order.  They are distinct and
below `n`, `used` flags exactly them, `t[k]` holds root `js[k]`, and `js[k]`
is the lowest index, among those not chosen before step `k`, at the least
distance from predecessor `k`. -/
def GreedyInv (newRe newIm oldRe oldIm : DArr) (n m : Nat) (s : StepLoop.GreedyState)
    (js : List Nat) : Prop :=
  js.length = m ∧ js.Nodup ∧ (∀ j ∈ js, j < n) ∧ (∀ j, s.used j ≠ 0 ↔ j ∈ js) ∧
  (∀ k, k < m → s.tRe k = newRe (js.getD k 0) ∧ s.tIm k = newIm (js.getD k 0)) ∧
  (∀ k, k < m → ∀ j, j < n → j ∉ js.take k →
    (dist2 newRe newIm oldRe oldIm k j).lt
      (dist2 newRe newIm oldRe oldIm k (js.getD k 0)) = false) ∧
  (∀ k, k < m → ∀ j, j < js.getD k 0 → j ∉ js.take k →
    (dist2 newRe newIm oldRe oldIm k (js.getD k 0)).lt
      (dist2 newRe newIm oldRe oldIm k j) = true)

/-! ### The Hungarian loops on exact rationals

The proofs about `hungarianMatch` run the same loops on rationals, with the
comparison `ltQ` and the sentinel `INFQ`; `hungarianAssign_fin` transfers the
results to finite doubles. -/

/-- The comparison `a < b` on rationals. -/
def ltQ (a b : ℚ) : Bool := decide (a < b)

/-- The sentinel `1e18` as a rational. -/
def INFQ : ℚ := 10 ^ 18

/-- The entry `cost[(r - 1) * n + (j - 1)]` for row `r` and column `j`, both
counted from 1. -/
def cst (c : Nat → ℚ) (n r j : Nat) : ℚ := c ((r - 1) * n + (j - 1))

/-- The column scan of one iteration, over the columns `1..m`. -/
def scanQ (c : Nat → ℚ) (n : Nat) (u v : Nat → ℚ) (used : NArr) (i0 j0 : Nat)
    (minv : Nat → ℚ) (way : NArr) (m : Nat) : StepLoop.Scan ℚ :=
  (List.range' 1 m).foldl (StepLoop.scanStep ltQ c n u v used i0 j0)
    { minv := minv, way := way, delta := INFQ, j1 := -1 }

/-- The potential update of one iteration, over the columns `0..m-1`. -/
def updateQ (p used : NArr) (delta : ℚ) (u v minv : Nat → ℚ) (m : Nat) : StepLoop.Pots ℚ :=
  (List.range m).foldl (StepLoop.updateStep p used delta) { u := u, v := v, minv := minv }

/-- The state after one iteration of the first do-while loop, on rationals. -/
def stepQ (c : Nat → ℚ) (n : Nat) (s : StepLoop.HState ℚ) : StepLoop.HState ℚ :=
  { u := (updateQ s.p (wr s.used s.j0 1)
        (scanQ c n s.u s.v (wr s.used s.j0 1) (s.p s.j0) s.j0 s.minv s.way n).delta
        s.u s.v (scanQ c n s.u s.v (wr s.used s.j0 1) (s.p s.j0) s.j0 s.minv s.way n).minv
        (n + 1)).u,
    v := (updateQ s.p (wr s.used s.j0 1)
        (scanQ c n s.u s.v (wr s.used s.j0 1) (s.p s.j0) s.j0 s.minv s.way n).delta
        s.u s.v (scanQ c n s.u s.v (wr s.used s.j0 1) (s.p s.j0) s.j0 s.minv s.way n).minv
        (n + 1)).v,
    p := s.p,
    way := (scanQ c n s.u s.v (wr s.used s.j0 1) (s.p s.j0) s.j0 s.minv s.way n).way,
    minv := (updateQ s.p (wr s.used s.j0 1)
        (scanQ c n s.u s.v (wr s.used s.j0 1) (s.p s.j0) s.j0 s.minv s.way n).delta
        s.u s.v (scanQ c n s.u s.v (wr s.used s.j0 1) (s.p s.j0) s.j0 s.minv s.way n).minv
        (n + 1)).minv,
    used := wr s.used s.j0 1,
    j0 := (scanQ c n s.u s.v (wr s.used s.j0 1) (s.p s.j0) s.j0 s.minv s.way n).j1.toNat }

/-- The array of finite doubles holding the given rationals. -/
def liftArr (a : Nat → ℚ) : DArr := fun k => Dbl.fin (a k)

/-- The scan locals on doubles that hold the given rational ones. -/
def liftScan (s : StepLoop.Scan ℚ) : StepLoop.Scan Dbl :=
  { minv := liftArr s.minv, way := s.way, delta := Dbl.fin s.delta, j1 := s.j1 }

/-- The update locals on doubles that hold the given rational ones. -/
def liftPots (s : StepLoop.Pots ℚ) : StepLoop.Pots Dbl :=
  { u := liftArr s.u, v := liftArr s.v, minv := liftArr s.minv }

/-- The phase locals on doubles that hold the given rational ones. -/
def liftHState (s : StepLoop.HState ℚ) : StepLoop.HState Dbl :=
  { u := liftArr s.u, v := liftArr s.v, p := s.p, way := s.way, minv := liftArr s.minv,
    used := s.used, j0 := s.j0 }

/-- The arrays across phases on doubles that hold the given rational ones. -/
def liftHPots (g : StepLoop.HPots ℚ) : StepLoop.HPots Dbl :=
  { u := liftArr g.u, v := liftArr g.v, p := g.p, way := g.way }

/-! ### The identity case of the Hungarian matcher -/

/-- The cost matrix of the identity case: the entries are non-negative, the
diagonal is zero, and a zero entry in row `r`, column `j` means that the rows
`r` and `j` are equal. -/
def IdCost (c : Nat → ℚ) (n : Nat) : Prop :=
  (∀ r j, 1 ≤ r → r ≤ n → 1 ≤ j → j ≤ n → 0 ≤ cst c n r j) ∧
  (∀ r, 1 ≤ r → r ≤ n → cst c n r r = 0) ∧
  (∀ r j, 1 ≤ r → r ≤ n → 1 ≤ j → j ≤ n → cst c n r j = 0 →
    ∀ k, 1 ≤ k → k ≤ n → cst c n j k = cst c n r k)

/-- The array `p` during the phase of row `i` in the identity case: column
0 holds `i`, the columns below `i` hold their own index, the others are
unmatched. -/
def IdP (n i : Nat) (P : NArr) : Prop :=
  P 0 = i ∧ (∀ j, 1 ≤ j → j < i → P j = j) ∧ (∀ j, i ≤ j → j ≤ n → P j = 0)

/-- The invariant of the first do-while loop in the phase of row `i` in the
identity case, at the loop head: the potentials are zero, the flagged columns
are column 0 and the columns below `j0` at zero cost from row `i`, and after
the first iteration `minv` holds the costs of row `i` cut at the sentinel, with
`way` 0 on every column it was lowered on. -/
structure IdInv (c : Nat → ℚ) (n i : Nat) (P : NArr) (s : StepLoop.HState ℚ) : Prop where
  iu : s.u = fun _ => 0
  iv : s.v = fun _ => 0
  ip : s.p = P
  ij : s.j0 ≤ i
  ijz : s.j0 = 0 ∨ cst c n i s.j0 = 0
  iused : ∀ j, s.used j ≠ 0 ↔ (j < s.j0 ∧ (j = 0 ∨ cst c n i j = 0))
  ifirst : s.j0 = 0 → ∀ j, s.minv j = INFQ
  ilater : s.j0 ≠ 0 → ∀ j, 1 ≤ j → j ≤ n → s.used j = 0 →
    s.minv j = min (cst c n i j) INFQ ∧ (cst c n i j < INFQ → s.way j = 0)

/-- The state of the matching before the phase of row `i` in the identity
case: zero potentials, and every column below `i` matched to its own row. -/
def IdG (n i : Nat) (g : StepLoop.HPots ℚ) : Prop :=
  g.u = (fun _ => 0) ∧ g.v = (fun _ => 0) ∧
  (∀ j, 1 ≤ j → j < i → g.p j = j) ∧ (∀ j, i ≤ j → j ≤ n → g.p j = 0)

/-! ### The insertion sort of `rankNorm` -/

/-- The position read by entry `p` after element `i` has been inserted at
position `k <= i`: the entries `k..i-1` move up by one. -/
def insPos (k i p : Nat) : Nat :=
  if p = k then i else if k < p ∧ p ≤ i then p - 1 else p

/-- The invariant of the insertion sort when the first `m` entries are in
order: `idxs` is a permutation of `0..n-1`, `vals[p]` is the value of index
`idxs[p]`, and no entry below `m` is less than an earlier one. -/
structure SortedTo (v : DArr) (n m : Nat) (s : Pairs) : Prop where
  idx_lt : ∀ p, p < n → s.idxs p < n
  idx_inj : ∀ p q, p < n → q < n → s.idxs p = s.idxs q → p = q
  val_eq : ∀ p, p < n → s.vals p = v (s.idxs p)
  sorted : ∀ p q, p ≤ q → q < m → (s.vals q).lt (s.vals p) = false

/-- The number of entries below `n` that are less than entry `i`. -/
def cntLt (v : DArr) (n i : Nat) : Nat :=
  ((Finset.range n).filter (fun j => (v j).lt (v i) = true)).card

/-! ### The output buffers of the step loop -/

/-- The invariant of the output buffers: the entries written are exactly
`0 .. pc - 1`, in order, every pixel index written lies on the canvas, and the
entries from `pc` on still hold what `out` held. -/
structure PaintInv (cv : Canvas) (out : Paint) (p : Paint) : Prop where
  logged : p.log = List.range p.pc
  onCanvas : ∀ k, k < p.pc → 0 ≤ p.idx k ∧ p.idx k < cv.W * cv.H
  frame : ∀ k, p.pc ≤ k →
    p.idx k = out.idx k ∧ p.r k = out.r k ∧ p.g k = out.g k ∧ p.b k = out.b k

/-! ## Sample inputs -/

/-- A sample canvas: 100 by 100 pixels showing the square `[-1, 1]^2`. -/
def canvas100 : Canvas := { W := 100, H := 100, range := 1, centerX := 0, centerY := 0 }

/-- Empty output buffers, `pc = 0`. -/
def paint0 : Paint :=
  { pc := 0, idx := fun _ => 0, r := fun _ => 0, g := fun _ => 0, b := fun _ => 0, log := [] }

/-- A computable stand-in for `__builtin_sqrt`, used on sample inputs: exact
on the squares of rationals, rounded down on numerator and denominator
otherwise. -/
def sqrtSample (x : Dbl) : Dbl :=
  match x with
  | Dbl.fin q =>
    if 0 ≤ q then Dbl.fin ((Nat.sqrt q.num.toNat : ℚ) / (Nat.sqrt q.den : ℚ)) else Dbl.nan
  | Dbl.pinf => Dbl.pinf
  | _ => Dbl.nan

/-- A sample environment: one root, constant coefficients `cRe + i cIm` of a
polynomial of degree 1, no curves, no morph and no jiggle, so that steps 1 to
8 reduce to the call of `solveEA` on the current root. -/
def envLinear (cRe cIm : DArr) : Env Unit :=
  { pre := fun s _ roots =>
      some (s, ((StepLoop.solveEA cRe cIm 2 roots.1 roots.2 1).warmRe,
                (StepLoop.solveEA cRe cIm 2 roots.1 roots.2 1).warmIm)),
    sens := fun _ _ => fun _ => 0,
    sqrt := sqrtSample }

/-- A sample configuration: the sample canvas, one root, uniform mode with
the colour `(255, 128, 0)`. -/
def cfgUniform : Config :=
  { canvas := canvas100, nRoots := 1, colorMode := 0, matchStrategy := 0,
    uniformR := 255, uniformG := 128, uniformB := 0,
    colorsR := fun _ => 0, colorsG := fun _ => 0, colorsB := fun _ => 0,
    proxPalR := fun _ => 0, proxPalG := fun _ => 0, proxPalB := fun _ => 0,
    derivPalR := fun _ => 0, derivPalG := fun _ => 0, derivPalB := fun _ => 0 }

/-- The locals that the main loop of solver.c shares with the one of
step_loop.c. -/
def Solver.EAState.core (s : Solver.EAState) : StepLoop.EAState :=
  { rRe := s.rRe, rIm := s.rIm, maxCorr2 := s.maxCorr2, sweeps := s.sweeps }

/-- The coefficients of the sample polynomial `z^2 - 1`. -/
def eaCoefRe : DArr := arr [1, 0, -1]

/-- The state of solver.c before the first sweep on the warm start
`1 + 1e-9`, `-3`. -/
def eaState0 : Solver.EAState :=
  { rRe := arr [Dbl.fin (1 + 1 / 10 ^ 9), -3], rIm := arr [0, 0], maxCorr2 := 0,
    conv := fun _ => 0, iterCounts := none, sweeps := 0 }

/-- The coefficients of `z^2 - 1` as rationals. -/
def eaA : Nat → ℚ := fun k => [1, 0, -1].getD k 0
/-- The estimates `2`, `-1` as rationals. -/
def eaX : Nat → ℚ := fun k => [2, -1].getD k 0
/-- The zero array of rationals: imaginary parts of a real sample. -/
def eaZero : Nat → ℚ := fun _ => 0

/-- The invariant of the first sweep of solver.c on a warm start of exact
roots: the estimates are still `R`, `I`, `maxCorr2` is 0, one sweep is
counted, the count buffer is present as at the call, and every flagged root
below `degree` has the count 1. -/
def FixInv (degree : Nat) (R I : DArr) (present : Bool) (s : Solver.EAState) : Prop :=
  s.rRe = R ∧ s.rIm = I ∧ s.maxCorr2 = 0 ∧ s.sweeps = 1 ∧ s.iterCounts.isSome = present ∧
  ∀ c, s.iterCounts = some c → ∀ j, j < degree → s.conv j ≠ 0 → c j = 1

/-- The two roots `1`, `-1` of the sample polynomial, as rationals. -/
def eaR : Nat → ℚ := fun k => [1, -1].getD k 0

/-- A sample flat curve array: the value at index `k` is `k`. -/
def flatSample : Int → Dbl := fun k => Dbl.fin k

/-! # Theorems -/

/-! ## The strip loop -/

theorem stripLoop_spec (cRe cIm : DArr) (nCoeffs : Int) :
    ∀ (fuel start : Nat), nCoeffs - 1 ≤ (start : Int) + fuel →
      start ≤ stripLoop cRe cIm nCoeffs fuel start ∧
      ¬ stripCond cRe cIm nCoeffs (stripLoop cRe cIm nCoeffs fuel start) ∧
      ∀ k, start ≤ k → k < stripLoop cRe cIm nCoeffs fuel start → stripCond cRe cIm nCoeffs k := by
  intro fuel
  induction fuel with
  | zero =>
    intro start h
    refine ⟨le_refl _, ?_, ?_⟩
    · simp only [stripLoop, stripCond]; intro hc; omega
    · intro k h1 h2; simp only [stripLoop] at h2; omega
  | succ f ih =>
    intro start h
    by_cases hc : stripCond cRe cIm nCoeffs start
    · have hc2 := hc
      unfold stripCond at hc2
      have e : stripLoop cRe cIm nCoeffs (f + 1) start = stripLoop cRe cIm nCoeffs f (start + 1) := by
        simp only [stripLoop, if_pos hc2]
      rw [e]
      obtain ⟨h1, h2, h3⟩ := ih (start + 1) (by push_cast; push_cast at h; omega)
      refine ⟨by omega, h2, ?_⟩
      intro k hk1 hk2
      by_cases hk : k = start
      · subst hk; exact hc
      · exact h3 k (by omega) hk2
    · have hc2 := hc
      unfold stripCond at hc2
      have e : stripLoop cRe cIm nCoeffs (f + 1) start = start := by
        simp only [stripLoop, if_neg hc2]
      rw [e]
      exact ⟨le_refl _, hc, fun k h1 h2 => by omega⟩

theorem stripStart_exit (cRe cIm : DArr) (nCoeffs : Int) :
    ¬ stripCond cRe cIm nCoeffs (stripStart cRe cIm nCoeffs) ∧
    ∀ k, k < stripStart cRe cIm nCoeffs → stripCond cRe cIm nCoeffs k := by
  have h := stripLoop_spec cRe cIm nCoeffs (nCoeffs - 1).toNat 0 (by
    have := Int.self_le_toNat (nCoeffs - 1); push_cast; omega)
  exact ⟨h.2.1, fun k hk => h.2.2 k (Nat.zero_le _) hk⟩

/-- The strip loop stops at the one index where its condition first fails. -/
theorem stripStart_eq (cRe cIm : DArr) (nCoeffs : Int) (r : Nat)
    (h1 : ¬ stripCond cRe cIm nCoeffs r) (h2 : ∀ k, k < r → stripCond cRe cIm nCoeffs k) :
    stripStart cRe cIm nCoeffs = r := by
  obtain ⟨e1, e2⟩ := stripStart_exit cRe cIm nCoeffs
  rcases Nat.lt_trichotomy (stripStart cRe cIm nCoeffs) r with h | h | h
  · exact absurd (h2 _ h) e1
  · exact h
  · exact absurd (e2 _ h) h1

/-! ## C4: degree collapse -/

/-- C4. Degree collapse is a no-op: when `nCoeffs <= 1`, or every coefficient
at an index below `nCoeffs - 1` has squared magnitude below `1e-30`, both
solvers return with `warmRe`, `warmIm` (and `iterCounts`) as they were. -/
theorem C4_degree_collapse_noop (cRe cIm : DArr) (nCoeffs : Int) (warmRe warmIm : DArr)
    (nRoots trackIter : Int) (iterCounts : Option NArr)
    (h : nCoeffs ≤ 1 ∨
      ∀ k : Nat, (k : Int) < nCoeffs - 1 → (mag2 (cRe k) (cIm k)).lt c1em30 = true) :
    (Solver.solveEA cRe cIm nCoeffs warmRe warmIm nRoots trackIter iterCounts).warmRe = warmRe ∧
    (Solver.solveEA cRe cIm nCoeffs warmRe warmIm nRoots trackIter iterCounts).warmIm = warmIm ∧
    (Solver.solveEA cRe cIm nCoeffs warmRe warmIm nRoots trackIter iterCounts).iterCounts
      = iterCounts ∧
    (StepLoop.solveEA cRe cIm nCoeffs warmRe warmIm nRoots).warmRe = warmRe ∧
    (StepLoop.solveEA cRe cIm nCoeffs warmRe warmIm nRoots).warmIm = warmIm := by
  have hd : nCoeffs - 1 - (stripStart cRe cIm nCoeffs : Int) ≤ 0 := by
    have hx := (stripStart_exit cRe cIm nCoeffs).1
    rcases h with h | h
    · omega
    · by_contra hlt
      apply hx
      exact ⟨by omega, h _ (by omega)⟩
  simp only [Solver.solveEA, StepLoop.solveEA, if_pos hd, and_self]

/-- C4 at `[0, 0, 5]`: both leading coefficients are stripped, degree 0. -/
theorem C4_degree_collapse_noop_witness :
    (Solver.solveEA (arr [0, 0, 5]) (arr [0, 0, 0]) 3 (arr [1, 2]) (arr [3, 4]) 2 1
        (some (fun _ => 7))).warmRe = arr [1, 2] ∧
    (Solver.solveEA (arr [0, 0, 5]) (arr [0, 0, 0]) 3 (arr [1, 2]) (arr [3, 4]) 2 1
        (some (fun _ => 7))).warmIm = arr [3, 4] ∧
    (Solver.solveEA (arr [0, 0, 5]) (arr [0, 0, 0]) 3 (arr [1, 2]) (arr [3, 4]) 2 1
        (some (fun _ => 7))).iterCounts = some (fun _ => 7) ∧
    (StepLoop.solveEA (arr [0, 0, 5]) (arr [0, 0, 0]) 3 (arr [1, 2]) (arr [3, 4]) 2).warmRe
      = arr [1, 2] ∧
    (StepLoop.solveEA (arr [0, 0, 5]) (arr [0, 0, 0]) 3 (arr [1, 2]) (arr [3, 4]) 2).warmIm
      = arr [3, 4] :=
  C4_degree_collapse_noop (arr [0, 0, 5]) (arr [0, 0, 0]) 3 (arr [1, 2]) (arr [3, 4]) 2 1
    (some (fun _ => 7)) (Or.inr (fun k hk => by
      have hk2 : k = 0 ∨ k = 1 := by omega
      rcases hk2 with rfl | rfl <;> decide!))

/-! ## Arithmetic of finite doubles -/

namespace Dbl

@[simp] theorem fin_add (a b : ℚ) : fin a + fin b = fin (a + b) := rfl
@[simp] theorem fin_sub (a b : ℚ) : fin a - fin b = fin (a - b) := by
  show add (fin a) (neg (fin b)) = _
  simp [add, neg, sub_eq_add_neg]
@[simp] theorem fin_mul (a b : ℚ) : fin a * fin b = fin (a * b) := rfl
@[simp] theorem fin_neg (a : ℚ) : -(fin a) = fin (-a) := rfl
@[simp] theorem fin_lt (a b : ℚ) : (fin a).lt (fin b) = decide (a < b) := rfl
@[simp] theorem fin_feq (a b : ℚ) : (fin a).feq (fin b) = decide (a = b) := rfl
theorem fin_div (a b : ℚ) (hb : b ≠ 0) : fin a / fin b = fin (a / b) := by
  show div (fin a) (fin b) = _
  simp [div, hb]
@[simp] theorem ofNat_eq (n : Nat) : (OfNat.ofNat n : Dbl) = fin n := rfl

/-- The test `x == x` fails exactly for NaN. -/
theorem feq_self (x : Dbl) : x.feq x = !x.isNaN := by
  cases x <;> simp [feq, isNaN]

end Dbl

/-! ## C1: the degree-1 closed form -/

/-- C1 (amended). For finite `a`, `b` with `|a|^2 >= 1e-30`, both solvers
called on `[a, b]` write `z = (-b * conj a)/|a|^2` into root slot 0, which
solves `a*z + b = 0`, without a single sweep of the main loop; solver.c sets
`iterCounts[0] = 1` when tracking is on. -/
theorem C1_linear_closed_form (aR aI bR bI : ℚ) (warmRe warmIm : DArr)
    (nRoots trackIter : Int) (ic : NArr)
    (ha : 1 / 10 ^ 30 ≤ aR * aR + aI * aI) :
    ∃ zR zI : ℚ,
      zR = -(bR * aR + bI * aI) / (aR * aR + aI * aI) ∧
      zI = -(bI * aR - bR * aI) / (aR * aR + aI * aI) ∧
      aR * zR - aI * zI + bR = 0 ∧ aR * zI + aI * zR + bI = 0 ∧
      (Solver.solveEA (arr [Dbl.fin aR, Dbl.fin bR]) (arr [Dbl.fin aI, Dbl.fin bI]) 2
        warmRe warmIm nRoots trackIter (some ic)).warmRe 0 = Dbl.fin zR ∧
      (Solver.solveEA (arr [Dbl.fin aR, Dbl.fin bR]) (arr [Dbl.fin aI, Dbl.fin bI]) 2
        warmRe warmIm nRoots trackIter (some ic)).warmIm 0 = Dbl.fin zI ∧
      (Solver.solveEA (arr [Dbl.fin aR, Dbl.fin bR]) (arr [Dbl.fin aI, Dbl.fin bI]) 2
        warmRe warmIm nRoots trackIter (some ic)).sweeps = 0 ∧
      (trackIter ≠ 0 →
        (Solver.solveEA (arr [Dbl.fin aR, Dbl.fin bR]) (arr [Dbl.fin aI, Dbl.fin bI]) 2
          warmRe warmIm nRoots trackIter (some ic)).iterCounts = some (wr ic 0 1)) ∧
      (StepLoop.solveEA (arr [Dbl.fin aR, Dbl.fin bR]) (arr [Dbl.fin aI, Dbl.fin bI]) 2
        warmRe warmIm nRoots).warmRe 0 = Dbl.fin zR ∧
      (StepLoop.solveEA (arr [Dbl.fin aR, Dbl.fin bR]) (arr [Dbl.fin aI, Dbl.fin bI]) 2
        warmRe warmIm nRoots).warmIm 0 = Dbl.fin zI ∧
      (StepLoop.solveEA (arr [Dbl.fin aR, Dbl.fin bR]) (arr [Dbl.fin aI, Dbl.fin bI]) 2
        warmRe warmIm nRoots).sweeps = 0 := by
  have hpos : (0 : ℚ) < aR * aR + aI * aI := lt_of_lt_of_le (by norm_num) ha
  have hne : aR * aR + aI * aI ≠ 0 := ne_of_gt hpos
  have hnot : ¬ (aR * aR + aI * aI < 1 / 10 ^ 30) := not_lt.mpr ha
  have hs : stripStart (arr [Dbl.fin aR, Dbl.fin bR]) (arr [Dbl.fin aI, Dbl.fin bI]) 2 = 0 := by
    apply stripStart_eq
    · rintro ⟨-, h⟩
      simp [arr, mag2, c1em30] at h
      rw [← one_div] at h
      exact hnot h
    · intro k hk; omega
  refine ⟨_, _, rfl, rfl, ?_, ?_, ?_⟩
  · field_simp; ring
  · field_simp; ring
  · have hd : ((arr [Dbl.fin aR, Dbl.fin bR] 0 * arr [Dbl.fin aR, Dbl.fin bR] 0
        + arr [Dbl.fin aI, Dbl.fin bI] 0 * arr [Dbl.fin aI, Dbl.fin bI] 0).lt c1em30) = false := by
      simp [arr, c1em30]; rw [← one_div]; exact ha
    simp only [Solver.solveEA, StepLoop.solveEA, hs]
    simp only [Nat.cast_zero, sub_zero, show (2 : Int) - 1 = 1 by norm_num,
      show ¬ ((1 : Int) ≤ 0) by norm_num, if_false, if_true, hd, zero_add]
    simp [arr, wr, Dbl.fin_div _ _ hne]
    intro h1 h2
    exact absurd h2 h1

/-- C1 at `a = 3 + 4i`, `b = 1 - 2i`. -/
theorem C1_linear_closed_form_witness :
    (1 : ℚ) / 10 ^ 30 ≤ 3 * 3 + 4 * 4 ∧
    ∃ zR zI : ℚ,
      zR = -(1 * 3 + (-2) * 4) / (3 * 3 + 4 * 4) ∧
      zI = -((-2) * 3 - 1 * 4) / (3 * 3 + 4 * 4) ∧
      3 * zR - 4 * zI + 1 = 0 ∧ 3 * zI + 4 * zR + (-2) = 0 ∧
      (Solver.solveEA (arr [Dbl.fin 3, Dbl.fin 1]) (arr [Dbl.fin 4, Dbl.fin (-2)]) 2
        (arr [9]) (arr [9]) 1 1 (some (fun _ => 0))).warmRe 0 = Dbl.fin zR ∧
      (Solver.solveEA (arr [Dbl.fin 3, Dbl.fin 1]) (arr [Dbl.fin 4, Dbl.fin (-2)]) 2
        (arr [9]) (arr [9]) 1 1 (some (fun _ => 0))).warmIm 0 = Dbl.fin zI ∧
      (Solver.solveEA (arr [Dbl.fin 3, Dbl.fin 1]) (arr [Dbl.fin 4, Dbl.fin (-2)]) 2
        (arr [9]) (arr [9]) 1 1 (some (fun _ => 0))).sweeps = 0 ∧
      ((1 : Int) ≠ 0 →
        (Solver.solveEA (arr [Dbl.fin 3, Dbl.fin 1]) (arr [Dbl.fin 4, Dbl.fin (-2)]) 2
          (arr [9]) (arr [9]) 1 1 (some (fun _ => 0))).iterCounts
            = some (wr (fun _ => 0) 0 1)) ∧
      (StepLoop.solveEA (arr [Dbl.fin 3, Dbl.fin 1]) (arr [Dbl.fin 4, Dbl.fin (-2)]) 2
        (arr [9]) (arr [9]) 1).warmRe 0 = Dbl.fin zR ∧
      (StepLoop.solveEA (arr [Dbl.fin 3, Dbl.fin 1]) (arr [Dbl.fin 4, Dbl.fin (-2)]) 2
        (arr [9]) (arr [9]) 1).warmIm 0 = Dbl.fin zI ∧
      (StepLoop.solveEA (arr [Dbl.fin 3, Dbl.fin 1]) (arr [Dbl.fin 4, Dbl.fin (-2)]) 2
        (arr [9]) (arr [9]) 1).sweeps = 0 :=
  ⟨by norm_num, C1_linear_closed_form 3 4 1 (-2) (arr [9]) (arr [9]) 1 1 (fun _ => 0)
    (by norm_num)⟩

/-- C1 as stated fails at `a = 1e-16`, `b = 1`: `a` is not zero, yet the
coefficient is stripped, the degree collapses to 0 and slot 0 keeps its old
value `5 + 7i` instead of receiving `-b/a = -1e16`; no count is written. -/
theorem C1_counterexample :
    (1 / 10 ^ 16 : ℚ) ≠ 0 ∧
    (Solver.solveEA (arr [Dbl.fin (1 / 10 ^ 16), 1]) (arr [0, 0]) 2 (arr [5]) (arr [7]) 1 1
      (some (fun _ => 0))).warmRe 0 = Dbl.fin 5 ∧
    (Solver.solveEA (arr [Dbl.fin (1 / 10 ^ 16), 1]) (arr [0, 0]) 2 (arr [5]) (arr [7]) 1 1
      (some (fun _ => 0))).warmIm 0 = Dbl.fin 7 ∧
    (Solver.solveEA (arr [Dbl.fin (1 / 10 ^ 16), 1]) (arr [0, 0]) 2 (arr [5]) (arr [7]) 1 1
      (some (fun _ => 0))).iterCounts.map (fun ic => ic 0) = some 0 ∧
    (StepLoop.solveEA (arr [Dbl.fin (1 / 10 ^ 16), 1]) (arr [0, 0]) 2 (arr [5]) (arr [7])
      1).warmRe 0 = Dbl.fin 5 ∧
    Dbl.fin 5 ≠ Dbl.fin (-1 / (1 / 10 ^ 16)) := by
  refine ⟨by norm_num, by decide!, by decide!, by decide!, by decide!, by decide!⟩

/-! ## The write-back loop -/

theorem writeBack_succ (rRe rIm : DArr) (d : Nat) (warmRe warmIm : DArr) :
    writeBack rRe rIm (d + 1) warmRe warmIm
      = writeBackStep rRe rIm (writeBack rRe rIm d warmRe warmIm) d := by
  simp [writeBack, List.range_succ, List.foldl_append]

/-- The write-back loop entry by entry. -/
theorem writeBack_apply (rRe rIm : DArr) (d : Nat) (warmRe warmIm : DArr) (i : Nat) :
    (writeBack rRe rIm d warmRe warmIm).1 i
      = (if i < d ∧ (rRe i).isNaN = false ∧ (rIm i).isNaN = false then rRe i else warmRe i) ∧
    (writeBack rRe rIm d warmRe warmIm).2 i
      = (if i < d ∧ (rRe i).isNaN = false ∧ (rIm i).isNaN = false then rIm i else warmIm i) := by
  induction d with
  | zero => simp [writeBack]
  | succ d ih =>
    rw [writeBack_succ]
    unfold writeBackStep
    rw [Dbl.feq_self, Dbl.feq_self]
    by_cases hi : i = d
    · subst hi
      cases h1 : (rRe i).isNaN <;> cases h2 : (rIm i).isNaN <;>
        simp [wr, h1, h2, ih.1, ih.2]
    · have hlt : i < d + 1 ↔ i < d := by omega
      cases h1 : (rRe d).isNaN <;> cases h2 : (rIm d).isNaN <;>
        simp [wr, hi, hlt, ih.1, ih.2]

theorem solver_solveEA_of_two_le (cRe cIm : DArr) (nCoeffs : Int) (warmRe warmIm : DArr)
    (nRoots trackIter : Int) (iterCounts : Option NArr)
    (hdeg : 2 ≤ effDegree cRe cIm nCoeffs) :
    Solver.solveEA cRe cIm nCoeffs warmRe warmIm nRoots trackIter iterCounts =
      { warmRe := (writeBack
          (Solver.afterLoop cRe cIm nCoeffs warmRe warmIm trackIter iterCounts).rRe
          (Solver.afterLoop cRe cIm nCoeffs warmRe warmIm trackIter iterCounts).rIm
          (effDegree cRe cIm nCoeffs).toNat warmRe warmIm).1,
        warmIm := (writeBack
          (Solver.afterLoop cRe cIm nCoeffs warmRe warmIm trackIter iterCounts).rRe
          (Solver.afterLoop cRe cIm nCoeffs warmRe warmIm trackIter iterCounts).rIm
          (effDegree cRe cIm nCoeffs).toNat warmRe warmIm).2,
        iterCounts :=
          (Solver.afterLoop cRe cIm nCoeffs warmRe warmIm trackIter iterCounts).iterCounts,
        sweeps := (Solver.afterLoop cRe cIm nCoeffs warmRe warmIm trackIter iterCounts).sweeps } := by
  unfold effDegree at hdeg
  have h1 : ¬ (nCoeffs - 1 - (stripStart cRe cIm nCoeffs : Int) ≤ 0) := by omega
  have h2 : ¬ (nCoeffs - 1 - (stripStart cRe cIm nCoeffs : Int) = 1) := by omega
  simp only [Solver.solveEA, Solver.afterLoop, effDegree, if_neg h1, if_neg h2]

theorem stepLoop_solveEA_of_two_le (cRe cIm : DArr) (nc : Int) (warmRe warmIm : DArr)
    (nr : Int) (hdeg : 2 ≤ effDegree cRe cIm nc) :
    StepLoop.solveEA cRe cIm nc warmRe warmIm nr =
      { warmRe := (writeBack (StepLoop.afterLoop cRe cIm nc warmRe warmIm).rRe
          (StepLoop.afterLoop cRe cIm nc warmRe warmIm).rIm
          (effDegree cRe cIm nc).toNat warmRe warmIm).1,
        warmIm := (writeBack (StepLoop.afterLoop cRe cIm nc warmRe warmIm).rRe
          (StepLoop.afterLoop cRe cIm nc warmRe warmIm).rIm
          (effDegree cRe cIm nc).toNat warmRe warmIm).2,
        iterCounts := none,
        sweeps := (StepLoop.afterLoop cRe cIm nc warmRe warmIm).sweeps } := by
  unfold effDegree at hdeg
  have h1 : ¬ (nc - 1 - (stripStart cRe cIm nc : Int) ≤ 0) := by omega
  have h2 : ¬ (nc - 1 - (stripStart cRe cIm nc : Int) = 1) := by omega
  simp only [StepLoop.solveEA, StepLoop.afterLoop, effDegree, if_neg h1, if_neg h2]

/-- In the degree-1 branch the test `d < 1e-30` cannot fire: the strip loop
stopped on this very coefficient. -/
theorem linear_guard_false (cRe cIm : DArr) (nCoeffs : Int)
    (hdeg : effDegree cRe cIm nCoeffs = 1) :
    (cRe (stripStart cRe cIm nCoeffs) * cRe (stripStart cRe cIm nCoeffs)
      + cIm (stripStart cRe cIm nCoeffs) * cIm (stripStart cRe cIm nCoeffs)).lt c1em30
      = false := by
  have hx := (stripStart_exit cRe cIm nCoeffs).1
  unfold effDegree at hdeg
  by_contra hc
  apply hx
  refine ⟨by omega, ?_⟩
  simpa [mag2] using hc

theorem solver_solveEA_of_one (cRe cIm : DArr) (nCoeffs : Int) (warmRe warmIm : DArr)
    (nRoots trackIter : Int) (iterCounts : Option NArr)
    (hdeg : effDegree cRe cIm nCoeffs = 1) :
    Solver.solveEA cRe cIm nCoeffs warmRe warmIm nRoots trackIter iterCounts =
      { warmRe := wr warmRe 0
          (linearRe (cRe (stripStart cRe cIm nCoeffs)) (cIm (stripStart cRe cIm nCoeffs))
            (cRe (stripStart cRe cIm nCoeffs + 1)) (cIm (stripStart cRe cIm nCoeffs + 1))),
        warmIm := wr warmIm 0
          (linearIm (cRe (stripStart cRe cIm nCoeffs)) (cIm (stripStart cRe cIm nCoeffs))
            (cRe (stripStart cRe cIm nCoeffs + 1)) (cIm (stripStart cRe cIm nCoeffs + 1))),
        iterCounts := if trackIter ≠ 0 then iterCounts.map (fun ic => wr ic 0 1) else iterCounts,
        sweeps := 0 } := by
  have hg := linear_guard_false cRe cIm nCoeffs hdeg
  unfold effDegree at hdeg
  have h1 : ¬ (nCoeffs - 1 - (stripStart cRe cIm nCoeffs : Int) ≤ 0) := by omega
  simp only [Solver.solveEA, if_neg h1, if_pos hdeg, hg, linearRe, linearIm]
  simp

theorem stepLoop_solveEA_of_one (cRe cIm : DArr) (nc : Int) (warmRe warmIm : DArr)
    (nr : Int) (hdeg : effDegree cRe cIm nc = 1) :
    StepLoop.solveEA cRe cIm nc warmRe warmIm nr =
      { warmRe := wr warmRe 0
          (linearRe (cRe (stripStart cRe cIm nc)) (cIm (stripStart cRe cIm nc))
            (cRe (stripStart cRe cIm nc + 1)) (cIm (stripStart cRe cIm nc + 1))),
        warmIm := wr warmIm 0
          (linearIm (cRe (stripStart cRe cIm nc)) (cIm (stripStart cRe cIm nc))
            (cRe (stripStart cRe cIm nc + 1)) (cIm (stripStart cRe cIm nc + 1))),
        iterCounts := none,
        sweeps := 0 } := by
  have hg := linear_guard_false cRe cIm nc hdeg
  unfold effDegree at hdeg
  have h1 : ¬ (nc - 1 - (stripStart cRe cIm nc : Int) ≤ 0) := by omega
  simp only [StepLoop.solveEA, if_neg h1, if_pos hdeg, hg, linearRe, linearIm]
  simp

/-! ## C5, C6: what the write-back loop lets through -/

/-- C5. NaN write-back refusal: for effective degree at least 2 and a root
index `i` below it, if the value the iteration computed for root `i` is NaN in
its real or imaginary part, then `warmRe[i]` and `warmIm[i]` keep their values;
and in every case the pair is either kept whole or replaced whole.  Both
solvers. -/
theorem C5_nan_writeback_refused (cRe cIm : DArr) (nCoeffs : Int) (warmRe warmIm : DArr)
    (nRoots trackIter : Int) (iterCounts : Option NArr) (i : Nat)
    (hdeg : 2 ≤ effDegree cRe cIm nCoeffs) (hi : (i : Int) < effDegree cRe cIm nCoeffs) :
    (((Solver.afterLoop cRe cIm nCoeffs warmRe warmIm trackIter iterCounts).rRe i).isNaN = true ∨
      ((Solver.afterLoop cRe cIm nCoeffs warmRe warmIm trackIter iterCounts).rIm i).isNaN = true →
      (Solver.solveEA cRe cIm nCoeffs warmRe warmIm nRoots trackIter iterCounts).warmRe i
        = warmRe i ∧
      (Solver.solveEA cRe cIm nCoeffs warmRe warmIm nRoots trackIter iterCounts).warmIm i
        = warmIm i) ∧
    (((Solver.solveEA cRe cIm nCoeffs warmRe warmIm nRoots trackIter iterCounts).warmRe i
        = warmRe i ∧
      (Solver.solveEA cRe cIm nCoeffs warmRe warmIm nRoots trackIter iterCounts).warmIm i
        = warmIm i) ∨
     ((Solver.solveEA cRe cIm nCoeffs warmRe warmIm nRoots trackIter iterCounts).warmRe i
        = (Solver.afterLoop cRe cIm nCoeffs warmRe warmIm trackIter iterCounts).rRe i ∧
      (Solver.solveEA cRe cIm nCoeffs warmRe warmIm nRoots trackIter iterCounts).warmIm i
        = (Solver.afterLoop cRe cIm nCoeffs warmRe warmIm trackIter iterCounts).rIm i)) ∧
    (((StepLoop.afterLoop cRe cIm nCoeffs warmRe warmIm).rRe i).isNaN = true ∨
      ((StepLoop.afterLoop cRe cIm nCoeffs warmRe warmIm).rIm i).isNaN = true →
      (StepLoop.solveEA cRe cIm nCoeffs warmRe warmIm nRoots).warmRe i = warmRe i ∧
      (StepLoop.solveEA cRe cIm nCoeffs warmRe warmIm nRoots).warmIm i = warmIm i) ∧
    (((StepLoop.solveEA cRe cIm nCoeffs warmRe warmIm nRoots).warmRe i = warmRe i ∧
      (StepLoop.solveEA cRe cIm nCoeffs warmRe warmIm nRoots).warmIm i = warmIm i) ∨
     ((StepLoop.solveEA cRe cIm nCoeffs warmRe warmIm nRoots).warmRe i
        = (StepLoop.afterLoop cRe cIm nCoeffs warmRe warmIm).rRe i ∧
      (StepLoop.solveEA cRe cIm nCoeffs warmRe warmIm nRoots).warmIm i
        = (StepLoop.afterLoop cRe cIm nCoeffs warmRe warmIm).rIm i)) := by
  rw [solver_solveEA_of_two_le _ _ _ _ _ _ _ _ hdeg, stepLoop_solveEA_of_two_le _ _ _ _ _ _ hdeg]
  simp only [writeBack_apply]
  refine ⟨?_, ?_, ?_, ?_⟩
  · rintro (h | h) <;> simp [h]
  · by_cases h : i < (effDegree cRe cIm nCoeffs).toNat ∧
        ((Solver.afterLoop cRe cIm nCoeffs warmRe warmIm trackIter iterCounts).rRe i).isNaN = false ∧
        ((Solver.afterLoop cRe cIm nCoeffs warmRe warmIm trackIter iterCounts).rIm i).isNaN = false
    · right; simp only [if_pos h, and_self]
    · left; simp only [if_neg h, and_self]
  · rintro (h | h) <;> simp [h]
  · by_cases h : i < (effDegree cRe cIm nCoeffs).toNat ∧
        ((StepLoop.afterLoop cRe cIm nCoeffs warmRe warmIm).rRe i).isNaN = false ∧
        ((StepLoop.afterLoop cRe cIm nCoeffs warmRe warmIm).rIm i).isNaN = false
    · right; simp only [if_pos h, and_self]
    · left; simp only [if_neg h, and_self]

/-- C5 on `z^2 - 1` with the warm start `{NaN, 0.5}`: the iteration leaves
root 0 NaN and slot 0 keeps its old value. -/
theorem C5_nan_writeback_refused_witness :
    (2 : Int) ≤ effDegree (arr [1, 0, -1]) (arr []) 3 ∧
    ((0 : Nat) : Int) < effDegree (arr [1, 0, -1]) (arr []) 3 ∧
    ((Solver.afterLoop (arr [1, 0, -1]) (arr []) 3 (arr [Dbl.nan, Dbl.fin (1 / 2)]) (arr [])
      0 none).rRe 0).isNaN = true ∧
    (Solver.solveEA (arr [1, 0, -1]) (arr []) 3 (arr [Dbl.nan, Dbl.fin (1 / 2)]) (arr [])
      2 0 none).warmRe 0 = arr [Dbl.nan, Dbl.fin (1 / 2)] 0 ∧
    (Solver.solveEA (arr [1, 0, -1]) (arr []) 3 (arr [Dbl.nan, Dbl.fin (1 / 2)]) (arr [])
      2 0 none).warmIm 0 = arr [] 0 :=
  ⟨by decide!, by decide!, by decide!,
    (C5_nan_writeback_refused (arr [1, 0, -1]) (arr []) 3 (arr [Dbl.nan, Dbl.fin (1 / 2)])
      (arr []) 2 0 none 0 (by decide!) (by decide!)).1 (Or.inl (by decide!))⟩

/-- What the code stores, in both solvers.  The write-back test is `x == x`
on both components: for effective degree at least 2, slot `i` receives the
computed pair exactly when neither component is NaN (an infinite component
passes the test), and is left untouched otherwise.  For effective degree 1
the closed form is stored in slot 0 without any test. -/
theorem writeBack_filters_nan_only (cRe cIm : DArr) (nCoeffs : Int) (warmRe warmIm : DArr)
    (nRoots trackIter : Int) (iterCounts : Option NArr) (i : Nat)
    (hdeg : 1 ≤ effDegree cRe cIm nCoeffs) (hi : (i : Int) < effDegree cRe cIm nCoeffs) :
    (2 ≤ effDegree cRe cIm nCoeffs →
      ((Solver.solveEA cRe cIm nCoeffs warmRe warmIm nRoots trackIter iterCounts).warmRe i,
       (Solver.solveEA cRe cIm nCoeffs warmRe warmIm nRoots trackIter iterCounts).warmIm i)
        = (if ((Solver.afterLoop cRe cIm nCoeffs warmRe warmIm trackIter iterCounts).rRe i).isNaN
                = false ∧
              ((Solver.afterLoop cRe cIm nCoeffs warmRe warmIm trackIter iterCounts).rIm i).isNaN
                = false
           then ((Solver.afterLoop cRe cIm nCoeffs warmRe warmIm trackIter iterCounts).rRe i,
                 (Solver.afterLoop cRe cIm nCoeffs warmRe warmIm trackIter iterCounts).rIm i)
           else (warmRe i, warmIm i)) ∧
      ((StepLoop.solveEA cRe cIm nCoeffs warmRe warmIm nRoots).warmRe i,
       (StepLoop.solveEA cRe cIm nCoeffs warmRe warmIm nRoots).warmIm i)
        = (if ((StepLoop.afterLoop cRe cIm nCoeffs warmRe warmIm).rRe i).isNaN = false ∧
              ((StepLoop.afterLoop cRe cIm nCoeffs warmRe warmIm).rIm i).isNaN = false
           then ((StepLoop.afterLoop cRe cIm nCoeffs warmRe warmIm).rRe i,
                 (StepLoop.afterLoop cRe cIm nCoeffs warmRe warmIm).rIm i)
           else (warmRe i, warmIm i))) ∧
    (effDegree cRe cIm nCoeffs = 1 →
      (Solver.solveEA cRe cIm nCoeffs warmRe warmIm nRoots trackIter iterCounts).warmRe i
        = linearRe (cRe (stripStart cRe cIm nCoeffs)) (cIm (stripStart cRe cIm nCoeffs))
            (cRe (stripStart cRe cIm nCoeffs + 1)) (cIm (stripStart cRe cIm nCoeffs + 1)) ∧
      (Solver.solveEA cRe cIm nCoeffs warmRe warmIm nRoots trackIter iterCounts).warmIm i
        = linearIm (cRe (stripStart cRe cIm nCoeffs)) (cIm (stripStart cRe cIm nCoeffs))
            (cRe (stripStart cRe cIm nCoeffs + 1)) (cIm (stripStart cRe cIm nCoeffs + 1)) ∧
      (StepLoop.solveEA cRe cIm nCoeffs warmRe warmIm nRoots).warmRe i
        = linearRe (cRe (stripStart cRe cIm nCoeffs)) (cIm (stripStart cRe cIm nCoeffs))
            (cRe (stripStart cRe cIm nCoeffs + 1)) (cIm (stripStart cRe cIm nCoeffs + 1)) ∧
      (StepLoop.solveEA cRe cIm nCoeffs warmRe warmIm nRoots).warmIm i
        = linearIm (cRe (stripStart cRe cIm nCoeffs)) (cIm (stripStart cRe cIm nCoeffs))
            (cRe (stripStart cRe cIm nCoeffs + 1)) (cIm (stripStart cRe cIm nCoeffs + 1))) := by
  constructor
  · intro h2
    have hi2 : i < (effDegree cRe cIm nCoeffs).toNat := by omega
    rw [solver_solveEA_of_two_le _ _ _ _ _ _ _ _ h2, stepLoop_solveEA_of_two_le _ _ _ _ _ _ h2]
    simp only [writeBack_apply, hi2, true_and]
    constructor
    · split_ifs <;> rfl
    · split_ifs <;> rfl
  · intro h1
    have hi0 : i = 0 := by omega
    subst hi0
    rw [solver_solveEA_of_one _ _ _ _ _ _ _ _ h1, stepLoop_solveEA_of_one _ _ _ _ _ _ h1]
    simp [wr]

/-- The write-back of `z^2 - 1`, warm start `{0.1, -0.1}`, root 0. -/
theorem writeBack_filters_nan_only_sample :
    (1 : Int) ≤ effDegree (arr [1, 0, -1]) (arr []) 3 ∧
    ((0 : Nat) : Int) < effDegree (arr [1, 0, -1]) (arr []) 3 ∧
    ((Solver.solveEA (arr [1, 0, -1]) (arr []) 3 (arr [Dbl.fin (1 / 10), Dbl.fin (-1 / 10)])
        (arr []) 2 0 none).warmRe 0,
     (Solver.solveEA (arr [1, 0, -1]) (arr []) 3 (arr [Dbl.fin (1 / 10), Dbl.fin (-1 / 10)])
        (arr []) 2 0 none).warmIm 0)
      = (if ((Solver.afterLoop (arr [1, 0, -1]) (arr []) 3
                (arr [Dbl.fin (1 / 10), Dbl.fin (-1 / 10)]) (arr []) 0 none).rRe 0).isNaN = false ∧
            ((Solver.afterLoop (arr [1, 0, -1]) (arr []) 3
                (arr [Dbl.fin (1 / 10), Dbl.fin (-1 / 10)]) (arr []) 0 none).rIm 0).isNaN = false
         then ((Solver.afterLoop (arr [1, 0, -1]) (arr []) 3
                (arr [Dbl.fin (1 / 10), Dbl.fin (-1 / 10)]) (arr []) 0 none).rRe 0,
               (Solver.afterLoop (arr [1, 0, -1]) (arr []) 3
                (arr [Dbl.fin (1 / 10), Dbl.fin (-1 / 10)]) (arr []) 0 none).rIm 0)
         else (arr [Dbl.fin (1 / 10), Dbl.fin (-1 / 10)] 0, arr [] 0)) :=
  ⟨by decide!, by decide!,
    ((writeBack_filters_nan_only (arr [1, 0, -1]) (arr []) 3
      (arr [Dbl.fin (1 / 10), Dbl.fin (-1 / 10)]) (arr []) 2 0 none 0
      (by decide!) (by decide!)).1 (by decide!)).1⟩

/-- C6, the behaviour of the code on non-finite results.  On the coefficients
`[1, +infinity]` (effective degree 1) the computed root `(-infinity, NaN)` is
not finite, yet slot 0, which held `5 + 7i`, is overwritten with it, in both
solvers: the degree-1 branch stores the quotient with no test.  And the
write-back loop of the degree >= 2 path, whose test is `x == x`, stores a
computed pair with an infinite component (`(+infinity, 0)` over `5 + 7i`),
while it leaves the slot alone when a component is NaN. -/
theorem C6_nonfinite_written :
    effDegree (arr [1, Dbl.pinf]) (arr [0, 0]) 2 = 1 ∧
    (linearRe 1 0 Dbl.pinf 0).isFinite = false ∧
    (linearIm 1 0 Dbl.pinf 0).isFinite = false ∧
    (Solver.solveEA (arr [1, Dbl.pinf]) (arr [0, 0]) 2 (arr [5]) (arr [7]) 1 0 none).warmRe 0
      = Dbl.ninf ∧
    (Solver.solveEA (arr [1, Dbl.pinf]) (arr [0, 0]) 2 (arr [5]) (arr [7]) 1 0 none).warmIm 0
      = Dbl.nan ∧
    (StepLoop.solveEA (arr [1, Dbl.pinf]) (arr [0, 0]) 2 (arr [5]) (arr [7]) 1).warmRe 0
      = Dbl.ninf ∧
    (StepLoop.solveEA (arr [1, Dbl.pinf]) (arr [0, 0]) 2 (arr [5]) (arr [7]) 1).warmIm 0
      = Dbl.nan ∧
    (writeBack (arr [Dbl.pinf]) (arr [0]) 1 (arr [5]) (arr [7])).1 0 = Dbl.pinf ∧
    (writeBack (arr [Dbl.pinf]) (arr [0]) 1 (arr [5]) (arr [7])).2 0 = Dbl.fin 0 ∧
    (writeBack (arr [Dbl.nan]) (arr [0]) 1 (arr [5]) (arr [7])).1 0 = Dbl.fin 5 ∧
    (writeBack (arr [Dbl.nan]) (arr [0]) 1 (arr [5]) (arr [7])).2 0 = Dbl.fin 7 := by
  refine ⟨by decide!, by decide!, by decide!, by decide!, by decide!, by decide!, by decide!,
    by decide!, by decide!, by decide!, by decide!⟩

/-! ## C7: the iteration counts -/

/-- Folding a step that preserves `P` on the listed elements preserves `P`. -/
theorem foldl_preserves {σ : Type} {β : Type} (P : σ → Prop) (Q : β → Prop) (f : σ → β → σ)
    (hf : ∀ s x, P s → Q x → P (f s x)) :
    ∀ (l : List β) (s : σ), (∀ x ∈ l, Q x) → P s → P (l.foldl f s) := by
  intro l
  induction l with
  | nil => intro s _ h; exact h
  | cons a t ih =>
    intro s hl h
    simp only [List.foldl_cons]
    exact ih _ (fun x hx => hl x (List.mem_cons_of_mem _ hx))
      (hf s a h (hl a (List.mem_cons_self _ _)))

theorem solver_rootStep_counts (cr ci : DArr) (n degree : Nat) (trackIter : Int) (iter : Nat)
    (ic0 : NArr) (hiter : iter < 64) (s : Solver.EAState) (i : Nat)
    (hs : ∃ ic, s.iterCounts = some ic ∧ CountsInv degree ic0 s.conv ic) (hi : i < degree) :
    ∃ ic, (Solver.rootStep cr ci n degree trackIter iter s i).iterCounts = some ic ∧
      CountsInv degree ic0 (Solver.rootStep cr ci n degree trackIter iter s i).conv ic := by
  obtain ⟨ic, hic, h1, h2⟩ := hs
  unfold Solver.rootStep
  split_ifs with hc
  · exact ⟨ic, hic, h1, h2⟩
  · cases hcorr : correction cr ci n degree s.rRe s.rIm i with
    | none => exact ⟨ic, hic, h1, h2⟩
    | some c =>
      obtain ⟨crrR, crrI⟩ := c
      simp only
      by_cases ht : trackIter ≠ 0 ∧ (crrR * crrR + crrI * crrI).lt TOL2 = true
      · rw [if_pos ht]
        refine ⟨wr ic i ((iter + 1) % 256), by simp [hic], ?_, ?_⟩
        · intro k hk hck
          by_cases hki : k = i
          · subst hki
            have : (iter + 1) % 256 = iter + 1 := Nat.mod_eq_of_lt (by omega)
            simp only [wr, if_true, this]
            omega
          · simp only [wr, if_neg hki] at hck ⊢
            exact h1 k hk hck
        · intro k hk
          have hki : k ≠ i := by omega
          simp only [wr, if_neg hki]
          exact h2 k hk
      · rw [if_neg ht]
        exact ⟨ic, hic, h1, h2⟩

theorem solver_sweep_counts (cr ci : DArr) (n degree : Nat) (trackIter : Int) (iter : Nat)
    (ic0 : NArr) (hiter : iter < 64) (s : Solver.EAState)
    (hs : ∃ ic, s.iterCounts = some ic ∧ CountsInv degree ic0 s.conv ic) :
    ∃ ic, (Solver.sweep cr ci n degree trackIter iter s).iterCounts = some ic ∧
      CountsInv degree ic0 (Solver.sweep cr ci n degree trackIter iter s).conv ic := by
  unfold Solver.sweep
  exact foldl_preserves
    (fun s : Solver.EAState => ∃ ic, s.iterCounts = some ic ∧ CountsInv degree ic0 s.conv ic)
    (fun i => i < degree) _
    (fun s i h hi => solver_rootStep_counts cr ci n degree trackIter iter ic0 hiter s i h hi)
    (List.range degree) _ (fun x hx => List.mem_range.mp hx) hs

theorem solver_markStep_counts (degree iter : Nat) (ic0 : NArr) (hiter : iter < 64)
    (c : NArr × NArr) (i : Nat) (hc : CountsInv degree ic0 c.1 c.2) (hi : i < degree) :
    CountsInv degree ic0 (Solver.markStep iter c i).1 (Solver.markStep iter c i).2 := by
  obtain ⟨h1, h2⟩ := hc
  unfold Solver.markStep
  split_ifs with h0
  · refine ⟨?_, ?_⟩
    · intro k hk hck
      by_cases hki : k = i
      · subst hki
        have : (iter + 1) % 256 = iter + 1 := Nat.mod_eq_of_lt (by omega)
        simp only [wr, if_true, this]
        omega
      · simp only [wr, if_neg hki] at hck ⊢
        exact h1 k hk hck
    · intro k hk
      have hki : k ≠ i := by omega
      simp only [wr, if_neg hki]
      exact h2 k hk
  · exact ⟨h1, h2⟩

theorem solver_onConverged_counts (degree : Nat) (trackIter : Int) (iter : Nat)
    (ic0 : NArr) (hiter : iter < 64) (s : Solver.EAState)
    (hs : ∃ ic, s.iterCounts = some ic ∧ CountsInv degree ic0 s.conv ic) :
    ∃ ic, (Solver.onConverged degree trackIter iter s).iterCounts = some ic ∧
      CountsInv degree ic0 (Solver.onConverged degree trackIter iter s).conv ic := by
  obtain ⟨ic, hic, hinv⟩ := hs
  unfold Solver.onConverged
  rw [hic]
  simp only
  split_ifs with ht
  · refine ⟨_, rfl, ?_⟩
    exact foldl_preserves (fun c : NArr × NArr => CountsInv degree ic0 c.1 c.2)
      (fun i => i < degree) _
      (fun c i h hi => solver_markStep_counts degree iter ic0 hiter c i h hi)
      (List.range degree) _ (fun x hx => List.mem_range.mp hx) hinv
  · exact ⟨ic, hic, hinv⟩

theorem solver_iterLoop_counts (cr ci : DArr) (n degree : Nat) (trackIter : Int) (ic0 : NArr) :
    ∀ (remaining iter : Nat) (s : Solver.EAState), iter + remaining ≤ 64 →
      (∃ ic, s.iterCounts = some ic ∧ CountsInv degree ic0 s.conv ic) →
      ∃ ic, (Solver.iterLoop cr ci n degree trackIter remaining iter s).iterCounts = some ic ∧
        CountsInv degree ic0 (Solver.iterLoop cr ci n degree trackIter remaining iter s).conv ic := by
  intro remaining
  induction remaining with
  | zero => intro iter s _ hs; exact hs
  | succ r ih =>
    intro iter s hle hs
    have hiter : iter < 64 := by omega
    have h1 := solver_sweep_counts cr ci n degree trackIter iter ic0 hiter s hs
    unfold Solver.iterLoop
    simp only
    split_ifs with hc
    · exact solver_onConverged_counts degree trackIter iter ic0 hiter _ h1
    · exact ih (iter + 1) _ (by omega) h1

/-- The final fill loop entry by entry. -/
theorem solver_fill_apply (conv ic : NArr) (d i : Nat) :
    (List.range d).foldl (Solver.fillStep conv) ic i
      = if i < d ∧ conv i = 0 then MAX_ITER % 256 else ic i := by
  induction d with
  | zero => simp
  | succ d ih =>
    rw [List.range_succ, List.foldl_append]
    simp only [List.foldl_cons, List.foldl_nil]
    generalize (List.range d).foldl (Solver.fillStep conv) ic = g at ih ⊢
    unfold Solver.fillStep
    by_cases hi : i = d
    · subst hi
      by_cases hc : conv i = 0
      · simp [hc, wr]
      · simp [hc, ih]
    · have hlt : i < d + 1 ↔ i < d := by omega
      by_cases hc : conv d = 0
      · simp [hc, wr, hi, ih, hlt]
      · simp [hc, ih, hlt]

/-- C7. Iteration counts are capped: when solver.c's `solveEA` runs with
`trackIter != 0` and a non-null `iterCounts`, every `iterCounts[i]` for `i`
below the effective degree ends in `[1, 64]` (exactly 1 in the degree-1 case)
and no entry at an index from the effective degree on is written. -/
theorem C7_iter_counts_capped (cRe cIm : DArr) (nCoeffs : Int) (warmRe warmIm : DArr)
    (nRoots trackIter : Int) (ic : NArr) (ht : trackIter ≠ 0) :
    ∃ ic' : NArr,
      (Solver.solveEA cRe cIm nCoeffs warmRe warmIm nRoots trackIter (some ic)).iterCounts
        = some ic' ∧
      (∀ i : Nat, (i : Int) < effDegree cRe cIm nCoeffs → 1 ≤ ic' i ∧ ic' i ≤ 64) ∧
      (effDegree cRe cIm nCoeffs = 1 → ic' 0 = 1) ∧
      (∀ i : Nat, effDegree cRe cIm nCoeffs ≤ (i : Int) → ic' i = ic i) := by
  rcases lt_trichotomy (effDegree cRe cIm nCoeffs) 1 with h | h | h
  · have hd : nCoeffs - 1 - (stripStart cRe cIm nCoeffs : Int) ≤ 0 := by
      unfold effDegree at h; omega
    refine ⟨ic, by simp only [Solver.solveEA, if_pos hd], ?_, ?_, ?_⟩
    · intro i hi; omega
    · intro h1; omega
    · intro i _; rfl
  · rw [solver_solveEA_of_one _ _ _ _ _ _ _ _ h]
    refine ⟨wr ic 0 1, by simp [ht], ?_, ?_, ?_⟩
    · intro i hi
      have hi0 : i = 0 := by omega
      subst hi0
      simp [wr]
    · intro _; simp [wr]
    · intro i hi
      have hi0 : i ≠ 0 := by omega
      simp [wr, hi0]
  · have h2 : 2 ≤ effDegree cRe cIm nCoeffs := by omega
    rw [solver_solveEA_of_two_le _ _ _ _ _ _ _ _ h2]
    simp only [Solver.afterLoop, Solver.iterate]
    obtain ⟨ic1, hic1, hinv1, hinv2⟩ := solver_iterLoop_counts
      (fun k => cRe (stripStart cRe cIm nCoeffs + k)) (fun k => cIm (stripStart cRe cIm nCoeffs + k))
      (nCoeffs - stripStart cRe cIm nCoeffs).toNat (effDegree cRe cIm nCoeffs).toNat trackIter ic
      MAX_ITER 0
      { rRe := fun i => if i < (effDegree cRe cIm nCoeffs).toNat then warmRe i else 0,
        rIm := fun i => if i < (effDegree cRe cIm nCoeffs).toNat then warmIm i else 0,
        maxCorr2 := 0, conv := fun _ => 0, iterCounts := some ic, sweeps := 0 }
      (by simp [MAX_ITER])
      ⟨ic, rfl, fun i _ hc => absurd rfl hc, fun i _ => rfl⟩
    rw [hic1]
    simp only [if_pos ht]
    refine ⟨_, rfl, ?_, ?_, ?_⟩
    · intro i hi
      have hi2 : i < (effDegree cRe cIm nCoeffs).toNat := by omega
      rw [solver_fill_apply]
      split_ifs with hc
      · simp [MAX_ITER]
      · exact hinv1 i hi2 (fun h0 => hc ⟨hi2, h0⟩)
    · intro h1; omega
    · intro i hi
      have hi2 : (effDegree cRe cIm nCoeffs).toNat ≤ i := by omega
      rw [solver_fill_apply]
      have : ¬ (i < (effDegree cRe cIm nCoeffs).toNat) := by omega
      simp only [this, false_and, if_false]
      exact hinv2 i hi2

/-- C7 on `z^2 - 1`, warm start `{0.1, -0.1}`, tracking on and the count buffer
filled with 200. -/
theorem C7_iter_counts_capped_witness :
    (1 : Int) ≠ 0 ∧
    ∃ ic' : NArr,
      (Solver.solveEA (arr [1, 0, -1]) (arr []) 3 (arr [Dbl.fin (1 / 10), Dbl.fin (-1 / 10)])
        (arr []) 2 1 (some (fun _ => 200))).iterCounts = some ic' ∧
      (∀ i : Nat, (i : Int) < effDegree (arr [1, 0, -1]) (arr []) 3 → 1 ≤ ic' i ∧ ic' i ≤ 64) ∧
      (effDegree (arr [1, 0, -1]) (arr []) 3 = 1 → ic' 0 = 1) ∧
      (∀ i : Nat, effDegree (arr [1, 0, -1]) (arr []) 3 ≤ (i : Int) → ic' i = 200) :=
  ⟨by decide, C7_iter_counts_capped (arr [1, 0, -1]) (arr []) 3
    (arr [Dbl.fin (1 / 10), Dbl.fin (-1 / 10)]) (arr []) 2 1 (fun _ => 200) (by decide)⟩

/-! ## C3: stripping leading coefficients -/

@[simp] theorem prepend_add (pre : List Dbl) (a : DArr) (j : Nat) :
    prepend pre a (pre.length + j) = a j := by
  simp [prepend]

@[simp] theorem prepend_length (pre : List Dbl) (a : DArr) :
    prepend pre a pre.length = a 0 := by
  simp [prepend]

theorem prepend_lt (pre : List Dbl) (a : DArr) (j : Nat) (h : j < pre.length) :
    prepend pre a j = pre.getD j 0 := by
  simp [prepend, h]

theorem stripStart_prepend (preRe preIm : List Dbl) (cRe cIm : DArr) (nCoeffs : Int)
    (hlen : preRe.length = preIm.length) (hn : 1 ≤ nCoeffs)
    (hpre : ∀ k, k < preRe.length →
      (mag2 (preRe.getD k 0) (preIm.getD k 0)).lt c1em30 = true)
    (hlead : (mag2 (cRe 0) (cIm 0)).lt c1em30 = false) :
    stripStart (prepend preRe cRe) (prepend preIm cIm) (nCoeffs + preRe.length) = preRe.length ∧
    stripStart cRe cIm nCoeffs = 0 := by
  constructor
  · apply stripStart_eq
    · rintro ⟨-, h⟩
      rw [prepend_length] at h
      have h2 : prepend preIm cIm preRe.length = cIm 0 := by rw [hlen]; exact prepend_length _ _
      rw [h2, hlead] at h
      exact Bool.noConfusion h
    · intro k hk
      refine ⟨by omega, ?_⟩
      rw [prepend_lt _ _ _ hk, prepend_lt _ _ _ (by omega)]
      exact hpre k hk
  · apply stripStart_eq
    · rintro ⟨-, h⟩
      rw [hlead] at h
      exact Bool.noConfusion h
    · intro k hk; omega

theorem solver_iterate_prepend (preRe preIm : List Dbl) (cRe cIm : DArr)
    (hlen : preRe.length = preIm.length) (n d : Nat) (warmRe warmIm : DArr)
    (trackIter : Int) (iterCounts : Option NArr) :
    Solver.iterate (prepend preRe cRe) (prepend preIm cIm) preRe.length n d warmRe warmIm
        trackIter iterCounts
      = Solver.iterate cRe cIm 0 n d warmRe warmIm trackIter iterCounts := by
  have e1 : (fun k => prepend preRe cRe (preRe.length + k)) = fun k => cRe (0 + k) := by
    funext k; simp
  have e2 : (fun k => prepend preIm cIm (preRe.length + k)) = fun k => cIm (0 + k) := by
    funext k; rw [hlen]; simp
  simp only [Solver.iterate, e1, e2]

theorem stepLoop_iterate_prepend (preRe preIm : List Dbl) (cRe cIm : DArr)
    (hlen : preRe.length = preIm.length) (n d : Nat) (warmRe warmIm : DArr) :
    StepLoop.iterate (prepend preRe cRe) (prepend preIm cIm) preRe.length n d warmRe warmIm
      = StepLoop.iterate cRe cIm 0 n d warmRe warmIm := by
  have e1 : (fun k => prepend preRe cRe (preRe.length + k)) = fun k => cRe (0 + k) := by
    funext k; simp
  have e2 : (fun k => prepend preIm cIm (preRe.length + k)) = fun k => cIm (0 + k) := by
    funext k; rw [hlen]; simp
  simp only [StepLoop.iterate, e1, e2]

/-- C3. Leading-zero stripping is transparent: if the first coefficient of `c`
is not below `1e-30` in squared magnitude and each of the `k` coefficients put
in front of it is, both solvers return on `prefix ++ c` exactly what they
return on `c`; and no root slot from index `nCoeffs - 1` on (the degree of `c`)
is touched. -/
theorem C3_strip_transparent (preRe preIm : List Dbl) (cRe cIm : DArr) (nCoeffs : Int)
    (warmRe warmIm : DArr) (nRoots trackIter : Int) (iterCounts : Option NArr)
    (hlen : preRe.length = preIm.length) (hn : 1 ≤ nCoeffs)
    (hpre : ∀ k, k < preRe.length →
      (mag2 (preRe.getD k 0) (preIm.getD k 0)).lt c1em30 = true)
    (hlead : (mag2 (cRe 0) (cIm 0)).lt c1em30 = false) :
    Solver.solveEA (prepend preRe cRe) (prepend preIm cIm) (nCoeffs + preRe.length)
        warmRe warmIm nRoots trackIter iterCounts
      = Solver.solveEA cRe cIm nCoeffs warmRe warmIm nRoots trackIter iterCounts ∧
    StepLoop.solveEA (prepend preRe cRe) (prepend preIm cIm) (nCoeffs + preRe.length)
        warmRe warmIm nRoots
      = StepLoop.solveEA cRe cIm nCoeffs warmRe warmIm nRoots ∧
    ∀ i : Nat, nCoeffs - 1 ≤ (i : Int) →
      (Solver.solveEA cRe cIm nCoeffs warmRe warmIm nRoots trackIter iterCounts).warmRe i
        = warmRe i ∧
      (Solver.solveEA cRe cIm nCoeffs warmRe warmIm nRoots trackIter iterCounts).warmIm i
        = warmIm i ∧
      (StepLoop.solveEA cRe cIm nCoeffs warmRe warmIm nRoots).warmRe i = warmRe i ∧
      (StepLoop.solveEA cRe cIm nCoeffs warmRe warmIm nRoots).warmIm i = warmIm i := by
  obtain ⟨hs1, hs2⟩ := stripStart_prepend preRe preIm cRe cIm nCoeffs hlen hn hpre hlead
  have e1 : nCoeffs + (preRe.length : Int) - 1 - (preRe.length : Int) = nCoeffs - 1 := by ring
  have e2 : nCoeffs + (preRe.length : Int) - (preRe.length : Int) = nCoeffs := by ring
  have e3 : ∀ j, prepend preIm cIm (preRe.length + j) = cIm j := by
    intro j; rw [hlen]; exact prepend_add _ _ _
  have e4 : prepend preIm cIm preRe.length = cIm 0 := by rw [hlen]; exact prepend_length _ _
  refine ⟨?_, ?_, ?_⟩
  · simp only [Solver.solveEA, hs1, hs2, e1, e2, e3, e4, prepend_add, prepend_length,
      Nat.cast_zero, sub_zero, zero_add, solver_iterate_prepend _ _ _ _ hlen]
  · simp only [StepLoop.solveEA, hs1, hs2, e1, e2, e3, e4, prepend_add, prepend_length,
      Nat.cast_zero, sub_zero, zero_add, stepLoop_iterate_prepend _ _ _ _ hlen]
  · intro i hi
    have hdeg : effDegree cRe cIm nCoeffs = nCoeffs - 1 := by
      unfold effDegree; rw [hs2]; simp
    rcases lt_trichotomy (effDegree cRe cIm nCoeffs) 1 with h | h | h
    · have hd : nCoeffs - 1 - (stripStart cRe cIm nCoeffs : Int) ≤ 0 := by
        unfold effDegree at h; omega
      simp only [Solver.solveEA, StepLoop.solveEA, if_pos hd, and_self]
    · rw [solver_solveEA_of_one _ _ _ _ _ _ _ _ h, stepLoop_solveEA_of_one _ _ _ _ _ _ h]
      have hi0 : i ≠ 0 := by omega
      simp [wr, hi0]
    · have h2 : 2 ≤ effDegree cRe cIm nCoeffs := by omega
      rw [solver_solveEA_of_two_le _ _ _ _ _ _ _ _ h2, stepLoop_solveEA_of_two_le _ _ _ _ _ _ h2]
      have hi2 : ¬ (i < (effDegree cRe cIm nCoeffs).toNat) := by omega
      simp only [writeBack_apply, hi2, false_and, if_false, and_self]

/-- C3 on `[0, 0, 1, 0, -1]`: the solvers behave as on `[1, 0, -1]` and touch
no slot from index 2 on. -/
theorem C3_strip_transparent_witness :
    prepend [0, 0] (arr [1, 0, -1]) = arr [0, 0, 1, 0, -1] ∧
    ([0, 0] : List Dbl).length = ([0, 0] : List Dbl).length ∧ (1 : Int) ≤ 3 ∧
    (∀ k, k < ([0, 0] : List Dbl).length →
      (mag2 (([0, 0] : List Dbl).getD k 0) (([0, 0] : List Dbl).getD k 0)).lt c1em30 = true) ∧
    (mag2 (arr [1, 0, -1] 0) (arr [] 0)).lt c1em30 = false ∧
    (Solver.solveEA (prepend [0, 0] (arr [1, 0, -1])) (prepend [0, 0] (arr [])) (3 + 2)
        (arr [Dbl.fin (1 / 10), Dbl.fin (-1 / 10), 9]) (arr [0, 0, 9]) 2 0 none
      = Solver.solveEA (arr [1, 0, -1]) (arr []) 3
        (arr [Dbl.fin (1 / 10), Dbl.fin (-1 / 10), 9]) (arr [0, 0, 9]) 2 0 none ∧
    StepLoop.solveEA (prepend [0, 0] (arr [1, 0, -1])) (prepend [0, 0] (arr [])) (3 + 2)
        (arr [Dbl.fin (1 / 10), Dbl.fin (-1 / 10), 9]) (arr [0, 0, 9]) 2
      = StepLoop.solveEA (arr [1, 0, -1]) (arr []) 3
        (arr [Dbl.fin (1 / 10), Dbl.fin (-1 / 10), 9]) (arr [0, 0, 9]) 2 ∧
    ∀ i : Nat, (3 : Int) - 1 ≤ (i : Int) →
      (Solver.solveEA (arr [1, 0, -1]) (arr []) 3
        (arr [Dbl.fin (1 / 10), Dbl.fin (-1 / 10), 9]) (arr [0, 0, 9]) 2 0 none).warmRe i
        = arr [Dbl.fin (1 / 10), Dbl.fin (-1 / 10), 9] i ∧
      (Solver.solveEA (arr [1, 0, -1]) (arr []) 3
        (arr [Dbl.fin (1 / 10), Dbl.fin (-1 / 10), 9]) (arr [0, 0, 9]) 2 0 none).warmIm i
        = arr [0, 0, 9] i ∧
      (StepLoop.solveEA (arr [1, 0, -1]) (arr []) 3
        (arr [Dbl.fin (1 / 10), Dbl.fin (-1 / 10), 9]) (arr [0, 0, 9]) 2).warmRe i
        = arr [Dbl.fin (1 / 10), Dbl.fin (-1 / 10), 9] i ∧
      (StepLoop.solveEA (arr [1, 0, -1]) (arr []) 3
        (arr [Dbl.fin (1 / 10), Dbl.fin (-1 / 10), 9]) (arr [0, 0, 9]) 2).warmIm i
        = arr [0, 0, 9] i) :=
  have hpre : ∀ k, k < ([0, 0] : List Dbl).length →
      (mag2 (([0, 0] : List Dbl).getD k 0) (([0, 0] : List Dbl).getD k 0)).lt c1em30 = true := by
    intro k hk
    have hk2 : k = 0 ∨ k = 1 := by simp at hk; omega
    rcases hk2 with rfl | rfl <;> decide!
  ⟨by
      funext i
      rcases i with _ | _ | _ | _ | _ | i <;> simp [prepend, arr],
    rfl, by decide, hpre, by decide!,
    C3_strip_transparent [0, 0] [0, 0] (arr [1, 0, -1]) (arr []) 3
      (arr [Dbl.fin (1 / 10), Dbl.fin (-1 / 10), 9]) (arr [0, 0, 9]) 2 0 none rfl (by decide)
      hpre (by decide!)⟩

/-! ## C2: scenario S1 -/

/-- C2. Scenario S1 in exact arithmetic: on `z^2 - 1` with warm start
`{0.1, -0.1}` both solvers leave the main loop by its convergence test after 5
of the 64 sweeps, with slot 0 within `1e-12` of the root `1` and slot 1 within
`1e-12` of the root `-1`. -/
theorem C2_scenario_S1 :
    (Solver.solveEA (arr [1, 0, -1]) (arr [0, 0, 0]) 3
      (arr [Dbl.fin (1 / 10), Dbl.fin (-1 / 10)]) (arr [0, 0]) 2 0 none).sweeps = 5 ∧
    ((Solver.solveEA (arr [1, 0, -1]) (arr [0, 0, 0]) 3
      (arr [Dbl.fin (1 / 10), Dbl.fin (-1 / 10)]) (arr [0, 0]) 2 0 none).warmRe 0).near 1
        (1 / 10 ^ 12) = true ∧
    ((Solver.solveEA (arr [1, 0, -1]) (arr [0, 0, 0]) 3
      (arr [Dbl.fin (1 / 10), Dbl.fin (-1 / 10)]) (arr [0, 0]) 2 0 none).warmIm 0).near 0
        (1 / 10 ^ 12) = true ∧
    ((Solver.solveEA (arr [1, 0, -1]) (arr [0, 0, 0]) 3
      (arr [Dbl.fin (1 / 10), Dbl.fin (-1 / 10)]) (arr [0, 0]) 2 0 none).warmRe 1).near (-1)
        (1 / 10 ^ 12) = true ∧
    ((Solver.solveEA (arr [1, 0, -1]) (arr [0, 0, 0]) 3
      (arr [Dbl.fin (1 / 10), Dbl.fin (-1 / 10)]) (arr [0, 0]) 2 0 none).warmIm 1).near 0
        (1 / 10 ^ 12) = true ∧
    (StepLoop.solveEA (arr [1, 0, -1]) (arr [0, 0, 0]) 3
      (arr [Dbl.fin (1 / 10), Dbl.fin (-1 / 10)]) (arr [0, 0]) 2).sweeps = 5 ∧
    ((StepLoop.solveEA (arr [1, 0, -1]) (arr [0, 0, 0]) 3
      (arr [Dbl.fin (1 / 10), Dbl.fin (-1 / 10)]) (arr [0, 0]) 2).warmRe 0).near 1
        (1 / 10 ^ 12) = true ∧
    ((StepLoop.solveEA (arr [1, 0, -1]) (arr [0, 0, 0]) 3
      (arr [Dbl.fin (1 / 10), Dbl.fin (-1 / 10)]) (arr [0, 0]) 2).warmIm 0).near 0
        (1 / 10 ^ 12) = true ∧
    ((StepLoop.solveEA (arr [1, 0, -1]) (arr [0, 0, 0]) 3
      (arr [Dbl.fin (1 / 10), Dbl.fin (-1 / 10)]) (arr [0, 0]) 2).warmRe 1).near (-1)
        (1 / 10 ^ 12) = true ∧
    ((StepLoop.solveEA (arr [1, 0, -1]) (arr [0, 0, 0]) 3
      (arr [Dbl.fin (1 / 10), Dbl.fin (-1 / 10)]) (arr [0, 0]) 2).warmIm 1).near 0
        (1 / 10 ^ 12) = true := by
  refine ⟨by decide!, by decide!, by decide!, by decide!, by decide!,
    by decide!, by decide!, by decide!, by decide!, by decide!⟩

/-! ## The greedy matcher -/

theorem copyBack_apply {α : Type} (n : Nat) (src dst : Nat → α) (k : Nat) :
    copyBack n src dst k = if k < n then src k else dst k := by
  induction n with
  | zero => simp [copyBack]
  | succ n ih =>
    unfold copyBack at ih ⊢
    rw [List.range_succ, List.foldl_append]
    simp only [List.foldl_cons, List.foldl_nil, wr]
    by_cases hk : k = n
    · subst hk; simp
    · have hlt : k < n + 1 ↔ k < n := by omega
      simp only [if_neg hk, ih, hlt]

/-- A sum of two squares that compares below a finite bound is finite. -/
theorem sq_sum_fin (x y : Dbl) (c : ℚ) (h : (x * x + y * y).lt (Dbl.fin c) = true) :
    ∃ q : ℚ, x * x + y * y = Dbl.fin q ∧ 0 ≤ q ∧ q < c := by
  cases x with
  | fin a =>
    cases y with
    | fin b =>
      refine ⟨a * a + b * b, rfl, add_nonneg (mul_self_nonneg a) (mul_self_nonneg b), ?_⟩
      simpa using h
    | pinf => exact absurd h (by simp [HMul.hMul, Mul.mul, Dbl.mul, Dbl.infTimes, HAdd.hAdd, Add.add, Dbl.add, Dbl.lt])
    | ninf => exact absurd h (by simp [HMul.hMul, Mul.mul, Dbl.mul, Dbl.infTimes, HAdd.hAdd, Add.add, Dbl.add, Dbl.lt])
    | nan => exact absurd h (by simp [HMul.hMul, Mul.mul, Dbl.mul, Dbl.infTimes, HAdd.hAdd, Add.add, Dbl.add, Dbl.lt])
  | pinf => cases y <;> exact absurd h (by simp [HMul.hMul, Mul.mul, Dbl.mul, Dbl.infTimes, HAdd.hAdd, Add.add, Dbl.add, Dbl.lt])
  | ninf => cases y <;> exact absurd h (by simp [HMul.hMul, Mul.mul, Dbl.mul, Dbl.infTimes, HAdd.hAdd, Add.add, Dbl.add, Dbl.lt])
  | nan => cases y <;> exact absurd h (by simp [HMul.hMul, Mul.mul, Dbl.mul, Dbl.infTimes, HAdd.hAdd, Add.add, Dbl.add, Dbl.lt])

/-- A squared distance below a finite bound is a non-negative rational. -/
theorem dist2_fin (newRe newIm oldRe oldIm : DArr) (i j : Nat) (c : ℚ)
    (h : (dist2 newRe newIm oldRe oldIm i j).lt (Dbl.fin c) = true) :
    ∃ q : ℚ, dist2 newRe newIm oldRe oldIm i j = Dbl.fin q ∧ 0 ≤ q ∧ q < c :=
  sq_sum_fin _ _ c h

/-- What the inner loop of the greedy matcher has found after the first `m`
candidates, every distance being below the sentinel. -/
theorem greedyBest_upto (newRe newIm oldRe oldIm : DArr) (used : NArr) (i n : Nat)
    (hs : ∀ j, j < n → (dist2 newRe newIm oldRe oldIm i j).lt c1e300 = true) :
    ∀ m, m ≤ n →
      ((∀ j, j < m → used j ≠ 0) ∧
        StepLoop.greedyBest newRe newIm oldRe oldIm m used i = (0, c1e300)) ∨
      ((StepLoop.greedyBest newRe newIm oldRe oldIm m used i).1 < m ∧
        used (StepLoop.greedyBest newRe newIm oldRe oldIm m used i).1 = 0 ∧
        (StepLoop.greedyBest newRe newIm oldRe oldIm m used i).2
          = dist2 newRe newIm oldRe oldIm i
              (StepLoop.greedyBest newRe newIm oldRe oldIm m used i).1 ∧
        (∀ j, j < m → used j = 0 →
          (dist2 newRe newIm oldRe oldIm i j).lt
            (StepLoop.greedyBest newRe newIm oldRe oldIm m used i).2 = false) ∧
        (∀ j, j < (StepLoop.greedyBest newRe newIm oldRe oldIm m used i).1 → used j = 0 →
          (StepLoop.greedyBest newRe newIm oldRe oldIm m used i).2.lt
            (dist2 newRe newIm oldRe oldIm i j) = true)) := by
  intro m
  induction m with
  | zero =>
    intro _
    left
    exact ⟨fun j hj => absurd hj (Nat.not_lt_zero j), rfl⟩
  | succ m ih =>
    intro hm
    have hstep : StepLoop.greedyBest newRe newIm oldRe oldIm (m + 1) used i
        = StepLoop.greedyScan newRe newIm oldRe oldIm used i
            (StepLoop.greedyBest newRe newIm oldRe oldIm m used i) m := by
      simp [StepLoop.greedyBest, List.range_succ, List.foldl_append]
    rw [hstep]
    have hfin : ∀ j, j < n → ∃ q : ℚ, dist2 newRe newIm oldRe oldIm i j = Dbl.fin q ∧
        0 ≤ q ∧ q < 10 ^ 300 := fun j hj => dist2_fin _ _ _ _ i j _ (hs j hj)
    obtain ⟨qm, hqm, -, hqm2⟩ := hfin m (by omega)
    generalize StepLoop.greedyBest newRe newIm oldRe oldIm m used i = b at ih ⊢
    unfold StepLoop.greedyScan
    by_cases hu : used m ≠ 0
    · rw [if_pos hu]
      rcases ih (by omega) with ⟨h1, h2⟩ | ⟨h1, h2, h3, h4, h5⟩
      · left
        refine ⟨fun j hj => ?_, h2⟩
        by_cases hjm : j = m
        · subst hjm; exact hu
        · exact h1 j (by omega)
      · right
        refine ⟨by omega, h2, h3, fun j hj hj0 => ?_, h5⟩
        by_cases hjm : j = m
        · subst hjm; exact absurd hj0 hu
        · exact h4 j (by omega) hj0
    · rw [if_neg hu]
      have hu0 : used m = 0 := by simpa using hu
      rcases ih (by omega) with ⟨h1, h2⟩ | ⟨h1, h2, h3, h4, h5⟩
      · right
        have hlt : (dist2 newRe newIm oldRe oldIm i m).lt b.2 = true := by
          rw [h2, hqm]; simpa [c1e300] using hqm2
        rw [if_pos hlt]
        refine ⟨by simp, hu0, rfl, fun j hj hj0 => ?_, fun j hj hj0 => ?_⟩
        · by_cases hjm : j = m
          · subst hjm; simp [hqm]
          · exact absurd hj0 (h1 j (by omega))
        · exact absurd hj0 (h1 j hj)
      · right
        obtain ⟨qb, hqb, -, -⟩ := hfin b.1 (by omega)
        rw [hqb] at h3
        by_cases hlt : (dist2 newRe newIm oldRe oldIm i m).lt b.2 = true
        · rw [if_pos hlt]
          rw [h3, hqm] at hlt
          have hlt2 : qm < qb := by simpa using hlt
          refine ⟨by simp, hu0, rfl, fun j hj hj0 => ?_, fun j hj hj0 => ?_⟩
          · by_cases hjm : j = m
            · subst hjm; simp [hqm]
            · obtain ⟨qj, hqj, -, -⟩ := hfin j (by omega)
              have h4j := h4 j (by omega) hj0
              rw [h3, hqj] at h4j
              have : ¬ qj < qb := by simpa using h4j
              simp only [hqm, hqj, Dbl.fin_lt, decide_eq_false_iff_not, not_lt]
              linarith
          · obtain ⟨qj, hqj, -, -⟩ := hfin j (by simp at hj; omega)
            have h4j := h4 j (by simpa using hj) hj0
            rw [h3, hqj] at h4j
            have : ¬ qj < qb := by simpa using h4j
            simp only [hqm, hqj, Dbl.fin_lt, decide_eq_true_eq]
            linarith
        · rw [if_neg hlt]
          refine ⟨by omega, h2, by rw [hqb]; exact h3, fun j hj hj0 => ?_, h5⟩
          by_cases hjm : j = m
          · subst hjm; simpa using hlt
          · exact h4 j (by omega) hj0

theorem greedyRun_succ (newRe newIm oldRe oldIm : DArr) (n m : Nat) :
    (List.range (m + 1)).foldl (StepLoop.greedyStep newRe newIm oldRe oldIm n)
        { used := fun _ => 0, tRe := fun _ => 0, tIm := fun _ => 0 }
      = StepLoop.greedyStep newRe newIm oldRe oldIm n
          ((List.range m).foldl (StepLoop.greedyStep newRe newIm oldRe oldIm n)
            { used := fun _ => 0, tRe := fun _ => 0, tIm := fun _ => 0 }) m := by
  simp [List.range_succ, List.foldl_append]

/-- A list of `m < n` indices cannot contain every index below `n`. -/
theorem exists_not_mem_of_length_lt (js : List Nat) (n : Nat) (h : js.length < n) :
    ∃ j, j < n ∧ j ∉ js := by
  by_contra hc
  push_neg at hc
  have hsub : List.range n ⊆ js := fun j hj => hc j (List.mem_range.mp hj)
  have := (List.subperm_of_subset (List.nodup_range n) hsub).length_le
  simp at this
  omega

/-- The outer loop of the greedy matcher keeps `GreedyInv`, every distance
being below the sentinel. -/
theorem greedyRun_inv (newRe newIm oldRe oldIm : DArr) (n : Nat)
    (hs : ∀ i j, i < n → j < n → (dist2 newRe newIm oldRe oldIm i j).lt c1e300 = true) :
    ∀ m, m ≤ n → ∃ js, GreedyInv newRe newIm oldRe oldIm n m
      ((List.range m).foldl (StepLoop.greedyStep newRe newIm oldRe oldIm n)
        { used := fun _ => 0, tRe := fun _ => 0, tIm := fun _ => 0 }) js := by
  intro m
  induction m with
  | zero =>
    intro _
    refine ⟨[], rfl, List.nodup_nil, ?_, ?_, ?_, ?_, ?_⟩
    · intro j hj; exact absurd hj (List.not_mem_nil j)
    · intro j; simp
    · intro k hk; omega
    · intro k hk; omega
    · intro k hk; omega
  | succ m ih =>
    intro hm
    obtain ⟨js, hlen, hnd, hlt, hused, ht, hmin, hlow⟩ := ih (by omega)
    rw [greedyRun_succ]
    generalize (List.range m).foldl (StepLoop.greedyStep newRe newIm oldRe oldIm n)
      { used := fun _ => 0, tRe := fun _ => 0, tIm := fun _ => 0 } = s at hused ht ⊢
    have hbest := greedyBest_upto newRe newIm oldRe oldIm s.used m n
      (fun j hj => hs m j (by omega) hj) n (le_refl n)
    rcases hbest with ⟨h1, -⟩ | ⟨h1, h2, h3, h4, h5⟩
    · exfalso
      obtain ⟨j, hj, hjn⟩ := exists_not_mem_of_length_lt js n (by omega)
      exact hjn ((hused j).mp (h1 j hj))
    · simp only [StepLoop.greedyStep]
      generalize StepLoop.greedyBest newRe newIm oldRe oldIm n s.used m = b at h1 h2 h3 h4 h5 ⊢
      have hbn : b.1 ∉ js := fun hb => (hused b.1).mpr hb h2
      have hget : ∀ k, k < m → (js ++ [b.1]).getD k 0 = js.getD k 0 := by
        intro k hk
        rw [List.getD_append _ _ _ _ (by omega)]
      have hgetm : (js ++ [b.1]).getD m 0 = b.1 := by
        rw [List.getD_append_right _ _ _ _ (by omega)]
        simp [hlen]
      have htake : ∀ k, k ≤ m → (js ++ [b.1]).take k = js.take k := by
        intro k hk
        rw [List.take_append_of_le_length (by omega)]
      refine ⟨js ++ [b.1], by simp [hlen], ?_, ?_, ?_, ?_, ?_, ?_⟩
      · rw [List.nodup_append]
        refine ⟨hnd, List.nodup_singleton _, ?_⟩
        intro a ha hb
        simp at hb
        subst hb
        exact hbn ha
      · intro j hj
        rcases List.mem_append.mp hj with h | h
        · exact hlt j h
        · simp at h; subst h; exact h1
      · intro j
        simp only [wr, List.mem_append, List.mem_singleton]
        by_cases hjb : j = b.1
        · simp [hjb]
        · simp only [hjb, if_false, or_false]
          exact hused j
      · intro k hk
        by_cases hkm : k = m
        · subst hkm
          rw [hgetm]
          simp [wr]
        · have hk2 : k < m := by omega
          rw [hget k hk2]
          simp only [wr, if_neg hkm]
          exact ht k hk2
      · intro k hk j hj hjt
        by_cases hkm : k = m
        · subst hkm
          rw [hgetm]
          rw [htake k (le_refl k), ← hlen, List.take_length] at hjt
          have hj0 : s.used j = 0 := by
            by_contra hc
            exact hjt ((hused j).mp hc)
          rw [← h3]
          exact h4 j hj hj0
        · have hk2 : k < m := by omega
          rw [hget k hk2]
          rw [htake k (by omega)] at hjt
          exact hmin k hk2 j hj hjt
      · intro k hk j hj hjt
        by_cases hkm : k = m
        · subst hkm
          rw [hgetm] at hj ⊢
          rw [htake k (le_refl k), ← hlen, List.take_length] at hjt
          have hj0 : s.used j = 0 := by
            by_contra hc
            exact hjt ((hused j).mp hc)
          rw [← h3]
          exact h5 j hj hj0
        · have hk2 : k < m := by omega
          rw [hget k hk2] at hj ⊢
          rw [htake k (by omega)] at hjt
          exact hlow k hk2 j hj hjt

/-- The greedy matcher, every distance being below the sentinel: the result
is `new` read through a list `js` of `n` distinct indices below `n`, each
`js[k]` being the lowest index, among those not chosen for an earlier
predecessor, at the least distance from predecessor `k`. -/
theorem matchRootsGreedy_spec (newRe newIm oldRe oldIm : DArr) (n : Nat)
    (hs : ∀ i j, i < n → j < n → (dist2 newRe newIm oldRe oldIm i j).lt c1e300 = true) :
    ∃ js : List Nat, js.length = n ∧ js.Nodup ∧ (∀ j ∈ js, j < n) ∧
      (∀ k, k < n →
        (StepLoop.matchRootsGreedy newRe newIm oldRe oldIm n).1 k = newRe (js.getD k 0) ∧
        (StepLoop.matchRootsGreedy newRe newIm oldRe oldIm n).2 k = newIm (js.getD k 0)) ∧
      (∀ k, k < n → ∀ j, j < n → j ∉ js.take k →
        (dist2 newRe newIm oldRe oldIm k j).lt
          (dist2 newRe newIm oldRe oldIm k (js.getD k 0)) = false) ∧
      (∀ k, k < n → ∀ j, j < js.getD k 0 → j ∉ js.take k →
        (dist2 newRe newIm oldRe oldIm k (js.getD k 0)).lt
          (dist2 newRe newIm oldRe oldIm k j) = true) := by
  obtain ⟨js, hlen, hnd, hlt, -, ht, hmin, hlow⟩ :=
    greedyRun_inv newRe newIm oldRe oldIm n hs n (le_refl n)
  refine ⟨js, hlen, hnd, hlt, ?_, hmin, hlow⟩
  intro k hk
  simp only [StepLoop.matchRootsGreedy, StepLoop.greedyRun, copyBack_apply, if_pos hk]
  exact ht k hk

/-- Reading an array through a list of `n` distinct indices below `n` gives a
permutation of its first `n` entries. -/
theorem rootList_perm (re im outRe outIm : DArr) (n : Nat) (js : List Nat)
    (hlen : js.length = n) (hnd : js.Nodup) (hlt : ∀ j ∈ js, j < n)
    (hout : ∀ k, k < n → outRe k = re (js.getD k 0) ∧ outIm k = im (js.getD k 0)) :
    (rootList outRe outIm n).Perm (rootList re im n) := by
  have hperm : js.Perm (List.range n) := by
    apply List.Subperm.perm_of_length_le
    · exact List.subperm_of_subset hnd (fun j hj => List.mem_range.mpr (hlt j hj))
    · simp [hlen]
  have hmap : rootList outRe outIm n = js.map (fun j => (re j, im j)) := by
    apply List.ext_getElem
    · simp [rootList, hlen]
    · intro k h1 h2
      simp only [rootList, List.length_map, List.length_range] at h1
      simp only [rootList, List.getElem_map, List.getElem_range]
      rw [(hout k h1).1, (hout k h1).2, List.getD_eq_getElem _ _ (by omega)]
  rw [hmap]
  exact hperm.map _

/-- In a list without duplicates the entry at position `k` is not among the
first `i <= k` entries. -/
theorem getD_not_mem_take (js : List Nat) (hnd : js.Nodup) (i k : Nat) (hik : i ≤ k)
    (hk : k < js.length) : js.getD k 0 ∉ js.take i := by
  intro hmem
  rw [List.mem_take_iff_getElem] at hmem
  obtain ⟨k2, hk2, he⟩ := hmem
  rw [List.getD_eq_getElem _ _ hk] at he
  have hk3 : k2 < js.length := by omega
  have := (@List.Nodup.getElem_inj_iff _ js hnd k2 hk3 k hk).mp he
  omega

/-! ## C8, C10: what the matchers guarantee -/

/-- C8 (amended). Greedy matching is a permutation when every squared
distance between a solved root and a predecessor is below the `1e300`
sentinel: the multiset of `(Re, Im)` pairs held in `new` is the same after
`matchRootsGreedy` as before. -/
theorem C8_greedy_permutation (newRe newIm oldRe oldIm : DArr) (n : Nat)
    (hs : ∀ i j, i < n → j < n → (dist2 newRe newIm oldRe oldIm i j).lt c1e300 = true) :
    (↑(rootList (StepLoop.matchRootsGreedy newRe newIm oldRe oldIm n).1
        (StepLoop.matchRootsGreedy newRe newIm oldRe oldIm n).2 n) : Multiset (Dbl × Dbl))
      = ↑(rootList newRe newIm n) := by
  obtain ⟨js, hlen, hnd, hlt, hout, -, -⟩ := matchRootsGreedy_spec newRe newIm oldRe oldIm n hs
  exact Multiset.coe_eq_coe.mpr (rootList_perm newRe newIm _ _ n js hlen hnd hlt hout)

/-- C8 (amended) on scenario S4: predecessors `{0, 1}`, solved roots
`{1.1, 0.1}`. -/
theorem C8_greedy_permutation_witness :
    (∀ i j, i < 2 → j < 2 →
      (dist2 (arr [Dbl.fin (11 / 10), Dbl.fin (1 / 10)]) (arr [0, 0]) (arr [0, 1]) (arr [0, 0])
        i j).lt c1e300 = true) ∧
    (↑(rootList
        (StepLoop.matchRootsGreedy (arr [Dbl.fin (11 / 10), Dbl.fin (1 / 10)]) (arr [0, 0])
          (arr [0, 1]) (arr [0, 0]) 2).1
        (StepLoop.matchRootsGreedy (arr [Dbl.fin (11 / 10), Dbl.fin (1 / 10)]) (arr [0, 0])
          (arr [0, 1]) (arr [0, 0]) 2).2 2) : Multiset (Dbl × Dbl))
      = ↑(rootList (arr [Dbl.fin (11 / 10), Dbl.fin (1 / 10)]) (arr [0, 0]) 2) :=
  have hs : ∀ i j, i < 2 → j < 2 →
      (dist2 (arr [Dbl.fin (11 / 10), Dbl.fin (1 / 10)]) (arr [0, 0]) (arr [0, 1]) (arr [0, 0])
        i j).lt c1e300 = true := by
    intro i j hi hj
    have hi2 : i = 0 ∨ i = 1 := by omega
    have hj2 : j = 0 ∨ j = 1 := by omega
    rcases hi2 with rfl | rfl <;> rcases hj2 with rfl | rfl <;> decide!
  ⟨hs, C8_greedy_permutation _ _ _ _ 2 hs⟩

/-- C8 as stated fails on predecessors `{0, 0}` and solved roots
`{0, 2e150}`: for predecessor 1 the only unused candidate lies at the squared
distance `4e300`, which is not below the sentinel `1e300`, so `bestJ` stays 0,
and the result holds the root 0 twice while the root `2e150` is lost. -/
theorem C8_counterexample :
    rootList (arr [0, Dbl.fin (2 * 10 ^ 150)]) (arr [0, 0]) 2
      = [(Dbl.fin 0, Dbl.fin 0), (Dbl.fin (2 * 10 ^ 150), Dbl.fin 0)] ∧
    rootList
      (StepLoop.matchRootsGreedy (arr [0, Dbl.fin (2 * 10 ^ 150)]) (arr [0, 0])
        (arr [0, 0]) (arr [0, 0]) 2).1
      (StepLoop.matchRootsGreedy (arr [0, Dbl.fin (2 * 10 ^ 150)]) (arr [0, 0])
        (arr [0, 0]) (arr [0, 0]) 2).2 2
      = [(Dbl.fin 0, Dbl.fin 0), (Dbl.fin 0, Dbl.fin 0)] ∧
    (↑(rootList
        (StepLoop.matchRootsGreedy (arr [0, Dbl.fin (2 * 10 ^ 150)]) (arr [0, 0])
          (arr [0, 0]) (arr [0, 0]) 2).1
        (StepLoop.matchRootsGreedy (arr [0, Dbl.fin (2 * 10 ^ 150)]) (arr [0, 0])
          (arr [0, 0]) (arr [0, 0]) 2).2 2) : Multiset (Dbl × Dbl))
      ≠ ↑(rootList (arr [0, Dbl.fin (2 * 10 ^ 150)]) (arr [0, 0]) 2) := by
  refine ⟨by decide!, by decide!, by decide!⟩

theorem scanQ_succ (c : Nat → ℚ) (n : Nat) (u v : Nat → ℚ) (used : NArr) (i0 j0 : Nat)
    (minv : Nat → ℚ) (way : NArr) (m : Nat) :
    scanQ c n u v used i0 j0 minv way (m + 1)
      = StepLoop.scanStep ltQ c n u v used i0 j0 (scanQ c n u v used i0 j0 minv way m) (m + 1) := by
  simp [scanQ, List.range'_concat, List.foldl_append, Nat.add_comm]

theorem scanStep_used (c : Nat → ℚ) (n : Nat) (u v : Nat → ℚ) (used : NArr) (i0 j0 : Nat)
    (s : StepLoop.Scan ℚ) (j : Nat) (hu : used j ≠ 0) :
    StepLoop.scanStep ltQ c n u v used i0 j0 s j = s := by
  unfold StepLoop.scanStep
  rw [if_pos hu]

theorem scanStep_minv (c : Nat → ℚ) (n : Nat) (u v : Nat → ℚ) (used : NArr) (i0 j0 : Nat)
    (s : StepLoop.Scan ℚ) (j : Nat) (hu : used j = 0) :
    (StepLoop.scanStep ltQ c n u v used i0 j0 s j).minv
      = wr s.minv j (min (cst c n i0 j - u i0 - v j) (s.minv j)) := by
  have hu' : ¬ used j ≠ 0 := by simpa using hu
  unfold StepLoop.scanStep
  rw [if_neg hu']
  simp only [ltQ, decide_eq_true_eq, cst]
  funext k
  split_ifs with h1 h2 h2 <;> simp only [wr] <;> split_ifs with hk <;>
    first
    | rfl
    | (subst hk; rw [min_eq_left (le_of_lt h1)])
    | (subst hk; rw [min_eq_right (not_lt.mp h1)])

theorem scanStep_way (c : Nat → ℚ) (n : Nat) (u v : Nat → ℚ) (used : NArr) (i0 j0 : Nat)
    (s : StepLoop.Scan ℚ) (j : Nat) (hu : used j = 0) :
    (StepLoop.scanStep ltQ c n u v used i0 j0 s j).way
      = if cst c n i0 j - u i0 - v j < s.minv j then wr s.way j j0 else s.way := by
  have hu' : ¬ used j ≠ 0 := by simpa using hu
  unfold StepLoop.scanStep
  rw [if_neg hu']
  simp only [ltQ, decide_eq_true_eq, cst]
  split_ifs <;> rfl

theorem scanStep_delta (c : Nat → ℚ) (n : Nat) (u v : Nat → ℚ) (used : NArr) (i0 j0 : Nat)
    (s : StepLoop.Scan ℚ) (j : Nat) (hu : used j = 0) :
    (StepLoop.scanStep ltQ c n u v used i0 j0 s j).delta
        = min (min (cst c n i0 j - u i0 - v j) (s.minv j)) s.delta ∧
    (StepLoop.scanStep ltQ c n u v used i0 j0 s j).j1
        = if min (cst c n i0 j - u i0 - v j) (s.minv j) < s.delta then (j : Int) else s.j1 := by
  have hu' : ¬ used j ≠ 0 := by simpa using hu
  unfold StepLoop.scanStep
  rw [if_neg hu']
  simp only [ltQ, decide_eq_true_eq, cst]
  by_cases h1 : c ((i0 - 1) * n + (j - 1)) - u i0 - v j < s.minv j
  · simp only [if_pos h1, wr, if_true, min_eq_left (le_of_lt h1)]
    by_cases h2 : c ((i0 - 1) * n + (j - 1)) - u i0 - v j < s.delta
    · simp only [if_pos h2, min_eq_left (le_of_lt h2), and_self]
    · simp only [if_neg h2, min_eq_right (not_lt.mp h2), and_self]
  · simp only [if_neg h1, min_eq_right (not_lt.mp h1)]
    by_cases h2 : s.minv j < s.delta
    · simp only [if_pos h2, min_eq_left (le_of_lt h2), and_self]
    · simp only [if_neg h2, min_eq_right (not_lt.mp h2), and_self]

/-- The column scan, `minv` entry by entry. -/
theorem scanQ_minv (c : Nat → ℚ) (n : Nat) (u v : Nat → ℚ) (used : NArr) (i0 j0 : Nat)
    (minv : Nat → ℚ) (way : NArr) (m j : Nat) :
    (scanQ c n u v used i0 j0 minv way m).minv j
      = if 1 ≤ j ∧ j ≤ m ∧ used j = 0 then min (cst c n i0 j - u i0 - v j) (minv j)
        else minv j := by
  induction m with
  | zero =>
    rw [if_neg (by omega)]; rfl
  | succ m ih =>
    rw [scanQ_succ]
    by_cases hu : used (m + 1) = 0
    · rw [scanStep_minv _ _ _ _ _ _ _ _ _ hu]
      simp only [wr]
      by_cases hj : j = m + 1
      · subst hj
        have h0 : ¬ (1 ≤ m + 1 ∧ m + 1 ≤ m ∧ used (m + 1) = 0) := by omega
        rw [if_neg h0] at ih
        rw [if_pos rfl, ih, if_pos ⟨by omega, le_refl _, hu⟩]
      · have hle : j ≤ m + 1 ↔ j ≤ m := by omega
        rw [if_neg hj, ih]
        simp only [hle]
    · rw [scanStep_used _ _ _ _ _ _ _ _ _ hu, ih]
      by_cases hj : j = m + 1
      · subst hj
        rw [if_neg (by omega), if_neg (fun h => hu h.2.2)]
      · have hle : j ≤ m + 1 ↔ j ≤ m := by omega
        simp only [hle]

/-- The column scan, `way` entry by entry. -/
theorem scanQ_way (c : Nat → ℚ) (n : Nat) (u v : Nat → ℚ) (used : NArr) (i0 j0 : Nat)
    (minv : Nat → ℚ) (way : NArr) (m j : Nat) :
    (scanQ c n u v used i0 j0 minv way m).way j
      = if 1 ≤ j ∧ j ≤ m ∧ used j = 0 ∧ cst c n i0 j - u i0 - v j < minv j then j0
        else way j := by
  induction m with
  | zero =>
    rw [if_neg (by omega)]; rfl
  | succ m ih =>
    rw [scanQ_succ]
    by_cases hu : used (m + 1) = 0
    · rw [scanStep_way _ _ _ _ _ _ _ _ _ hu]
      have hm : (scanQ c n u v used i0 j0 minv way m).minv (m + 1) = minv (m + 1) := by
        rw [scanQ_minv, if_neg (by omega)]
      rw [hm]
      by_cases hj : j = m + 1
      · subst hj
        have h0 : ¬ (1 ≤ m + 1 ∧ m + 1 ≤ m ∧ used (m + 1) = 0 ∧
            cst c n i0 (m + 1) - u i0 - v (m + 1) < minv (m + 1)) := by omega
        rw [if_neg h0] at ih
        by_cases hc : cst c n i0 (m + 1) - u i0 - v (m + 1) < minv (m + 1)
        · rw [if_pos hc, if_pos ⟨by omega, le_refl _, hu, hc⟩]
          simp [wr]
        · rw [if_neg hc, if_neg (fun h => hc h.2.2.2), ih]
      · have hle : j ≤ m + 1 ↔ j ≤ m := by omega
        simp only [hle]
        by_cases hc : cst c n i0 (m + 1) - u i0 - v (m + 1) < minv (m + 1)
        · rw [if_pos hc]
          simp only [wr, if_neg hj]
          exact ih
        · rw [if_neg hc]
          exact ih
    · rw [scanStep_used _ _ _ _ _ _ _ _ _ hu, ih]
      by_cases hj : j = m + 1
      · subst hj
        rw [if_neg (by omega), if_neg (fun h => hu h.2.2.1)]
      · have hle : j ≤ m + 1 ↔ j ≤ m := by omega
        simp only [hle]

/-- The column scan: the selected minimum. -/
theorem scanQ_sel (c : Nat → ℚ) (n : Nat) (u v : Nat → ℚ) (used : NArr) (i0 j0 : Nat)
    (minv : Nat → ℚ) (way : NArr) (m : Nat) :
    (scanQ c n u v used i0 j0 minv way m).delta ≤ INFQ ∧
    (∀ j, 1 ≤ j → j ≤ m → used j = 0 →
      (scanQ c n u v used i0 j0 minv way m).delta
        ≤ (scanQ c n u v used i0 j0 minv way m).minv j) ∧
    (((scanQ c n u v used i0 j0 minv way m).j1 = -1 ∧
        (scanQ c n u v used i0 j0 minv way m).delta = INFQ) ∨
      (∃ j1 : Nat, (scanQ c n u v used i0 j0 minv way m).j1 = (j1 : Int) ∧ 1 ≤ j1 ∧ j1 ≤ m ∧
        used j1 = 0 ∧
        (scanQ c n u v used i0 j0 minv way m).delta
          = (scanQ c n u v used i0 j0 minv way m).minv j1 ∧
        (scanQ c n u v used i0 j0 minv way m).delta < INFQ)) := by
  induction m with
  | zero =>
    exact ⟨le_refl _, fun j h1 h2 _ => by omega, Or.inl ⟨rfl, rfl⟩⟩
  | succ m ih =>
    obtain ⟨hC, hD, hE⟩ := ih
    have hkeep : ∀ j, j ≤ m → (scanQ c n u v used i0 j0 minv way (m + 1)).minv j
        = (scanQ c n u v used i0 j0 minv way m).minv j := by
      intro j hj
      have hle : j ≤ m + 1 ↔ j ≤ m := by omega
      rw [scanQ_minv, scanQ_minv]
      simp only [hle]
    by_cases hu : used (m + 1) = 0
    · have hnew : (scanQ c n u v used i0 j0 minv way (m + 1)).minv (m + 1)
          = min (cst c n i0 (m + 1) - u i0 - v (m + 1))
              ((scanQ c n u v used i0 j0 minv way m).minv (m + 1)) := by
        rw [scanQ_succ, scanStep_minv _ _ _ _ _ _ _ _ _ hu]
        simp [wr]
      have hd := scanStep_delta c n u v used i0 j0 (scanQ c n u v used i0 j0 minv way m)
        (m + 1) hu
      rw [← scanQ_succ, ← hnew] at hd
      obtain ⟨hd1, hd2⟩ := hd
      refine ⟨?_, ?_, ?_⟩
      · rw [hd1]; exact le_trans (min_le_right _ _) hC
      · intro j h1 h2 h3
        by_cases hj : j = m + 1
        · subst hj; rw [hd1]; exact min_le_left _ _
        · rw [hkeep j (by omega), hd1]
          exact le_trans (min_le_right _ _) (hD j h1 (by omega) h3)
      · by_cases hlt : (scanQ c n u v used i0 j0 minv way (m + 1)).minv (m + 1)
            < (scanQ c n u v used i0 j0 minv way m).delta
        · right
          refine ⟨m + 1, ?_, by omega, le_refl _, hu, ?_, ?_⟩
          · rw [hd2, if_pos hlt]
          · rw [hd1, min_eq_left (le_of_lt hlt)]
          · rw [hd1, min_eq_left (le_of_lt hlt)]
            exact lt_of_lt_of_le hlt hC
        · have hdd : (scanQ c n u v used i0 j0 minv way (m + 1)).delta
              = (scanQ c n u v used i0 j0 minv way m).delta := by
            rw [hd1, min_eq_right (not_lt.mp hlt)]
          rw [hd2, if_neg hlt, hdd]
          rcases hE with h | ⟨j1, h1, h2, h3, h4, h5, h6⟩
          · exact Or.inl h
          · exact Or.inr ⟨j1, h1, h2, by omega, h4, by rw [hkeep j1 h3]; exact h5, h6⟩
    · have hsame : scanQ c n u v used i0 j0 minv way (m + 1)
          = scanQ c n u v used i0 j0 minv way m := by
        rw [scanQ_succ, scanStep_used _ _ _ _ _ _ _ _ _ hu]
      rw [hsame]
      refine ⟨hC, ?_, ?_⟩
      · intro j h1 h2 h3
        by_cases hj : j = m + 1
        · subst hj; exact absurd h3 hu
        · exact hD j h1 (by omega) h3
      · rcases hE with h | ⟨j1, h1, h2, h3, h4, h5, h6⟩
        · exact Or.inl h
        · exact Or.inr ⟨j1, h1, h2, by omega, h4, h5, h6⟩
theorem updateQ_succ (p used : NArr) (delta : ℚ) (u v minv : Nat → ℚ) (m : Nat) :
    updateQ p used delta u v minv (m + 1)
      = StepLoop.updateStep p used delta (updateQ p used delta u v minv m) m := by
  simp [updateQ, List.range_succ, List.foldl_append]

/-- The potential update, `v` and `minv` entry by entry. -/
theorem updateQ_v (p used : NArr) (delta : ℚ) (u v minv : Nat → ℚ) (m j : Nat) :
    (updateQ p used delta u v minv m).v j
        = (if j < m ∧ used j ≠ 0 then v j - delta else v j) ∧
    (updateQ p used delta u v minv m).minv j
        = (if j < m ∧ used j = 0 then minv j - delta else minv j) := by
  induction m with
  | zero =>
    rw [if_neg (by omega), if_neg (by omega)]; exact ⟨rfl, rfl⟩
  | succ m ih =>
    obtain ⟨ih1, ih2⟩ := ih
    rw [updateQ_succ]
    unfold StepLoop.updateStep
    by_cases hu : used m ≠ 0
    · rw [if_pos hu]
      simp only [wr]
      by_cases hj : j = m
      · subst hj
        have e1 : ¬ (j < j ∧ used j ≠ 0) := by omega
        have e2 : ¬ (j < j ∧ used j = 0) := by omega
        have e3 : ¬ (j < j + 1 ∧ used j = 0) := fun h => hu h.2
        rw [if_neg e1] at ih1
        rw [if_neg e2] at ih2
        rw [if_pos rfl, if_pos ⟨Nat.lt_succ_self j, hu⟩, if_neg e3, ih1, ih2]
        exact ⟨rfl, rfl⟩
      · have hlt : j < m + 1 ↔ j < m := by omega
        rw [if_neg hj, ih1, ih2]
        simp only [hlt, and_self]
    · rw [if_neg hu]
      have hu0 : used m = 0 := by simpa using hu
      simp only [wr]
      by_cases hj : j = m
      · subst hj
        have e1 : ¬ (j < j ∧ used j ≠ 0) := by omega
        have e2 : ¬ (j < j ∧ used j = 0) := by omega
        have e3 : ¬ (j < j + 1 ∧ used j ≠ 0) := fun h => hu h.2
        rw [if_neg e1] at ih1
        rw [if_neg e2] at ih2
        rw [if_pos rfl, if_neg e3, if_pos ⟨Nat.lt_succ_self j, hu0⟩, ih1, ih2]
        exact ⟨rfl, rfl⟩
      · have hlt : j < m + 1 ↔ j < m := by omega
        rw [if_neg hj, ih1, ih2]
        simp only [hlt, and_self]

/-- The potential update, `u` entry by entry: the rows of the used columns
are raised once each, `p` being injective on the used columns. -/
theorem updateQ_u (p used : NArr) (delta : ℚ) (u v minv : Nat → ℚ) (m : Nat)
    (hinj : ∀ j j2, j < m → j2 < m → used j ≠ 0 → used j2 ≠ 0 → p j = p j2 → j = j2) (r : Nat) :
    ((∃ j, j < m ∧ used j ≠ 0 ∧ p j = r) →
      (updateQ p used delta u v minv m).u r = u r + delta) ∧
    ((¬ ∃ j, j < m ∧ used j ≠ 0 ∧ p j = r) →
      (updateQ p used delta u v minv m).u r = u r) := by
  induction m with
  | zero =>
    refine ⟨?_, fun _ => rfl⟩
    rintro ⟨j, hj, -⟩; omega
  | succ m ih =>
    obtain ⟨ih1, ih2⟩ := ih (fun j j2 h1 h2 => hinj j j2 (by omega) (by omega))
    rw [updateQ_succ]
    unfold StepLoop.updateStep
    by_cases hu : used m ≠ 0
    · rw [if_pos hu]
      simp only [wr]
      by_cases hr : r = p m
      · subst hr
        rw [if_pos rfl]
        have hno : ¬ ∃ j, j < m ∧ used j ≠ 0 ∧ p j = p m := by
          rintro ⟨j, hj, hj2, hj3⟩
          have := hinj j m (by omega) (by omega) hj2 hu hj3
          omega
        rw [ih2 hno]
        refine ⟨fun _ => rfl, fun h => absurd ⟨m, by omega, hu, rfl⟩ h⟩
      · rw [if_neg hr]
        constructor
        · rintro ⟨j, hj, hj2, hj3⟩
          have hjm : j ≠ m := by
            intro h; subst h; exact hr hj3.symm
          exact ih1 ⟨j, by omega, hj2, hj3⟩
        · intro h
          exact ih2 (fun ⟨j, hj, hj2, hj3⟩ => h ⟨j, by omega, hj2, hj3⟩)
    · rw [if_neg hu]
      constructor
      · rintro ⟨j, hj, hj2, hj3⟩
        have hjm : j ≠ m := by
          intro h; subst h; exact hu hj2
        exact ih1 ⟨j, by omega, hj2, hj3⟩
      · intro h
        exact ih2 (fun ⟨j, hj, hj2, hj3⟩ => h ⟨j, by omega, hj2, hj3⟩)
theorem phaseLoop_succ (c : Nat → ℚ) (n fuel : Nat) (s : StepLoop.HState ℚ) :
    StepLoop.phaseLoop ltQ INFQ c n (fuel + 1) s
      = if (scanQ c n s.u s.v (wr s.used s.j0 1) (s.p s.j0) s.j0 s.minv s.way n).j1 < 0 then none
        else if s.p (stepQ c n s).j0 ≠ 0 then StepLoop.phaseLoop ltQ INFQ c n fuel (stepQ c n s)
        else some (stepQ c n s) := rfl

theorem augmentLoop_succ (way : NArr) (fuel : Nat) (p : NArr) (j0 : Nat) :
    StepLoop.augmentLoop way (fuel + 1) p j0
      = if way j0 ≠ 0 then StepLoop.augmentLoop way fuel (wr p j0 (p (way j0))) (way j0)
        else some (wr p j0 (p (way j0))) := rfl

theorem wr_liftArr (a : Nat → ℚ) (j : Nat) (x : ℚ) :
    wr (liftArr a) j (Dbl.fin x) = liftArr (wr a j x) := by
  funext k
  simp only [wr, liftArr]
  split_ifs <;> rfl

@[simp] theorem wr_same {α : Type} (a : Nat → α) (j : Nat) (x : α) : wr a j x j = x := by
  simp [wr]

@[simp] theorem liftArr_apply (a : Nat → ℚ) (k : Nat) : liftArr a k = Dbl.fin (a k) := rfl

theorem scanStep_lift (c : Nat → ℚ) (n : Nat) (u v : Nat → ℚ) (used : NArr) (i0 j0 : Nat)
    (s : StepLoop.Scan ℚ) (j : Nat) :
    StepLoop.scanStep Dbl.lt (liftArr c) n (liftArr u) (liftArr v) used i0 j0 (liftScan s) j
      = liftScan (StepLoop.scanStep ltQ c n u v used i0 j0 s j) := by
  by_cases hu : used j ≠ 0
  · simp only [StepLoop.scanStep, if_pos hu]
  · by_cases h1 : c ((i0 - 1) * n + (j - 1)) - u i0 - v j < s.minv j
    · by_cases h2 : c ((i0 - 1) * n + (j - 1)) - u i0 - v j < s.delta
      · simp [StepLoop.scanStep, hu, liftScan, ltQ, h1, h2, wr_liftArr]
      · simp [StepLoop.scanStep, hu, liftScan, ltQ, h1, h2, wr_liftArr]
    · by_cases h2 : s.minv j < s.delta
      · simp [StepLoop.scanStep, hu, liftScan, ltQ, h1, h2, wr_liftArr]
      · simp [StepLoop.scanStep, hu, liftScan, ltQ, h1, h2, wr_liftArr]

theorem scan_foldl_lift (c : Nat → ℚ) (n : Nat) (u v : Nat → ℚ) (used : NArr) (i0 j0 : Nat) :
    ∀ (l : List Nat) (s : StepLoop.Scan ℚ),
      l.foldl (StepLoop.scanStep Dbl.lt (liftArr c) n (liftArr u) (liftArr v) used i0 j0)
          (liftScan s)
        = liftScan (l.foldl (StepLoop.scanStep ltQ c n u v used i0 j0) s) := by
  intro l
  induction l with
  | nil => intro s; rfl
  | cons a t ih =>
    intro s
    simp only [List.foldl_cons]
    rw [scanStep_lift, ih]

theorem updateStep_lift (p used : NArr) (delta : ℚ) (s : StepLoop.Pots ℚ) (j : Nat) :
    StepLoop.updateStep p used (Dbl.fin delta) (liftPots s) j
      = liftPots (StepLoop.updateStep p used delta s j) := by
  unfold StepLoop.updateStep
  by_cases hu : used j ≠ 0
  · rw [if_pos hu, if_pos hu]
    simp only [liftPots]
    have e1 : liftArr s.u (p j) + Dbl.fin delta = Dbl.fin (s.u (p j) + delta) := rfl
    have e2 : liftArr s.v j - Dbl.fin delta = Dbl.fin (s.v j - delta) := Dbl.fin_sub _ _
    rw [e1, e2, wr_liftArr, wr_liftArr]
  · rw [if_neg hu, if_neg hu]
    simp only [liftPots]
    have e2 : liftArr s.minv j - Dbl.fin delta = Dbl.fin (s.minv j - delta) := Dbl.fin_sub _ _
    rw [e2, wr_liftArr]

theorem update_foldl_lift (p used : NArr) (delta : ℚ) :
    ∀ (l : List Nat) (s : StepLoop.Pots ℚ),
      l.foldl (StepLoop.updateStep p used (Dbl.fin delta)) (liftPots s)
        = liftPots (l.foldl (StepLoop.updateStep p used delta) s) := by
  intro l
  induction l with
  | nil => intro s; rfl
  | cons a t ih =>
    intro s
    simp only [List.foldl_cons]
    rw [updateStep_lift, ih]

theorem phaseLoop_lift (c : Nat → ℚ) (n : Nat) :
    ∀ (fuel : Nat) (s : StepLoop.HState ℚ),
      StepLoop.phaseLoop Dbl.lt c1e18 (liftArr c) n fuel (liftHState s)
        = (StepLoop.phaseLoop ltQ INFQ c n fuel s).map liftHState := by
  intro fuel
  induction fuel with
  | zero => intro s; rfl
  | succ fuel ih =>
    intro s
    have hscan := scan_foldl_lift c n s.u s.v (wr s.used s.j0 1) (s.p s.j0) s.j0
      (List.range' 1 n) { minv := s.minv, way := s.way, delta := INFQ, j1 := -1 }
    have hinit : liftScan { minv := s.minv, way := s.way, delta := INFQ, j1 := -1 }
        = { minv := liftArr s.minv, way := s.way, delta := c1e18, j1 := -1 } := by
      simp [liftScan, c1e18, INFQ]
    rw [hinit] at hscan
    simp only [StepLoop.phaseLoop, liftHState]
    rw [hscan]
    generalize (List.range' 1 n).foldl
      (StepLoop.scanStep ltQ c n s.u s.v (wr s.used s.j0 1) (s.p s.j0) s.j0)
      { minv := s.minv, way := s.way, delta := INFQ, j1 := -1 } = sc
    have hupd := update_foldl_lift s.p (wr s.used s.j0 1) sc.delta (List.range (n + 1))
      { u := s.u, v := s.v, minv := sc.minv }
    simp only [liftPots] at hupd
    simp only [liftScan]
    rw [hupd]
    generalize (List.range (n + 1)).foldl (StepLoop.updateStep s.p (wr s.used s.j0 1) sc.delta)
      { u := s.u, v := s.v, minv := sc.minv } = pt
    by_cases hj : sc.j1 < 0
    · simp only [if_pos hj, Option.map_none']
    · simp only [if_neg hj]
      by_cases hp : s.p sc.j1.toNat ≠ 0
      · simp only [if_pos hp]
        exact ih
          { u := pt.u, v := pt.v, p := s.p, way := sc.way, minv := pt.minv,
            used := wr s.used s.j0 1, j0 := sc.j1.toNat }
      · simp only [if_neg hp, Option.map_some']
        rfl

theorem phases_lift (c : Nat → ℚ) (n : Nat) :
    ∀ (l : List Nat) (g : StepLoop.HPots ℚ),
      StepLoop.phases Dbl.lt c1e18 (liftArr c) n l (liftHPots g)
        = (StepLoop.phases ltQ INFQ c n l g).map liftHPots := by
  intro l
  induction l with
  | nil => intro g; rfl
  | cons i t ih =>
    intro g
    have hphase : StepLoop.phase Dbl.lt c1e18 (liftArr c) n (liftHPots g) i
        = (StepLoop.phase ltQ INFQ c n g i).map liftHPots := by
      have h := phaseLoop_lift c n (n + 1)
        { u := g.u, v := g.v, p := wr g.p 0 i, way := g.way, minv := fun _ => INFQ,
          used := fun _ => 0, j0 := 0 }
      have hinit :
          liftHState
            { u := g.u, v := g.v, p := wr g.p 0 i, way := g.way, minv := fun _ => INFQ,
              used := fun _ => 0, j0 := 0 }
          = { u := liftArr g.u, v := liftArr g.v, p := wr g.p 0 i, way := g.way,
              minv := fun _ => c1e18, used := fun _ => 0, j0 := 0 } := by
        rfl
      rw [hinit] at h
      simp only [StepLoop.phase, liftHPots]
      rw [h]
      cases StepLoop.phaseLoop ltQ INFQ c n (n + 1)
          { u := g.u, v := g.v, p := wr g.p 0 i, way := g.way, minv := fun _ => INFQ,
            used := fun _ => 0, j0 := 0 } with
      | none => rfl
      | some s =>
        simp only [Option.map_some', liftHState]
        cases StepLoop.augmentLoop s.way (n + 1) s.p s.j0 with
        | none => rfl
        | some p1 => rfl
    simp only [StepLoop.phases]
    rw [hphase]
    cases StepLoop.phase ltQ INFQ c n g i with
    | none => rfl
    | some g1 =>
      simp only [Option.map_some']
      exact ih g1

/-- On a cost matrix of finite doubles the Hungarian loops compute the very
array `p` they compute on the rationals. -/
theorem hungarianAssign_fin (c : Nat → ℚ) (n : Nat) :
    StepLoop.hungarianAssign Dbl.lt c1e18 0 (liftArr c) n
      = StepLoop.hungarianAssign ltQ INFQ 0 c n := by
  have h := phases_lift c n (List.range' 1 n)
    { u := fun _ => 0, v := fun _ => 0, p := fun _ => 0, way := fun _ => 0 }
  have hinit : liftHPots { u := fun _ => 0, v := fun _ => 0, p := fun _ => 0, way := fun _ => 0 }
      = { u := fun _ => (0 : Dbl), v := fun _ => (0 : Dbl), p := fun _ => 0, way := fun _ => 0 } := by
    simp only [liftHPots, liftArr]
    rfl
  rw [hinit] at h
  simp only [StepLoop.hungarianAssign]
  rw [h]
  cases StepLoop.phases ltQ INFQ c n (List.range' 1 n)
      { u := fun _ => 0, v := fun _ => 0, p := fun _ => 0, way := fun _ => 0 } with
  | none => rfl
  | some g => rfl

/-! ## The cost matrix and the final placement -/

theorem Dbl.eq_fin_toRat (x : Dbl) (h : x.isFinite = true) : x = Dbl.fin x.toRat := by
  cases x with
  | fin q => rfl
  | pinf => exact absurd h (by decide)
  | ninf => exact absurd h (by decide)
  | nan => exact absurd h (by decide)

/-- One row of the cost matrix, entry by entry. -/
theorem costRow_apply (f : Nat → Dbl) (c : DArr) (base l k : Nat) :
    (List.range l).foldl (fun c j => wr c (base + j) (f j)) c k
      = if base ≤ k ∧ k < base + l then f (k - base) else c k := by
  induction l with
  | zero => rw [if_neg (by omega)]; rfl
  | succ l ih =>
    rw [List.range_succ, List.foldl_append]
    simp only [List.foldl_cons, List.foldl_nil, wr]
    by_cases hk : k = base + l
    · subst hk
      rw [if_pos rfl, if_pos ⟨by omega, by omega⟩]
      congr 1
      omega
    · rw [if_neg hk, ih]
      have : (base ≤ k ∧ k < base + (l + 1)) ↔ (base ≤ k ∧ k < base + l) := by omega
      simp only [this]

/-- The cost matrix, entry by entry. -/
theorem costMatrix_apply (newRe newIm oldRe oldIm : DArr) (n k : Nat) :
    StepLoop.costMatrix newRe newIm oldRe oldIm n k
      = if k < n * n then dist2 newRe newIm oldRe oldIm (k / n) (k % n) else 0 := by
  have key : ∀ m, m ≤ n →
      (List.range m).foldl
        (fun c i => (List.range n).foldl
          (fun c j => wr c (i * n + j) (dist2 newRe newIm oldRe oldIm i j)) c)
        (fun _ => (0 : Dbl)) k
        = if k < m * n then dist2 newRe newIm oldRe oldIm (k / n) (k % n) else 0 := by
    intro m
    induction m with
    | zero => intro _; rw [if_neg (by omega)]; rfl
    | succ m ih =>
      intro hm
      rw [List.range_succ, List.foldl_append]
      simp only [List.foldl_cons, List.foldl_nil]
      rw [costRow_apply (fun j => dist2 newRe newIm oldRe oldIm m j)]
      by_cases hk : m * n ≤ k ∧ k < m * n + n
      · rw [if_pos hk, if_pos (by rw [Nat.succ_mul]; omega)]
        have hn : 0 < n := by omega
        have hdiv : k / n = m := Nat.div_eq_of_lt_le hk.1 (by rw [Nat.succ_mul]; omega)
        have hmod : k % n = k - m * n := by
          have := Nat.mod_add_div k n
          rw [hdiv, Nat.mul_comm] at this
          omega
        rw [hdiv, hmod]
      · rw [if_neg hk, ih (by omega)]
        have : k < (m + 1) * n ↔ k < m * n := by rw [Nat.succ_mul]; omega
        simp only [this]
  exact key n (le_refl n)

theorem costMatrix_at (newRe newIm oldRe oldIm : DArr) (n i j : Nat) (hi : i < n) (hj : j < n) :
    StepLoop.costMatrix newRe newIm oldRe oldIm n (i * n + j)
      = dist2 newRe newIm oldRe oldIm i j := by
  rw [costMatrix_apply]
  have h1 : i * n + j < n * n := by
    have : i * n + n ≤ n * n := by
      have := Nat.mul_le_mul_right n (Nat.succ_le_of_lt hi)
      rw [Nat.succ_mul] at this
      exact this
    omega
  rw [if_pos h1]
  have hdiv : (i * n + j) / n = i :=
    Nat.div_eq_of_lt_le (by omega) (by rw [Nat.succ_mul]; omega)
  have hmod : (i * n + j) % n = j := by
    rw [Nat.add_comm, Nat.add_mul_mod_self_right]
    exact Nat.mod_eq_of_lt hj
  rw [hdiv, hmod]

theorem place_succ (p : NArr) (newRe newIm : DArr) (t0 : Option (DArr × DArr)) (m : Nat) :
    (List.range' 1 (m + 1)).foldl (StepLoop.placeStep p newRe newIm) t0
      = StepLoop.placeStep p newRe newIm
          ((List.range' 1 m).foldl (StepLoop.placeStep p newRe newIm) t0) (m + 1) := by
  simp [List.range'_concat, List.foldl_append, Nat.add_comm]

/-- The placement loop, for an array `p` that maps the columns `1..n`
one-to-one to rows from 1 on: no store leaves the array and `t[p[j] - 1]`
ends as `new[j - 1]`. -/
theorem place_spec (p : NArr) (newRe newIm : DArr) (n : Nat)
    (hp : ∀ j, 1 ≤ j → j ≤ n → 1 ≤ p j)
    (hinj : ∀ j j2, 1 ≤ j → j ≤ n → 1 ≤ j2 → j2 ≤ n → p j = p j2 → j = j2) :
    ∀ m, m ≤ n → ∃ t : DArr × DArr,
      (List.range' 1 m).foldl (StepLoop.placeStep p newRe newIm)
          (some (fun _ => 0, fun _ => 0)) = some t ∧
      ∀ j, 1 ≤ j → j ≤ m → t.1 (p j - 1) = newRe (j - 1) ∧ t.2 (p j - 1) = newIm (j - 1) := by
  intro m
  induction m with
  | zero =>
    intro _
    exact ⟨_, rfl, fun j h1 h2 => by omega⟩
  | succ m ih =>
    intro hm
    obtain ⟨t, e, ht⟩ := ih (by omega)
    have hpm := hp (m + 1) (by omega) hm
    rw [place_succ, e]
    simp only [StepLoop.placeStep]
    rw [if_neg (by omega)]
    refine ⟨_, rfl, ?_⟩
    intro j h1 h2
    by_cases hj : j = m + 1
    · subst hj
      simp
    · have hne : p j - 1 ≠ p (m + 1) - 1 := by
        intro he
        have hpj := hp j h1 (by omega)
        have := hinj j (m + 1) h1 (by omega) (by omega) hm (by omega)
        exact hj this
      simp only [wr, if_neg hne]
      exact ht j h1 (by omega)
/-- The total cost of finite squared distances is their sum. -/
theorem totalCost_fin (re im oldRe oldIm : DArr) (q : Nat → ℚ) :
    ∀ n, (∀ i, i < n → dist2 re im oldRe oldIm i i = Dbl.fin (q i)) →
      totalCost re im oldRe oldIm n = Dbl.fin (∑ i in Finset.range n, q i) := by
  intro n
  induction n with
  | zero => intro _; simp [totalCost]
  | succ m ih =>
    intro h
    have h1 := ih (fun i hi => h i (by omega))
    unfold totalCost at h1 ⊢
    rw [List.range_succ, List.foldl_append]
    simp only [List.foldl_cons, List.foldl_nil]
    rw [h1, h m (by omega), Dbl.fin_add, Finset.sum_range_succ]

/-- The squared distance between two finite points is a non-negative finite
value, zero exactly when the points coincide. -/
theorem dist2_finite (re im : DArr) (i j : Nat)
    (hi : (re i).isFinite = true ∧ (im i).isFinite = true)
    (hj : (re j).isFinite = true ∧ (im j).isFinite = true) :
    ∃ q : ℚ, dist2 re im re im i j = Dbl.fin q ∧ 0 ≤ q ∧
      (q = 0 ↔ (re j = re i ∧ im j = im i)) := by
  have ha := Dbl.eq_fin_toRat _ hi.1
  have hb := Dbl.eq_fin_toRat _ hi.2
  have hx := Dbl.eq_fin_toRat _ hj.1
  have hy := Dbl.eq_fin_toRat _ hj.2
  generalize (re i).toRat = a at ha
  generalize (im i).toRat = b at hb
  generalize (re j).toRat = x at hx
  generalize (im j).toRat = y at hy
  rw [ha, hb, hx, hy]
  unfold dist2
  rw [ha, hb, hx, hy]
  refine ⟨(x - a) * (x - a) + (y - b) * (y - b), ?_, ?_, ?_⟩
  · simp
  · exact add_nonneg (mul_self_nonneg _) (mul_self_nonneg _)
  · constructor
    · intro h
      have h1 : (x - a) * (x - a) = 0 := by
        nlinarith [mul_self_nonneg (x - a), mul_self_nonneg (y - b)]
      have h2 : (y - b) * (y - b) = 0 := by
        nlinarith [mul_self_nonneg (x - a), mul_self_nonneg (y - b)]
      have h3 : x - a = 0 := mul_self_eq_zero.mp h1
      have h4 : y - b = 0 := mul_self_eq_zero.mp h2
      have h5 : x = a := by linarith
      have h6 : y = b := by linarith
      rw [h5, h6]; exact ⟨rfl, rfl⟩
    · rintro ⟨h1, h2⟩
      have h5 : x = a := by injection h1
      have h6 : y = b := by injection h2
      rw [h5, h6]; ring

/-- In the identity case the inner loop of the greedy matcher, run for
predecessor `m` when exactly the roots below `m` are taken, selects root `m`. -/
theorem greedyBest_identity (re im : DArr) (n m : Nat) (used : NArr)
    (hfin : ∀ i, i < n → (re i).isFinite = true ∧ (im i).isFinite = true)
    (hm : m < n) (hu : ∀ j, used j ≠ 0 ↔ j < m) :
    ∀ l, l ≤ n → StepLoop.greedyBest re im re im l used m
      = if l ≤ m then (0, c1e300) else (m, Dbl.fin 0) := by
  intro l
  induction l with
  | zero => intro _; simp [StepLoop.greedyBest]
  | succ l ih =>
    intro hl
    have h1 := ih (by omega)
    unfold StepLoop.greedyBest at h1 ⊢
    rw [List.range_succ, List.foldl_append]
    simp only [List.foldl_cons, List.foldl_nil]
    obtain ⟨q, e, hq, hz⟩ := dist2_finite re im m l (hfin m hm) (hfin l (by omega))
    rcases Nat.lt_trichotomy l m with hlt | heq | hgt
    · rw [if_pos (by omega)] at h1
      rw [h1, if_pos (by omega)]
      unfold StepLoop.greedyScan
      rw [if_pos ((hu l).mpr hlt)]
    · subst heq
      have hnu : ¬ used l ≠ 0 := by rw [hu l]; omega
      have hq0 : q = 0 := hz.mpr ⟨rfl, rfl⟩
      subst hq0
      rw [if_pos (le_refl _)] at h1
      rw [h1, if_neg (by omega)]
      unfold StepLoop.greedyScan
      rw [if_neg hnu, e]
      simp [c1e300]
    · have hnu : ¬ used l ≠ 0 := by rw [hu l]; omega
      rw [if_neg (by omega)] at h1
      rw [h1, if_neg (by omega)]
      unfold StepLoop.greedyScan
      rw [if_neg hnu, e]
      have : ¬ q < 0 := not_lt.mpr hq
      simp [this]

/-- In the identity case the outer loop of the greedy matcher, after `m`
steps, has taken exactly the roots below `m` and holds root `k` in entry `k`. -/
theorem greedyRun_identity (re im : DArr) (n : Nat)
    (hfin : ∀ i, i < n → (re i).isFinite = true ∧ (im i).isFinite = true) :
    ∀ m, m ≤ n →
      (∀ j, ((List.range m).foldl (StepLoop.greedyStep re im re im n)
          { used := fun _ => 0, tRe := fun _ => 0, tIm := fun _ => 0 }).used j ≠ 0 ↔ j < m) ∧
      (∀ k, k < m →
        ((List.range m).foldl (StepLoop.greedyStep re im re im n)
          { used := fun _ => 0, tRe := fun _ => 0, tIm := fun _ => 0 }).tRe k = re k ∧
        ((List.range m).foldl (StepLoop.greedyStep re im re im n)
          { used := fun _ => 0, tRe := fun _ => 0, tIm := fun _ => 0 }).tIm k = im k) := by
  intro m
  induction m with
  | zero =>
    intro _
    exact ⟨fun j => by simp, fun k hk => by omega⟩
  | succ m ih =>
    intro hm
    obtain ⟨hu, ht⟩ := ih (by omega)
    rw [greedyRun_succ]
    generalize (List.range m).foldl (StepLoop.greedyStep re im re im n)
        { used := fun _ => 0, tRe := fun _ => 0, tIm := fun _ => 0 } = s at hu ht
    have hb := greedyBest_identity re im n m s.used hfin (by omega) hu n (le_refl _)
    rw [if_neg (by omega)] at hb
    simp only [StepLoop.greedyStep, hb]
    constructor
    · intro j
      simp only [wr]
      by_cases hj : j = m
      · subst hj; simp
      · rw [if_neg hj, hu j]; omega
    · intro k hk
      simp only [wr]
      by_cases hj : k = m
      · subst hj; simp
      · rw [if_neg hj, if_neg hj]; exact ht k (by omega)

/-- In the identity case the greedy matcher returns the roots as they are. -/
theorem greedy_identity (re im : DArr) (n : Nat)
    (hfin : ∀ i, i < n → (re i).isFinite = true ∧ (im i).isFinite = true) :
    StepLoop.matchRootsGreedy re im re im n = (re, im) := by
  obtain ⟨-, ht⟩ := greedyRun_identity re im n hfin n (le_refl _)
  unfold StepLoop.matchRootsGreedy StepLoop.greedyRun
  refine Prod.ext ?_ ?_
  · funext k
    show copyBack n _ re k = re k
    rw [copyBack_apply]
    split_ifs with hk
    · exact (ht k hk).1
    · rfl
  · funext k
    show copyBack n _ im k = im k
    rw [copyBack_apply]
    split_ifs with hk
    · exact (ht k hk).2
    · rfl

/-- The column selected by the scan is the first minimiser: every earlier
column that is not flagged lies strictly above `delta`. -/
theorem scanQ_first (c : Nat → ℚ) (n : Nat) (u v : Nat → ℚ) (used : NArr) (i0 j0 : Nat)
    (minv : Nat → ℚ) (way : NArr) (m : Nat) :
    ∀ j1 : Nat, (scanQ c n u v used i0 j0 minv way m).j1 = (j1 : Int) →
      ∀ j, 1 ≤ j → j < j1 → used j = 0 →
        (scanQ c n u v used i0 j0 minv way m).delta
          < (scanQ c n u v used i0 j0 minv way m).minv j := by
  induction m with
  | zero =>
    intro j1 h
    exact absurd h (by show (-1 : Int) ≠ (j1 : Int); omega)
  | succ m ih =>
    obtain ⟨hC, hD, hE⟩ := scanQ_sel c n u v used i0 j0 minv way m
    have hkeep : ∀ j, j ≤ m → (scanQ c n u v used i0 j0 minv way (m + 1)).minv j
        = (scanQ c n u v used i0 j0 minv way m).minv j := by
      intro j hj
      have hle : j ≤ m + 1 ↔ j ≤ m := by omega
      rw [scanQ_minv, scanQ_minv]
      simp only [hle]
    have hj1m : ∀ j1 : Nat, (scanQ c n u v used i0 j0 minv way m).j1 = (j1 : Int) → j1 ≤ m := by
      intro j1 h
      rcases hE with ⟨h2, -⟩ | ⟨j2, h2, -, h3, -⟩
      · rw [h2] at h; omega
      · rw [h2] at h; omega
    by_cases hu : used (m + 1) = 0
    · have hnew : (scanQ c n u v used i0 j0 minv way (m + 1)).minv (m + 1)
          = min (cst c n i0 (m + 1) - u i0 - v (m + 1))
              ((scanQ c n u v used i0 j0 minv way m).minv (m + 1)) := by
        rw [scanQ_succ, scanStep_minv _ _ _ _ _ _ _ _ _ hu]
        simp [wr]
      have hd := scanStep_delta c n u v used i0 j0 (scanQ c n u v used i0 j0 minv way m)
        (m + 1) hu
      rw [← scanQ_succ, ← hnew] at hd
      obtain ⟨hd1, hd2⟩ := hd
      intro j1 h j hj1 hj2 hj3
      by_cases hlt : (scanQ c n u v used i0 j0 minv way (m + 1)).minv (m + 1)
          < (scanQ c n u v used i0 j0 minv way m).delta
      · rw [hd2, if_pos hlt] at h
        have : j1 = m + 1 := by omega
        subst this
        rw [hd1, min_eq_left (le_of_lt hlt), hkeep j (by omega)]
        exact lt_of_lt_of_le hlt (hD j hj1 (by omega) hj3)
      · rw [hd2, if_neg hlt] at h
        have := hj1m j1 h
        rw [hd1, min_eq_right (not_lt.mp hlt), hkeep j (by omega)]
        exact ih j1 h j hj1 hj2 hj3
    · have hsame : scanQ c n u v used i0 j0 minv way (m + 1)
          = scanQ c n u v used i0 j0 minv way m := by
        rw [scanQ_succ, scanStep_used _ _ _ _ _ _ _ _ _ hu]
      rw [hsame]
      exact ih

/-- One iteration of the first do-while loop in the identity case: a column
beyond `j0` is selected at `delta = 0` and the invariant is kept. -/
theorem idStep (c : Nat → ℚ) (n i : Nat) (P : NArr) (s : StepLoop.HState ℚ)
    (hc : IdCost c n) (hP : IdP n i P) (hi1 : 1 ≤ i) (hin : i ≤ n)
    (h : IdInv c n i P s) (hj0 : s.j0 < i) :
    ¬ (scanQ c n s.u s.v (wr s.used s.j0 1) (s.p s.j0) s.j0 s.minv s.way n).j1 < 0 ∧
    s.j0 < (stepQ c n s).j0 ∧ IdInv c n i P (stepQ c n s) := by
  obtain ⟨iu, iv, ip, ij, ijz, iused, ifirst, ilater⟩ := h
  obtain ⟨hc1, hc2, hc3⟩ := hc
  obtain ⟨hP0, hP1, hP2⟩ := hP
  have hINF : (0 : ℚ) < INFQ := by unfold INFQ; norm_num
  -- the row read by the scan equals row i
  have hrow : ∀ k, 1 ≤ k → k ≤ n → cst c n (s.p s.j0) k = cst c n i k := by
    intro k h1 h2
    rw [ip]
    by_cases hz : s.j0 = 0
    · rw [hz, hP0]
    · rw [hP1 s.j0 (by omega) hj0]
      rcases ijz with e | e
      · exact absurd e hz
      · exact hc3 i s.j0 hi1 hin (by omega) (by omega) e k h1 h2
  -- the flags after marking the pending column
  have hU1 : ∀ j, wr s.used s.j0 1 j ≠ 0 ↔ (j ≤ s.j0 ∧ (j = 0 ∨ cst c n i j = 0)) := by
    intro j
    simp only [wr]
    by_cases hj : j = s.j0
    · subst hj
      simp only [if_true]
      constructor
      · intro _
        refine ⟨le_refl _, ?_⟩
        rcases ijz with e | e
        · exact Or.inl e
        · exact Or.inr e
      · intro _; exact one_ne_zero
    · rw [if_neg hj, iused j]
      constructor
      · rintro ⟨a, b⟩; exact ⟨by omega, b⟩
      · rintro ⟨a, b⟩; exact ⟨by omega, b⟩
  have hU0 : ∀ j, wr s.used s.j0 1 j = 0 → s.used j = 0 := by
    intro j hj
    by_contra hne
    have h1 := (iused j).mp hne
    have h2 : wr s.used s.j0 1 j ≠ 0 := (hU1 j).mpr ⟨by omega, h1.2⟩
    exact h2 hj
  obtain ⟨sc, hsc⟩ : ∃ sc, sc = scanQ c n s.u s.v (wr s.used s.j0 1) (s.p s.j0) s.j0 s.minv
    s.way n := ⟨_, rfl⟩
  have hold : ∀ j, 1 ≤ j → j ≤ n → wr s.used s.j0 1 j = 0 →
      min (cst c n i j) (s.minv j) = min (cst c n i j) INFQ ∧
      (cst c n i j < s.minv j → s.j0 = 0) ∧
      (¬ cst c n i j < s.minv j → cst c n i j < INFQ → s.way j = 0) := by
    intro j h1 h2 h3
    by_cases hz : s.j0 = 0
    · rw [ifirst hz j]
      exact ⟨rfl, fun _ => hz, fun a b => absurd b a⟩
    · obtain ⟨e1, e2⟩ := ilater hz j h1 h2 (hU0 j h3)
      rw [e1]
      refine ⟨by rw [← min_assoc, min_self], ?_, fun _ b => e2 b⟩
      intro hlt
      exact absurd hlt (not_lt.mpr (min_le_left _ _))
  have hscm : ∀ j, 1 ≤ j → j ≤ n → wr s.used s.j0 1 j = 0 →
      sc.minv j = min (cst c n i j) INFQ := by
    intro j h1 h2 h3
    rw [hsc, scanQ_minv, if_pos ⟨h1, h2, h3⟩, iu, iv, hrow j h1 h2]
    simp only [sub_zero]
    exact (hold j h1 h2 h3).1
  have hscw : ∀ j, 1 ≤ j → j ≤ n → wr s.used s.j0 1 j = 0 → cst c n i j < INFQ →
      sc.way j = 0 := by
    intro j h1 h2 h3 h4
    rw [hsc, scanQ_way, iu, iv, hrow j h1 h2]
    simp only [sub_zero]
    by_cases hlt : cst c n i j < s.minv j
    · rw [if_pos ⟨h1, h2, h3, hlt⟩]
      exact (hold j h1 h2 h3).2.1 hlt
    · rw [if_neg (fun hh => hlt hh.2.2.2)]
      exact (hold j h1 h2 h3).2.2 hlt h4
  obtain ⟨hdINF, hdmin, hsel⟩ := scanQ_sel c n s.u s.v (wr s.used s.j0 1) (s.p s.j0) s.j0
    s.minv s.way n
  have hfirst := scanQ_first c n s.u s.v (wr s.used s.j0 1) (s.p s.j0) s.j0 s.minv s.way n
  rw [← hsc] at hdINF hdmin hsel hfirst
  -- column i is free at cost 0
  have hiU : wr s.used s.j0 1 i = 0 := by
    by_contra hne
    have := ((hU1 i).mp hne).1
    omega
  have hmi : sc.minv i = 0 := by
    rw [hscm i hi1 hin hiU, hc2 i hi1 hin]
    exact min_eq_left (le_of_lt hINF)
  have hd0 : sc.delta ≤ 0 := by
    have := hdmin i hi1 hin hiU
    rw [hmi] at this; exact this
  rcases hsel with ⟨-, hbad⟩ | ⟨j1, hj1, hj1a, hj1b, hj1c, hj1d, hj1e⟩
  · exfalso; rw [hbad] at hd0; exact absurd hINF (not_lt.mpr hd0)
  have hm1 : sc.minv j1 = min (cst c n i j1) INFQ := hscm j1 hj1a hj1b hj1c
  have hc0 : 0 ≤ cst c n i j1 := hc1 i j1 hi1 hin hj1a hj1b
  have hdz : sc.delta = 0 := by
    apply le_antisymm hd0
    rw [hj1d, hm1]
    exact le_min hc0 (le_of_lt hINF)
  have hcz : cst c n i j1 = 0 := by
    have e : min (cst c n i j1) INFQ = 0 := by rw [← hm1, ← hj1d, hdz]
    rcases min_choice (cst c n i j1) INFQ with e2 | e2
    · rw [e2] at e; exact e
    · rw [e2] at e; exact absurd e (ne_of_gt hINF)
  have hj1i : j1 ≤ i := by
    by_contra hgt
    have := hfirst j1 hj1 i hi1 (by omega) hiU
    rw [hdz, hmi] at this
    exact absurd this (lt_irrefl _)
  have hj1j : s.j0 < j1 := by
    by_contra hle
    have : wr s.used s.j0 1 j1 ≠ 0 := (hU1 j1).mpr ⟨by omega, Or.inr hcz⟩
    exact this hj1c
  have hJ : (stepQ c n s).j0 = j1 := by
    show (scanQ c n s.u s.v (wr s.used s.j0 1) (s.p s.j0) s.j0 s.minv s.way n).j1.toNat = j1
    rw [← hsc, hj1]; simp
  refine ⟨by rw [← hsc, hj1]; omega, by rw [hJ]; exact hj1j, ?_⟩
  -- the update at delta = 0 changes nothing
  have hinj : ∀ j j2, j < n + 1 → j2 < n + 1 → wr s.used s.j0 1 j ≠ 0 →
      wr s.used s.j0 1 j2 ≠ 0 → s.p j = s.p j2 → j = j2 := by
    intro j j2 _ _ h3 h4 h5
    have a := ((hU1 j).mp h3).1
    have b := ((hU1 j2).mp h4).1
    rw [ip] at h5
    by_cases hj : j = 0
    · by_cases hj2 : j2 = 0
      · omega
      · rw [hj, hP0, hP1 j2 (by omega) (by omega)] at h5; omega
    · by_cases hj2 : j2 = 0
      · rw [hj2, hP0, hP1 j (by omega) (by omega)] at h5; omega
      · rw [hP1 j (by omega) (by omega), hP1 j2 (by omega) (by omega)] at h5; exact h5
  have hu2 : (stepQ c n s).u = fun _ => 0 := by
    funext r
    have := updateQ_u s.p (wr s.used s.j0 1) sc.delta s.u s.v sc.minv (n + 1) hinj r
    rw [hsc] at this
    show (updateQ s.p (wr s.used s.j0 1) _ s.u s.v _ (n + 1)).u r = 0
    by_cases hex : ∃ j, j < n + 1 ∧ wr s.used s.j0 1 j ≠ 0 ∧ s.p j = r
    · rw [this.1 hex, ← hsc, hdz, iu]; simp
    · rw [this.2 hex, iu]
  have hv2 : (stepQ c n s).v = fun _ => 0 := by
    funext j
    have := (updateQ_v s.p (wr s.used s.j0 1) sc.delta s.u s.v sc.minv (n + 1) j).1
    rw [hsc] at this
    show (updateQ s.p (wr s.used s.j0 1) _ s.u s.v _ (n + 1)).v j = 0
    rw [this, ← hsc, hdz, iv]; simp
  have hm2 : ∀ j, (stepQ c n s).minv j = sc.minv j := by
    intro j
    have := (updateQ_v s.p (wr s.used s.j0 1) sc.delta s.u s.v sc.minv (n + 1) j).2
    rw [hsc] at this
    show (updateQ s.p (wr s.used s.j0 1) _ s.u s.v _ (n + 1)).minv j = _
    rw [this, ← hsc, hdz]; simp
  have hused2 : ∀ j, (stepQ c n s).used j ≠ 0 ↔ (j < j1 ∧ (j = 0 ∨ cst c n i j = 0)) := by
    intro j
    show wr s.used s.j0 1 j ≠ 0 ↔ _
    rw [hU1 j]
    constructor
    · rintro ⟨a, b⟩; exact ⟨by omega, b⟩
    · rintro ⟨a, b⟩
      refine ⟨?_, b⟩
      by_contra hgt
      have hfree : wr s.used s.j0 1 j = 0 := by
        by_contra hne
        have := ((hU1 j).mp hne).1
        omega
      have hj1' : 1 ≤ j := by omega
      have hjn : j ≤ n := by omega
      have hcj : cst c n i j = 0 := by
        rcases b with b | b
        · omega
        · exact b
      have := hfirst j1 hj1 j hj1' a hfree
      rw [hdz, hscm j hj1' hjn hfree, hcj, min_eq_left (le_of_lt hINF)] at this
      exact absurd this (lt_irrefl _)
  exact
    { iu := hu2
      iv := hv2
      ip := ip
      ij := by rw [hJ]; exact hj1i
      ijz := by rw [hJ]; exact Or.inr hcz
      iused := by rw [hJ]; exact hused2
      ifirst := by rw [hJ]; intro e; omega
      ilater := by
        intro _ j h1 h2 h3
        have h3' : wr s.used s.j0 1 j = 0 := h3
        refine ⟨by rw [hm2 j]; exact hscm j h1 h2 h3', ?_⟩
        intro h4
        show (scanQ c n s.u s.v (wr s.used s.j0 1) (s.p s.j0) s.j0 s.minv s.way n).way j = 0
        rw [← hsc]
        exact hscw j h1 h2 h3' h4 }

/-- The first do-while loop in the identity case ends on column `i`, with
`way[i] = 0` and the potentials still zero. -/
theorem idLoop (c : Nat → ℚ) (n i : Nat) (P : NArr)
    (hc : IdCost c n) (hP : IdP n i P) (hi1 : 1 ≤ i) (hin : i ≤ n) :
    ∀ (fuel : Nat) (s : StepLoop.HState ℚ), IdInv c n i P s → s.j0 < i → i ≤ s.j0 + fuel →
      ∃ s2, StepLoop.phaseLoop ltQ INFQ c n fuel s = some s2 ∧ IdInv c n i P s2 ∧
        s2.j0 = i := by
  intro fuel
  induction fuel with
  | zero => intro s _ h1 h2; omega
  | succ fuel ih =>
    intro s h hj0 hf
    obtain ⟨h1, h2, h3⟩ := idStep c n i P s hc hP hi1 hin h hj0
    rw [phaseLoop_succ, if_neg h1]
    have hle := h3.ij
    by_cases hlt : (stepQ c n s).j0 < i
    · have hp : s.p (stepQ c n s).j0 ≠ 0 := by
        rw [h.ip, hP.2.1 _ (by omega) hlt]; omega
      rw [if_pos hp]
      exact ih _ h3 hlt (by omega)
    · have he : (stepQ c n s).j0 = i := by omega
      have hp : ¬ s.p (stepQ c n s).j0 ≠ 0 := by
        rw [h.ip, he, hP.2.2 i (le_refl _) hin]; simp
      rw [if_neg hp]
      exact ⟨_, rfl, h3, he⟩

/-- One phase in the identity case matches column `i` to row `i` and changes
nothing else. -/
theorem idPhase (c : Nat → ℚ) (n i : Nat) (g : StepLoop.HPots ℚ)
    (hc : IdCost c n) (hi1 : 1 ≤ i) (hin : i ≤ n) (hg : IdG n i g) :
    ∃ g2, StepLoop.phase ltQ INFQ c n g i = some g2 ∧ IdG n (i + 1) g2 := by
  obtain ⟨gu, gv, gp1, gp2⟩ := hg
  have hP : IdP n i (wr g.p 0 i) := by
    refine ⟨by simp [wr], ?_, ?_⟩
    · intro j h1 h2
      simp only [wr]
      rw [if_neg (by omega)]; exact gp1 j h1 h2
    · intro j h1 h2
      simp only [wr]
      rw [if_neg (by omega)]; exact gp2 j h1 h2
  have h0 : IdInv c n i (wr g.p 0 i)
      { u := g.u, v := g.v, p := wr g.p 0 i, way := g.way, minv := fun _ => INFQ,
        used := fun _ => 0, j0 := 0 } :=
    { iu := gu
      iv := gv
      ip := rfl
      ij := Nat.zero_le _
      ijz := Or.inl rfl
      iused := by
        intro j
        constructor
        · intro h; exact absurd rfl h
        · rintro ⟨h, -⟩; exact absurd h (Nat.not_lt_zero _)
      ifirst := fun _ _ => rfl
      ilater := fun h => absurd rfl h }
  obtain ⟨s2, e, hs2, hj⟩ := idLoop c n i (wr g.p 0 i) hc hP hi1 hin (n + 1) _ h0
    (by show 0 < i; omega) (by show i ≤ 0 + (n + 1); omega)
  have hui : s2.used i = 0 := by
    by_contra hne
    have := ((hs2.iused i).mp hne).1
    omega
  have hw : s2.way i = 0 := by
    have := (hs2.ilater (by omega) i hi1 hin hui).2
    apply this
    rw [hc.2.1 i hi1 hin]
    unfold INFQ; norm_num
  unfold StepLoop.phase
  rw [e]
  simp only []
  rw [hj, augmentLoop_succ, if_neg (by rw [hw]; simp)]
  refine ⟨_, rfl, hs2.iu, hs2.iv, ?_, ?_⟩
  · intro j h1 h2
    show wr s2.p i (s2.p (s2.way i)) j = j
    rw [hw, hs2.ip]
    simp only [wr]
    by_cases hji : j = i
    · subst hji; simp
    · rw [if_neg hji, if_neg (by omega)]; exact gp1 j h1 (by omega)
  · intro j h1 h2
    show wr s2.p i (s2.p (s2.way i)) j = 0
    rw [hw, hs2.ip]
    simp only [wr]
    rw [if_neg (by omega), if_neg (by omega)]; exact gp2 j (by omega) h2

/-- The phases in the identity case leave every column matched to its own
row. -/
theorem idPhases (c : Nat → ℚ) (n : Nat) (hc : IdCost c n) :
    ∀ (k i : Nat) (g : StepLoop.HPots ℚ), 1 ≤ i → i + k = n + 1 → IdG n i g →
      ∃ g2, StepLoop.phases ltQ INFQ c n (List.range' i k) g = some g2 ∧ IdG n (n + 1) g2 := by
  intro k
  induction k with
  | zero =>
    intro i g _ hik hg
    have : i = n + 1 := by omega
    subst this
    exact ⟨g, rfl, hg⟩
  | succ k ih =>
    intro i g hi1 hik hg
    obtain ⟨g1, e1, hg1⟩ := idPhase c n i g hc hi1 (by omega) hg
    obtain ⟨g2, e2, hg2⟩ := ih (i + 1) g1 (by omega) (by omega) hg1
    refine ⟨g2, ?_, hg2⟩
    rw [List.range'_succ]
    simp only [StepLoop.phases, e1]
    exact e2

/-- The Hungarian loops on the cost matrix of the identity case return an
array `p` with `p[j] = j` on the columns `1..n`. -/
theorem hungarianAssignQ_identity (c : Nat → ℚ) (n : Nat) (hc : IdCost c n) :
    ∃ p : NArr, StepLoop.hungarianAssign ltQ INFQ 0 c n = some p ∧
      ∀ j, 1 ≤ j → j ≤ n → p j = j := by
  obtain ⟨g2, e, -, -, hp, -⟩ := idPhases c n hc n 1
    { u := fun _ => (0 : ℚ), v := fun _ => (0 : ℚ), p := fun _ => 0, way := fun _ => 0 }
    (le_refl _) (by omega)
    ⟨rfl, rfl, fun j h1 h2 => by omega, fun j _ _ => rfl⟩
  refine ⟨g2.p, ?_, fun j h1 h2 => hp j h1 (by omega)⟩
  unfold StepLoop.hungarianAssign
  rw [e]; rfl

/-- The cost matrix of the identity case on finite roots is finite and has
the shape `IdCost`. -/
theorem costMatrix_identity (re im : DArr) (n : Nat)
    (hfin : ∀ i, i < n → (re i).isFinite = true ∧ (im i).isFinite = true) :
    StepLoop.costMatrix re im re im n
        = liftArr (fun k => (StepLoop.costMatrix re im re im n k).toRat) ∧
    IdCost (fun k => (StepLoop.costMatrix re im re im n k).toRat) n := by
  have hcell : ∀ r j, 1 ≤ r → r ≤ n → 1 ≤ j → j ≤ n →
      cst (fun k => (StepLoop.costMatrix re im re im n k).toRat) n r j
        = (dist2 re im re im (r - 1) (j - 1)).toRat := by
    intro r j h1 h2 h3 h4
    show (StepLoop.costMatrix re im re im n ((r - 1) * n + (j - 1))).toRat = _
    rw [costMatrix_at _ _ _ _ n (r - 1) (j - 1) (by omega) (by omega)]
  constructor
  · funext k
    show StepLoop.costMatrix re im re im n k
      = Dbl.fin (StepLoop.costMatrix re im re im n k).toRat
    apply Dbl.eq_fin_toRat
    rw [costMatrix_apply]
    split_ifs with hk
    · have hn0 : 0 < n := by
        rcases Nat.eq_zero_or_pos n with h | h
        · subst h; simp at hk
        · exact h
      have h1 : k / n < n := Nat.div_lt_of_lt_mul hk
      have h2 : k % n < n := Nat.mod_lt _ hn0
      obtain ⟨q, e, -, -⟩ := dist2_finite re im (k / n) (k % n) (hfin _ h1) (hfin _ h2)
      rw [e]; rfl
    · rfl
  · refine ⟨?_, ?_, ?_⟩
    · intro r j h1 h2 h3 h4
      rw [hcell r j h1 h2 h3 h4]
      obtain ⟨q, e, hq, -⟩ := dist2_finite re im (r - 1) (j - 1) (hfin _ (by omega))
        (hfin _ (by omega))
      rw [e]; exact hq
    · intro r h1 h2
      rw [hcell r r h1 h2 h1 h2]
      obtain ⟨q, e, -, hz⟩ := dist2_finite re im (r - 1) (r - 1) (hfin _ (by omega))
        (hfin _ (by omega))
      rw [e]; exact hz.mpr ⟨rfl, rfl⟩
    · intro r j h1 h2 h3 h4 h0 k h5 h6
      rw [hcell r j h1 h2 h3 h4] at h0
      rw [hcell j k h3 h4 h5 h6, hcell r k h1 h2 h5 h6]
      obtain ⟨q, e, -, hz⟩ := dist2_finite re im (r - 1) (j - 1) (hfin _ (by omega))
        (hfin _ (by omega))
      rw [e] at h0
      obtain ⟨e1, e2⟩ := hz.mp h0
      unfold dist2
      rw [e1, e2]

/-- In the identity case the Hungarian matcher returns the roots as they
are, for every `n`. -/
theorem hungarian_identity (re im : DArr) (n : Nat)
    (hfin : ∀ i, i < n → (re i).isFinite = true ∧ (im i).isFinite = true) :
    StepLoop.hungarianMatch re im re im n = some (re, im) := by
  by_cases hn : n > StepLoop.HUNGARIAN_MAX
  · simp only [StepLoop.hungarianMatch, if_pos hn, greedy_identity re im n hfin]
  · obtain ⟨hlift, hc⟩ := costMatrix_identity re im n hfin
    obtain ⟨p, hassign, hp⟩ := hungarianAssignQ_identity _ n hc
    have hassignD : StepLoop.hungarianAssign Dbl.lt c1e18 0
        (StepLoop.costMatrix re im re im n) n = some p := by
      rw [hlift, hungarianAssign_fin]; exact hassign
    obtain ⟨t, ht, hplace⟩ := place_spec p re im n (fun j h1 h2 => by rw [hp j h1 h2]; exact h1)
      (fun j j2 h1 h2 h3 h4 e => by rw [hp j h1 h2, hp j2 h3 h4] at e; exact e) n (le_refl n)
    simp only [StepLoop.hungarianMatch, if_neg hn, hassignD, ht]
    congr 1
    refine Prod.ext ?_ ?_
    · funext k
      show copyBack n t.1 re k = re k
      rw [copyBack_apply]
      split_ifs with hk
      · have := (hplace (k + 1) (by omega) (by omega)).1
        rw [hp (k + 1) (by omega) (by omega)] at this
        simpa using this
      · rfl
    · funext k
      show copyBack n t.2 im k = im k
      rw [copyBack_apply]
      split_ifs with hk
      · have := (hplace (k + 1) (by omega) (by omega)).2
        rw [hp (k + 1) (by omega) (by omega)] at this
        simpa using this
      · rfl

/-- The total cost of the identity arrangement is zero. -/
theorem totalCost_identity (re im : DArr) (n : Nat)
    (hfin : ∀ i, i < n → (re i).isFinite = true ∧ (im i).isFinite = true) :
    totalCost re im re im n = 0 := by
  have h : ∀ i, i < n → dist2 re im re im i i = Dbl.fin ((fun _ => (0 : ℚ)) i) := by
    intro i hi
    obtain ⟨q, e, -, hz⟩ := dist2_finite re im i i (hfin i hi) (hfin i hi)
    rw [e, hz.mpr ⟨rfl, rfl⟩]
  rw [totalCost_fin re im re im _ n h]
  simp

/-- C12 (amended). Identity case on finite roots: when the solved array
equals the predecessor array and every entry below `n` is finite, then for
every `n` both `matchRootsGreedy` and `hungarianMatch` return the array
unchanged entry by entry, so the two agree and the total cost is 0. -/
theorem C12_identity_case (re im : DArr) (n : Nat)
    (hfin : ∀ i, i < n → (re i).isFinite = true ∧ (im i).isFinite = true) :
    StepLoop.matchRootsGreedy re im re im n = (re, im) ∧
    StepLoop.hungarianMatch re im re im n = some (re, im) ∧
    StepLoop.hungarianMatch re im re im n = some (StepLoop.matchRootsGreedy re im re im n) ∧
    totalCost re im re im n = 0 := by
  refine ⟨greedy_identity re im n hfin, hungarian_identity re im n hfin, ?_,
    totalCost_identity re im n hfin⟩
  rw [greedy_identity re im n hfin]
  exact hungarian_identity re im n hfin

/-- C12 (amended) on the roots `1 + 2i`, `1 + 2i`, `-3`: a repeated root
included. -/
theorem C12_identity_case_witness :
    (∀ i, i < 3 → ((arr [1, 1, Dbl.fin (-3)]) i).isFinite = true ∧
      ((arr [2, 2, 0]) i).isFinite = true) ∧
    StepLoop.matchRootsGreedy (arr [1, 1, Dbl.fin (-3)]) (arr [2, 2, 0])
        (arr [1, 1, Dbl.fin (-3)]) (arr [2, 2, 0]) 3
      = (arr [1, 1, Dbl.fin (-3)], arr [2, 2, 0]) ∧
    StepLoop.hungarianMatch (arr [1, 1, Dbl.fin (-3)]) (arr [2, 2, 0])
        (arr [1, 1, Dbl.fin (-3)]) (arr [2, 2, 0]) 3
      = some (arr [1, 1, Dbl.fin (-3)], arr [2, 2, 0]) ∧
    StepLoop.hungarianMatch (arr [1, 1, Dbl.fin (-3)]) (arr [2, 2, 0])
        (arr [1, 1, Dbl.fin (-3)]) (arr [2, 2, 0]) 3
      = some (StepLoop.matchRootsGreedy (arr [1, 1, Dbl.fin (-3)]) (arr [2, 2, 0])
        (arr [1, 1, Dbl.fin (-3)]) (arr [2, 2, 0]) 3) ∧
    totalCost (arr [1, 1, Dbl.fin (-3)]) (arr [2, 2, 0])
        (arr [1, 1, Dbl.fin (-3)]) (arr [2, 2, 0]) 3 = 0 :=
  have hfin : ∀ i, i < 3 → ((arr [1, 1, Dbl.fin (-3)]) i).isFinite = true ∧
      ((arr [2, 2, 0]) i).isFinite = true := by
    intro i hi
    have h : i = 0 ∨ i = 1 ∨ i = 2 := by omega
    rcases h with rfl | rfl | rfl <;> exact ⟨rfl, rfl⟩
  ⟨hfin, C12_identity_case _ _ 3 hfin⟩

/-- C12 as stated fails for `n = 2` on `new = old = {0, +infinity}`: the
squared distance from the infinite root to itself is NaN
(`infinity - infinity`), which never compares below the running best, so the
greedy matcher keeps `bestJ = 0` for the second predecessor and returns
`{0, 0}`; the Hungarian matcher selects no column for the second row and
reads `p[-1]`. -/
theorem C12_counterexample :
    (arr [0, Dbl.pinf] 1).feq (arr [0, Dbl.pinf] 1) = true ∧
    dist2 (arr [0, Dbl.pinf]) (arr [0, 0]) (arr [0, Dbl.pinf]) (arr [0, 0]) 1 1 = Dbl.nan ∧
    rootList
      (StepLoop.matchRootsGreedy (arr [0, Dbl.pinf]) (arr [0, 0]) (arr [0, Dbl.pinf])
        (arr [0, 0]) 2).1
      (StepLoop.matchRootsGreedy (arr [0, Dbl.pinf]) (arr [0, 0]) (arr [0, Dbl.pinf])
        (arr [0, 0]) 2).2 2 = [(0, 0), (0, 0)] ∧
    (StepLoop.hungarianMatch (arr [0, Dbl.pinf]) (arr [0, 0]) (arr [0, Dbl.pinf])
      (arr [0, 0]) 2).isSome = false := by
  refine ⟨by decide!, by decide!, by decide!, by decide!⟩

/-! ## Rank normalisation -/

namespace Dbl

theorem lt_irrefl (x : Dbl) : x.lt x = false := by
  cases x <;> simp [lt]

theorem lt_asymm (a b : Dbl) (h : a.lt b = true) : b.lt a = false := by
  cases a <;> cases b <;> simp_all [lt]
  exact le_of_lt h

/-- From `a < b` and `b <= c` follows `a < c`. -/
theorem lt_of_lt_of_not_lt (a b c : Dbl) (h1 : a.lt b = true) (h2 : c.lt b = false)
    (hc : c.isNaN = false) : a.lt c = true := by
  cases a <;> cases b <;> cases c <;> simp_all [lt, isNaN]
  exact lt_of_lt_of_le h1 h2

/-- From `a <= b` and `b < c` follows `a < c`. -/
theorem lt_of_not_lt_of_lt (a b c : Dbl) (h1 : b.lt a = false) (ha : a.isNaN = false)
    (h2 : b.lt c = true) : a.lt c = true := by
  cases a <;> cases b <;> cases c <;> simp_all [lt, isNaN]
  exact lt_of_le_of_lt h1 h2

/-- Two values that are not NaN and not ordered either way are equal. -/
theorem eq_of_not_lt (a b : Dbl) (h1 : a.lt b = false) (h2 : b.lt a = false)
    (ha : a.isNaN = false) (hb : b.isNaN = false) : a = b := by
  cases a <;> cases b <;> simp_all [lt, isNaN]
  exact le_antisymm h2 h1

@[simp] theorem fin_le (a b : ℚ) : (fin a).le (fin b) = decide (a ≤ b) := rfl

theorem eq_of_feq (a b : Dbl) (h : a.feq b = true) : a = b := by
  cases a <;> cases b <;> simp_all [feq]

theorem feq_of_eq (a : Dbl) (ha : a.isNaN = false) : a.feq a = true := by
  cases a <;> simp_all [feq, isNaN]

end Dbl

theorem fillHalf_apply (r : DArr) (n k : Nat) :
    fillHalf r n k = if k < n then chalf else r k := by
  induction n with
  | zero => simp [fillHalf]
  | succ n ih =>
    unfold fillHalf at ih ⊢
    rw [List.range_succ, List.foldl_append]
    simp only [List.foldl_cons, List.foldl_nil, wr]
    by_cases hk : k = n
    · subst hk; simp
    · have hlt : k < n + 1 ↔ k < n := by omega
      simp only [if_neg hk, ih, hlt]

/-- The loop `for (i = 0; i < n; i++) result[i] /= d`. -/
theorem divLoop_apply (r : DArr) (d : Dbl) (n k : Nat) :
    (List.range n).foldl (fun r i => wr r i (r i / d)) r k
      = if k < n then r k / d else r k := by
  induction n with
  | zero => simp
  | succ n ih =>
    rw [List.range_succ, List.foldl_append]
    simp only [List.foldl_cons, List.foldl_nil, wr]
    by_cases hk : k = n
    · subst hk
      have := ih
      simp only [lt_irrefl, if_false] at this
      simp [this]
    · have hlt : k < n + 1 ↔ k < n := by omega
      simp only [if_neg hk, ih, hlt]

theorem buildPairs_apply (raw : DArr) (mf : Dbl) (n k : Nat) :
    (buildPairs raw mf n).vals k = (if k < n then rankVal raw mf k else 0) ∧
    (buildPairs raw mf n).idxs k = (if k < n then k else 0) := by
  induction n with
  | zero => simp [buildPairs]
  | succ n ih =>
    unfold buildPairs at ih ⊢
    rw [List.range_succ, List.foldl_append]
    simp only [List.foldl_cons, List.foldl_nil, wr]
    by_cases hk : k = n
    · subst hk; simp
    · have hlt : k < n + 1 ↔ k < n := by omega
      simp only [if_neg hk, ih, hlt, and_self]

/-- The value of `maxFinite`: a finite value in `[-1e300, 1e300)`, not below
any entry that passes the test, and either the initial `-1e300` or an entry
that passes the test. -/
theorem maxFinite_spec (raw : DArr) (n : Nat) :
    ∃ m : ℚ, maxFinite raw n = Dbl.fin m ∧ -(10 ^ 300) ≤ m ∧ m < 10 ^ 300 ∧
      (∀ i, i < n → rankOk (raw i) = true → (Dbl.fin m).lt (raw i) = false) ∧
      (m = -(10 ^ 300) ∨ ∃ i, i < n ∧ raw i = Dbl.fin m ∧ rankOk (raw i) = true) := by
  induction n with
  | zero =>
    exact ⟨-(10 ^ 300), rfl, le_refl _, by norm_num, fun i hi => by omega, Or.inl rfl⟩
  | succ n ih =>
    obtain ⟨m, e, h1, h2, h3, h4⟩ := ih
    unfold maxFinite at e ⊢
    rw [List.range_succ, List.foldl_append]
    simp only [List.foldl_cons, List.foldl_nil]
    rw [e]
    unfold maxFiniteStep
    by_cases hc : (rankOk (raw n) && (Dbl.fin m).lt (raw n)) = true
    · rw [if_pos hc]
      rw [Bool.and_eq_true] at hc
      obtain ⟨hok, hlt⟩ := hc
      have hok2 := hok
      unfold rankOk at hok2
      rw [Bool.and_eq_true] at hok2
      cases hr : raw n with
      | fin q =>
        rw [hr] at hlt hok2
        have hq : m < q := by simpa using hlt
        have hq2 : q < 10 ^ 300 := by simpa [c1e300] using hok2.2
        refine ⟨q, rfl, by linarith, hq2, ?_, Or.inr ⟨n, by omega, hr, hok⟩⟩
        intro i hi hoki
        by_cases hin : i = n
        · subst hin; rw [hr]; simp
        · have := h3 i (by omega) hoki
          cases hri : raw i with
          | fin x =>
            rw [hri] at this
            have hx : x ≤ m := by simpa using this
            simp only [Dbl.fin_lt, decide_eq_false_iff_not, not_lt]
            linarith
          | pinf => rw [hri] at this; simp [Dbl.lt] at this
          | ninf => simp [Dbl.lt]
          | nan => simp [Dbl.lt]
      | pinf => rw [hr] at hok2; simp [Dbl.lt, c1e300] at hok2
      | ninf => rw [hr] at hlt; simp [Dbl.lt] at hlt
      | nan => rw [hr] at hlt; simp [Dbl.lt] at hlt
    · rw [if_neg hc]
      refine ⟨m, rfl, h1, h2, ?_, ?_⟩
      · intro i hi hoki
        by_cases hin : i = n
        · subst hin
          rw [hoki] at hc
          simpa using hc
        · exact h3 i (by omega) hoki
      · rcases h4 with h | ⟨i, hi, hh⟩
        · exact Or.inl h
        · exact Or.inr ⟨i, by omega, hh⟩

/-- The inner loop of the insertion sort, started at `j + 1 = k`: it stops at
a position `j + 1 <= k` whose left neighbour is not greater than `v`, every
entry from there to `k - 1` is greater than `v`, and those entries have moved
up by one. -/
theorem shiftLoop_spec (v : Dbl) :
    ∀ (k : Nat) (s : Pairs),
      (shiftLoop v k s).2 ≤ k ∧
      ((shiftLoop v k s).2 = 0 ∨ v.lt (s.vals ((shiftLoop v k s).2 - 1)) = false) ∧
      (∀ p, (shiftLoop v k s).2 ≤ p → p < k → v.lt (s.vals p) = true) ∧
      (∀ p, (shiftLoop v k s).1.vals p
        = if (shiftLoop v k s).2 < p ∧ p ≤ k then s.vals (p - 1) else s.vals p) ∧
      (∀ p, (shiftLoop v k s).1.idxs p
        = if (shiftLoop v k s).2 < p ∧ p ≤ k then s.idxs (p - 1) else s.idxs p) := by
  intro k
  induction k with
  | zero =>
    intro s
    refine ⟨le_refl _, Or.inl rfl, fun p _ h => by omega, fun p => ?_, fun p => ?_⟩
    · rw [if_neg (by intro h; exact absurd h.2 (by have := h.1; show ¬ p ≤ 0; intro h2; simp [shiftLoop] at this; omega))]
      rfl
    · rw [if_neg (by intro h; exact absurd h.2 (by have := h.1; show ¬ p ≤ 0; intro h2; simp [shiftLoop] at this; omega))]
      rfl
  | succ k ih =>
    intro s
    by_cases hlt : v.lt (s.vals k) = true
    · have e : shiftLoop v (k + 1) s = shiftLoop v k
          { vals := wr s.vals (k + 1) (s.vals k), idxs := wr s.idxs (k + 1) (s.idxs k) } := by
        show (if v.lt (s.vals k) then _ else _) = _
        rw [if_pos hlt]
      rw [e]
      obtain ⟨h1, h2, h3, h4, h5⟩ := ih
        { vals := wr s.vals (k + 1) (s.vals k), idxs := wr s.idxs (k + 1) (s.idxs k) }
      generalize (shiftLoop v k
        { vals := wr s.vals (k + 1) (s.vals k), idxs := wr s.idxs (k + 1) (s.idxs k) }) = r
        at h1 h2 h3 h4 h5
      simp only [wr] at h2 h3 h4 h5
      refine ⟨by omega, ?_, ?_, ?_, ?_⟩
      · rcases h2 with h | h
        · exact Or.inl h
        · by_cases h0 : r.2 = 0
          · exact Or.inl h0
          · rw [if_neg (by omega)] at h; exact Or.inr h
      · intro p hp1 hp2
        by_cases hpk : p = k
        · subst hpk; exact hlt
        · have := h3 p hp1 (by omega)
          rw [if_neg (by omega)] at this; exact this
      · intro p
        rw [h4 p]
        by_cases hp : p = k + 1
        · subst hp
          rw [if_neg (by omega), if_pos rfl, if_pos ⟨by omega, le_refl _⟩]
          simp
        · by_cases hc : r.2 < p ∧ p ≤ k
          · rw [if_pos hc, if_neg (by omega), if_pos ⟨hc.1, by omega⟩]
          · rw [if_neg hc, if_neg hp, if_neg (by omega)]
      · intro p
        rw [h5 p]
        by_cases hp : p = k + 1
        · subst hp
          rw [if_neg (by omega), if_pos rfl, if_pos ⟨by omega, le_refl _⟩]
          simp
        · by_cases hc : r.2 < p ∧ p ≤ k
          · rw [if_pos hc, if_neg (by omega), if_pos ⟨hc.1, by omega⟩]
          · rw [if_neg hc, if_neg hp, if_neg (by omega)]
    · have e : shiftLoop v (k + 1) s = (s, k + 1) := by
        show (if v.lt (s.vals k) then _ else _) = _
        rw [if_neg hlt]
      rw [e]
      refine ⟨le_refl _, Or.inr (by simpa using hlt), fun p h1 h2 => by simp at h1; omega,
        fun p => ?_, fun p => ?_⟩
      · rw [if_neg (by simp)]
      · rw [if_neg (by simp)]

/-- One step of the insertion sort reads the old arrays through `insPos`. -/
theorem insertStep_apply (s : Pairs) (i : Nat) :
    (shiftLoop (s.vals i) i s).2 ≤ i ∧
    (∀ p, (insertStep s i).vals p = s.vals (insPos (shiftLoop (s.vals i) i s).2 i p)) ∧
    (∀ p, (insertStep s i).idxs p = s.idxs (insPos (shiftLoop (s.vals i) i s).2 i p)) := by
  obtain ⟨h1, -, -, h4, h5⟩ := shiftLoop_spec (s.vals i) i s
  refine ⟨h1, ?_, ?_⟩
  · intro p
    show wr _ _ _ p = _
    simp only [wr, insPos]
    by_cases hp : p = (shiftLoop (s.vals i) i s).2
    · rw [if_pos hp, if_pos hp]
    · rw [if_neg hp, if_neg hp, h4 p]
      split_ifs <;> rfl
  · intro p
    show wr _ _ _ p = _
    simp only [wr, insPos]
    by_cases hp : p = (shiftLoop (s.vals i) i s).2
    · rw [if_pos hp, if_pos hp]
    · rw [if_neg hp, if_neg hp, h5 p]
      split_ifs <;> rfl

theorem insPos_lt (k i n p : Nat) (hk : k ≤ i) (hi : i < n) (hp : p < n) : insPos k i p < n := by
  unfold insPos
  split_ifs <;> omega

theorem insPos_inj (k i p q : Nat) (hk : k ≤ i) (h : insPos k i p = insPos k i q) : p = q := by
  unfold insPos at h
  split_ifs at h <;> omega

/-- One step of the insertion sort extends the ordered part by one entry. -/
theorem insertStep_inv (v : DArr) (n i : Nat) (s : Pairs) (hv : ∀ j, (v j).isNaN = false)
    (h : SortedTo v n i s) (hin : i < n) : SortedTo v n (i + 1) (insertStep s i) := by
  obtain ⟨hk, hleft, hright, -, -⟩ := shiftLoop_spec (s.vals i) i s
  obtain ⟨-, hvals, hidxs⟩ := insertStep_apply s i
  generalize (shiftLoop (s.vals i) i s).2 = k at hk hleft hright hvals hidxs
  have hsv : ∀ x, x < n → (s.vals x).isNaN = false := by
    intro x hx
    rw [h.val_eq x hx]; exact hv _
  refine ⟨?_, ?_, ?_, ?_⟩
  · intro p hp
    rw [hidxs p]
    exact h.idx_lt _ (insPos_lt k i n p hk hin hp)
  · intro p q hp hq e
    rw [hidxs p, hidxs q] at e
    exact insPos_inj k i p q hk
      (h.idx_inj _ _ (insPos_lt k i n p hk hin hp) (insPos_lt k i n q hk hin hq) e)
  · intro p hp
    rw [hvals p, hidxs p]
    exact h.val_eq _ (insPos_lt k i n p hk hin hp)
  · intro p q hpq hq
    rw [hvals p, hvals q]
    rcases Nat.lt_trichotomy q k with hqk | hqk | hqk
    · have e1 : insPos k i q = q := by unfold insPos; rw [if_neg (by omega), if_neg (by omega)]
      have e2 : insPos k i p = p := by unfold insPos; rw [if_neg (by omega), if_neg (by omega)]
      rw [e1, e2]
      exact h.sorted p q hpq (by omega)
    · have e1 : insPos k i q = i := by unfold insPos; rw [if_pos hqk]
      rw [e1]
      by_cases hpk : p = k
      · have e2 : insPos k i p = i := by unfold insPos; rw [if_pos hpk]
        rw [e2]; exact Dbl.lt_irrefl _
      · have e2 : insPos k i p = p := by unfold insPos; rw [if_neg hpk, if_neg (by omega)]
        rw [e2]
        rcases hleft with h0 | h0
        · omega
        · cases hc : (s.vals i).lt (s.vals p) with
          | false => rfl
          | true =>
            have hs := h.sorted p (k - 1) (by omega) (by omega)
            have := Dbl.lt_of_lt_of_not_lt _ _ _ hc hs (hsv (k - 1) (by omega))
            rw [h0] at this
            exact absurd this (by simp)
    · have e1 : insPos k i q = q - 1 := by
        unfold insPos; rw [if_neg (by omega), if_pos ⟨hqk, by omega⟩]
      rw [e1]
      rcases Nat.lt_trichotomy p k with hpk | hpk | hpk
      · have e2 : insPos k i p = p := by unfold insPos; rw [if_neg (by omega), if_neg (by omega)]
        rw [e2]
        exact h.sorted p (q - 1) (by omega) (by omega)
      · have e2 : insPos k i p = i := by unfold insPos; rw [if_pos hpk]
        rw [e2]
        exact Dbl.lt_asymm _ _ (hright (q - 1) (by omega) (by omega))
      · have e2 : insPos k i p = p - 1 := by
          unfold insPos; rw [if_neg (by omega), if_pos ⟨hpk, by omega⟩]
        rw [e2]
        exact h.sorted (p - 1) (q - 1) (by omega) (by omega)

/-- The insertion sort leaves the pairs in order. -/
theorem insertionSort_inv (raw : DArr) (mf : Dbl) (n : Nat)
    (hv : ∀ j, (rankVal raw mf j).isNaN = false) :
    SortedTo (rankVal raw mf) n n (insertionSort (buildPairs raw mf n) n) := by
  have h0 : SortedTo (rankVal raw mf) n 1 (buildPairs raw mf n) := by
    refine ⟨?_, ?_, ?_, ?_⟩
    · intro p hp
      rw [(buildPairs_apply raw mf n p).2, if_pos hp]; exact hp
    · intro p q hp hq e
      rw [(buildPairs_apply raw mf n p).2, (buildPairs_apply raw mf n q).2, if_pos hp,
        if_pos hq] at e
      exact e
    · intro p hp
      rw [(buildPairs_apply raw mf n p).1, (buildPairs_apply raw mf n p).2, if_pos hp, if_pos hp]
    · intro p q hpq hq
      have e1 : q = 0 := by omega
      have e2 : p = 0 := by omega
      rw [e1, e2]; exact Dbl.lt_irrefl _
  have hstep : ∀ k, k + 1 ≤ n →
      SortedTo (rankVal raw mf) n (k + 1)
        ((List.range' 1 k).foldl insertStep (buildPairs raw mf n)) := by
    intro k
    induction k with
    | zero => intro _; exact h0
    | succ k ih =>
      intro hk
      rw [List.range'_concat, List.foldl_append]
      simp only [List.foldl_cons, List.foldl_nil]
      have := insertStep_inv _ n (k + 1) _ hv (ih (by omega)) (by omega)
      have e : 1 + 1 * k = k + 1 := by omega
      rw [e]
      exact this
  unfold insertionSort
  rcases Nat.eq_zero_or_pos n with hn | hn
  · subst hn
    exact ⟨fun p hp => by omega, fun p q hp => by omega, fun p hp => by omega,
      fun p q _ hq => by omega⟩
  · have := hstep (n - 1) (by omega)
    rw [Nat.sub_add_cancel hn] at this
    exact this

/-- An injection of `0..n-1` into itself reaches every index. -/
theorem image_range_eq (f : Nat → Nat) (n : Nat) (hlt : ∀ p, p < n → f p < n)
    (hinj : ∀ p q, p < n → q < n → f p = f q → p = q) :
    (Finset.range n).image f = Finset.range n := by
  apply Finset.eq_of_subset_of_card_le
  · intro b hb
    obtain ⟨a, ha, rfl⟩ := Finset.mem_image.mp hb
    exact Finset.mem_range.mpr (hlt a (Finset.mem_range.mp ha))
  · rw [Finset.card_image_of_injOn]
    intro a ha b hb e
    exact hinj a b (Finset.mem_range.mp ha) (Finset.mem_range.mp hb) e

/-- In ordered pairs the number of entries less than entry `p` is the first
position of the run of entries equal to it. -/
theorem cnt_of_first (v : DArr) (n : Nat) (s : Pairs) (h : SortedTo v n n s) (r p : Nat)
    (hrp : r ≤ p) (hp : p < n) (heq : s.vals r = s.vals p)
    (hlow : ∀ q, q < r → (s.vals q).lt (s.vals p) = true) :
    ((Finset.range n).filter (fun q => (s.vals q).lt (s.vals p) = true)).card = r := by
  have e : (Finset.range n).filter (fun q => (s.vals q).lt (s.vals p) = true)
      = Finset.range r := by
    ext q
    simp only [Finset.mem_filter, Finset.mem_range]
    constructor
    · rintro ⟨hq, hlt⟩
      by_contra hge
      have := h.sorted r q (by omega) hq
      rw [heq, hlt] at this
      exact absurd this (by simp)
    · intro hq
      exact ⟨by omega, hlow q hq⟩
  rw [e, Finset.card_range]

/-- The count of smaller entries by position equals the count by index. -/
theorem cnt_by_index (v : DArr) (n m : Nat) (s : Pairs) (h : SortedTo v n m s) (p : Nat)
    (hp : p < n) :
    ((Finset.range n).filter (fun q => (s.vals q).lt (s.vals p) = true)).card
      = cntLt v n (s.idxs p) := by
  unfold cntLt
  have himg := image_range_eq s.idxs n h.idx_lt h.idx_inj
  have e1 : (Finset.range n).filter (fun j => (v j).lt (v (s.idxs p)) = true)
      = ((Finset.range n).filter (fun q => (v (s.idxs q)).lt (v (s.idxs p)) = true)).image
          s.idxs := by
    conv_lhs => rw [← himg]
    rw [Finset.filter_image]
  rw [e1, Finset.card_image_of_injOn]
  · congr 1
    apply Finset.filter_congr
    intro q hq
    rw [h.val_eq q (Finset.mem_range.mp hq), h.val_eq p hp]
  · intro a ha b hb e
    rw [Finset.coe_filter] at ha hb
    exact h.idx_inj a b (Finset.mem_range.mp ha.1) (Finset.mem_range.mp hb.1) e

/-- The rank loop on ordered pairs: after `m` steps `rank` is the first
position of the run that holds entry `m - 1`, and the result of every index
met so far is its count of smaller entries. -/
theorem rankLoop_inv (v : DArr) (n : Nat) (s : Pairs) (hv : ∀ j, (v j).isNaN = false)
    (h : SortedTo v n n s) (r0 : DArr) :
    ∀ m, m ≤ n →
      (m = 0 → ((List.range m).foldl (rankStep s) (0, r0)).1 = 0) ∧
      (0 < m → ((List.range m).foldl (rankStep s) (0, r0)).1 ≤ m - 1 ∧
        s.vals ((List.range m).foldl (rankStep s) (0, r0)).1 = s.vals (m - 1) ∧
        ∀ q, q < ((List.range m).foldl (rankStep s) (0, r0)).1 →
          (s.vals q).lt (s.vals (m - 1)) = true) ∧
      (∀ p, p < m → ((List.range m).foldl (rankStep s) (0, r0)).2 (s.idxs p)
        = Dbl.fin (cntLt v n (s.idxs p))) := by
  have hsv : ∀ x, x < n → (s.vals x).isNaN = false := by
    intro x hx
    rw [h.val_eq x hx]; exact hv _
  intro m
  induction m with
  | zero =>
    intro _
    exact ⟨fun _ => rfl, fun h0 => by omega, fun p hp => by omega⟩
  | succ m ih =>
    intro hm
    obtain ⟨i1, i2, i3⟩ := ih (by omega)
    rw [List.range_succ, List.foldl_append]
    simp only [List.foldl_cons, List.foldl_nil]
    generalize (List.range m).foldl (rankStep s) (0, r0) = st at i1 i2 i3
    obtain ⟨r, hr⟩ : ∃ r : Nat,
        r = if 0 < m ∧ (s.vals m).feq (s.vals (m - 1)) = false then m else st.1 := ⟨_, rfl⟩
    have hst : rankStep s st m = (r, wr st.2 (s.idxs m) (Dbl.fin (r : ℚ))) := by
      unfold rankStep; rw [← hr]
    have hr' : r ≤ m ∧ s.vals r = s.vals m ∧ ∀ q, q < r → (s.vals q).lt (s.vals m) = true := by
      by_cases hm0 : m = 0
      · rw [if_neg (by omega), i1 hm0] at hr
        subst hm0
        rw [hr]
        exact ⟨le_refl _, rfl, fun q hq => by omega⟩
      · obtain ⟨j1, j2, j3⟩ := i2 (by omega)
        by_cases hf : (s.vals m).feq (s.vals (m - 1)) = false
        · rw [if_pos ⟨by omega, hf⟩] at hr
          rw [hr]
          refine ⟨le_refl _, rfl, ?_⟩
          intro q hq
          have h1 := h.sorted (m - 1) m (by omega) (by omega)
          have h2 : (s.vals (m - 1)).lt (s.vals m) = true := by
            cases hc : (s.vals (m - 1)).lt (s.vals m) with
            | true => rfl
            | false =>
              have e := Dbl.eq_of_not_lt _ _ hc h1 (hsv _ (by omega)) (hsv _ (by omega))
              rw [e, Dbl.feq_of_eq _ (hsv _ (by omega))] at hf
              exact absurd hf (by simp)
          exact Dbl.lt_of_not_lt_of_lt _ _ _ (h.sorted q (m - 1) (by omega) (by omega))
            (hsv q (by omega)) h2
        · rw [if_neg (fun hh => hf hh.2)] at hr
          have e : s.vals m = s.vals (m - 1) := Dbl.eq_of_feq _ _ (by simpa using hf)
          rw [hr, e]
          exact ⟨by omega, j2, j3⟩
    rw [hst]
    refine ⟨fun h0 => by omega, fun _ => ?_, ?_⟩
    · simp only [Nat.add_sub_cancel]
      exact ⟨hr'.1, hr'.2.1, hr'.2.2⟩
    · intro p hp
      show wr st.2 (s.idxs m) (Dbl.fin (r : ℚ)) (s.idxs p) = _
      simp only [wr]
      by_cases hpm : p = m
      · subst hpm
        rw [if_pos rfl, ← cnt_by_index v n n s h p (by omega),
          cnt_of_first v n s h r p hr'.1 (by omega) hr'.2.1 hr'.2.2]
      · have hne : s.idxs p ≠ s.idxs m := fun e => hpm (h.idx_inj p m (by omega) (by omega) e)
        rw [if_neg hne]
        exact i3 p (by omega)

theorem rankVal_notNaN (raw : DArr) (n : Nat) (j : Nat) :
    (rankVal raw (maxFinite raw n) j).isNaN = false := by
  unfold rankVal
  by_cases hok : rankOk (raw j) = true
  · rw [if_pos hok]
    unfold rankOk at hok
    rw [Bool.and_eq_true] at hok
    cases hr : raw j <;> rw [hr] at hok <;> simp_all [Dbl.feq, Dbl.isNaN]
  · rw [if_neg hok]
    obtain ⟨m, e, -⟩ := maxFinite_spec raw n
    rw [e]; rfl

/-- An entry that passes the test and lies above `-1e300` lifts `maxFinite`
above `-1e300`, so the early return is not taken. -/
theorem maxFinite_gt (raw : DArr) (n i : Nat) (hi : i < n) (hok : rankOk (raw i) = true)
    (hlo : cm1e300.lt (raw i) = true) : (maxFinite raw n).le cm1e300 = false := by
  obtain ⟨m, e, -, -, h3, -⟩ := maxFinite_spec raw n
  have := h3 i hi hok
  rw [e]
  unfold rankOk at hok
  rw [Bool.and_eq_true] at hok
  cases hr : raw i with
  | fin q =>
    rw [hr] at this hlo
    have h1 : q ≤ m := by simpa using this
    have h2 : -(10 ^ 300) < q := by simpa [cm1e300] using hlo
    unfold cm1e300
    rw [Dbl.fin_le, decide_eq_false_iff_not]
    intro h; linarith
  | pinf => rw [hr] at hok; simp [Dbl.lt, c1e300] at hok
  | ninf => rw [hr] at hlo; simp [Dbl.lt, cm1e300] at hlo
  | nan => rw [hr] at hlo; simp [Dbl.lt, cm1e300] at hlo

/-- When the early return is taken every entry below `n` is 0.5. -/
theorem rankNorm_of_le (raw r0 : DArr) (n : Nat) (hM : (maxFinite raw n).le cm1e300 = true)
    (i : Nat) (hi : i < n) : rankNorm raw r0 n i = chalf := by
  unfold rankNorm
  rw [if_pos hM, fillHalf_apply, if_pos hi]

/-- For a single entry the result is 0.5. -/
theorem rankNorm_one (raw r0 : DArr) : rankNorm raw r0 1 0 = chalf := by
  unfold rankNorm
  split_ifs with h1 h2
  · rw [fillHalf_apply, if_pos (by omega)]
  · rw [fillHalf_apply, if_pos (by omega)]
  · exact absurd rfl h2

/-- The general case of `rankNorm`: for `n >= 2`, when the early return is not
taken, the result of index `i` is the number of entries whose value is less
than that of `i`, divided by `n - 1`. -/
theorem rankNorm_spec (raw r0 : DArr) (n : Nat) (hn : 2 ≤ n)
    (hM : (maxFinite raw n).le cm1e300 = false) (i : Nat) (hi : i < n) :
    rankNorm raw r0 n i
      = Dbl.fin ((cntLt (rankVal raw (maxFinite raw n)) n i : ℚ) / ((n : ℚ) - 1)) := by
  have hv := rankVal_notNaN raw n
  have hs := insertionSort_inv raw (maxFinite raw n) n hv
  have hrank := (rankLoop_inv _ n _ hv hs r0 n (le_refl n)).2.2
  have hsurj : ∃ p, p < n ∧ (insertionSort (buildPairs raw (maxFinite raw n) n) n).idxs p = i := by
    have himg := image_range_eq _ n hs.idx_lt hs.idx_inj
    have : i ∈ (Finset.range n).image
        (insertionSort (buildPairs raw (maxFinite raw n) n) n).idxs := by
      rw [himg]; exact Finset.mem_range.mpr hi
    obtain ⟨p, hp, e⟩ := Finset.mem_image.mp this
    exact ⟨p, Finset.mem_range.mp hp, e⟩
  obtain ⟨p, hp, e⟩ := hsurj
  have hres := hrank p hp
  rw [e] at hres
  have hn1 : ¬ ((n : Int) - 1 = 0) := by omega
  unfold rankNorm
  rw [if_neg (by rw [hM]; simp), if_neg hn1, divLoop_apply, if_pos hi, hres]
  have hq : (((n : Int) - 1 : Int) : ℚ) = (n : ℚ) - 1 := by push_cast; ring
  rw [hq, Dbl.fin_div]
  have : (2 : ℚ) ≤ (n : ℚ) := by exact_mod_cast hn
  intro h0; linarith

/-- The count of smaller entries of index `i` leaves out `i` itself. -/
theorem cntLt_le (v : DArr) (n i : Nat) (hi : i < n) : cntLt v n i ≤ n - 1 := by
  unfold cntLt
  have hsub : (Finset.range n).filter (fun j => (v j).lt (v i) = true)
      ⊆ (Finset.range n).erase i := by
    intro j hj
    rw [Finset.mem_filter] at hj
    rw [Finset.mem_erase]
    refine ⟨?_, hj.1⟩
    intro e
    rw [e, Dbl.lt_irrefl] at hj
    exact absurd hj.2 (by simp)
  have := Finset.card_le_card hsub
  rw [Finset.card_erase_of_mem (Finset.mem_range.mpr hi), Finset.card_range] at this
  exact this

/-- Every result of `rankNorm` is a finite value in `[0, 1]`. -/
theorem rankNorm_range (raw r0 : DArr) (n i : Nat) (hi : i < n) :
    ∃ q : ℚ, rankNorm raw r0 n i = Dbl.fin q ∧ 0 ≤ q ∧ q ≤ 1 := by
  by_cases hM : (maxFinite raw n).le cm1e300 = true
  · exact ⟨1 / 2, rankNorm_of_le raw r0 n hM i hi, by norm_num, by norm_num⟩
  · by_cases hn : n = 1
    · subst hn
      have : i = 0 := by omega
      subst this
      exact ⟨1 / 2, rankNorm_one raw r0, by norm_num, by norm_num⟩
    · have hn2 : 2 ≤ n := by omega
      refine ⟨_, rankNorm_spec raw r0 n hn2 (by simpa using hM) i hi, ?_, ?_⟩
      · apply div_nonneg (Nat.cast_nonneg _)
        have : (2 : ℚ) ≤ (n : ℚ) := by exact_mod_cast hn2
        linarith
      · have h1 := cntLt_le (rankVal raw (maxFinite raw n)) n i hi
        have h2 : (2 : ℚ) ≤ (n : ℚ) := by exact_mod_cast hn2
        rw [div_le_one (by linarith)]
        have h3 : ((cntLt (rankVal raw (maxFinite raw n)) n i : Nat) : ℚ) ≤ ((n - 1 : Nat) : ℚ) := by
          exact_mod_cast h1
        rw [Nat.cast_sub (by omega)] at h3
        simpa using h3

/-- The count of smaller entries reads the values only below `n`. -/
theorem cntLt_congr (v w : DArr) (n i : Nat) (hi : i < n) (h : ∀ j, j < n → v j = w j) :
    cntLt v n i = cntLt w n i := by
  unfold cntLt
  congr 1
  apply Finset.filter_congr
  intro j hj
  rw [h j (Finset.mem_range.mp hj), h i hi]

/-- The count of smaller entries orders the indices as the values do. -/
theorem cntLt_lt_iff (v : DArr) (hv : ∀ j, (v j).isNaN = false) (n i j : Nat) (hi : i < n)
    (hj : j < n) : cntLt v n j < cntLt v n i ↔ (v j).lt (v i) = true := by
  constructor
  · intro hlt
    cases hc : (v j).lt (v i) with
    | true => rfl
    | false =>
      exfalso
      have hsub : (Finset.range n).filter (fun k => (v k).lt (v i) = true)
          ⊆ (Finset.range n).filter (fun k => (v k).lt (v j) = true) := by
        intro k hk
        rw [Finset.mem_filter] at hk ⊢
        exact ⟨hk.1, Dbl.lt_of_lt_of_not_lt _ _ _ hk.2 hc (hv j)⟩
      have := Finset.card_le_card hsub
      unfold cntLt at hlt
      omega
  · intro hlt
    unfold cntLt
    apply Finset.card_lt_card
    rw [Finset.ssubset_iff_of_subset]
    · refine ⟨j, ?_, ?_⟩
      · rw [Finset.mem_filter]
        exact ⟨Finset.mem_range.mpr hj, hlt⟩
      · rw [Finset.mem_filter, Dbl.lt_irrefl]
        simp
    · intro k hk
      rw [Finset.mem_filter] at hk ⊢
      exact ⟨hk.1, Dbl.lt_of_lt_of_not_lt _ _ _ hk.2 (Dbl.lt_asymm _ _ hlt) (hv i)⟩

/-- In the general case a second pass of `rankNorm` returns the result of the
first. -/
theorem rankNorm_idem (raw r0 r1 : DArr) (n : Nat) (hn : 2 ≤ n)
    (hM : (maxFinite raw n).le cm1e300 = false) (i : Nat) (hi : i < n) :
    rankNorm (rankNorm raw r0 n) r1 n i = rankNorm raw r0 n i := by
  have hn0 : (0 : ℚ) < (n : ℚ) - 1 := by
    have : (2 : ℚ) ≤ (n : ℚ) := by exact_mod_cast hn
    linarith
  have hy := rankNorm_spec raw r0 n hn hM
  have hv := rankVal_notNaN raw n
  -- every entry of the first result passes the test
  have hok : ∀ j, j < n → rankOk (rankNorm raw r0 n j) = true ∧
      cm1e300.lt (rankNorm raw r0 n j) = true := by
    intro j hj
    obtain ⟨q, e, h0, h1⟩ := rankNorm_range raw r0 n j hj
    rw [e]
    unfold rankOk cm1e300 c1e300
    simp only [Dbl.fin_feq, Dbl.fin_lt, decide_True, Bool.true_and, decide_eq_true_eq]
    constructor
    · exact lt_of_le_of_lt h1 (by norm_num)
    · exact lt_of_lt_of_le (by norm_num) h0
  have hM2 := maxFinite_gt (rankNorm raw r0 n) n 0 (by omega) (hok 0 (by omega)).1
    (hok 0 (by omega)).2
  rw [rankNorm_spec _ r1 n hn hM2 i hi, hy i hi]
  congr 2
  have e1 : cntLt (rankVal (rankNorm raw r0 n) (maxFinite (rankNorm raw r0 n) n)) n i
      = cntLt (rankNorm raw r0 n) n i := by
    apply cntLt_congr _ _ n i hi
    intro j hj
    unfold rankVal
    rw [if_pos (hok j hj).1]
  rw [e1]
  unfold cntLt
  congr 2
  apply Finset.filter_congr
  intro j hj
  have hj2 := Finset.mem_range.mp hj
  rw [hy j hj2, hy i hi, Dbl.fin_lt, decide_eq_true_eq, div_lt_div_iff_of_pos_right hn0, Nat.cast_lt]
  exact cntLt_lt_iff _ hv n i j hi hj2

/-- C13 (amended). Rank-normalisation is idempotent on every input of length
1 and on every input of length `n` that has at least one entry that is not
NaN and lies strictly between `-1e300` and `1e300`: a second pass over the
first `n` results returns them again. -/
theorem C13_rankNorm_idempotent (raw r0 r1 : DArr) (n : Nat)
    (h : n = 1 ∨ ∃ k, k < n ∧ rankOk (raw k) = true ∧ cm1e300.lt (raw k) = true) :
    ∀ i, i < n → rankNorm (rankNorm raw r0 n) r1 n i = rankNorm raw r0 n i := by
  intro i hi
  by_cases hn : n = 1
  · subst hn
    have : i = 0 := by omega
    subst this
    rw [rankNorm_one, rankNorm_one]
  · rcases h with h | ⟨k, hk, hok, hlo⟩
    · exact absurd h hn
    · exact rankNorm_idem raw r0 r1 n (by omega) (maxFinite_gt raw n k hk hok hlo) i hi

/-- C13 (amended) on the input of scenario S5, `[3, 1, 2, +inf, NaN]`. -/
theorem C13_rankNorm_idempotent_witness :
    (5 = 1 ∨ ∃ k, k < 5 ∧ rankOk (arr [3, 1, 2, Dbl.pinf, Dbl.nan] k) = true ∧
      cm1e300.lt (arr [3, 1, 2, Dbl.pinf, Dbl.nan] k) = true) ∧
    ∀ i, i < 5 →
      rankNorm (rankNorm (arr [3, 1, 2, Dbl.pinf, Dbl.nan]) (fun _ => 0) 5) (fun _ => 0) 5 i
        = rankNorm (arr [3, 1, 2, Dbl.pinf, Dbl.nan]) (fun _ => 0) 5 i :=
  have h : 5 = 1 ∨ ∃ k, k < 5 ∧ rankOk (arr [3, 1, 2, Dbl.pinf, Dbl.nan] k) = true ∧
      cm1e300.lt (arr [3, 1, 2, Dbl.pinf, Dbl.nan] k) = true :=
    Or.inr ⟨0, by decide, by decide!, by decide!⟩
  ⟨h, C13_rankNorm_idempotent _ _ _ 5 h⟩

/-- C13 as stated fails for `n = 2` on the input `[NaN, NaN]`: no entry
passes the test, the first pass takes the early return and fills 0.5; the
second pass ranks the two equal values 0.5 at rank 0 and returns `[0, 0]`. -/
theorem C13_counterexample :
    (List.range 2).map (rankNorm (arr [Dbl.nan, Dbl.nan]) (fun _ => 0) 2)
      = [Dbl.fin (1 / 2), Dbl.fin (1 / 2)] ∧
    (List.range 2).map
      (rankNorm (rankNorm (arr [Dbl.nan, Dbl.nan]) (fun _ => 0) 2) (fun _ => 0) 2)
      = [0, 0] := by
  refine ⟨by decide!, by decide!⟩

/-- C14 (amended). Degenerate rank-normalisation: an input of length 1 gets
0.5; an input of any length whose values are all equal to one value that is
NaN, at or above `1e300`, or at or below `-1e300` gets 0.5 in every position;
an input of length at least 2 whose values are all equal to one value strictly
between `-1e300` and `1e300` gets 0 in every position. -/
theorem C14_rankNorm_degenerate (raw r0 : DArr) :
    rankNorm raw r0 1 0 = chalf ∧
    (∀ (n : Nat) (x : Dbl), (∀ i, i < n → raw i = x) →
      (rankOk x = false ∨ cm1e300.lt x = false) →
      ∀ i, i < n → rankNorm raw r0 n i = chalf) ∧
    (∀ (n : Nat) (x : Dbl), 2 ≤ n → (∀ i, i < n → raw i = x) →
      rankOk x = true → cm1e300.lt x = true →
      ∀ i, i < n → rankNorm raw r0 n i = 0) := by
  refine ⟨rankNorm_one raw r0, ?_, ?_⟩
  · intro n x hall hbad i hi
    apply rankNorm_of_le raw r0 n _ i hi
    obtain ⟨m, e, h1, -, -, h4⟩ := maxFinite_spec raw n
    rw [e]
    unfold cm1e300
    rw [Dbl.fin_le, decide_eq_true_eq]
    rcases h4 with h | ⟨k, hk, hr, hok⟩
    · exact le_of_eq h
    · rw [hall k hk] at hr hok
      rcases hbad with hb | hb
      · rw [hok] at hb; exact absurd hb (by simp)
      · rw [hr] at hb
        unfold cm1e300 at hb
        simpa using hb
  · intro n x hn hall hok hlo i hi
    have hM := maxFinite_gt raw n 0 (by omega) (by rw [hall 0 (by omega)]; exact hok)
      (by rw [hall 0 (by omega)]; exact hlo)
    rw [rankNorm_spec raw r0 n hn hM i hi]
    have hc : cntLt (rankVal raw (maxFinite raw n)) n i = 0 := by
      unfold cntLt
      rw [Finset.card_eq_zero, Finset.filter_eq_empty_iff]
      intro j hj
      have hj2 := Finset.mem_range.mp hj
      unfold rankVal
      rw [hall j hj2, hall i hi, Dbl.lt_irrefl]
      simp
    rw [hc]
    simp

/-- C14 (amended) on concrete inputs: `[NaN, NaN, NaN]` gets 0.5 everywhere
and `[7, 7, 7]` gets 0 everywhere. -/
theorem C14_rankNorm_degenerate_witness :
    (∀ i, i < 3 → arr [Dbl.nan, Dbl.nan, Dbl.nan] i = Dbl.nan) ∧
    (rankOk Dbl.nan = false ∨ cm1e300.lt Dbl.nan = false) ∧
    (∀ i, i < 3 → rankNorm (arr [Dbl.nan, Dbl.nan, Dbl.nan]) (fun _ => 0) 3 i = chalf) ∧
    (∀ i, i < 3 → arr [7, 7, 7] i = 7) ∧ rankOk 7 = true ∧ cm1e300.lt 7 = true ∧
    (∀ i, i < 3 → rankNorm (arr [7, 7, 7]) (fun _ => 0) 3 i = 0) :=
  have h1 : ∀ i, i < 3 → arr [Dbl.nan, Dbl.nan, Dbl.nan] i = Dbl.nan := by
    intro i hi
    have h : i = 0 ∨ i = 1 ∨ i = 2 := by omega
    rcases h with rfl | rfl | rfl <;> rfl
  have h2 : ∀ i, i < 3 → arr [7, 7, 7] i = 7 := by
    intro i hi
    have h : i = 0 ∨ i = 1 ∨ i = 2 := by omega
    rcases h with rfl | rfl | rfl <;> rfl
  ⟨h1, Or.inl (by decide!),
    (C14_rankNorm_degenerate (arr [Dbl.nan, Dbl.nan, Dbl.nan]) (fun _ => 0)).2.1 3 Dbl.nan h1
      (Or.inl (by decide!)),
    h2, by decide!, by decide!,
    (C14_rankNorm_degenerate (arr [7, 7, 7]) (fun _ => 0)).2.2 3 7 (by decide) h2
      (by decide!) (by decide!)⟩

/-- C14 as stated fails on `[7, 7, 7]`: the values are all equal, the three
entries tie at rank 0 and the output is `0 / 2 = 0` in every position, not
0.5. -/
theorem C14_counterexample :
    (List.range 3).map (rankNorm (arr [7, 7, 7]) (fun _ => 0) 3) = [0, 0, 0] ∧
    (0 : Dbl).feq chalf = false := by
  refine ⟨by decide!, by decide!⟩

/-- C15 (amended). Scenario S5: `rankNorm` on `[3, 1, 2, +inf, NaN]` outputs
0.0, 0.25 and 0.5 at the positions holding 1, 2 and 3, and the `+inf` and NaN
positions, which take the value `maxFinite = 3`, tie with each other and with
the position holding 3 at 0.5. -/
theorem C15_scenario_S5 :
    (List.range 5).map (rankNorm (arr [3, 1, 2, Dbl.pinf, Dbl.nan]) (fun _ => 0) 5)
      = [Dbl.fin (1 / 2), 0, Dbl.fin (1 / 4), Dbl.fin (1 / 2), Dbl.fin (1 / 2)] ∧
    maxFinite (arr [3, 1, 2, Dbl.pinf, Dbl.nan]) 5 = 3 := by
  refine ⟨by decide!, by decide!⟩

/-- C15 as stated fails: the `+inf` and NaN positions of `[3, 1, 2, +inf, NaN]`
get 0.5, not 0.75. -/
theorem C15_counterexample :
    rankNorm (arr [3, 1, 2, Dbl.pinf, Dbl.nan]) (fun _ => 0) 5 3 = Dbl.fin (1 / 2) ∧
    rankNorm (arr [3, 1, 2, Dbl.pinf, Dbl.nan]) (fun _ => 0) 5 4 = Dbl.fin (1 / 2) ∧
    (Dbl.fin (1 / 2)).feq (Dbl.fin (3 / 4)) = false := by
  refine ⟨by decide!, by decide!, by decide!⟩

/-! ## C16: the fractional part -/

theorem lineBlend_apply (omu mu : Dbl) (morphRe morphIm workRe workIm : DArr) (nc m : Nat) :
    ((List.range nc).foldl (lineBlendStep omu mu morphRe morphIm) (workRe, workIm)).1 m
      = (if m < nc then workRe m * omu + morphRe m * mu else workRe m) ∧
    ((List.range nc).foldl (lineBlendStep omu mu morphRe morphIm) (workRe, workIm)).2 m
      = (if m < nc then workIm m * omu + morphIm m * mu else workIm m) := by
  have key : ∀ n, n ≤ nc → ∀ k,
      ((List.range n).foldl (lineBlendStep omu mu morphRe morphIm) (workRe, workIm)).1 k
        = (if k < n then workRe k * omu + morphRe k * mu else workRe k) ∧
      ((List.range n).foldl (lineBlendStep omu mu morphRe morphIm) (workRe, workIm)).2 k
        = (if k < n then workIm k * omu + morphIm k * mu else workIm k) := by
    intro n
    induction n with
    | zero => intro _ k; simp
    | succ n ih =>
      intro hn k
      have h0 := ih (by omega)
      rw [List.range_succ, List.foldl_append]
      simp only [List.foldl_cons, List.foldl_nil, lineBlendStep, wr]
      by_cases hk : k = n
      · subst hk
        have := h0 k
        simp only [lt_irrefl, if_false] at this
        simp [this.1, this.2]
      · have hlt : k < n + 1 ↔ k < n := by omega
        simp only [if_neg hk, hlt]
        exact h0 k
  exact key nc (le_refl _) m

/-- The weight of the line blend is `(1 - cos) / 2`, for every double. -/
theorem lineBlend_mu (cosT : Dbl) : chalf - chalf * cosT = ((1 : Dbl) - cosT) / 2 := by
  cases cosT with
  | fin c =>
    simp only [chalf, Dbl.fin_mul, Dbl.fin_sub, Dbl.ofNat_eq]
    rw [Dbl.fin_div _ _ (by norm_num)]
    congr 1
    push_cast
    ring
  | pinf => decide!
  | ninf => decide!
  | nan => decide!

namespace Dbl

theorem fin_or_special (x : Dbl) : (∃ q, x = fin q) ∨ x.isFinite = false := by
  cases x
  · exact Or.inl ⟨_, rfl⟩
  · exact Or.inr rfl
  · exact Or.inr rfl
  · exact Or.inr rfl

theorem fin_add_special (q : ℚ) (s : Dbl) (hs : s.isFinite = false) : fin q + s = s := by
  cases s
  · exact absurd hs (by simp [isFinite])
  · rfl
  · rfl
  · rfl

theorem special_add_fin (q : ℚ) (s : Dbl) (hs : s.isFinite = false) : s + fin q = s := by
  cases s
  · exact absurd hs (by simp [isFinite])
  · rfl
  · rfl
  · rfl

theorem special_add_special (s t : Dbl) (hs : s.isFinite = false) (ht : t.isFinite = false) :
    (s + t).isFinite = false := by
  cases s <;> cases t <;> first | rfl | exact absurd hs (by simp [isFinite])

theorem special_mul_pos (s : Dbl) (c : ℚ) (hc : 0 < c) (hs : s.isFinite = false) :
    s * fin c = s := by
  cases s
  · exact absurd hs (by simp [isFinite])
  · show infTimes true c = pinf
    simp [infTimes, ne_of_gt hc, hc]
  · show infTimes false c = ninf
    simp [infTimes, ne_of_gt hc, hc]
  · rfl

theorem special_div_pos (s : Dbl) (c : ℚ) (hc : 0 < c) (hs : s.isFinite = false) :
    s / fin c = s := by
  cases s
  · exact absurd hs (by simp [isFinite])
  · show (if 0 ≤ c then pinf else ninf) = pinf
    rw [if_pos (le_of_lt hc)]
  · show (if 0 ≤ c then ninf else pinf) = ninf
    rw [if_pos (le_of_lt hc)]
  · rfl

theorem mul_fin_one (y : Dbl) : y * fin 1 = y := by
  rcases fin_or_special y with ⟨b, rfl⟩ | hy
  · rw [fin_mul, mul_one]
  · exact special_mul_pos y 1 (by norm_num) hy

theorem fin_zero_add (y : Dbl) : fin 0 + y = y := by
  rcases fin_or_special y with ⟨b, rfl⟩ | hy
  · rw [fin_add, zero_add]
  · exact fin_add_special 0 y hy

end Dbl

/-- C17 (amended). Scenario S6, the line morph blend as a function of
`(cos theta, sin theta)`, for every coefficient `m < nc` with morph enabled.
At `theta = 0` (`cos = 1`, `sin = 0`) the working coefficients are left
unchanged; at `theta = pi` (`cos = -1`, `sin = 0`) a finite `working_c[m]`
becomes `morph_c[m]`; at `theta = pi/2` (`cos = 0`, `sin = 1`) it becomes
`(working_c[m] + morph_c[m]) / 2`.  In general, when the skip test
`cos >= 1 - 1e-14 && -1e-14 < sin < 1e-14` fails the result is
`working_c[m] * (1 - mu) + morph_c[m] * mu` with `mu = (1 - cos theta) / 2`,
and when the test holds the working coefficients are left unchanged. -/
theorem C17_line_morph_blend (cosT sinT : Dbl) (workRe workIm morphRe morphIm : DArr)
    (nc m : Nat) (hm : m < nc) :
    morphBlendLine true 1 0 workRe workIm morphRe morphIm nc = (workRe, workIm) ∧
    ((workRe m).isFinite = true →
      (morphBlendLine true (-1) 0 workRe workIm morphRe morphIm nc).1 m = morphRe m) ∧
    ((workIm m).isFinite = true →
      (morphBlendLine true (-1) 0 workRe workIm morphRe morphIm nc).2 m = morphIm m) ∧
    (morphBlendLine true 0 1 workRe workIm morphRe morphIm nc).1 m
      = (workRe m + morphRe m) / 2 ∧
    (morphBlendLine true 0 1 workRe workIm morphRe morphIm nc).2 m
      = (workIm m + morphIm m) / 2 ∧
    (blendSkip cosT sinT = false →
      (morphBlendLine true cosT sinT workRe workIm morphRe morphIm nc).1 m
        = workRe m * (1 - (1 - cosT) / 2) + morphRe m * ((1 - cosT) / 2) ∧
      (morphBlendLine true cosT sinT workRe workIm morphRe morphIm nc).2 m
        = workIm m * (1 - (1 - cosT) / 2) + morphIm m * ((1 - cosT) / 2)) ∧
    (blendSkip cosT sinT = true →
      morphBlendLine true cosT sinT workRe workIm morphRe morphIm nc = (workRe, workIm)) := by
  have hgen : ∀ c s : Dbl, blendSkip c s = false →
      (morphBlendLine true c s workRe workIm morphRe morphIm nc).1 m
        = workRe m * (1 - (chalf - chalf * c)) + morphRe m * (chalf - chalf * c) ∧
      (morphBlendLine true c s workRe workIm morphRe morphIm nc).2 m
        = workIm m * (1 - (chalf - chalf * c)) + morphIm m * (chalf - chalf * c) := by
    intro c s hs
    unfold morphBlendLine lineBlend
    rw [hs]
    simp only [Bool.not_false, Bool.and_self, if_true]
    have := lineBlend_apply (1 - (chalf - chalf * c)) (chalf - chalf * c) morphRe morphIm
      workRe workIm nc m
    rw [if_pos hm, if_pos hm] at this
    exact this
  have hpi : ∀ x y : Dbl, x.isFinite = true →
      x * (1 - (chalf - chalf * (-1))) + y * (chalf - chalf * (-1)) = y := by
    intro x y hx
    have e1 : ((1 : Dbl) - (chalf - chalf * (-1))) = Dbl.fin 0 := by decide!
    have e2 : (chalf - chalf * (-1)) = Dbl.fin 1 := by decide!
    rw [e1, e2]
    rcases Dbl.fin_or_special x with ⟨a, rfl⟩ | hx2
    · rw [Dbl.fin_mul, mul_zero, Dbl.mul_fin_one, Dbl.fin_zero_add]
    · rw [hx2] at hx; exact absurd hx (by simp)
  have hhalf : ∀ x y : Dbl,
      x * (1 - (chalf - chalf * 0)) + y * (chalf - chalf * 0) = (x + y) / 2 := by
    intro x y
    have e1 : ((1 : Dbl) - (chalf - chalf * 0)) = Dbl.fin (1 / 2) := by decide!
    have e2 : (chalf - chalf * 0) = Dbl.fin (1 / 2) := by decide!
    rw [e1, e2]
    have h2 : (0 : ℚ) < 1 / 2 := by norm_num
    have h3 : (0 : ℚ) < 2 := by norm_num
    rw [Dbl.ofNat_eq]
    rcases Dbl.fin_or_special x with ⟨a, rfl⟩ | hx <;>
      rcases Dbl.fin_or_special y with ⟨b, rfl⟩ | hy
    · rw [Dbl.fin_mul, Dbl.fin_mul, Dbl.fin_add, Dbl.fin_add, Dbl.fin_div _ _ (by norm_num)]
      congr 1
      push_cast
      ring
    · rw [Dbl.special_mul_pos y _ h2 hy, Dbl.fin_mul, Dbl.fin_add_special _ _ hy,
        Dbl.fin_add_special _ _ hy, Dbl.special_div_pos _ _ (by norm_num) hy]
    · rw [Dbl.special_mul_pos x _ h2 hx, Dbl.fin_mul, Dbl.special_add_fin _ _ hx,
        Dbl.special_add_fin _ _ hx, Dbl.special_div_pos _ _ (by norm_num) hx]
    · rw [Dbl.special_mul_pos x _ h2 hx, Dbl.special_mul_pos y _ h2 hy,
        Dbl.special_div_pos _ _ (by norm_num) (Dbl.special_add_special x y hx hy)]
  refine ⟨?_, ?_, ?_, ?_, ?_, ?_, ?_⟩
  · unfold morphBlendLine
    have : blendSkip 1 0 = true := by decide!
    rw [this]; rfl
  · intro hx
    rw [(hgen (-1) 0 (by decide!)).1]
    exact hpi _ _ hx
  · intro hx
    rw [(hgen (-1) 0 (by decide!)).2]
    exact hpi _ _ hx
  · rw [(hgen 0 1 (by decide!)).1]
    exact hhalf _ _
  · rw [(hgen 0 1 (by decide!)).2]
    exact hhalf _ _
  · intro hs
    have := hgen cosT sinT hs
    rw [lineBlend_mu] at this
    exact this
  · intro hs
    unfold morphBlendLine
    rw [hs]; rfl

/-- C17 (amended) on one coefficient, `working_c = 2 + 4i`, `morph_c = 6 - 2i`,
with `cos = 3/5`, `sin = 4/5` in the general case. -/
theorem C17_line_morph_blend_witness :
    0 < 1 ∧
    morphBlendLine true 1 0 (arr [2]) (arr [4]) (arr [6]) (arr [Dbl.fin (-2)]) 1
      = (arr [2], arr [4]) ∧
    (((arr [2]) 0).isFinite = true →
      (morphBlendLine true (-1) 0 (arr [2]) (arr [4]) (arr [6]) (arr [Dbl.fin (-2)]) 1).1 0
        = (arr [6]) 0) ∧
    (((arr [4]) 0).isFinite = true →
      (morphBlendLine true (-1) 0 (arr [2]) (arr [4]) (arr [6]) (arr [Dbl.fin (-2)]) 1).2 0
        = (arr [Dbl.fin (-2)]) 0) ∧
    (morphBlendLine true 0 1 (arr [2]) (arr [4]) (arr [6]) (arr [Dbl.fin (-2)]) 1).1 0
      = ((arr [2]) 0 + (arr [6]) 0) / 2 ∧
    (morphBlendLine true 0 1 (arr [2]) (arr [4]) (arr [6]) (arr [Dbl.fin (-2)]) 1).2 0
      = ((arr [4]) 0 + (arr [Dbl.fin (-2)]) 0) / 2 ∧
    (blendSkip (Dbl.fin (3 / 5)) (Dbl.fin (4 / 5)) = false →
      (morphBlendLine true (Dbl.fin (3 / 5)) (Dbl.fin (4 / 5)) (arr [2]) (arr [4]) (arr [6])
          (arr [Dbl.fin (-2)]) 1).1 0
        = (arr [2]) 0 * (1 - (1 - Dbl.fin (3 / 5)) / 2)
          + (arr [6]) 0 * ((1 - Dbl.fin (3 / 5)) / 2) ∧
      (morphBlendLine true (Dbl.fin (3 / 5)) (Dbl.fin (4 / 5)) (arr [2]) (arr [4]) (arr [6])
          (arr [Dbl.fin (-2)]) 1).2 0
        = (arr [4]) 0 * (1 - (1 - Dbl.fin (3 / 5)) / 2)
          + (arr [Dbl.fin (-2)]) 0 * ((1 - Dbl.fin (3 / 5)) / 2)) ∧
    (blendSkip (Dbl.fin (3 / 5)) (Dbl.fin (4 / 5)) = true →
      morphBlendLine true (Dbl.fin (3 / 5)) (Dbl.fin (4 / 5)) (arr [2]) (arr [4]) (arr [6])
          (arr [Dbl.fin (-2)]) 1 = (arr [2], arr [4])) :=
  ⟨by decide, C17_line_morph_blend (Dbl.fin (3 / 5)) (Dbl.fin (4 / 5)) (arr [2]) (arr [4])
    (arr [6]) (arr [Dbl.fin (-2)]) 1 0 (by decide)⟩

/-- C17 as stated fails in two places.  At the angle with
`cos = (1 - t^2)/(1 + t^2)`, `sin = 2t/(1 + t^2)`, `t = 1e-15` (a point of the
unit circle other than `theta = 0`) the skip test holds, so `working_c = 0` is
left unchanged, while the blend formula with `morph_c = 1` gives
`mu = t^2/(1 + t^2)`, not 0.  At `theta = pi` an infinite `working_c` times
`1 - mu = 0` is NaN, so the result is NaN and not `morph_c = 2`. -/
theorem C17_counterexample :
    (Dbl.fin ((1 - (1 / 10 ^ 15) ^ 2) / (1 + (1 / 10 ^ 15) ^ 2))
        * Dbl.fin ((1 - (1 / 10 ^ 15) ^ 2) / (1 + (1 / 10 ^ 15) ^ 2))
      + Dbl.fin (2 * (1 / 10 ^ 15) / (1 + (1 / 10 ^ 15) ^ 2))
        * Dbl.fin (2 * (1 / 10 ^ 15) / (1 + (1 / 10 ^ 15) ^ 2)) = 1) ∧
    (morphBlendLine true (Dbl.fin ((1 - (1 / 10 ^ 15) ^ 2) / (1 + (1 / 10 ^ 15) ^ 2)))
      (Dbl.fin (2 * (1 / 10 ^ 15) / (1 + (1 / 10 ^ 15) ^ 2)))
      (arr [0]) (arr [0]) (arr [1]) (arr [0]) 1).1 0 = 0 ∧
    ((arr [0]) 0
        * (1 - (1 - Dbl.fin ((1 - (1 / 10 ^ 15) ^ 2) / (1 + (1 / 10 ^ 15) ^ 2))) / 2)
      + (arr [1]) 0
        * ((1 - Dbl.fin ((1 - (1 / 10 ^ 15) ^ 2) / (1 + (1 / 10 ^ 15) ^ 2))) / 2)
      = Dbl.fin (1 / (10 ^ 30 + 1))) ∧
    (morphBlendLine true (-1) 0 (arr [Dbl.pinf]) (arr [0]) (arr [2]) (arr [0]) 1).1 0
      = Dbl.nan := by
  refine ⟨by decide!, by decide!, by decide!, by decide!⟩

/-! ## C18: canvas projection and drop rule -/

/-- Truncation toward zero is non-negative exactly above `-1`. -/
theorem truncQ_nonneg_iff (x : ℚ) : 0 ≤ truncQ x ↔ -1 < x := by
  unfold truncQ
  by_cases h0 : 0 ≤ x
  · rw [if_pos h0]
    constructor
    · intro _; linarith
    · intro _; exact Int.floor_nonneg.mpr h0
  · rw [if_neg h0, Int.floor_neg, neg_neg]
    have h1 : (0 : Int) ≤ ⌈x⌉ ↔ ((-1 : Int) : ℚ) < x := by
      rw [← Int.lt_ceil]; omega
    rw [h1]
    push_cast
    rfl

/-- For a positive bound `w`, truncation toward zero is below `w` exactly
when the value is. -/
theorem truncQ_lt_iff (x : ℚ) (w : Int) (hw : 0 < w) : truncQ x < w ↔ x < w := by
  unfold truncQ
  by_cases h0 : 0 ≤ x
  · rw [if_pos h0]
    exact Int.floor_lt
  · rw [if_neg h0, Int.floor_neg, neg_neg]
    have hx : x < 0 := not_le.mp h0
    have hc : ⌈x⌉ ≤ 0 := by
      rw [Int.ceil_le]; push_cast; exact le_of_lt hx
    have hwq : (0 : ℚ) < (w : ℚ) := by exact_mod_cast hw
    constructor
    · intro _; linarith
    · intro _; omega

/-- Truncation of half a non-negative integer is the integer quotient. -/
theorem truncQ_half (w : Int) (hw : 0 ≤ w) : truncQ (1 / 2 * (w : ℚ)) = w / 2 := by
  have hwq : (0 : ℚ) ≤ (w : ℚ) := by exact_mod_cast hw
  unfold truncQ
  rw [if_pos (by positivity)]
  have e : (1 / 2 * (w : ℚ)) = (w : ℚ) / ((2 : Nat) : ℚ) := by push_cast; ring
  rw [e, Rat.floor_intCast_div_natCast]
  rfl

/-- The cast of a finite value whose truncation fits an `int`. -/
theorem castInt_fin (x : ℚ) (h : -(2 ^ 31) ≤ truncQ x ∧ truncQ x < 2 ^ 31) :
    castInt (Dbl.fin x) = some (truncQ x) := by
  unfold castInt
  simp only []
  rw [if_pos h]

/-- One iteration of a paint loop in terms of the two casts: the root is
dropped when a coordinate is off the canvas, else the pixel `iy * W + ix` and
the colour are stored at `pc`. -/
theorem paintStep_eq (cv : Canvas) (rootsRe rootsIm : DArr)
    (col : Nat → Option (Nat × Nat × Nat)) (s : Paint) (i : Nat) (ix iy : Int)
    (c : Nat × Nat × Nat) (hx : projX cv (rootsRe i) = some ix)
    (hy : projY cv (rootsIm i) = some iy) (hc : col i = some c)
    (hWH : cv.W * cv.H ≤ 2 ^ 31) :
    paintStep cv rootsRe rootsIm col (some s) i
      = if 0 ≤ ix ∧ ix < cv.W ∧ 0 ≤ iy ∧ iy < cv.H then
          some { pc := s.pc + 1, idx := wr s.idx s.pc (iy * cv.W + ix), r := wr s.r s.pc c.1,
                 g := wr s.g s.pc c.2.1, b := wr s.b s.pc c.2.2, log := s.log ++ [s.pc] }
        else some s := by
  unfold paintStep
  rw [hx, hy]
  simp only []
  by_cases hin : 0 ≤ ix ∧ ix < cv.W ∧ 0 ≤ iy ∧ iy < cv.H
  · rw [if_pos hin, if_neg (by omega), hc]
    obtain ⟨h1, h2, h3, h4⟩ := hin
    have hk : pixelIndex cv ix iy = some (iy * cv.W + ix) := by
      unfold pixelIndex
      have hW : 0 < cv.W := by omega
      have e1 : 0 ≤ iy * cv.W := mul_nonneg h3 (le_of_lt hW)
      have e2 : iy * cv.W ≤ (cv.H - 1) * cv.W :=
        mul_le_mul_of_nonneg_right (by omega) (le_of_lt hW)
      have e3 : (cv.H - 1) * cv.W = cv.W * cv.H - cv.W := by ring
      rw [if_pos ⟨by omega, by omega⟩]
    rw [hk]
  · rw [if_neg hin, if_pos (by omega)]

/-- C18 (amended). Canvas projection and drop rule, the same in the four
colour modes, for a canvas of at most `2^31` pixels.  Whenever the two
projected values `x = ((Re - cx)/range + 1) * 0.5 * W` and
`y = (1 - (Im - cy)/range) * 0.5 * H` are finite and their truncations toward
zero fit an `int`, the root contributes a pixel exactly when
`ix = trunc(x)` lies in `[0, W)` and `iy = trunc(y)` lies in `[0, H)`, and the
pixel then written is `iy * W + ix`; for `W, H > 0` this is the case exactly
when `-1 < x < W` and `-1 < y < H`.  In particular a finite root exactly at
`(cx, cy)`, with `range > 0` and `0 < W, H < 2^31`, is written at column
`floor(W/2)`, row `floor(H/2)`. -/
theorem C18_canvas_projection (cv : Canvas) (rootsRe rootsIm : DArr)
    (col : Nat → Option (Nat × Nat × Nat)) (s : Paint) (i : Nat) (c : Nat × Nat × Nat)
    (hc : col i = some c) (hWH : cv.W * cv.H ≤ 2 ^ 31) :
    (∀ x y : ℚ,
      ((rootsRe i - cv.centerX) / cv.range + 1) * chalf * Dbl.fin cv.W = Dbl.fin x →
      (1 - (rootsIm i - cv.centerY) / cv.range) * chalf * Dbl.fin cv.H = Dbl.fin y →
      -(2 ^ 31) ≤ truncQ x ∧ truncQ x < 2 ^ 31 → -(2 ^ 31) ≤ truncQ y ∧ truncQ y < 2 ^ 31 →
      paintStep cv rootsRe rootsIm col (some s) i
        = (if 0 ≤ truncQ x ∧ truncQ x < cv.W ∧ 0 ≤ truncQ y ∧ truncQ y < cv.H then
            some { pc := s.pc + 1, idx := wr s.idx s.pc (truncQ y * cv.W + truncQ x),
                   r := wr s.r s.pc c.1, g := wr s.g s.pc c.2.1, b := wr s.b s.pc c.2.2,
                   log := s.log ++ [s.pc] }
          else some s) ∧
      (0 < cv.W → 0 < cv.H →
        ((0 ≤ truncQ x ∧ truncQ x < cv.W ∧ 0 ≤ truncQ y ∧ truncQ y < cv.H)
          ↔ (-1 < x ∧ x < cv.W ∧ -1 < y ∧ y < cv.H)))) ∧
    (∀ a b : ℚ, rootsRe i = Dbl.fin a → cv.centerX = Dbl.fin a → rootsIm i = Dbl.fin b →
      cv.centerY = Dbl.fin b → (0 : Dbl).lt cv.range = true →
      0 < cv.W → cv.W < 2 ^ 31 → 0 < cv.H → cv.H < 2 ^ 31 →
      paintStep cv rootsRe rootsIm col (some s) i
        = some { pc := s.pc + 1, idx := wr s.idx s.pc (cv.H / 2 * cv.W + cv.W / 2),
                 r := wr s.r s.pc c.1, g := wr s.g s.pc c.2.1, b := wr s.b s.pc c.2.2,
                 log := s.log ++ [s.pc] }) := by
  constructor
  · intro x y hx hy hfx hfy
    have px : projX cv (rootsRe i) = some (truncQ x) := by
      unfold projX; rw [hx]; exact castInt_fin x hfx
    have py : projY cv (rootsIm i) = some (truncQ y) := by
      unfold projY; rw [hy]; exact castInt_fin y hfy
    refine ⟨paintStep_eq cv rootsRe rootsIm col s i _ _ c px py hc hWH, ?_⟩
    intro hW hH
    rw [truncQ_nonneg_iff, truncQ_nonneg_iff, truncQ_lt_iff x _ hW, truncQ_lt_iff y _ hH]
  · intro a b hre hcx him hcy hr hW hW2 hH hH2
    have hzero : ∀ q : ℚ, (Dbl.fin q - Dbl.fin q) / cv.range = Dbl.fin 0 := by
      intro q
      rw [Dbl.fin_sub, sub_self]
      cases hrv : cv.range with
      | fin r =>
        rw [hrv] at hr
        have hr0 : (0 : ℚ) < r := by simpa using hr
        rw [Dbl.fin_div _ _ (ne_of_gt hr0), zero_div]
      | pinf => rfl
      | ninf => rw [hrv] at hr; exact absurd hr (by simp [Dbl.lt])
      | nan => rw [hrv] at hr; exact absurd hr (by simp [Dbl.lt])
    have hfit : ∀ w : Int, 0 < w → w < 2 ^ 31 →
        -(2 ^ 31) ≤ truncQ (1 / 2 * (w : ℚ)) ∧ truncQ (1 / 2 * (w : ℚ)) < 2 ^ 31 := by
      intro w h1 h2
      rw [truncQ_half w (le_of_lt h1)]
      constructor <;> omega
    have px : projX cv (rootsRe i) = some (cv.W / 2) := by
      unfold projX
      rw [hre, hcx, hzero a]
      have e : (Dbl.fin 0 + 1) * chalf * Dbl.fin cv.W = Dbl.fin (1 / 2 * (cv.W : ℚ)) := by
        simp [chalf]
      rw [e, castInt_fin _ (hfit cv.W hW hW2), truncQ_half cv.W (le_of_lt hW)]
    have py : projY cv (rootsIm i) = some (cv.H / 2) := by
      unfold projY
      rw [him, hcy, hzero b]
      have e : (1 - Dbl.fin 0) * chalf * Dbl.fin cv.H = Dbl.fin (1 / 2 * (cv.H : ℚ)) := by
        simp [chalf]
      rw [e, castInt_fin _ (hfit cv.H hH hH2), truncQ_half cv.H (le_of_lt hH)]
    rw [paintStep_eq cv rootsRe rootsIm col s i _ _ c px py hc hWH, if_pos]
    refine ⟨?_, ?_, ?_, ?_⟩ <;> omega

/-- C18 (amended) on the sample canvas and the root `1/4 - i/4`. -/
theorem C18_canvas_projection_witness :
    (fun _ : Nat => some ((1 : Nat), (2 : Nat), (3 : Nat))) 0 = some (1, 2, 3) ∧
    canvas100.W * canvas100.H ≤ 2 ^ 31 ∧
    (∀ x y : ℚ,
      (((arr [Dbl.fin (1 / 4)]) 0 - canvas100.centerX) / canvas100.range + 1) * chalf
        * Dbl.fin canvas100.W = Dbl.fin x →
      (1 - ((arr [Dbl.fin (-1 / 4)]) 0 - canvas100.centerY) / canvas100.range) * chalf
        * Dbl.fin canvas100.H = Dbl.fin y →
      -(2 ^ 31) ≤ truncQ x ∧ truncQ x < 2 ^ 31 → -(2 ^ 31) ≤ truncQ y ∧ truncQ y < 2 ^ 31 →
      paintStep canvas100 (arr [Dbl.fin (1 / 4)]) (arr [Dbl.fin (-1 / 4)])
          (fun _ => some (1, 2, 3)) (some paint0) 0
        = (if 0 ≤ truncQ x ∧ truncQ x < canvas100.W ∧ 0 ≤ truncQ y ∧ truncQ y < canvas100.H then
            some { pc := paint0.pc + 1,
                   idx := wr paint0.idx paint0.pc (truncQ y * canvas100.W + truncQ x),
                   r := wr paint0.r paint0.pc (1, 2, 3).1,
                   g := wr paint0.g paint0.pc (1, 2, 3).2.1,
                   b := wr paint0.b paint0.pc (1, 2, 3).2.2,
                   log := paint0.log ++ [paint0.pc] }
          else some paint0) ∧
      (0 < canvas100.W → 0 < canvas100.H →
        ((0 ≤ truncQ x ∧ truncQ x < canvas100.W ∧ 0 ≤ truncQ y ∧ truncQ y < canvas100.H)
          ↔ (-1 < x ∧ x < canvas100.W ∧ -1 < y ∧ y < canvas100.H)))) ∧
    (∀ a b : ℚ, (arr [Dbl.fin (1 / 4)]) 0 = Dbl.fin a → canvas100.centerX = Dbl.fin a →
      (arr [Dbl.fin (-1 / 4)]) 0 = Dbl.fin b → canvas100.centerY = Dbl.fin b →
      (0 : Dbl).lt canvas100.range = true →
      0 < canvas100.W → canvas100.W < 2 ^ 31 → 0 < canvas100.H → canvas100.H < 2 ^ 31 →
      paintStep canvas100 (arr [Dbl.fin (1 / 4)]) (arr [Dbl.fin (-1 / 4)])
          (fun _ => some (1, 2, 3)) (some paint0) 0
        = some { pc := paint0.pc + 1,
                 idx := wr paint0.idx paint0.pc
                   (canvas100.H / 2 * canvas100.W + canvas100.W / 2),
                 r := wr paint0.r paint0.pc (1, 2, 3).1,
                 g := wr paint0.g paint0.pc (1, 2, 3).2.1,
                 b := wr paint0.b paint0.pc (1, 2, 3).2.2,
                 log := paint0.log ++ [paint0.pc] }) :=
  ⟨rfl, by decide,
    C18_canvas_projection canvas100 (arr [Dbl.fin (1 / 4)]) (arr [Dbl.fin (-1 / 4)])
      (fun _ => some (1, 2, 3)) paint0 0 (1, 2, 3) rfl (by decide)⟩

/-- The pixels of the witness and of the centre: the root `1/4 - i/4` lands
in column 62, row 62, and a root at the centre in column 50, row 50. -/
theorem paintStep_samples :
    (paintStep canvas100 (arr [Dbl.fin (1 / 4)]) (arr [Dbl.fin (-1 / 4)])
        (fun _ => some (1, 2, 3)) (some paint0) 0).map (fun p => (p.pc, p.idx 0, p.log))
      = some (1, 6262, [0]) ∧
    (paintStep canvas100 (arr [0]) (arr [0])
        (fun _ => some (1, 2, 3)) (some paint0) 0).map (fun p => (p.pc, p.idx 0, p.log))
      = some (1, 5050, [0]) := by
  refine ⟨by decide!, by decide!⟩

/-- C18 as stated fails on the sample canvas for the root `-1.01`: the
projected column value is `-0.5`, whose floor `-1` lies outside `[0, W)`, but
the C cast truncates toward zero, `(int)(-0.5) = 0`, so the root is not
dropped: it is written in column 0, row 50, as pixel 5000. -/
theorem C18_counterexample :
    (((arr [Dbl.fin (-101 / 100)]) 0 - canvas100.centerX) / canvas100.range + 1) * chalf
        * Dbl.fin canvas100.W = Dbl.fin (-1 / 2) ∧
    ⌊(-1 / 2 : ℚ)⌋ = -1 ∧
    projX canvas100 ((arr [Dbl.fin (-101 / 100)]) 0) = some 0 ∧
    projY canvas100 ((arr [0]) 0) = some 50 ∧
    (paintStep canvas100 (arr [Dbl.fin (-101 / 100)]) (arr [0])
        (fun _ => some (1, 2, 3)) (some paint0) 0).map (fun p => (p.pc, p.idx 0, p.log))
      = some (1, 5000, [0]) := by
  refine ⟨by decide!, by decide!, by decide!, by decide!, by decide!⟩

/-! ## C19: palette index bounds -/

/-- A loop `for (i = 0; i < n; i++) a[i] = f(a[i])`. -/
theorem mapLoop_apply (f : Dbl → Dbl) (r : DArr) (n k : Nat) :
    (List.range n).foldl (fun r i => wr r i (f (r i))) r k
      = if k < n then f (r k) else r k := by
  induction n with
  | zero => simp
  | succ n ih =>
    rw [List.range_succ, List.foldl_append]
    simp only [List.foldl_cons, List.foldl_nil, wr]
    by_cases hk : k = n
    · subst hk
      have := ih
      simp only [lt_irrefl, if_false] at this
      simp [this]
    · have hlt : k < n + 1 ↔ k < n := by omega
      simp only [if_neg hk, ih, hlt]

/-- Every squared minimum distance of proximity mode is finite and
non-negative. -/
theorem proxMinDist2_fin (tmpRe tmpIm : DArr) (nr : Nat) :
    ∀ k, ∃ q : ℚ, 0 ≤ q ∧ proxMinDist2 tmpRe tmpIm nr k = Dbl.fin q := by
  have hinit : ∀ k, ∃ q : ℚ, 0 ≤ q ∧
      ((List.range nr).foldl (fun md i => wr md i c1e300) (fun _ => (0 : Dbl))) k = Dbl.fin q := by
    apply foldl_preserves (fun md : DArr => ∀ k, ∃ q : ℚ, 0 ≤ q ∧ md k = Dbl.fin q)
      (fun _ : Nat => True) (fun md i => wr md i c1e300)
    · intro md i h _ k
      simp only [wr]
      by_cases hk : k = i
      · rw [if_pos hk]; exact ⟨10 ^ 300, by positivity, rfl⟩
      · rw [if_neg hk]; exact h k
    · intro _ _; trivial
    · intro k; exact ⟨0, le_refl _, rfl⟩
  have hpair : ∀ (i : Nat) (md : DArr) (j : Nat),
      (∀ k, ∃ q : ℚ, 0 ≤ q ∧ md k = Dbl.fin q) →
      ∀ k, ∃ q : ℚ, 0 ≤ q ∧ proxPairStep tmpRe tmpIm i md j k = Dbl.fin q := by
    intro i md j h
    have hwr : ∀ (m : DArr) (t : Nat), (∀ k, ∃ q : ℚ, 0 ≤ q ∧ m k = Dbl.fin q) →
        ∀ k, ∃ q : ℚ, 0 ≤ q ∧
          (if ((tmpRe i - tmpRe j) * (tmpRe i - tmpRe j)
              + (tmpIm i - tmpIm j) * (tmpIm i - tmpIm j)).lt (m t)
            then wr m t ((tmpRe i - tmpRe j) * (tmpRe i - tmpRe j)
              + (tmpIm i - tmpIm j) * (tmpIm i - tmpIm j)) else m) k = Dbl.fin q := by
      intro m t hm k
      split_ifs with hlt
      · simp only [wr]
        by_cases hk : k = t
        · rw [if_pos hk]
          obtain ⟨c, -, ec⟩ := hm t
          rw [ec] at hlt
          obtain ⟨q, e, hq, -⟩ := sq_sum_fin _ _ c hlt
          exact ⟨q, hq, e⟩
        · rw [if_neg hk]; exact hm k
      · exact hm k
    unfold proxPairStep
    exact hwr _ j (hwr md i h)
  unfold proxMinDist2
  apply foldl_preserves (fun md : DArr => ∀ k, ∃ q : ℚ, 0 ≤ q ∧ md k = Dbl.fin q)
    (fun _ : Nat => True)
  · intro md i h _
    apply foldl_preserves (fun md : DArr => ∀ k, ∃ q : ℚ, 0 ≤ q ∧ md k = Dbl.fin q)
      (fun _ : Nat => True) (proxPairStep tmpRe tmpIm i)
    · intro md2 j h2 _
      exact hpair i md2 j h2
    · intro _ _; trivial
    · exact h
  · intro _ _; trivial
  · exact hinit

/-- With a square root that maps non-negative finite values to non-negative
finite values, every entry of `minDists` below `nr` is one. -/
theorem proxMinDists_fin (sqrt : Dbl → Dbl)
    (hsqrt : ∀ q : ℚ, 0 ≤ q → ∃ r : ℚ, 0 ≤ r ∧ sqrt (Dbl.fin q) = Dbl.fin r)
    (tmpRe tmpIm : DArr) (nr i : Nat) (hi : i < nr) :
    ∃ r : ℚ, 0 ≤ r ∧ proxMinDists sqrt tmpRe tmpIm nr i = Dbl.fin r := by
  unfold proxMinDists
  rw [mapLoop_apply, if_pos hi]
  obtain ⟨q, hq, e⟩ := proxMinDist2_fin tmpRe tmpIm nr i
  rw [e]
  exact hsqrt q hq

/-- The cast of a value in `[0, 16)` gives an index in `[0, 15]`, which the
clamp leaves as it is. -/
theorem castInt_unit (z : ℚ) (h0 : 0 ≤ z) (h1 : z < 16) :
    ∃ p : Int, (castInt (Dbl.fin z)).map clamp15 = some p ∧ 0 ≤ p ∧ p ≤ 15 := by
  have ht : truncQ z = ⌊z⌋ := by unfold truncQ; rw [if_pos h0]
  have hlo : 0 ≤ ⌊z⌋ := Int.floor_nonneg.mpr h0
  have hhi : ⌊z⌋ < 16 := by rw [Int.floor_lt]; exact_mod_cast h1
  rw [castInt_fin z (by rw [ht]; constructor <;> omega), ht]
  refine ⟨⌊z⌋, ?_, hlo, by omega⟩
  simp only [Option.map_some', clamp15]
  rw [if_neg (by omega)]

/-- The palette index of proximity mode lies in `[0, 15]` for every
non-negative finite distance and every value of `proxRunMax`. -/
theorem palProx_range (r : ℚ) (hr : 0 ≤ r) (proxRunMax : Dbl) :
    ∃ p : Int, palProx (Dbl.fin r) proxRunMax = some p ∧ 0 ≤ p ∧ p ≤ 15 := by
  have hone : ∃ p : Int, (castInt ((1 : Dbl) * 15)).map clamp15 = some p ∧ 0 ≤ p ∧ p ≤ 15 :=
    ⟨15, by decide!, by decide, by decide⟩
  have hfin : ∀ t : ℚ, 0 ≤ t →
      ∃ p : Int, (castInt ((1 - (if (1 : Dbl).lt (Dbl.fin t) then 1 else Dbl.fin t)) * 15)).map
        clamp15 = some p ∧ 0 ≤ p ∧ p ≤ 15 := by
    intro t ht
    by_cases h1 : (1 : ℚ) < t
    · have e : (1 : Dbl).lt (Dbl.fin t) = true := by simpa using h1
      rw [e]
      simp only [if_true]
      exact ⟨0, by decide!, by decide, by decide⟩
    · have e : (1 : Dbl).lt (Dbl.fin t) = false := by simpa using h1
      rw [e]
      simp only [Bool.false_eq_true, if_false, Dbl.ofNat_eq, Dbl.fin_sub, Dbl.fin_mul]
      apply castInt_unit
      · push_cast; nlinarith
      · push_cast; nlinarith
  unfold palProx proxT
  cases hp : proxRunMax with
  | fin p =>
    by_cases hp0 : (0 : ℚ) < p
    · have e : (0 : Dbl).lt (Dbl.fin p) = true := by simpa using hp0
      rw [if_pos e, Dbl.fin_div _ _ (ne_of_gt hp0)]
      exact hfin _ (div_nonneg hr (le_of_lt hp0))
    · have e : ¬ ((0 : Dbl).lt (Dbl.fin p) = true) := by simpa using hp0
      rw [if_neg e]
      exact hone
  | pinf =>
    have e : (0 : Dbl).lt Dbl.pinf = true := rfl
    rw [if_pos e]
    have e2 : Dbl.fin r / Dbl.pinf = Dbl.fin 0 := rfl
    rw [e2]
    exact hfin 0 (le_refl _)
  | ninf =>
    have e : ¬ ((0 : Dbl).lt Dbl.ninf = true) := by decide
    rw [if_neg e]
    exact hone
  | nan =>
    have e : ¬ ((0 : Dbl).lt Dbl.nan = true) := by decide
    rw [if_neg e]
    exact hone

/-- C19. Palette index bounds: in derivative mode (3) the index
`(int)(normSens[i] * 15.0 + 0.5)` of every root `i < nRoots`, for every
sensitivity array handed to `rankNorm`, and in proximity mode (2) the index
`(int)(t * 15.0)` of every root `i < nRoots`, for every root configuration
(also `nRoots = 1`) and every value of `proxRunMax`, is defined and lies in
`[0, 15]`.  The square root is any function that maps non-negative finite
values to non-negative finite values. -/
theorem C19_palette_index_bounds (sqrt : Dbl → Dbl)
    (hsqrt : ∀ q : ℚ, 0 ≤ q → ∃ r : ℚ, 0 ≤ r ∧ sqrt (Dbl.fin q) = Dbl.fin r)
    (rawSens normSens0 tmpRe tmpIm : DArr) (proxRunMax : Dbl) (nr i : Nat) (hi : i < nr) :
    (∃ p : Int, palDeriv (rankNorm rawSens normSens0 nr i) = some p ∧ 0 ≤ p ∧ p ≤ 15) ∧
    (∃ p : Int, palProx (proxMinDists sqrt tmpRe tmpIm nr i) proxRunMax = some p ∧
      0 ≤ p ∧ p ≤ 15) ∧
    (∃ p : Int, palProx (proxMinDists sqrt tmpRe tmpIm nr i)
        (proxRunMaxNext (proxMinDists sqrt tmpRe tmpIm nr) nr proxRunMax) = some p ∧
      0 ≤ p ∧ p ≤ 15) := by
  refine ⟨?_, ?_, ?_⟩
  · obtain ⟨q, e, h0, h1⟩ := rankNorm_range rawSens normSens0 nr i hi
    unfold palDeriv
    rw [e]
    simp only [chalf, Dbl.ofNat_eq, Dbl.fin_mul, Dbl.fin_add]
    apply castInt_unit
    · push_cast; nlinarith
    · push_cast; nlinarith
  · obtain ⟨r, hr, e⟩ := proxMinDists_fin sqrt hsqrt tmpRe tmpIm nr i hi
    rw [e]
    exact palProx_range r hr proxRunMax
  · obtain ⟨r, hr, e⟩ := proxMinDists_fin sqrt hsqrt tmpRe tmpIm nr i hi
    rw [e]
    exact palProx_range r hr _

/-- The sample square root maps non-negative finite values to non-negative
finite values. -/
theorem sqrtSample_ok (q : ℚ) (hq : 0 ≤ q) :
    ∃ r : ℚ, 0 ≤ r ∧ sqrtSample (Dbl.fin q) = Dbl.fin r := by
  refine ⟨(Nat.sqrt q.num.toNat : ℚ) / (Nat.sqrt q.den : ℚ), ?_, ?_⟩
  · exact div_nonneg (Nat.cast_nonneg _) (Nat.cast_nonneg _)
  · unfold sqrtSample
    simp only []
    rw [if_pos hq]

/-- C19 on two roots `0` and `3 + 4i`, at distance 5, with the sensitivities
`[3, 1]` and `proxRunMax = 1`. -/
theorem C19_palette_index_bounds_witness :
    (∀ q : ℚ, 0 ≤ q → ∃ r : ℚ, 0 ≤ r ∧ sqrtSample (Dbl.fin q) = Dbl.fin r) ∧ 0 < 2 ∧
    (∃ p : Int, palDeriv (rankNorm (arr [3, 1]) (fun _ => 0) 2 0) = some p ∧ 0 ≤ p ∧ p ≤ 15) ∧
    (∃ p : Int, palProx (proxMinDists sqrtSample (arr [0, 3]) (arr [0, 4]) 2 0) 1 = some p ∧
      0 ≤ p ∧ p ≤ 15) ∧
    (∃ p : Int, palProx (proxMinDists sqrtSample (arr [0, 3]) (arr [0, 4]) 2 0)
        (proxRunMaxNext (proxMinDists sqrtSample (arr [0, 3]) (arr [0, 4]) 2) 2 1) = some p ∧
      0 ≤ p ∧ p ≤ 15) :=
  ⟨sqrtSample_ok, by decide,
    C19_palette_index_bounds sqrtSample sqrtSample_ok (arr [3, 1]) (fun _ => 0)
      (arr [0, 3]) (arr [0, 4]) 1 2 0 (by decide)⟩

/-- The indices of the witness: the larger sensitivity gets index 15; the
distance 5 against `proxRunMax = 1` gives `t = 0` and index 0, and against
the updated `proxRunMax = 4.995` gives `t = 0` as well. -/
theorem palette_samples :
    palDeriv (rankNorm (arr [3, 1]) (fun _ => 0) 2 0) = some 15 ∧
    palDeriv (rankNorm (arr [3, 1]) (fun _ => 0) 2 1) = some 0 ∧
    proxMinDists sqrtSample (arr [0, 3]) (arr [0, 4]) 2 0 = 5 ∧
    proxRunMaxNext (proxMinDists sqrtSample (arr [0, 3]) (arr [0, 4]) 2) 2 1
      = Dbl.fin (4995 / 1000) ∧
    palProx (proxMinDists sqrtSample (arr [0, 3]) (arr [0, 4]) 2 0) 1 = some 0 ∧
    palProx (proxMinDists sqrtSample (arr [0, 3]) (arr [0, 4]) 2 0)
      (proxRunMaxNext (proxMinDists sqrtSample (arr [0, 3]) (arr [0, 4]) 2) 2 1) = some 0 := by
  refine ⟨by decide!, by decide!, by decide!, by decide!, by decide!, by decide!⟩

/-! ## C20: the pixel list -/

/-- One iteration of a paint loop keeps the invariant of the output buffers
and adds at most one pixel. -/
theorem paintStep_inv (cv : Canvas) (out : Paint) (rootsRe rootsIm : DArr)
    (col : Nat → Option (Nat × Nat × Nat)) (p p2 : Paint) (i : Nat)
    (h : PaintInv cv out p) (e : paintStep cv rootsRe rootsIm col (some p) i = some p2) :
    PaintInv cv out p2 ∧ p.pc ≤ p2.pc ∧ p2.pc ≤ p.pc + 1 := by
  unfold paintStep at e
  cases hx : projX cv (rootsRe i) with
  | none => rw [hx] at e; simp at e
  | some ix =>
    cases hy : projY cv (rootsIm i) with
    | none => rw [hx, hy] at e; simp at e
    | some iy =>
      rw [hx, hy] at e
      simp only [] at e
      by_cases hd : ix < 0 ∨ ix ≥ cv.W ∨ iy < 0 ∨ iy ≥ cv.H
      · rw [if_pos hd] at e
        have : p = p2 := Option.some.inj e
        subst this
        exact ⟨h, le_refl _, by omega⟩
      · rw [if_neg hd] at e
        cases hc : col i with
        | none => rw [hc] at e; simp at e
        | some c =>
          cases hk : pixelIndex cv ix iy with
          | none => rw [hc, hk] at e; simp at e
          | some k =>
            rw [hc, hk] at e
            simp only [] at e
            have e2 := Option.some.inj e
            subst e2
            have hkv : k = iy * cv.W + ix := by
              unfold pixelIndex at hk
              split_ifs at hk
              exact (Option.some.inj hk).symm
            have h1 : 0 ≤ ix := by omega
            have h2 : ix < cv.W := by omega
            have h3 : 0 ≤ iy := by omega
            have h4 : iy < cv.H := by omega
            have hW : 0 < cv.W := by omega
            have e1 : 0 ≤ iy * cv.W := mul_nonneg h3 (le_of_lt hW)
            have e2 : iy * cv.W ≤ (cv.H - 1) * cv.W :=
              mul_le_mul_of_nonneg_right (by omega) (le_of_lt hW)
            have e3 : (cv.H - 1) * cv.W = cv.W * cv.H - cv.W := by ring
            refine ⟨⟨?_, ?_, ?_⟩, by show p.pc ≤ p.pc + 1; omega, le_refl _⟩
            · show p.log ++ [p.pc] = List.range (p.pc + 1)
              rw [h.logged, List.range_succ]
            · intro j hj
              show 0 ≤ wr p.idx p.pc k j ∧ wr p.idx p.pc k j < cv.W * cv.H
              simp only [wr]
              by_cases hjp : j = p.pc
              · rw [if_pos hjp, hkv]
                constructor <;> omega
              · rw [if_neg hjp]
                have hj2 : j < p.pc + 1 := hj
                exact h.onCanvas j (by omega)
            · intro j hj
              have hj2 : p.pc + 1 ≤ j := hj
              have hne : ¬ j = p.pc := by omega
              show wr p.idx p.pc k j = _ ∧ wr p.r p.pc c.1 j = _ ∧ wr p.g p.pc c.2.1 j = _ ∧
                wr p.b p.pc c.2.2 j = _
              simp only [wr, if_neg hne]
              exact h.frame j (by omega)

/-- A paint loop keeps the invariant of the output buffers and adds at most
`nr` pixels. -/
theorem paintLoop_inv (cv : Canvas) (out : Paint) (rootsRe rootsIm : DArr)
    (col : Nat → Option (Nat × Nat × Nat)) (p : Paint) (h : PaintInv cv out p) :
    ∀ (nr : Nat) (p2 : Paint), paintLoop cv rootsRe rootsIm col nr p = some p2 →
      PaintInv cv out p2 ∧ p.pc ≤ p2.pc ∧ p2.pc ≤ p.pc + nr := by
  intro nr
  induction nr with
  | zero =>
    intro p2 e
    have : p = p2 := Option.some.inj e
    subst this
    exact ⟨h, le_refl _, le_refl _⟩
  | succ n ih =>
    intro p2 e
    unfold paintLoop at e ih
    rw [List.range_succ, List.foldl_append] at e
    simp only [List.foldl_cons, List.foldl_nil] at e
    cases hm : (List.range n).foldl (paintStep cv rootsRe rootsIm col) (some p) with
    | none =>
      rw [hm] at e
      simp [paintStep] at e
    | some p1 =>
      rw [hm] at e
      obtain ⟨i1, i2, i3⟩ := ih p1 hm
      obtain ⟨j1, j2, j3⟩ := paintStep_inv cv out rootsRe rootsIm col p1 p2 n i1 e
      exact ⟨j1, by omega, by omega⟩

/-- Step 9 keeps the invariant of the output buffers and adds at most
`nRoots` pixels. -/
theorem postSolve_inv {σ : Type} (cfg : Config) (E : Env σ) (k : Nat) (st st2 : LoopState σ)
    (env1 : σ) (tmp : DArr × DArr) (out : Paint) (h : PaintInv cfg.canvas out st.paint)
    (e : postSolve cfg E k st env1 tmp = some st2) :
    PaintInv cfg.canvas out st2.paint ∧ st.paint.pc ≤ st2.paint.pc ∧
      st2.paint.pc ≤ st.paint.pc + cfg.nRoots := by
  have key : ∀ (re im : DArr) (col : Nat → Option (Nat × Nat × Nat)) (prm : Dbl),
      (paintLoop cfg.canvas re im col cfg.nRoots st.paint).map
        (fun p => ({ env := env1, rootsRe := re, rootsIm := im, proxRunMax := prm,
                     paint := p } : LoopState σ)) = some st2 →
      PaintInv cfg.canvas out st2.paint ∧ st.paint.pc ≤ st2.paint.pc ∧
        st2.paint.pc ≤ st.paint.pc + cfg.nRoots := by
    intro re im col prm e1
    cases hp : paintLoop cfg.canvas re im col cfg.nRoots st.paint with
    | none => rw [hp] at e1; simp at e1
    | some p =>
      rw [hp] at e1
      have e2 := Option.some.inj e1
      subst e2
      exact paintLoop_inv cfg.canvas out re im col st.paint h cfg.nRoots p hp
  unfold postSolve at e
  by_cases h3 : cfg.colorMode = 3
  · rw [if_pos h3] at e
    exact key _ _ _ _ e
  · rw [if_neg h3] at e
    by_cases h2 : cfg.colorMode = 2
    · rw [if_pos h2] at e
      exact key _ _ _ _ e
    · rw [if_neg h2] at e
      by_cases h0 : cfg.colorMode = 0
      · rw [if_pos h0] at e
        exact key _ _ _ _ e
      · rw [if_neg h0] at e
        cases hm : matchIndex cfg k tmp st.rootsRe st.rootsIm with
        | none => rw [hm] at e; simp at e
        | some t =>
          rw [hm] at e
          exact key _ _ _ _ e

/-- The loop over the steps keeps the invariant of the output buffers and
adds at most `nRoots` pixels per step. -/
theorem stepLoop_inv {σ : Type} (cfg : Config) (E : Env σ) (stepStart : Int) (out : Paint)
    (st0 : LoopState σ) (h : PaintInv cfg.canvas out st0.paint) :
    ∀ (n : Nat) (st2 : LoopState σ),
      (List.range n).foldl (stepBody cfg E stepStart) (some st0) = some st2 →
      PaintInv cfg.canvas out st2.paint ∧ st2.paint.pc ≤ st0.paint.pc + cfg.nRoots * n := by
  intro n
  induction n with
  | zero =>
    intro st2 e
    have : st0 = st2 := Option.some.inj e
    subst this
    exact ⟨h, by omega⟩
  | succ n ih =>
    intro st2 e
    rw [List.range_succ, List.foldl_append] at e
    simp only [List.foldl_cons, List.foldl_nil] at e
    cases hm : (List.range n).foldl (stepBody cfg E stepStart) (some st0) with
    | none =>
      rw [hm] at e
      simp [stepBody] at e
    | some st1 =>
      rw [hm] at e
      obtain ⟨i1, i2⟩ := ih st1 hm
      unfold stepBody at e
      simp only [] at e
      cases hpre : E.pre st1.env (stepStart + n) (st1.rootsRe, st1.rootsIm) with
      | none => rw [hpre] at e; simp at e
      | some r =>
        rw [hpre] at e
        simp only [] at e
        obtain ⟨j1, j2, j3⟩ := postSolve_inv cfg E n st1 st2 r.1 r.2 out i1 e
        refine ⟨j1, ?_⟩
        have : cfg.nRoots * (n + 1) = cfg.nRoots * n + cfg.nRoots := by ring
        omega

/-- C20 (amended). Valid pixel list: for every configuration and every call
`runStepLoop(stepStart, stepEnd, elapsedOffset)` that stays within the defined
behaviour of C, the returned count `pc` satisfies
`0 <= pc <= nRoots * max(0, stepEnd - stepStart)`, exactly the entries
`0 .. pc - 1` of the four output arrays are written (in this order, the
entries from `pc` on keep their contents), and every written `paintIdx[i]`
lies in `[0, W * H)`. -/
theorem C20_valid_pixel_list {σ : Type} (cfg : Config) (E : Env σ) (env0 : σ)
    (passRootsRe passRootsIm : DArr) (out : Paint) (stepStart stepEnd : Int)
    (res : LoopState σ)
    (hrun : runStepLoop cfg E env0 passRootsRe passRootsIm out stepStart stepEnd = some res) :
    res.paint.pc ≤ cfg.nRoots * (max 0 (stepEnd - stepStart)).toNat ∧
    res.paint.log = List.range res.paint.pc ∧
    (∀ k, k < res.paint.pc →
      0 ≤ res.paint.idx k ∧ res.paint.idx k < cfg.canvas.W * cfg.canvas.H) ∧
    (∀ k, res.paint.pc ≤ k →
      res.paint.idx k = out.idx k ∧ res.paint.r k = out.r k ∧ res.paint.g k = out.g k ∧
        res.paint.b k = out.b k) := by
  unfold runStepLoop at hrun
  have h0 : PaintInv cfg.canvas out
      ({ env := env0, rootsRe := passRootsRe, rootsIm := passRootsIm, proxRunMax := 1,
         paint := { pc := 0, idx := out.idx, r := out.r, g := out.g, b := out.b,
                    log := [] } } : LoopState σ).paint :=
    ⟨rfl, fun k hk => absurd hk (Nat.not_lt_zero k), fun k _ => ⟨rfl, rfl, rfl, rfl⟩⟩
  obtain ⟨h1, h2⟩ := stepLoop_inv cfg E stepStart out _ h0 _ res hrun
  have e : (max 0 (stepEnd - stepStart)).toNat = (stepEnd - stepStart).toNat := by
    rcases le_total 0 (stepEnd - stepStart) with h | h
    · rw [max_eq_right h]
    · rw [max_eq_left h]
      omega
  rw [e]
  refine ⟨?_, h1.logged, h1.onCanvas, h1.frame⟩
  simpa using h2

/-- C20 (amended) on three steps of the sample configuration with the
polynomial `z - 1/4`: the run is defined. -/
theorem C20_valid_pixel_list_witness :
    ∃ res : LoopState Unit,
      runStepLoop cfgUniform (envLinear (arr [1, Dbl.fin (-1 / 4)]) (arr [0, 0])) ()
        (arr [0]) (arr [0]) paint0 0 3 = some res ∧
      res.paint.pc ≤ cfgUniform.nRoots * (max 0 ((3 : Int) - 0)).toNat ∧
      res.paint.log = List.range res.paint.pc ∧
      (∀ k, k < res.paint.pc →
        0 ≤ res.paint.idx k ∧ res.paint.idx k < cfgUniform.canvas.W * cfgUniform.canvas.H) ∧
      (∀ k, res.paint.pc ≤ k →
        res.paint.idx k = paint0.idx k ∧ res.paint.r k = paint0.r k ∧
          res.paint.g k = paint0.g k ∧ res.paint.b k = paint0.b k) :=
  have h : (runStepLoop cfgUniform (envLinear (arr [1, Dbl.fin (-1 / 4)]) (arr [0, 0])) ()
      (arr [0]) (arr [0]) paint0 0 3).isSome = true := by decide!
  ⟨(runStepLoop cfgUniform (envLinear (arr [1, Dbl.fin (-1 / 4)]) (arr [0, 0])) ()
      (arr [0]) (arr [0]) paint0 0 3).get h, (Option.some_get h).symm,
    C20_valid_pixel_list cfgUniform (envLinear (arr [1, Dbl.fin (-1 / 4)]) (arr [0, 0])) ()
      (arr [0]) (arr [0]) paint0 0 3 _ (Option.some_get h).symm⟩

/-- The run of the witness writes three pixels, all at index 5062 with the
uniform colour. -/
theorem runStepLoop_sample :
    (runStepLoop cfgUniform (envLinear (arr [1, Dbl.fin (-1 / 4)]) (arr [0, 0])) ()
      (arr [0]) (arr [0]) paint0 0 3).map
      (fun res => (res.paint.pc, (List.range 4).map res.paint.idx,
        (List.range 4).map res.paint.r, res.paint.log))
      = some (3, [5062, 5062, 5062, 0], [255, 255, 255, 0], [0, 1, 2]) := by decide!

/-- C20 as stated fails on the sample configuration (`W = H = 100`) with the
polynomial `z - 1e12`: the solved root is `1e12`, its projected column value
is `5e13 + 50`, outside the range of `int`, so the cast `(int)` is undefined
and the call has no defined result. -/
theorem C20_counterexample :
    (StepLoop.solveEA (arr [1, Dbl.fin (-(10 ^ 12))]) (arr [0, 0]) 2 (arr [0]) (arr [0])
      1).warmRe 0 = Dbl.fin (10 ^ 12) ∧
    ((Dbl.fin (10 ^ 12) - canvas100.centerX) / canvas100.range + 1) * chalf
      * Dbl.fin canvas100.W = Dbl.fin (5 * 10 ^ 13 + 50) ∧
    projX canvas100 (Dbl.fin (10 ^ 12)) = none ∧
    (runStepLoop cfgUniform (envLinear (arr [1, Dbl.fin (-(10 ^ 12))]) (arr [0, 0])) ()
      (arr [0]) (arr [0]) paint0 0 1).isSome = false := by
  refine ⟨by decide!, by decide!, by decide!, by decide!⟩

/-! ## C21: the Horner pass -/

/-- The value recurrence of the Horner pass on polynomial sums. -/
theorem polySum_succ (c : Nat → ℂ) (z : ℂ) (m : Nat) :
    (∑ k in Finset.range (m + 1), c k * z ^ (m - k)) * z + c (m + 1)
      = ∑ k in Finset.range (m + 2), c k * z ^ (m + 1 - k) := by
  rw [Finset.sum_range_succ _ (m + 1), Finset.sum_mul]
  simp only [Nat.sub_self, pow_zero, mul_one]
  congr 1
  apply Finset.sum_congr rfl
  intro k hk
  have hk2 : k ≤ m := by have := Finset.mem_range.mp hk; omega
  rw [Nat.succ_sub hk2, pow_succ]
  ring

/-- The derivative recurrence of the Horner pass on polynomial sums. -/
theorem derivSum_succ (c : Nat → ℂ) (z : ℂ) (m : Nat) :
    (∑ k in Finset.range (m + 1), ((m - k : Nat) : ℂ) * c k * z ^ (m - 1 - k)) * z
        + ∑ k in Finset.range (m + 1), c k * z ^ (m - k)
      = ∑ k in Finset.range (m + 2), ((m + 1 - k : Nat) : ℂ) * c k * z ^ (m + 1 - 1 - k) := by
  rw [Finset.sum_range_succ _ (m + 1), Finset.sum_mul, ← Finset.sum_add_distrib]
  simp only [Nat.sub_self, Nat.cast_zero, zero_mul, add_zero, Nat.add_sub_cancel]
  apply Finset.sum_congr rfl
  intro k hk
  have hk2 : k ≤ m := by have := Finset.mem_range.mp hk; omega
  rcases Nat.eq_or_lt_of_le hk2 with e | hlt
  · subst e
    simp
  · have e1 : m - 1 - k + 1 = m - k := by omega
    have e2 : m + 1 - k = (m - k) + 1 := by omega
    rw [e2, ← e1, pow_succ]
    push_cast
    ring
/-- The Horner pass on finite values after `m` steps: the registers hold the
value and the derivative of the polynomial with the coefficients `c[0..m]`. -/
theorem horner_fold (a b : Nat → ℚ) (x y : ℚ) :
    ∀ m : Nat, ∃ pR pI dR dI : ℚ,
      ((List.range m).map (· + 1)).foldl
          (hornerStep (liftArr a) (liftArr b) (Dbl.fin x) (Dbl.fin y))
          { pR := liftArr a 0, pI := liftArr b 0, dpR := 0, dpI := 0 }
        = { pR := Dbl.fin pR, pI := Dbl.fin pI, dpR := Dbl.fin dR, dpI := Dbl.fin dI } ∧
      ((pR : ℂ) + (pI : ℂ) * Complex.I
        = ∑ k in Finset.range (m + 1),
            ((a k : ℂ) + (b k : ℂ) * Complex.I) * ((x : ℂ) + (y : ℂ) * Complex.I) ^ (m - k)) ∧
      ((dR : ℂ) + (dI : ℂ) * Complex.I
        = ∑ k in Finset.range (m + 1),
            ((m - k : Nat) : ℂ) * ((a k : ℂ) + (b k : ℂ) * Complex.I)
              * ((x : ℂ) + (y : ℂ) * Complex.I) ^ (m - 1 - k)) := by
  intro m
  induction m with
  | zero =>
    refine ⟨a 0, b 0, 0, 0, rfl, ?_, ?_⟩
    · simp
    · simp
  | succ m ih =>
    obtain ⟨pR, pI, dR, dI, e, hp, hd⟩ := ih
    refine ⟨pR * x - pI * y + a (m + 1), pR * y + pI * x + b (m + 1),
      dR * x - dI * y + pR, dR * y + dI * x + pI, ?_, ?_, ?_⟩
    · rw [List.range_succ, List.map_append, List.foldl_append, e]
      simp [hornerStep]
    · rw [← polySum_succ, ← hp]
      apply Complex.ext <;> simp
    · rw [← derivSum_succ, ← hp, ← hd]
      apply Complex.ext <;> simp

/-- C21. Horner pass correctness in exact arithmetic: for every list of
finite complex coefficients `c[0..n-1]`, `n >= 1`, in descending powers and
every finite complex `z`, the pass of both solvers ends with
`p = sum_k c[k] * z^(n-1-k)` and `dp = sum_k (n-1-k) * c[k] * z^(n-2-k)`, the
value of the polynomial and of its formal derivative at `z`. -/
theorem C21_horner_correct (a b : Nat → ℚ) (n : Nat) (hn : 1 ≤ n) (x y : ℚ) :
    ∃ pR pI dR dI : ℚ,
      horner (liftArr a) (liftArr b) n (Dbl.fin x) (Dbl.fin y)
        = { pR := Dbl.fin pR, pI := Dbl.fin pI, dpR := Dbl.fin dR, dpI := Dbl.fin dI } ∧
      ((pR : ℂ) + (pI : ℂ) * Complex.I
        = ∑ k in Finset.range n,
            ((a k : ℂ) + (b k : ℂ) * Complex.I)
              * ((x : ℂ) + (y : ℂ) * Complex.I) ^ (n - 1 - k)) ∧
      ((dR : ℂ) + (dI : ℂ) * Complex.I
        = ∑ k in Finset.range n,
            ((n - 1 - k : Nat) : ℂ) * ((a k : ℂ) + (b k : ℂ) * Complex.I)
              * ((x : ℂ) + (y : ℂ) * Complex.I) ^ (n - 2 - k)) := by
  obtain ⟨pR, pI, dR, dI, e, hp, hd⟩ := horner_fold a b x y (n - 1)
  rw [Nat.sub_add_cancel hn] at hp hd
  have e2 : n - 1 - 1 = n - 2 := by omega
  rw [e2] at hd
  exact ⟨pR, pI, dR, dI, e, hp, hd⟩

/-- C21 on `p(z) = z^2 - 3z + 2` at `z = 2 + i`. -/
theorem C21_horner_correct_witness :
    1 ≤ 3 ∧
    ∃ pR pI dR dI : ℚ,
      horner (liftArr (fun k => [1, -3, 2].getD k 0)) (liftArr (fun _ => 0)) 3
          (Dbl.fin 2) (Dbl.fin 1)
        = { pR := Dbl.fin pR, pI := Dbl.fin pI, dpR := Dbl.fin dR, dpI := Dbl.fin dI } ∧
      ((pR : ℂ) + (pI : ℂ) * Complex.I
        = ∑ k in Finset.range 3,
            ((((fun k => [1, -3, 2].getD k 0) k : ℚ) : ℂ)
                + ((((fun _ => 0) : Nat → ℚ) k : ℚ) : ℂ) * Complex.I)
              * (((2 : ℚ) : ℂ) + ((1 : ℚ) : ℂ) * Complex.I) ^ (3 - 1 - k)) ∧
      ((dR : ℂ) + (dI : ℂ) * Complex.I
        = ∑ k in Finset.range 3,
            ((3 - 1 - k : Nat) : ℂ)
              * ((((fun k => [1, -3, 2].getD k 0) k : ℚ) : ℂ)
                + ((((fun _ => 0) : Nat → ℚ) k : ℚ) : ℂ) * Complex.I)
              * (((2 : ℚ) : ℂ) + ((1 : ℚ) : ℂ) * Complex.I) ^ (3 - 2 - k)) :=
  ⟨by decide, C21_horner_correct (fun k => [1, -3, 2].getD k 0) (fun _ => 0) 3 (by decide) 2 1⟩

/-- The registers of the sample pass: `p(2 + i) = -1 + i` and
`p'(2 + i) = 1 + 2i`. -/
theorem horner_sample :
    (horner (liftArr (fun k => [1, -3, 2].getD k 0)) (liftArr (fun _ => 0)) 3
        (Dbl.fin 2) (Dbl.fin 1)).pR = Dbl.fin (-1) ∧
    (horner (liftArr (fun k => [1, -3, 2].getD k 0)) (liftArr (fun _ => 0)) 3
        (Dbl.fin 2) (Dbl.fin 1)).pI = Dbl.fin 1 ∧
    (horner (liftArr (fun k => [1, -3, 2].getD k 0)) (liftArr (fun _ => 0)) 3
        (Dbl.fin 2) (Dbl.fin 1)).dpR = Dbl.fin 1 ∧
    (horner (liftArr (fun k => [1, -3, 2].getD k 0)) (liftArr (fun _ => 0)) 3
        (Dbl.fin 2) (Dbl.fin 1)).dpI = Dbl.fin 2 := by
  refine ⟨by decide!, by decide!, by decide!, by decide!⟩

/-! ## C23: the two solvers agree -/

theorem solver_rootStep_core (cr ci : DArr) (n degree iter : Nat) (s : Solver.EAState)
    (i : Nat) :
    (Solver.rootStep cr ci n degree 0 iter s i).core
      = StepLoop.rootStep cr ci n degree s.core i := by
  unfold Solver.rootStep StepLoop.rootStep
  rw [if_neg (by intro h; exact h.1 rfl)]
  have e1 : s.core.rRe = s.rRe := rfl
  have e2 : s.core.rIm = s.rIm := rfl
  rw [e1, e2]
  cases hc : correction cr ci n degree s.rRe s.rIm i with
  | none => rfl
  | some c =>
    obtain ⟨crrR, crrI⟩ := c
    simp only []
    rw [if_neg (by intro h; exact h.1 rfl)]
    rfl

theorem solver_sweep_core (cr ci : DArr) (n degree iter : Nat) (s : Solver.EAState) :
    (Solver.sweep cr ci n degree 0 iter s).core = StepLoop.sweep cr ci n degree s.core := by
  unfold Solver.sweep StepLoop.sweep
  have key : ∀ (l : List Nat) (a : Solver.EAState),
      (l.foldl (Solver.rootStep cr ci n degree 0 iter) a).core
        = l.foldl (StepLoop.rootStep cr ci n degree) a.core := by
    intro l
    induction l with
    | nil => intro a; rfl
    | cons h t ih =>
      intro a
      simp only [List.foldl_cons]
      rw [ih, solver_rootStep_core]
  rw [key]
  rfl

theorem solver_onConverged_core (degree iter : Nat) (s : Solver.EAState) :
    (Solver.onConverged degree 0 iter s).core = s.core := by
  unfold Solver.onConverged
  cases s.iterCounts with
  | none => rfl
  | some ic =>
    simp only []
    rw [if_neg (by intro h; exact h rfl)]

theorem solver_iterLoop_core (cr ci : DArr) (n degree : Nat) :
    ∀ (remaining iter : Nat) (s : Solver.EAState),
      (Solver.iterLoop cr ci n degree 0 remaining iter s).core
        = StepLoop.iterLoop cr ci n degree remaining s.core := by
  intro remaining
  induction remaining with
  | zero => intro iter s; rfl
  | succ r ih =>
    intro iter s
    unfold Solver.iterLoop StepLoop.iterLoop
    simp only []
    rw [← solver_sweep_core cr ci n degree iter s]
    have e : (Solver.sweep cr ci n degree 0 iter s).core.maxCorr2
        = (Solver.sweep cr ci n degree 0 iter s).maxCorr2 := rfl
    rw [e]
    by_cases hlt : (Solver.sweep cr ci n degree 0 iter s).maxCorr2.lt TOL2 = true
    · rw [if_pos hlt, if_pos hlt, solver_onConverged_core]
    · rw [if_neg hlt, if_neg hlt, ih]

theorem solver_iterate_core (cRe cIm : DArr) (start n degree : Nat) (warmRe warmIm : DArr)
    (ic : Option NArr) :
    (Solver.iterate cRe cIm start n degree warmRe warmIm 0 ic).core
      = StepLoop.iterate cRe cIm start n degree warmRe warmIm := by
  unfold Solver.iterate StepLoop.iterate
  simp only []
  split
  · rw [if_neg (by intro h; exact h rfl)]
    exact solver_iterLoop_core _ _ _ _ _ _ _
  · exact solver_iterLoop_core _ _ _ _ _ _ _

/-- C23. The two solvers agree: for all coefficient arrays and warm-start
arrays, `solveEA` of solver.c called with `trackIter = 0` leaves `warmRe` and
`warmIm` in exactly the state in which `solveEA` of step_loop.c leaves them on
the same input, after the same number of sweeps. -/
theorem C23_solvers_agree (cRe cIm : DArr) (nCoeffs : Int) (warmRe warmIm : DArr)
    (nRoots : Int) (iterCounts : Option NArr) :
    (Solver.solveEA cRe cIm nCoeffs warmRe warmIm nRoots 0 iterCounts).warmRe
      = (StepLoop.solveEA cRe cIm nCoeffs warmRe warmIm nRoots).warmRe ∧
    (Solver.solveEA cRe cIm nCoeffs warmRe warmIm nRoots 0 iterCounts).warmIm
      = (StepLoop.solveEA cRe cIm nCoeffs warmRe warmIm nRoots).warmIm ∧
    (Solver.solveEA cRe cIm nCoeffs warmRe warmIm nRoots 0 iterCounts).sweeps
      = (StepLoop.solveEA cRe cIm nCoeffs warmRe warmIm nRoots).sweeps := by
  unfold Solver.solveEA StepLoop.solveEA
  simp only []
  by_cases h0 : nCoeffs - 1 - (stripStart cRe cIm nCoeffs : Int) ≤ 0
  · rw [if_pos h0, if_pos h0]
    exact ⟨rfl, rfl, rfl⟩
  · rw [if_neg h0, if_neg h0]
    by_cases h1 : nCoeffs - 1 - (stripStart cRe cIm nCoeffs : Int) = 1
    · rw [if_pos h1, if_pos h1]
      split_ifs <;> exact ⟨rfl, rfl, rfl⟩
    · rw [if_neg h1, if_neg h1]
      have hc := solver_iterate_core cRe cIm (stripStart cRe cIm nCoeffs)
        (nCoeffs - (stripStart cRe cIm nCoeffs : Int)).toNat
        (nCoeffs - 1 - (stripStart cRe cIm nCoeffs : Int)).toNat warmRe warmIm iterCounts
      rw [← hc]
      exact ⟨rfl, rfl, rfl⟩

/-! ## C22: the Ehrlich-Aberth update -/

/-- A complex number with rational parts, by components. -/
theorem cpx_mk (r s : ℚ) : (r : ℂ) + (s : ℂ) * Complex.I = ⟨(r : ℝ), (s : ℝ)⟩ := by
  apply Complex.ext <;> simp

/-- The inverse of a complex number with rational parts, as the code forms
it: `dR / dM` and `-dI / dM` with `dM = dR*dR + dI*dI`. -/
theorem cpx_inv (u v : ℚ) (h : u * u + v * v ≠ 0) :
    ((u / (u * u + v * v) : ℚ) : ℂ) + ((-v / (u * u + v * v) : ℚ) : ℂ) * Complex.I
      = ((u : ℂ) + (v : ℂ) * Complex.I)⁻¹ := by
  have hR : ((u : ℝ) * u + v * v) ≠ 0 := by exact_mod_cast h
  rw [cpx_mk, cpx_mk u v]
  apply Complex.ext
  · simp only [Complex.inv_re, Complex.normSq_mk]
    push_cast
    rfl
  · simp only [Complex.inv_im, Complex.normSq_mk]
    push_cast
    rfl

/-- The quotient of two complex numbers with rational parts, as the code
forms it. -/
theorem cpx_div (p q u v : ℚ) (h : u * u + v * v ≠ 0) :
    (((p * u + q * v) / (u * u + v * v) : ℚ) : ℂ)
        + (((q * u - p * v) / (u * u + v * v) : ℚ) : ℂ) * Complex.I
      = ((p : ℂ) + (q : ℂ) * Complex.I) / ((u : ℂ) + (v : ℂ) * Complex.I) := by
  have hR : ((u : ℝ) * u + v * v) ≠ 0 := by exact_mod_cast h
  rw [cpx_mk, cpx_mk u v, cpx_mk p q]
  apply Complex.ext
  · simp only [Complex.div_re, Complex.normSq_mk]
    push_cast
    field_simp
  · simp only [Complex.div_im, Complex.normSq_mk]
    push_cast
    field_simp

/-- The squared modulus of a complex number with rational parts. -/
theorem cpx_normSq (u v : ℚ) :
    Complex.normSq ((u : ℂ) + (v : ℂ) * Complex.I) = ((u * u + v * v : ℚ) : ℝ) := by
  simp [Complex.normSq_apply]

/-- The Aberth sum on finite estimates: the code's accumulator holds the sum
of `1/(z - z_j)` over the indices `j != i` whose squared distance to `z` is at
least `1e-60`. -/
theorem aberthSum_fin (x y : Nat → ℚ) (i : Nat) (zx zy : ℚ) :
    ∀ d : Nat, ∃ sR sI : ℚ,
      aberthSum (liftArr x) (liftArr y) d i (Dbl.fin zx) (Dbl.fin zy)
        = (Dbl.fin sR, Dbl.fin sI) ∧
      ((sR : ℂ) + (sI : ℂ) * Complex.I
        = ∑ j in (Finset.range d).filter (fun j => j ≠ i ∧
              (1 / 10 ^ 60 : ℚ) ≤ (zx - x j) * (zx - x j) + (zy - y j) * (zy - y j)),
            (((zx : ℂ) + (zy : ℂ) * Complex.I) - ((x j : ℂ) + (y j : ℂ) * Complex.I))⁻¹) := by
  intro d
  induction d with
  | zero => exact ⟨0, 0, rfl, by simp⟩
  | succ d ih =>
    obtain ⟨sR, sI, e, hs⟩ := ih
    unfold aberthSum at e ⊢
    rw [List.range_succ, List.foldl_append, e, Finset.range_succ, Finset.filter_insert]
    simp only [List.foldl_cons, List.foldl_nil]
    unfold aberthStep
    by_cases hji : d = i
    · rw [if_pos hji, if_neg (by intro h; exact h.1 hji)]
      exact ⟨sR, sI, rfl, hs⟩
    · rw [if_neg hji]
      simp only [liftArr, Dbl.fin_sub, Dbl.fin_mul, Dbl.fin_add, c1em60, Dbl.fin_lt, Dbl.fin_neg]
      by_cases hlt : (zx - x d) * (zx - x d) + (zy - y d) * (zy - y d) < 1 / 10 ^ 60
      · rw [if_pos (by simpa using hlt), if_neg (by intro h; exact absurd hlt (not_lt.mpr h.2))]
        exact ⟨sR, sI, rfl, hs⟩
      · have hge := not_lt.mp hlt
        have hne : (zx - x d) * (zx - x d) + (zy - y d) * (zy - y d) ≠ 0 := by
          intro h0
          rw [h0] at hge
          norm_num at hge
        rw [if_neg (by simpa using hlt), if_pos ⟨hji, hge⟩, Dbl.fin_div _ _ hne,
          Dbl.fin_div _ _ hne]
        simp only [Dbl.fin_add]
        refine ⟨_, _, rfl, ?_⟩
        have hnot : d ∉ (Finset.range d).filter (fun j => j ≠ i ∧
            (1 / 10 ^ 60 : ℚ) ≤ (zx - x j) * (zx - x j) + (zy - y j) * (zy - y j)) := by
          simp
        rw [Finset.sum_insert hnot, ← hs]
        have hi := cpx_inv (zx - x d) (zy - y d) hne
        have e2 : ((zx : ℂ) + (zy : ℂ) * Complex.I) - ((x d : ℂ) + (y d : ℂ) * Complex.I)
            = (((zx - x d : ℚ)) : ℂ) + (((zy - y d : ℚ)) : ℂ) * Complex.I := by
          push_cast
          ring
        rw [e2, ← hi]
        push_cast
        ring
/-- The Horner pass on finite inputs, for `n >= 1` coefficients. -/
theorem horner_fin (a b : Nat → ℚ) (n : Nat) (hn : 1 ≤ n) (x y : ℚ) :
    ∃ pR pI dR dI : ℚ,
      horner (liftArr a) (liftArr b) n (Dbl.fin x) (Dbl.fin y)
        = { pR := Dbl.fin pR, pI := Dbl.fin pI, dpR := Dbl.fin dR, dpI := Dbl.fin dI } ∧
      ((pR : ℂ) + (pI : ℂ) * Complex.I
        = ∑ k in Finset.range n,
            ((a k : ℂ) + (b k : ℂ) * Complex.I) * ((x : ℂ) + (y : ℂ) * Complex.I) ^ (n - 1 - k)) ∧
      ((dR : ℂ) + (dI : ℂ) * Complex.I
        = ∑ k in Finset.range n,
            ((n - 1 - k : Nat) : ℂ) * ((a k : ℂ) + (b k : ℂ) * Complex.I)
              * ((x : ℂ) + (y : ℂ) * Complex.I) ^ (n - 2 - k)) := by
  obtain ⟨pR, pI, dR, dI, e, hp, hd⟩ := horner_fold a b x y (n - 1)
  rw [Nat.sub_add_cancel hn] at hp hd
  have e2 : n - 1 - 1 = n - 2 := by omega
  rw [e2] at hd
  exact ⟨pR, pI, dR, dI, e, hp, hd⟩

/-- The correction of one root on finite inputs: with `P = p(z_i)`,
`P' = p'(z_i)` and `S` the Aberth sum over the current estimates, the code
computes `w/(1 - w*S)`, `w = P/P'`, when `|P'|^2 >= 1e-60` and
`|1 - w*S|^2 >= 1e-60`, and takes a `continue` otherwise. -/
theorem correction_fin (a b : Nat → ℚ) (n degree : Nat) (hn : 1 ≤ n) (x y : Nat → ℚ)
    (i : Nat) :
    ∃ P Pd S : ℂ,
      P = ∑ k in Finset.range n, ((a k : ℂ) + (b k : ℂ) * Complex.I)
            * ((x i : ℂ) + (y i : ℂ) * Complex.I) ^ (n - 1 - k) ∧
      Pd = ∑ k in Finset.range n, ((n - 1 - k : Nat) : ℂ) * ((a k : ℂ) + (b k : ℂ) * Complex.I)
            * ((x i : ℂ) + (y i : ℂ) * Complex.I) ^ (n - 2 - k) ∧
      S = ∑ j in (Finset.range degree).filter (fun j => j ≠ i ∧
              (1 / 10 ^ 60 : ℚ) ≤ (x i - x j) * (x i - x j) + (y i - y j) * (y i - y j)),
            (((x i : ℂ) + (y i : ℂ) * Complex.I) - ((x j : ℂ) + (y j : ℂ) * Complex.I))⁻¹ ∧
      (((1 / 10 ^ 60 : ℝ) ≤ Complex.normSq Pd ∧
          (1 / 10 ^ 60 : ℝ) ≤ Complex.normSq (1 - P / Pd * S)) →
        ∃ u v : ℚ,
          correction (liftArr a) (liftArr b) n degree (liftArr x) (liftArr y) i
            = some (Dbl.fin u, Dbl.fin v) ∧
          (u : ℂ) + (v : ℂ) * Complex.I = P / Pd / (1 - P / Pd * S)) ∧
      (¬ ((1 / 10 ^ 60 : ℝ) ≤ Complex.normSq Pd ∧
          (1 / 10 ^ 60 : ℝ) ≤ Complex.normSq (1 - P / Pd * S)) →
        correction (liftArr a) (liftArr b) n degree (liftArr x) (liftArr y) i = none) := by
  obtain ⟨pR, pI, dR, dI, eh, hp, hd⟩ := horner_fin a b n hn (x i) (y i)
  obtain ⟨sR, sI, es, hs⟩ := aberthSum_fin x y i (x i) (y i) degree
  refine ⟨_, _, _, rfl, rfl, rfl, ?_⟩
  rw [← hp, ← hd, ← hs]
  have hN1 : Complex.normSq ((dR : ℂ) + (dI : ℂ) * Complex.I)
      = ((dR * dR + dI * dI : ℚ) : ℝ) := cpx_normSq dR dI
  have c60 : (1 / 10 ^ 60 : ℝ) = ((1 / 10 ^ 60 : ℚ) : ℝ) := by push_cast; rfl
  unfold correction
  simp only [liftArr] at eh es ⊢
  rw [eh, es]
  simp only [Dbl.fin_mul, Dbl.fin_add, Dbl.fin_sub, c1em60, Dbl.fin_lt, decide_eq_true_eq]
  by_cases h1 : dR * dR + dI * dI < 1 / 10 ^ 60
  · rw [if_pos h1]
    refine ⟨?_, fun _ => rfl⟩
    intro hg
    exfalso
    have := hg.1
    rw [hN1, c60] at this
    exact absurd h1 (not_lt.mpr (by exact_mod_cast this))
  · rw [if_neg h1]
    have hge := not_lt.mp h1
    have hne : dR * dR + dI * dI ≠ 0 := by
      intro h0
      rw [h0] at hge
      norm_num at hge
    rw [Dbl.fin_div _ _ hne, Dbl.fin_div _ _ hne]
    simp only [Dbl.fin_mul, Dbl.fin_add, Dbl.fin_sub, Dbl.ofNat_eq, Dbl.fin_neg, Dbl.fin_lt,
      decide_eq_true_eq]
    have hw := cpx_div pR pI dR dI hne
    rw [← hw]
    generalize (pR * dR + pI * dI) / (dR * dR + dI * dI) = wR
    generalize (pI * dR - pR * dI) / (dR * dR + dI * dI) = wI
    have hdn : (1 : ℂ) - ((wR : ℂ) + (wI : ℂ) * Complex.I) * ((sR : ℂ) + (sI : ℂ) * Complex.I)
        = (((1 : ℕ) - (wR * sR - wI * sI) : ℚ) : ℂ)
          + ((-(wR * sI + wI * sR) : ℚ) : ℂ) * Complex.I := by
      apply Complex.ext <;> simp
    rw [hdn, hN1, cpx_normSq]
    have hG : (1 / 10 ^ 60 : ℝ) ≤ ((dR * dR + dI * dI : ℚ) : ℝ) := by
      rw [c60]
      exact_mod_cast hge
    by_cases h2 : ((1 : ℕ) - (wR * sR - wI * sI)) * ((1 : ℕ) - (wR * sR - wI * sI))
        + -(wR * sI + wI * sR) * -(wR * sI + wI * sR) < (1 / 10 ^ 60 : ℚ)
    · rw [if_pos h2]
      refine ⟨?_, fun _ => rfl⟩
      intro hg
      exfalso
      have := hg.2
      rw [c60] at this
      exact absurd h2 (not_lt.mpr (by exact_mod_cast this))
    · rw [if_neg h2]
      have hge2 := not_lt.mp h2
      have hne2 : ((1 : ℕ) - (wR * sR - wI * sI)) * ((1 : ℕ) - (wR * sR - wI * sI))
          + -(wR * sI + wI * sR) * -(wR * sI + wI * sR) ≠ (0 : ℚ) := by
        intro h0
        rw [h0] at hge2
        norm_num at hge2
      rw [Dbl.fin_div _ _ hne2, Dbl.fin_div _ _ hne2]
      refine ⟨fun _ => ⟨_, _, rfl, ?_⟩, ?_⟩
      · exact cpx_div wR wI _ _ hne2
      · intro hg
        exfalso
        apply hg
        refine ⟨hG, ?_⟩
        rw [c60]
        exact_mod_cast hge2
/-- The step of another root does not touch root `i` (step_loop.c). -/
theorem stepLoop_rootStep_other (cr ci : DArr) (n degree : Nat) (s : StepLoop.EAState)
    (i j : Nat) (hji : j ≠ i) :
    (StepLoop.rootStep cr ci n degree s j).rRe i = s.rRe i ∧
    (StepLoop.rootStep cr ci n degree s j).rIm i = s.rIm i := by
  unfold StepLoop.rootStep
  cases hc : correction cr ci n degree s.rRe s.rIm j with
  | none => exact ⟨rfl, rfl⟩
  | some c =>
    obtain ⟨crrR, crrI⟩ := c
    constructor <;> simp [wr, Ne.symm hji]

/-- The step of another root does not touch root `i` (solver.c). -/
theorem solver_rootStep_other (cr ci : DArr) (n degree : Nat) (trackIter : Int) (iter : Nat)
    (s : Solver.EAState) (i j : Nat) (hji : j ≠ i) :
    (Solver.rootStep cr ci n degree trackIter iter s j).rRe i = s.rRe i ∧
    (Solver.rootStep cr ci n degree trackIter iter s j).rIm i = s.rIm i := by
  unfold Solver.rootStep
  split_ifs with h1
  · exact ⟨rfl, rfl⟩
  · cases hc : correction cr ci n degree s.rRe s.rIm j with
    | none => exact ⟨rfl, rfl⟩
    | some c =>
      obtain ⟨crrR, crrI⟩ := c
      simp only []
      split_ifs <;> constructor <;> simp [wr, Ne.symm hji]

/-- The estimates after the step of root `i` in step_loop.c, from the
correction. -/
theorem stepLoop_rootStep_eq (cr ci : DArr) (n degree : Nat) (s : StepLoop.EAState) (i : Nat) :
    (correction cr ci n degree s.rRe s.rIm i = none →
      StepLoop.rootStep cr ci n degree s i = s) ∧
    (∀ c, correction cr ci n degree s.rRe s.rIm i = some c →
      (StepLoop.rootStep cr ci n degree s i).rRe = wr s.rRe i (s.rRe i - c.1) ∧
      (StepLoop.rootStep cr ci n degree s i).rIm = wr s.rIm i (s.rIm i - c.2)) := by
  unfold StepLoop.rootStep
  constructor
  · intro h
    rw [h]
  · intro c h
    rw [h]
    exact ⟨rfl, rfl⟩

/-- The estimates after the step of root `i` in solver.c, from the
correction: a frozen root is skipped. -/
theorem solver_rootStep_eq (cr ci : DArr) (n degree : Nat) (trackIter : Int) (iter : Nat)
    (s : Solver.EAState) (i : Nat) :
    ((trackIter ≠ 0 ∧ s.conv i ≠ 0) → Solver.rootStep cr ci n degree trackIter iter s i = s) ∧
    (correction cr ci n degree s.rRe s.rIm i = none →
      Solver.rootStep cr ci n degree trackIter iter s i = s) ∧
    (∀ c, (trackIter = 0 ∨ s.conv i = 0) → correction cr ci n degree s.rRe s.rIm i = some c →
      (Solver.rootStep cr ci n degree trackIter iter s i).rRe = wr s.rRe i (s.rRe i - c.1) ∧
      (Solver.rootStep cr ci n degree trackIter iter s i).rIm = wr s.rIm i (s.rIm i - c.2)) := by
  unfold Solver.rootStep
  refine ⟨?_, ?_, ?_⟩
  · intro h
    rw [if_pos h]
  · intro h
    rw [h]
    split_ifs <;> rfl
  · intro c hf h
    rw [h, if_neg (by intro hh; rcases hf with h0 | h0; exact hh.1 h0; exact hh.2 h0)]
    simp only []
    split_ifs <;> exact ⟨rfl, rfl⟩

/-- C22. The Ehrlich-Aberth update in exact arithmetic, on finite
coefficients (`n >= 1` of them) and finite estimates.  With `P = p(z_i)`,
`P' = p'(z_i)`, `w = P/P'` and `S` the sum of `1/(z_i - z_j)` over the `j != i`
with `|z_i - z_j|^2 >= 1e-60`, taken on the estimates as they stand when root
`i` is reached: when `|P'|^2 >= 1e-60` and `|1 - w*S|^2 >= 1e-60`, the step of
root `i` replaces `z_i` by `z_i - w/(1 - w*S)` and leaves the other estimates
alone, in step_loop.c always and in solver.c when the root is not frozen
(`trackIter = 0` or `conv[i] = 0`); when one of the two guards fires, and in
solver.c also when the root is frozen, the step changes nothing; and the step
of any other root leaves `z_i` unchanged. -/
theorem C22_aberth_update (a b : Nat → ℚ) (n degree : Nat) (hn : 1 ≤ n) (x y : Nat → ℚ)
    (i : Nat) (m : Dbl) (k : Nat) (trackIter : Int) (iter : Nat) (cv : NArr)
    (ic : Option NArr) :
    ∃ P Pd S : ℂ,
      P = ∑ k in Finset.range n, ((a k : ℂ) + (b k : ℂ) * Complex.I)
            * ((x i : ℂ) + (y i : ℂ) * Complex.I) ^ (n - 1 - k) ∧
      Pd = ∑ k in Finset.range n, ((n - 1 - k : Nat) : ℂ) * ((a k : ℂ) + (b k : ℂ) * Complex.I)
            * ((x i : ℂ) + (y i : ℂ) * Complex.I) ^ (n - 2 - k) ∧
      S = ∑ j in (Finset.range degree).filter (fun j => j ≠ i ∧
              (1 / 10 ^ 60 : ℚ) ≤ (x i - x j) * (x i - x j) + (y i - y j) * (y i - y j)),
            (((x i : ℂ) + (y i : ℂ) * Complex.I) - ((x j : ℂ) + (y j : ℂ) * Complex.I))⁻¹ ∧
      (((1 / 10 ^ 60 : ℝ) ≤ Complex.normSq Pd ∧
          (1 / 10 ^ 60 : ℝ) ≤ Complex.normSq (1 - P / Pd * S)) →
        ∃ u v : ℚ,
          (u : ℂ) + (v : ℂ) * Complex.I
            = ((x i : ℂ) + (y i : ℂ) * Complex.I) - P / Pd / (1 - P / Pd * S) ∧
          (StepLoop.rootStep (liftArr a) (liftArr b) n degree
              { rRe := liftArr x, rIm := liftArr y, maxCorr2 := m, sweeps := k } i).rRe
            = wr (liftArr x) i (Dbl.fin u) ∧
          (StepLoop.rootStep (liftArr a) (liftArr b) n degree
              { rRe := liftArr x, rIm := liftArr y, maxCorr2 := m, sweeps := k } i).rIm
            = wr (liftArr y) i (Dbl.fin v) ∧
          ((trackIter = 0 ∨ cv i = 0) →
            (Solver.rootStep (liftArr a) (liftArr b) n degree trackIter iter
                { rRe := liftArr x, rIm := liftArr y, maxCorr2 := m, conv := cv,
                  iterCounts := ic, sweeps := k } i).rRe
              = wr (liftArr x) i (Dbl.fin u) ∧
            (Solver.rootStep (liftArr a) (liftArr b) n degree trackIter iter
                { rRe := liftArr x, rIm := liftArr y, maxCorr2 := m, conv := cv,
                  iterCounts := ic, sweeps := k } i).rIm
              = wr (liftArr y) i (Dbl.fin v))) ∧
      (¬ ((1 / 10 ^ 60 : ℝ) ≤ Complex.normSq Pd ∧
          (1 / 10 ^ 60 : ℝ) ≤ Complex.normSq (1 - P / Pd * S)) →
        StepLoop.rootStep (liftArr a) (liftArr b) n degree
            { rRe := liftArr x, rIm := liftArr y, maxCorr2 := m, sweeps := k } i
          = { rRe := liftArr x, rIm := liftArr y, maxCorr2 := m, sweeps := k } ∧
        Solver.rootStep (liftArr a) (liftArr b) n degree trackIter iter
            { rRe := liftArr x, rIm := liftArr y, maxCorr2 := m, conv := cv,
              iterCounts := ic, sweeps := k } i
          = { rRe := liftArr x, rIm := liftArr y, maxCorr2 := m, conv := cv,
              iterCounts := ic, sweeps := k }) ∧
      ((trackIter ≠ 0 ∧ cv i ≠ 0) →
        Solver.rootStep (liftArr a) (liftArr b) n degree trackIter iter
            { rRe := liftArr x, rIm := liftArr y, maxCorr2 := m, conv := cv,
              iterCounts := ic, sweeps := k } i
          = { rRe := liftArr x, rIm := liftArr y, maxCorr2 := m, conv := cv,
              iterCounts := ic, sweeps := k }) ∧
      (∀ j, j ≠ i →
        (StepLoop.rootStep (liftArr a) (liftArr b) n degree
            { rRe := liftArr x, rIm := liftArr y, maxCorr2 := m, sweeps := k } j).rRe i
          = Dbl.fin (x i) ∧
        (StepLoop.rootStep (liftArr a) (liftArr b) n degree
            { rRe := liftArr x, rIm := liftArr y, maxCorr2 := m, sweeps := k } j).rIm i
          = Dbl.fin (y i) ∧
        (Solver.rootStep (liftArr a) (liftArr b) n degree trackIter iter
            { rRe := liftArr x, rIm := liftArr y, maxCorr2 := m, conv := cv,
              iterCounts := ic, sweeps := k } j).rRe i = Dbl.fin (x i) ∧
        (Solver.rootStep (liftArr a) (liftArr b) n degree trackIter iter
            { rRe := liftArr x, rIm := liftArr y, maxCorr2 := m, conv := cv,
              iterCounts := ic, sweeps := k } j).rIm i = Dbl.fin (y i)) := by
  obtain ⟨P, Pd, S, eP, ePd, eS, hsome, hnone⟩ := correction_fin a b n degree hn x y i
  have hS := stepLoop_rootStep_eq (liftArr a) (liftArr b) n degree
    { rRe := liftArr x, rIm := liftArr y, maxCorr2 := m, sweeps := k } i
  have hV := solver_rootStep_eq (liftArr a) (liftArr b) n degree trackIter iter
    { rRe := liftArr x, rIm := liftArr y, maxCorr2 := m, conv := cv,
      iterCounts := ic, sweeps := k } i
  refine ⟨P, Pd, S, eP, ePd, eS, ?_, ?_, ?_, ?_⟩
  · intro hg
    obtain ⟨u, v, hc, huv⟩ := hsome hg
    refine ⟨x i - u, y i - v, ?_, ?_, ?_, ?_⟩
    · rw [← huv]
      push_cast
      ring
    · rw [(hS.2 _ hc).1]
      simp only [liftArr, Dbl.fin_sub]
    · rw [(hS.2 _ hc).2]
      simp only [liftArr, Dbl.fin_sub]
    · intro hf
      rw [(hV.2.2 _ hf hc).1, (hV.2.2 _ hf hc).2]
      simp only [liftArr, Dbl.fin_sub]
      exact ⟨trivial, trivial⟩
  · intro hg
    exact ⟨hS.1 (hnone hg), hV.2.1 (hnone hg)⟩
  · exact hV.1
  · intro j hji
    have h1 := stepLoop_rootStep_other (liftArr a) (liftArr b) n degree
      { rRe := liftArr x, rIm := liftArr y, maxCorr2 := m, sweeps := k } i j hji
    have h2 := solver_rootStep_other (liftArr a) (liftArr b) n degree trackIter iter
      { rRe := liftArr x, rIm := liftArr y, maxCorr2 := m, conv := cv,
        iterCounts := ic, sweeps := k } i j hji
    exact ⟨h1.1, h1.2, h2.1, h2.2⟩

/-- The update on a sample: for `z^2 - 1` and the estimates `2`, `-1`, the
step of root 0 has `w = 3/4`, `S = 1/3` and moves the root to `1`, in
step_loop.c and in solver.c without tracking. -/
theorem rootStep_sample :
    (StepLoop.rootStep eaCoefRe (arr []) 3 2
        { rRe := arr [2, -1], rIm := arr [], maxCorr2 := 0, sweeps := 1 } 0).rRe 0 = Dbl.fin 1 ∧
    (StepLoop.rootStep eaCoefRe (arr []) 3 2
        { rRe := arr [2, -1], rIm := arr [], maxCorr2 := 0, sweeps := 1 } 0).rIm 0 = Dbl.fin 0 ∧
    (Solver.rootStep eaCoefRe (arr []) 3 2 0 0
        { rRe := arr [2, -1], rIm := arr [], maxCorr2 := 0, conv := fun _ => 0,
          iterCounts := none, sweeps := 1 } 0).rRe 0 = Dbl.fin 1 := by
  refine ⟨by decide!, by decide!, by decide!⟩

/-- C22, counterexample: solver.c with `trackIter = 1` on `z^2 - 1` and the
warm start `1 + 1e-9`, `-3`.  The first sweep freezes root 0 (`conv[0] = 1`)
and not root 1; in the second sweep neither guard fires for root 0 (the
correction is computed), yet the step of root 0 leaves `z_0` as it is, while
`z_0 - w/(1 - w*S)` differs from `z_0`. -/
theorem C22_counterexample :
    (Solver.sweep eaCoefRe (arr []) 3 2 1 0 eaState0).conv 0 = 1 ∧
    (Solver.sweep eaCoefRe (arr []) 3 2 1 0 eaState0).conv 1 = 0 ∧
    (correction eaCoefRe (arr []) 3 2 (Solver.sweep eaCoefRe (arr []) 3 2 1 0 eaState0).rRe
        (Solver.sweep eaCoefRe (arr []) 3 2 1 0 eaState0).rIm 0).isSome = true ∧
    (Solver.rootStep eaCoefRe (arr []) 3 2 1 1
        (Solver.sweep eaCoefRe (arr []) 3 2 1 0 eaState0) 0).rRe 0
      = (Solver.sweep eaCoefRe (arr []) 3 2 1 0 eaState0).rRe 0 ∧
    (Solver.sweep eaCoefRe (arr []) 3 2 1 0 eaState0).rRe 0
        - ((correction eaCoefRe (arr []) 3 2
            (Solver.sweep eaCoefRe (arr []) 3 2 1 0 eaState0).rRe
            (Solver.sweep eaCoefRe (arr []) 3 2 1 0 eaState0).rIm 0).getD (0, 0)).1
      ≠ (Solver.sweep eaCoefRe (arr []) 3 2 1 0 eaState0).rRe 0 := by
  refine ⟨by decide!, by decide!, by decide!, by decide!, by decide!⟩
/-- The update theorem applied to `z^2 - 1` with the estimates `2`, `-1`,
root 0, without tracking. -/
theorem C22_aberth_update_witness :
    1 ≤ 3 ∧
    (∃ P Pd S : ℂ,
      P = ∑ k in Finset.range 3, ((eaA k : ℂ) + (eaZero k : ℂ) * Complex.I)
            * ((eaX 0 : ℂ) + (eaZero 0 : ℂ) * Complex.I) ^ (3 - 1 - k) ∧
      Pd = ∑ k in Finset.range 3, ((3 - 1 - k : Nat) : ℂ) * ((eaA k : ℂ) + (eaZero k : ℂ) * Complex.I)
            * ((eaX 0 : ℂ) + (eaZero 0 : ℂ) * Complex.I) ^ (3 - 2 - k) ∧
      S = ∑ j in (Finset.range 2).filter (fun j => j ≠ 0 ∧
              (1 / 10 ^ 60 : ℚ) ≤ (eaX 0 - eaX j) * (eaX 0 - eaX j) + (eaZero 0 - eaZero j) * (eaZero 0 - eaZero j)),
            (((eaX 0 : ℂ) + (eaZero 0 : ℂ) * Complex.I) - ((eaX j : ℂ) + (eaZero j : ℂ) * Complex.I))⁻¹ ∧
      (((1 / 10 ^ 60 : ℝ) ≤ Complex.normSq Pd ∧
          (1 / 10 ^ 60 : ℝ) ≤ Complex.normSq (1 - P / Pd * S)) →
        ∃ u v : ℚ,
          (u : ℂ) + (v : ℂ) * Complex.I
            = ((eaX 0 : ℂ) + (eaZero 0 : ℂ) * Complex.I) - P / Pd / (1 - P / Pd * S) ∧
          (StepLoop.rootStep (liftArr eaA) (liftArr eaZero) 3 2
              { rRe := liftArr eaX, rIm := liftArr eaZero, maxCorr2 := 0, sweeps := 0 } 0).rRe
            = wr (liftArr eaX) 0 (Dbl.fin u) ∧
          (StepLoop.rootStep (liftArr eaA) (liftArr eaZero) 3 2
              { rRe := liftArr eaX, rIm := liftArr eaZero, maxCorr2 := 0, sweeps := 0 } 0).rIm
            = wr (liftArr eaZero) 0 (Dbl.fin v) ∧
          (((0 : Int) = 0 ∨ (fun _ => 0) 0 = 0) →
            (Solver.rootStep (liftArr eaA) (liftArr eaZero) 3 2 0 0
                { rRe := liftArr eaX, rIm := liftArr eaZero, maxCorr2 := 0, conv := (fun _ => 0),
                  iterCounts := none, sweeps := 0 } 0).rRe
              = wr (liftArr eaX) 0 (Dbl.fin u) ∧
            (Solver.rootStep (liftArr eaA) (liftArr eaZero) 3 2 0 0
                { rRe := liftArr eaX, rIm := liftArr eaZero, maxCorr2 := 0, conv := (fun _ => 0),
                  iterCounts := none, sweeps := 0 } 0).rIm
              = wr (liftArr eaZero) 0 (Dbl.fin v))) ∧
      (¬ ((1 / 10 ^ 60 : ℝ) ≤ Complex.normSq Pd ∧
          (1 / 10 ^ 60 : ℝ) ≤ Complex.normSq (1 - P / Pd * S)) →
        StepLoop.rootStep (liftArr eaA) (liftArr eaZero) 3 2
            { rRe := liftArr eaX, rIm := liftArr eaZero, maxCorr2 := 0, sweeps := 0 } 0
          = { rRe := liftArr eaX, rIm := liftArr eaZero, maxCorr2 := 0, sweeps := 0 } ∧
        Solver.rootStep (liftArr eaA) (liftArr eaZero) 3 2 0 0
            { rRe := liftArr eaX, rIm := liftArr eaZero, maxCorr2 := 0, conv := (fun _ => 0),
              iterCounts := none, sweeps := 0 } 0
          = { rRe := liftArr eaX, rIm := liftArr eaZero, maxCorr2 := 0, conv := (fun _ => 0),
              iterCounts := none, sweeps := 0 }) ∧
      (((0 : Int) ≠ 0 ∧ (fun _ => 0) 0 ≠ 0) →
        Solver.rootStep (liftArr eaA) (liftArr eaZero) 3 2 0 0
            { rRe := liftArr eaX, rIm := liftArr eaZero, maxCorr2 := 0, conv := (fun _ => 0),
              iterCounts := none, sweeps := 0 } 0
          = { rRe := liftArr eaX, rIm := liftArr eaZero, maxCorr2 := 0, conv := (fun _ => 0),
              iterCounts := none, sweeps := 0 }) ∧
      (∀ j, j ≠ 0 →
        (StepLoop.rootStep (liftArr eaA) (liftArr eaZero) 3 2
            { rRe := liftArr eaX, rIm := liftArr eaZero, maxCorr2 := 0, sweeps := 0 } j).rRe 0
          = Dbl.fin (eaX 0) ∧
        (StepLoop.rootStep (liftArr eaA) (liftArr eaZero) 3 2
            { rRe := liftArr eaX, rIm := liftArr eaZero, maxCorr2 := 0, sweeps := 0 } j).rIm 0
          = Dbl.fin (eaZero 0) ∧
        (Solver.rootStep (liftArr eaA) (liftArr eaZero) 3 2 0 0
            { rRe := liftArr eaX, rIm := liftArr eaZero, maxCorr2 := 0, conv := (fun _ => 0),
              iterCounts := none, sweeps := 0 } j).rRe 0 = Dbl.fin (eaX 0) ∧
        (Solver.rootStep (liftArr eaA) (liftArr eaZero) 3 2 0 0
            { rRe := liftArr eaX, rIm := liftArr eaZero, maxCorr2 := 0, conv := (fun _ => 0),
              iterCounts := none, sweeps := 0 } j).rIm 0 = Dbl.fin (eaZero 0))) :=
  ⟨by decide, C22_aberth_update eaA eaZero 3 2 (by decide) eaX eaZero 0 0 0 0 0 (fun _ => 0) none⟩

/-! ## C24: exact roots are a fixed point -/

/-- At an exact root the correction is skipped by a guard or is exactly 0. -/
theorem correction_root (a b : Nat → ℚ) (n degree : Nat) (hn : 1 ≤ n) (x y : Nat → ℚ)
    (i : Nat)
    (h : ∑ k in Finset.range n, ((a k : ℂ) + (b k : ℂ) * Complex.I)
            * ((x i : ℂ) + (y i : ℂ) * Complex.I) ^ (n - 1 - k) = 0) :
    correction (liftArr a) (liftArr b) n degree (liftArr x) (liftArr y) i = none ∨
    correction (liftArr a) (liftArr b) n degree (liftArr x) (liftArr y) i
      = some (Dbl.fin 0, Dbl.fin 0) := by
  obtain ⟨P, Pd, S, eP, ePd, eS, hsome, hnone⟩ := correction_fin a b n degree hn x y i
  rw [h] at eP
  by_cases hg : (1 / 10 ^ 60 : ℝ) ≤ Complex.normSq Pd ∧
      (1 / 10 ^ 60 : ℝ) ≤ Complex.normSq (1 - P / Pd * S)
  · obtain ⟨u, v, hc, huv⟩ := hsome hg
    right
    rw [eP] at huv
    simp only [zero_div] at huv
    have h1 := congrArg Complex.re huv
    have h2 := congrArg Complex.im huv
    simp at h1 h2
    rw [hc, h1, h2]
  · left
    exact hnone hg

/-- The step of a root whose correction is skipped or exactly 0 changes
nothing (step_loop.c). -/
theorem stepLoop_rootStep_fix (cr ci : DArr) (n degree : Nat) (x y : Nat → ℚ) (k : Nat)
    (i : Nat)
    (h : correction cr ci n degree (liftArr x) (liftArr y) i = none ∨
      correction cr ci n degree (liftArr x) (liftArr y) i = some (Dbl.fin 0, Dbl.fin 0)) :
    StepLoop.rootStep cr ci n degree
        { rRe := liftArr x, rIm := liftArr y, maxCorr2 := 0, sweeps := k } i
      = { rRe := liftArr x, rIm := liftArr y, maxCorr2 := 0, sweeps := k } := by
  unfold StepLoop.rootStep
  rcases h with h | h
  · rw [h]
  · rw [h]
    simp only [liftArr, Dbl.fin_sub, Dbl.fin_mul, Dbl.fin_add, Dbl.ofNat_eq, Dbl.fin_lt]
    have e1 : wr (liftArr x) i (Dbl.fin (x i - 0)) = liftArr x := by
      funext j
      unfold wr liftArr
      split_ifs with hj
      · rw [hj, sub_zero]
      · rfl
    have e2 : wr (liftArr y) i (Dbl.fin (y i - 0)) = liftArr y := by
      funext j
      unfold wr liftArr
      split_ifs with hj
      · rw [hj, sub_zero]
      · rfl
    rw [e1, e2]
    simp
/-- The step of a root whose correction is skipped or exactly 0 keeps the
invariant of the first sweep (solver.c). -/
theorem solver_rootStep_fix (cr ci : DArr) (n degree : Nat) (trackIter : Int)
    (x y : Nat → ℚ) (present : Bool) (s : Solver.EAState) (i : Nat)
    (hs : FixInv degree (liftArr x) (liftArr y) present s)
    (h : correction cr ci n degree (liftArr x) (liftArr y) i = none ∨
      correction cr ci n degree (liftArr x) (liftArr y) i = some (Dbl.fin 0, Dbl.fin 0)) :
    FixInv degree (liftArr x) (liftArr y) present
      (Solver.rootStep cr ci n degree trackIter 0 s i) := by
  obtain ⟨hR, hI, hM, hSw, hP, hC⟩ := hs
  unfold Solver.rootStep
  split_ifs with hf
  · exact ⟨hR, hI, hM, hSw, hP, hC⟩
  · rw [hR, hI]
    rcases h with h | h
    · rw [h]
      exact ⟨hR, hI, hM, hSw, hP, hC⟩
    · rw [h]
      have e1 : wr (liftArr x) i (liftArr x i - Dbl.fin 0) = liftArr x := by
        funext j
        unfold wr liftArr
        rw [Dbl.fin_sub]
        split_ifs with hj
        · rw [hj, sub_zero]
        · rfl
      have e2 : wr (liftArr y) i (liftArr y i - Dbl.fin 0) = liftArr y := by
        funext j
        unfold wr liftArr
        rw [Dbl.fin_sub]
        split_ifs with hj
        · rw [hj, sub_zero]
        · rfl
      have e3 : (if s.maxCorr2.lt (Dbl.fin 0 * Dbl.fin 0 + Dbl.fin 0 * Dbl.fin 0) = true
          then Dbl.fin 0 * Dbl.fin 0 + Dbl.fin 0 * Dbl.fin 0 else s.maxCorr2) = 0 := by
        rw [hM]
        simp
      simp only []
      rw [e1, e2, e3]
      split_ifs with ht
      · refine ⟨rfl, rfl, rfl, hSw, ?_, ?_⟩
        · rw [← hP]
          cases s.iterCounts <;> rfl
        · intro c hc j hj hcv
          cases hic : s.iterCounts with
          | none => rw [hic] at hc; simp at hc
          | some c0 =>
            rw [hic] at hc
            simp only [Option.map_some', Option.some.injEq] at hc
            subst hc
            by_cases hji : j = i
            · simp [wr, hji]
            · simp only [wr, if_neg hji] at hcv ⊢
              exact hC c0 hic j hj hcv
      · exact ⟨rfl, rfl, rfl, hSw, hP, hC⟩

/-- The marking loop entry by entry. -/
theorem solver_mark_apply (conv c : NArr) (iter d : Nat) :
    ∀ i, ((List.range d).foldl (Solver.markStep iter) (conv, c)).1 i
      = (if i < d ∧ conv i = 0 then 1 else conv i) ∧
    ((List.range d).foldl (Solver.markStep iter) (conv, c)).2 i
      = (if i < d ∧ conv i = 0 then (iter + 1) % 256 else c i) := by
  induction d with
  | zero => intro i; simp
  | succ d ih =>
    intro i
    rw [List.range_succ, List.foldl_append]
    simp only [List.foldl_cons, List.foldl_nil]
    have key : ((List.range d).foldl (Solver.markStep iter) (conv, c)).1 d = conv d := by
      rw [(ih d).1, if_neg (by omega)]
    have ihi := ih i
    generalize (List.range d).foldl (Solver.markStep iter) (conv, c) = g at ihi key ⊢
    unfold Solver.markStep
    by_cases hi : i = d
    · subst hi
      by_cases hc : conv i = 0
      · simp [hc, wr, key]
      · simp [hc, ihi, key]
    · have hlt : i < d + 1 ↔ i < d := by omega
      by_cases hc : g.1 d = 0
      · simp [hc, wr, hi, ihi, hlt]
      · simp [hc, ihi, hlt]
/-- The main loop of step_loop.c on a warm start of exact roots: one sweep,
nothing changed. -/
theorem stepLoop_iterLoop_fix (a b : Nat → ℚ) (n d : Nat) (hn : 1 ≤ n) (x y : Nat → ℚ)
    (hroot : ∀ i, i < d →
      ∑ k in Finset.range n, ((a k : ℂ) + (b k : ℂ) * Complex.I)
            * ((x i : ℂ) + (y i : ℂ) * Complex.I) ^ (n - 1 - k) = 0) :
    StepLoop.iterLoop (liftArr a) (liftArr b) n d MAX_ITER
        { rRe := liftArr x, rIm := liftArr y, maxCorr2 := 0, sweeps := 0 }
      = { rRe := liftArr x, rIm := liftArr y, maxCorr2 := 0, sweeps := 1 } := by
  have hsweep : StepLoop.sweep (liftArr a) (liftArr b) n d
      { rRe := liftArr x, rIm := liftArr y, maxCorr2 := 0, sweeps := 0 }
      = { rRe := liftArr x, rIm := liftArr y, maxCorr2 := 0, sweeps := 1 } := by
    unfold StepLoop.sweep
    exact foldl_preserves
      (fun s : StepLoop.EAState =>
        s = { rRe := liftArr x, rIm := liftArr y, maxCorr2 := 0, sweeps := 1 })
      (fun i => i < d) _
      (fun s i hs hi => by
        rw [hs]
        exact stepLoop_rootStep_fix _ _ n d x y 1 i (correction_root a b n d hn x y i (hroot i hi)))
      (List.range d) _ (fun i hi => List.mem_range.mp hi) rfl
  have e : MAX_ITER = 63 + 1 := rfl
  rw [e]
  simp only [StepLoop.iterLoop]
  rw [hsweep]
  have ht : (0 : Dbl).lt TOL2 = true := by decide!
  simp only [ht, if_true]

/-- The main loop of solver.c on a warm start of exact roots keeps the
invariant of the first sweep, and flags every root below the degree when
tracking is on. -/
theorem solver_iterLoop_fix (a b : Nat → ℚ) (n d : Nat) (hn : 1 ≤ n) (x y : Nat → ℚ)
    (trackIter : Int) (ic : Option NArr)
    (hroot : ∀ i, i < d →
      ∑ k in Finset.range n, ((a k : ℂ) + (b k : ℂ) * Complex.I)
            * ((x i : ℂ) + (y i : ℂ) * Complex.I) ^ (n - 1 - k) = 0) :
    FixInv d (liftArr x) (liftArr y) ic.isSome
      (Solver.iterLoop (liftArr a) (liftArr b) n d trackIter MAX_ITER 0
        { rRe := liftArr x, rIm := liftArr y, maxCorr2 := 0, conv := fun _ => 0,
          iterCounts := ic, sweeps := 0 }) ∧
    (trackIter ≠ 0 → ic.isSome = true → ∀ j, j < d →
      (Solver.iterLoop (liftArr a) (liftArr b) n d trackIter MAX_ITER 0
        { rRe := liftArr x, rIm := liftArr y, maxCorr2 := 0, conv := fun _ => 0,
          iterCounts := ic, sweeps := 0 }).conv j ≠ 0) := by
  have hsweep : FixInv d (liftArr x) (liftArr y) ic.isSome
      (Solver.sweep (liftArr a) (liftArr b) n d trackIter 0
        { rRe := liftArr x, rIm := liftArr y, maxCorr2 := 0, conv := fun _ => 0,
          iterCounts := ic, sweeps := 0 }) := by
    unfold Solver.sweep
    refine foldl_preserves (FixInv d (liftArr x) (liftArr y) ic.isSome) (fun i => i < d) _
      (fun s i hs hi => solver_rootStep_fix _ _ n d trackIter x y _ s i hs
        (correction_root a b n d hn x y i (hroot i hi)))
      (List.range d) _ (fun i hi => List.mem_range.mp hi) ?_
    refine ⟨rfl, rfl, rfl, rfl, rfl, ?_⟩
    intro c _ j _ hcv
    exact absurd rfl hcv
  have e : MAX_ITER = 63 + 1 := rfl
  rw [e]
  simp only [Solver.iterLoop]
  generalize Solver.sweep (liftArr a) (liftArr b) n d trackIter 0
        { rRe := liftArr x, rIm := liftArr y, maxCorr2 := 0, conv := fun _ => 0,
          iterCounts := ic, sweeps := 0 } = s1 at hsweep ⊢
  obtain ⟨hR, hI, hM, hSw, hP, hC⟩ := hsweep
  have ht : (0 : Dbl).lt TOL2 = true := by decide!
  rw [hM]
  simp only [ht, if_true]
  unfold Solver.onConverged
  cases hic : s1.iterCounts with
  | none =>
    simp only []
    refine ⟨⟨hR, hI, hM, hSw, hP, hC⟩, ?_⟩
    intro _ hsome
    rw [hic] at hP
    rw [← hP] at hsome
    simp at hsome
  | some c =>
    simp only []
    split_ifs with htr
    · have hm := solver_mark_apply s1.conv c 0 d
      refine ⟨⟨hR, hI, hM, hSw, ?_, ?_⟩, ?_⟩
      · rw [← hP, hic]
        rfl
      · intro c2 hc2 j hj hcv
        simp only [Option.some.injEq] at hc2
        subst hc2
        rw [(hm j).2]
        split_ifs with h0
        · rfl
        · exact hC c hic j hj (by intro hz; exact h0 ⟨hj, hz⟩)
      · intro _ _ j hj
        show ((List.range d).foldl (Solver.markStep 0) (s1.conv, c)).1 j ≠ 0
        rw [(hm j).1]
        split_ifs with h0
        · decide
        · intro hz
          exact h0 ⟨hj, hz⟩
    · refine ⟨⟨hR, hI, hM, hSw, hP, hC⟩, ?_⟩
      intro h
      exact absurd h htr
/-- C24. Exact roots are a fixed point, in exact arithmetic.  For finite
coefficients of effective degree `d >= 2` (the stripped polynomial `p` has the
coefficients from index `start` on) and a warm start whose first `d` entries
are finite and satisfy `p(z_i) = 0`: every correction of the first sweep is
skipped by a guard or is exactly 0, both solvers stop after the first sweep
and return the warm arrays unchanged, and with tracking on and a count buffer
every count below `d` is 1. -/
theorem C24_exact_roots_fixed (a b : Nat → ℚ) (nCoeffs : Int) (warmRe warmIm : DArr)
    (x y : Nat → ℚ) (nRoots trackIter : Int) (ic : Option NArr)
    (hdeg : 2 ≤ effDegree (liftArr a) (liftArr b) nCoeffs)
    (hw : ∀ i, i < (effDegree (liftArr a) (liftArr b) nCoeffs).toNat →
      warmRe i = Dbl.fin (x i) ∧ warmIm i = Dbl.fin (y i))
    (hroot : ∀ i, i < (effDegree (liftArr a) (liftArr b) nCoeffs).toNat →
      ∑ k in Finset.range ((effDegree (liftArr a) (liftArr b) nCoeffs).toNat + 1),
        ((a (stripStart (liftArr a) (liftArr b) nCoeffs + k) : ℂ)
          + (b (stripStart (liftArr a) (liftArr b) nCoeffs + k) : ℂ) * Complex.I)
        * ((x i : ℂ) + (y i : ℂ) * Complex.I)
            ^ ((effDegree (liftArr a) (liftArr b) nCoeffs).toNat - k) = 0) :
    (∀ i, i < (effDegree (liftArr a) (liftArr b) nCoeffs).toNat →
      correction (fun k => liftArr a (stripStart (liftArr a) (liftArr b) nCoeffs + k))
          (fun k => liftArr b (stripStart (liftArr a) (liftArr b) nCoeffs + k))
          ((effDegree (liftArr a) (liftArr b) nCoeffs).toNat + 1)
          (effDegree (liftArr a) (liftArr b) nCoeffs).toNat
          (fun i => if i < (effDegree (liftArr a) (liftArr b) nCoeffs).toNat
            then warmRe i else 0)
          (fun i => if i < (effDegree (liftArr a) (liftArr b) nCoeffs).toNat
            then warmIm i else 0) i = none ∨
      correction (fun k => liftArr a (stripStart (liftArr a) (liftArr b) nCoeffs + k))
          (fun k => liftArr b (stripStart (liftArr a) (liftArr b) nCoeffs + k))
          ((effDegree (liftArr a) (liftArr b) nCoeffs).toNat + 1)
          (effDegree (liftArr a) (liftArr b) nCoeffs).toNat
          (fun i => if i < (effDegree (liftArr a) (liftArr b) nCoeffs).toNat
            then warmRe i else 0)
          (fun i => if i < (effDegree (liftArr a) (liftArr b) nCoeffs).toNat
            then warmIm i else 0) i = some (Dbl.fin 0, Dbl.fin 0)) ∧
    (StepLoop.solveEA (liftArr a) (liftArr b) nCoeffs warmRe warmIm nRoots).sweeps = 1 ∧
    (StepLoop.solveEA (liftArr a) (liftArr b) nCoeffs warmRe warmIm nRoots).warmRe = warmRe ∧
    (StepLoop.solveEA (liftArr a) (liftArr b) nCoeffs warmRe warmIm nRoots).warmIm = warmIm ∧
    (Solver.solveEA (liftArr a) (liftArr b) nCoeffs warmRe warmIm nRoots trackIter ic).sweeps
      = 1 ∧
    (Solver.solveEA (liftArr a) (liftArr b) nCoeffs warmRe warmIm nRoots trackIter ic).warmRe
      = warmRe ∧
    (Solver.solveEA (liftArr a) (liftArr b) nCoeffs warmRe warmIm nRoots trackIter ic).warmIm
      = warmIm ∧
    (trackIter ≠ 0 → ic.isSome = true →
      ∃ c, (Solver.solveEA (liftArr a) (liftArr b) nCoeffs warmRe warmIm nRoots trackIter
          ic).iterCounts = some c ∧
        ∀ i, i < (effDegree (liftArr a) (liftArr b) nCoeffs).toNat → c i = 1) := by
  have hn : (nCoeffs - (stripStart (liftArr a) (liftArr b) nCoeffs : Int)).toNat
      = (effDegree (liftArr a) (liftArr b) nCoeffs).toNat + 1 := by
    unfold effDegree at hdeg ⊢
    omega
  generalize hd : (effDegree (liftArr a) (liftArr b) nCoeffs).toNat = d at hw hroot hn ⊢
  generalize hst : stripStart (liftArr a) (liftArr b) nCoeffs = st at hroot hn ⊢
  have hR : (fun i => if i < d then warmRe i else 0)
      = liftArr (fun i => if i < d then x i else 0) := by
    funext i
    unfold liftArr
    by_cases hi : i < d
    · simp only [if_pos hi]
      exact (hw i hi).1
    · simp only [if_neg hi]
      simp
  have hI : (fun i => if i < d then warmIm i else 0)
      = liftArr (fun i => if i < d then y i else 0) := by
    funext i
    unfold liftArr
    by_cases hi : i < d
    · simp only [if_pos hi]
      exact (hw i hi).2
    · simp only [if_neg hi]
      simp
  have hroot2 : ∀ i, i < d →
      ∑ k in Finset.range (d + 1), (((fun k => a (st + k)) k : ℂ)
            + ((fun k => b (st + k)) k : ℂ) * Complex.I)
          * ((((fun i => if i < d then x i else 0) i : ℚ) : ℂ)
            + (((fun i => if i < d then y i else 0) i : ℚ) : ℂ) * Complex.I) ^ (d + 1 - 1 - k)
        = 0 := by
    intro i hi
    simp only [if_pos hi, Nat.add_sub_cancel]
    exact hroot i hi
  have hcr : (fun k => liftArr a (st + k)) = liftArr (fun k => a (st + k)) := rfl
  have hci : (fun k => liftArr b (st + k)) = liftArr (fun k => b (st + k)) := rfl
  have hS := stepLoop_iterLoop_fix (fun k => a (st + k)) (fun k => b (st + k)) (d + 1) d
    (by omega) _ _ hroot2
  have hV := solver_iterLoop_fix (fun k => a (st + k)) (fun k => b (st + k)) (d + 1) d
    (by omega) _ _ trackIter ic hroot2
  have hwb : ∀ w1 w2 : DArr, writeBack (liftArr (fun i => if i < d then x i else 0))
      (liftArr (fun i => if i < d then y i else 0)) d warmRe warmIm = (warmRe, warmIm) := by
    intro _ _
    apply Prod.ext
    · funext i
      rw [(writeBack_apply _ _ d warmRe warmIm i).1]
      split_ifs with h
      · simp only [liftArr, if_pos h.1]
        exact ((hw i h.1).1).symm
      · rfl
    · funext i
      rw [(writeBack_apply _ _ d warmRe warmIm i).2]
      split_ifs with h
      · simp only [liftArr, if_pos h.1]
        exact ((hw i h.1).2).symm
      · rfl
  have hSa : StepLoop.afterLoop (liftArr a) (liftArr b) nCoeffs warmRe warmIm
      = { rRe := liftArr (fun i => if i < d then x i else 0),
          rIm := liftArr (fun i => if i < d then y i else 0), maxCorr2 := 0, sweeps := 1 } := by
    unfold StepLoop.afterLoop StepLoop.iterate
    simp only []
    rw [hd, hst, hn, hR, hI, hcr, hci]
    exact hS
  have hVa : (Solver.afterLoop (liftArr a) (liftArr b) nCoeffs warmRe warmIm trackIter ic).rRe
        = liftArr (fun i => if i < d then x i else 0) ∧
      (Solver.afterLoop (liftArr a) (liftArr b) nCoeffs warmRe warmIm trackIter ic).rIm
        = liftArr (fun i => if i < d then y i else 0) ∧
      (Solver.afterLoop (liftArr a) (liftArr b) nCoeffs warmRe warmIm trackIter ic).sweeps = 1 ∧
      (trackIter ≠ 0 → ic.isSome = true →
        ∃ c, (Solver.afterLoop (liftArr a) (liftArr b) nCoeffs warmRe warmIm trackIter
            ic).iterCounts = some c ∧ ∀ i, i < d → c i = 1) := by
    unfold Solver.afterLoop Solver.iterate
    simp only []
    rw [hd, hst, hn, hR, hI, hcr, hci]
    generalize Solver.iterLoop (liftArr fun k => a (st + k)) (liftArr fun k => b (st + k))
      (d + 1) d trackIter MAX_ITER 0 _ = s at hV
    obtain ⟨⟨hR2, hI2, hM, hSw, hP, hC⟩, hconv⟩ := hV
    cases hic : s.iterCounts with
    | none =>
      simp only []
      refine ⟨hR2, hI2, hSw, ?_⟩
      intro _ hsome
      rw [hic, hsome] at hP
      simp at hP
    | some c =>
      simp only []
      split_ifs with htr
      · refine ⟨hR2, hI2, hSw, ?_⟩
        intro _ hsome
        refine ⟨_, rfl, ?_⟩
        intro i hi
        rw [solver_fill_apply, if_neg (by intro h; exact hconv htr hsome i hi h.2)]
        exact hC c hic i hi (hconv htr hsome i hi)
      · refine ⟨hR2, hI2, hSw, ?_⟩
        intro h
        exact absurd h htr
  obtain ⟨hV1, hV2, hV3, hV4⟩ := hVa
  refine ⟨?_, ?_, ?_, ?_, ?_, ?_, ?_, ?_⟩
  · intro i hi
    rw [hR, hI, hcr, hci]
    exact correction_root _ _ (d + 1) d (by omega) _ _ i (hroot2 i hi)
  · rw [stepLoop_solveEA_of_two_le _ _ _ _ _ _ hdeg, hSa]
  · rw [stepLoop_solveEA_of_two_le _ _ _ _ _ _ hdeg, hSa, hd]
    simp only []
    rw [hwb warmRe warmIm]
  · rw [stepLoop_solveEA_of_two_le _ _ _ _ _ _ hdeg, hSa, hd]
    simp only []
    rw [hwb warmRe warmIm]
  · rw [solver_solveEA_of_two_le _ _ _ _ _ _ _ _ hdeg]
    exact hV3
  · rw [solver_solveEA_of_two_le _ _ _ _ _ _ _ _ hdeg, hV1, hV2, hd]
    simp only []
    rw [hwb warmRe warmIm]
  · rw [solver_solveEA_of_two_le _ _ _ _ _ _ _ _ hdeg, hV1, hV2, hd]
    simp only []
    rw [hwb warmRe warmIm]
  · rw [solver_solveEA_of_two_le _ _ _ _ _ _ _ _ hdeg]
    exact hV4
/-- The warm start `1`, `-1` consists of exact roots of `z^2 - 1`. -/
theorem ea_sample_roots :
    ∀ i, i < (effDegree (liftArr eaA) (liftArr eaZero) 3).toNat →
      ∑ k in Finset.range ((effDegree (liftArr eaA) (liftArr eaZero) 3).toNat + 1),
        ((eaA (stripStart (liftArr eaA) (liftArr eaZero) 3 + k) : ℂ)
          + (eaZero (stripStart (liftArr eaA) (liftArr eaZero) 3 + k) : ℂ) * Complex.I)
        * ((eaR i : ℂ) + (eaZero i : ℂ) * Complex.I)
            ^ ((effDegree (liftArr eaA) (liftArr eaZero) 3).toNat - k) = 0 := by
  have e : (effDegree (liftArr eaA) (liftArr eaZero) 3).toNat = 2 := by decide!
  have e0 : stripStart (liftArr eaA) (liftArr eaZero) 3 = 0 := by decide!
  rw [e, e0]
  intro i hi
  interval_cases i <;> simp [Finset.sum_range_succ, eaA, eaR, eaZero]

/-- The fixed-point theorem applied to `z^2 - 1` with the warm start `1`,
`-1`, tracking on. -/
theorem C24_exact_roots_fixed_witness :
    (2 ≤ effDegree (liftArr eaA) (liftArr eaZero) 3) ∧
    (∀ i, i < (effDegree (liftArr eaA) (liftArr eaZero) 3).toNat →
      (liftArr eaR) i = Dbl.fin (eaR i) ∧ (liftArr eaZero) i = Dbl.fin (eaZero i)) ∧
    (∀ i, i < (effDegree (liftArr eaA) (liftArr eaZero) 3).toNat →
      ∑ k in Finset.range ((effDegree (liftArr eaA) (liftArr eaZero) 3).toNat + 1),
        ((eaA (stripStart (liftArr eaA) (liftArr eaZero) 3 + k) : ℂ)
          + (eaZero (stripStart (liftArr eaA) (liftArr eaZero) 3 + k) : ℂ) * Complex.I)
        * ((eaR i : ℂ) + (eaZero i : ℂ) * Complex.I)
            ^ ((effDegree (liftArr eaA) (liftArr eaZero) 3).toNat - k) = 0) ∧
    (∀ i, i < (effDegree (liftArr eaA) (liftArr eaZero) 3).toNat →
      correction (fun k => liftArr eaA (stripStart (liftArr eaA) (liftArr eaZero) 3 + k))
          (fun k => liftArr eaZero (stripStart (liftArr eaA) (liftArr eaZero) 3 + k))
          ((effDegree (liftArr eaA) (liftArr eaZero) 3).toNat + 1)
          (effDegree (liftArr eaA) (liftArr eaZero) 3).toNat
          (fun i => if i < (effDegree (liftArr eaA) (liftArr eaZero) 3).toNat
            then (liftArr eaR) i else 0)
          (fun i => if i < (effDegree (liftArr eaA) (liftArr eaZero) 3).toNat
            then (liftArr eaZero) i else 0) i = none ∨
      correction (fun k => liftArr eaA (stripStart (liftArr eaA) (liftArr eaZero) 3 + k))
          (fun k => liftArr eaZero (stripStart (liftArr eaA) (liftArr eaZero) 3 + k))
          ((effDegree (liftArr eaA) (liftArr eaZero) 3).toNat + 1)
          (effDegree (liftArr eaA) (liftArr eaZero) 3).toNat
          (fun i => if i < (effDegree (liftArr eaA) (liftArr eaZero) 3).toNat
            then (liftArr eaR) i else 0)
          (fun i => if i < (effDegree (liftArr eaA) (liftArr eaZero) 3).toNat
            then (liftArr eaZero) i else 0) i = some (Dbl.fin 0, Dbl.fin 0)) ∧
    (StepLoop.solveEA (liftArr eaA) (liftArr eaZero) 3 (liftArr eaR) (liftArr eaZero) 2).sweeps = 1 ∧
    (StepLoop.solveEA (liftArr eaA) (liftArr eaZero) 3 (liftArr eaR) (liftArr eaZero) 2).warmRe = (liftArr eaR) ∧
    (StepLoop.solveEA (liftArr eaA) (liftArr eaZero) 3 (liftArr eaR) (liftArr eaZero) 2).warmIm = (liftArr eaZero) ∧
    (Solver.solveEA (liftArr eaA) (liftArr eaZero) 3 (liftArr eaR) (liftArr eaZero) 2 (1 : Int) (some (fun _ => 0))).sweeps
      = 1 ∧
    (Solver.solveEA (liftArr eaA) (liftArr eaZero) 3 (liftArr eaR) (liftArr eaZero) 2 (1 : Int) (some (fun _ => 0))).warmRe
      = (liftArr eaR) ∧
    (Solver.solveEA (liftArr eaA) (liftArr eaZero) 3 (liftArr eaR) (liftArr eaZero) 2 (1 : Int) (some (fun _ => 0))).warmIm
      = (liftArr eaZero) ∧
    ((1 : Int) ≠ 0 → (some (fun _ : Nat => (0 : Nat))).isSome = true →
      ∃ c, (Solver.solveEA (liftArr eaA) (liftArr eaZero) 3 (liftArr eaR) (liftArr eaZero) 2 (1 : Int)
          (some (fun _ => 0))).iterCounts = some c ∧
        ∀ i, i < (effDegree (liftArr eaA) (liftArr eaZero) 3).toNat → c i = 1) :=
  ⟨by decide!, fun _ _ => ⟨rfl, rfl⟩, ea_sample_roots,
    C24_exact_roots_fixed eaA eaZero 3 (liftArr eaR) (liftArr eaZero) eaR eaZero 2 1
      (some (fun _ => 0)) (by decide!) (fun _ _ => ⟨rfl, rfl⟩) ea_sample_roots⟩

/-- The fixed point on the sample, evaluated: one sweep, the warm start
returned, both counts 1. -/
theorem fixed_point_sample :
    (Solver.solveEA (liftArr eaA) (liftArr eaZero) 3 (liftArr eaR) (liftArr eaZero) 2 1
      (some (fun _ => 0))).sweeps = 1 ∧
    (Solver.solveEA (liftArr eaA) (liftArr eaZero) 3 (liftArr eaR) (liftArr eaZero) 2 1
      (some (fun _ => 0))).warmRe 0 = Dbl.fin 1 ∧
    (Solver.solveEA (liftArr eaA) (liftArr eaZero) 3 (liftArr eaR) (liftArr eaZero) 2 1
      (some (fun _ => 0))).warmRe 1 = Dbl.fin (-1) ∧
    (Solver.solveEA (liftArr eaA) (liftArr eaZero) 3 (liftArr eaR) (liftArr eaZero) 2 1
      (some (fun _ => 0))).iterCounts.map (fun c => (c 0, c 1)) = some (1, 1) := by
  refine ⟨by decide!, by decide!, by decide!, by decide!⟩

/-! ## C25: the greedy selection rule -/

/-- C25. Greedy selection rule: provided every squared distance between a
solved root and a predecessor is below the `1e300` sentinel,
`matchRootsGreedy` sets `out[k]`, for `k = 0, ..., n-1`, to `new[j_k]`, where
`j_0..j_(n-1)` is a permutation of `0..n-1`, `j_k` is not chosen for an
earlier predecessor, no index not chosen earlier is nearer to predecessor `k`
than `j_k`, and every lower index not chosen earlier is strictly farther; and
on predecessors `{0, 1}` the solved roots `{1.1, 0.1}` give `{0.1, 1.1}` and
the solved roots `{0.9, 0.2}` give `{0.2, 0.9}`. -/
theorem C25_greedy_selection (newRe newIm oldRe oldIm : DArr) (n : Nat)
    (hs : ∀ i j, i < n → j < n → (dist2 newRe newIm oldRe oldIm i j).lt c1e300 = true) :
    (∃ js : List Nat, js.Perm (List.range n) ∧
      (∀ k, k < n →
        (StepLoop.matchRootsGreedy newRe newIm oldRe oldIm n).1 k = newRe (js.getD k 0) ∧
        (StepLoop.matchRootsGreedy newRe newIm oldRe oldIm n).2 k = newIm (js.getD k 0) ∧
        js.getD k 0 ∉ js.take k ∧
        (∀ j, j < n → j ∉ js.take k →
          (dist2 newRe newIm oldRe oldIm k (js.getD k 0)).le
            (dist2 newRe newIm oldRe oldIm k j) = true) ∧
        (∀ j, j < js.getD k 0 → j ∉ js.take k →
          (dist2 newRe newIm oldRe oldIm k (js.getD k 0)).lt
            (dist2 newRe newIm oldRe oldIm k j) = true))) ∧
    rootList
        (StepLoop.matchRootsGreedy (arr [Dbl.fin (11 / 10), Dbl.fin (1 / 10)]) (arr [0, 0])
          (arr [0, 1]) (arr [0, 0]) 2).1
        (StepLoop.matchRootsGreedy (arr [Dbl.fin (11 / 10), Dbl.fin (1 / 10)]) (arr [0, 0])
          (arr [0, 1]) (arr [0, 0]) 2).2 2
      = [(Dbl.fin (1 / 10), Dbl.fin 0), (Dbl.fin (11 / 10), Dbl.fin 0)] ∧
    rootList
        (StepLoop.matchRootsGreedy (arr [Dbl.fin (9 / 10), Dbl.fin (2 / 10)]) (arr [0, 0])
          (arr [0, 1]) (arr [0, 0]) 2).1
        (StepLoop.matchRootsGreedy (arr [Dbl.fin (9 / 10), Dbl.fin (2 / 10)]) (arr [0, 0])
          (arr [0, 1]) (arr [0, 0]) 2).2 2
      = [(Dbl.fin (2 / 10), Dbl.fin 0), (Dbl.fin (9 / 10), Dbl.fin 0)] := by
  refine ⟨?_, by decide!, by decide!⟩
  obtain ⟨js, hlen, hnd, hlt, hout, hmin, hlow⟩ :=
    matchRootsGreedy_spec newRe newIm oldRe oldIm n hs
  have hperm : js.Perm (List.range n) := by
    apply List.Subperm.perm_of_length_le
    · apply List.subperm_of_subset hnd
      intro j hj
      exact List.mem_range.mpr (hlt j hj)
    · rw [List.length_range, hlen]
  refine ⟨js, hperm, ?_⟩
  intro k hk
  have hjk : js.getD k 0 < n := by
    rw [List.getD_eq_getElem _ _ (by omega)]
    exact hlt _ (List.getElem_mem _)
  refine ⟨(hout k hk).1, (hout k hk).2, ?_, ?_, hlow k hk⟩
  · exact getD_not_mem_take js hnd k k (le_refl k) (by omega)
  · intro j hj hnot
    have h := hmin k hk j hj hnot
    obtain ⟨q1, hq1, -, -⟩ := dist2_fin _ _ _ _ k (js.getD k 0) _ (hs k _ hk hjk)
    obtain ⟨q2, hq2, -, -⟩ := dist2_fin _ _ _ _ k j _ (hs k j hk hj)
    rw [hq1, hq2] at h ⊢
    simp only [Dbl.fin_lt, decide_eq_false_iff_not, not_lt] at h
    simpa [Dbl.le] using h

/-- C25 on scenario S4: predecessors `{0, 1}`, solved roots `{0.9, 0.2}`. -/
theorem C25_greedy_selection_witness :
    (∀ i j, i < 2 → j < 2 →
      (dist2 (arr [Dbl.fin (9 / 10), Dbl.fin (2 / 10)]) (arr [0, 0]) (arr [0, 1]) (arr [0, 0])
        i j).lt c1e300 = true) ∧
    ((∃ js : List Nat, js.Perm (List.range 2) ∧
      (∀ k, k < 2 →
        (StepLoop.matchRootsGreedy (arr [Dbl.fin (9 / 10), Dbl.fin (2 / 10)]) (arr [0, 0])
          (arr [0, 1]) (arr [0, 0]) 2).1 k
          = arr [Dbl.fin (9 / 10), Dbl.fin (2 / 10)] (js.getD k 0) ∧
        (StepLoop.matchRootsGreedy (arr [Dbl.fin (9 / 10), Dbl.fin (2 / 10)]) (arr [0, 0])
          (arr [0, 1]) (arr [0, 0]) 2).2 k = arr [0, 0] (js.getD k 0) ∧
        js.getD k 0 ∉ js.take k ∧
        (∀ j, j < 2 → j ∉ js.take k →
          (dist2 (arr [Dbl.fin (9 / 10), Dbl.fin (2 / 10)]) (arr [0, 0]) (arr [0, 1])
              (arr [0, 0]) k (js.getD k 0)).le
            (dist2 (arr [Dbl.fin (9 / 10), Dbl.fin (2 / 10)]) (arr [0, 0]) (arr [0, 1])
              (arr [0, 0]) k j) = true) ∧
        (∀ j, j < js.getD k 0 → j ∉ js.take k →
          (dist2 (arr [Dbl.fin (9 / 10), Dbl.fin (2 / 10)]) (arr [0, 0]) (arr [0, 1])
              (arr [0, 0]) k (js.getD k 0)).lt
            (dist2 (arr [Dbl.fin (9 / 10), Dbl.fin (2 / 10)]) (arr [0, 0]) (arr [0, 1])
              (arr [0, 0]) k j) = true))) ∧
    rootList
        (StepLoop.matchRootsGreedy (arr [Dbl.fin (11 / 10), Dbl.fin (1 / 10)]) (arr [0, 0])
          (arr [0, 1]) (arr [0, 0]) 2).1
        (StepLoop.matchRootsGreedy (arr [Dbl.fin (11 / 10), Dbl.fin (1 / 10)]) (arr [0, 0])
          (arr [0, 1]) (arr [0, 0]) 2).2 2
      = [(Dbl.fin (1 / 10), Dbl.fin 0), (Dbl.fin (11 / 10), Dbl.fin 0)] ∧
    rootList
        (StepLoop.matchRootsGreedy (arr [Dbl.fin (9 / 10), Dbl.fin (2 / 10)]) (arr [0, 0])
          (arr [0, 1]) (arr [0, 0]) 2).1
        (StepLoop.matchRootsGreedy (arr [Dbl.fin (9 / 10), Dbl.fin (2 / 10)]) (arr [0, 0])
          (arr [0, 1]) (arr [0, 0]) 2).2 2
      = [(Dbl.fin (2 / 10), Dbl.fin 0), (Dbl.fin (9 / 10), Dbl.fin 0)]) :=
  have hs : ∀ i j, i < 2 → j < 2 →
      (dist2 (arr [Dbl.fin (9 / 10), Dbl.fin (2 / 10)]) (arr [0, 0]) (arr [0, 1]) (arr [0, 0])
        i j).lt c1e300 = true := by
    intro i j hi hj
    have hi2 : i = 0 ∨ i = 1 := by omega
    have hj2 : j = 0 ∨ j = 1 := by omega
    rcases hi2 with rfl | rfl <;> rcases hj2 with rfl | rfl <;> decide!
  ⟨hs, C25_greedy_selection _ _ _ _ 2 hs⟩

/-! ## C27: rank normalisation against its reference definition -/

/-- The comparison `a <= b` excludes `b < a`. -/
theorem Dbl.not_lt_of_le (a b : Dbl) (h : a.le b = true) : b.lt a = false := by
  cases a <;> cases b <;> simp_all [Dbl.le, Dbl.lt]

/-- C27, counterexample: the input `{-2e300, -3e300}`, `n = 2`.  Both entries
pass the test `raw[i] == raw[i] && raw[i] < 1e300`, the reference definition
gives the ranks 1 and 0 (one entry is less than the first, none less than
the second), and `rankNorm` returns `0.5` for both: no entry exceeds the
initial `maxFinite = -1e300`, so the early return is taken. -/
theorem C27_counterexample :
    rankOk (arr [Dbl.fin (-(2 * 10 ^ 300)), Dbl.fin (-(3 * 10 ^ 300))] 0) = true ∧
    rankOk (arr [Dbl.fin (-(2 * 10 ^ 300)), Dbl.fin (-(3 * 10 ^ 300))] 1) = true ∧
    cntLt (arr [Dbl.fin (-(2 * 10 ^ 300)), Dbl.fin (-(3 * 10 ^ 300))]) 2 0 = 1 ∧
    cntLt (arr [Dbl.fin (-(2 * 10 ^ 300)), Dbl.fin (-(3 * 10 ^ 300))]) 2 1 = 0 ∧
    rankNorm (arr [Dbl.fin (-(2 * 10 ^ 300)), Dbl.fin (-(3 * 10 ^ 300))]) (arr []) 2 0
      = Dbl.fin (1 / 2) ∧
    rankNorm (arr [Dbl.fin (-(2 * 10 ^ 300)), Dbl.fin (-(3 * 10 ^ 300))]) (arr []) 2 1
      = Dbl.fin (1 / 2) := by
  refine ⟨by decide!, by decide!, by decide!, by decide!, by decide!, by decide!⟩
/-- C27. Rank normalisation against its reference definition: for every `n`
in `[2, 255]` and every input with at least one entry that is not NaN, below
`1e300` and above `-1e300`, `maxFinite` is the largest entry passing the test
`raw[i] == raw[i] && raw[i] < 1e300`, and with `v_i = raw[i]` when `raw[i]`
passes the test and `v_i = maxFinite` otherwise, `rankNorm` sets
`result[i] = |{ j < n : v_j < v_i }| / (n - 1)` for every `i < n`; every
output lies in `[0, 1]`, equal `v_i` give equal outputs, and `v_i <= v_j`
implies `result[i] <= result[j]`. -/
theorem C27_rankNorm_reference (raw r0 : DArr) (n : Nat) (hn : 2 ≤ n) (hn2 : n ≤ 255)
    (k : Nat) (hk : k < n) (hok : rankOk (raw k) = true) (hlo : cm1e300.lt (raw k) = true) :
    ∃ M : ℚ, maxFinite raw n = Dbl.fin M ∧
      (∃ j, j < n ∧ rankOk (raw j) = true ∧ raw j = Dbl.fin M) ∧
      (∀ j, j < n → rankOk (raw j) = true → (Dbl.fin M).lt (raw j) = false) ∧
      (∀ i, i < n → rankNorm raw r0 n i
        = Dbl.fin ((cntLt (rankVal raw (Dbl.fin M)) n i : ℚ) / ((n : ℚ) - 1))) ∧
      (∀ i, i < n → ∃ q : ℚ, rankNorm raw r0 n i = Dbl.fin q ∧ 0 ≤ q ∧ q ≤ 1) ∧
      (∀ i j, i < n → j < n → rankVal raw (Dbl.fin M) i = rankVal raw (Dbl.fin M) j →
        rankNorm raw r0 n i = rankNorm raw r0 n j) ∧
      (∀ i j, i < n → j < n →
        (rankVal raw (Dbl.fin M) i).le (rankVal raw (Dbl.fin M) j) = true →
        (rankNorm raw r0 n i).le (rankNorm raw r0 n j) = true) := by
  have hM := maxFinite_gt raw n k hk hok hlo
  obtain ⟨m, e, -, -, hmax, hatt⟩ := maxFinite_spec raw n
  have hspec := rankNorm_spec raw r0 n hn hM
  have hv := rankVal_notNaN raw n
  rw [e] at hspec hv
  have hn0 : (0 : ℚ) < (n : ℚ) - 1 := by
    have : (2 : ℚ) ≤ (n : ℚ) := by exact_mod_cast hn
    linarith
  refine ⟨m, e, ?_, hmax, hspec, ?_, ?_, ?_⟩
  · rcases hatt with h0 | ⟨j, hj, hr, hokj⟩
    · exfalso
      rw [e, h0] at hM
      unfold cm1e300 at hM
      rw [Dbl.fin_le, decide_eq_false_iff_not] at hM
      exact hM (le_refl _)
    · exact ⟨j, hj, hokj, hr⟩
  · intro i hi
    exact rankNorm_range raw r0 n i hi
  · intro i j hi hj hij
    rw [hspec i hi, hspec j hj]
    unfold cntLt
    rw [hij]
  · intro i j hi hj hij
    rw [hspec i hi, hspec j hj, Dbl.fin_le, decide_eq_true_eq]
    have hcnt : cntLt (rankVal raw (Dbl.fin m)) n i ≤ cntLt (rankVal raw (Dbl.fin m)) n j := by
      by_contra hlt
      have := (cntLt_lt_iff (rankVal raw (Dbl.fin m)) hv n i j hi hj).mp (not_le.mp hlt)
      rw [Dbl.not_lt_of_le _ _ hij] at this
      exact absurd this (by simp)
    apply div_le_div_of_nonneg_right _ (le_of_lt hn0)
    exact_mod_cast hcnt

/-- C27 on the sample `[3, 1, 2, +inf, NaN]`, `n = 5`, whose entry 0 passes
the test and lies above `-1e300`. -/
theorem C27_rankNorm_reference_witness :
    2 ≤ 5 ∧ 5 ≤ 255 ∧ 0 < 5 ∧
    rankOk (arr [3, 1, 2, Dbl.pinf, Dbl.nan] 0) = true ∧
    cm1e300.lt (arr [3, 1, 2, Dbl.pinf, Dbl.nan] 0) = true ∧
    (∃ M : ℚ, maxFinite (arr [3, 1, 2, Dbl.pinf, Dbl.nan]) 5 = Dbl.fin M ∧
      (∃ j, j < 5 ∧ rankOk (arr [3, 1, 2, Dbl.pinf, Dbl.nan] j) = true ∧
        arr [3, 1, 2, Dbl.pinf, Dbl.nan] j = Dbl.fin M) ∧
      (∀ j, j < 5 → rankOk (arr [3, 1, 2, Dbl.pinf, Dbl.nan] j) = true →
        (Dbl.fin M).lt (arr [3, 1, 2, Dbl.pinf, Dbl.nan] j) = false) ∧
      (∀ i, i < 5 → rankNorm (arr [3, 1, 2, Dbl.pinf, Dbl.nan]) (fun _ => 0) 5 i
        = Dbl.fin ((cntLt (rankVal (arr [3, 1, 2, Dbl.pinf, Dbl.nan]) (Dbl.fin M)) 5 i : ℚ)
            / (((5 : Nat) : ℚ) - 1))) ∧
      (∀ i, i < 5 → ∃ q : ℚ,
        rankNorm (arr [3, 1, 2, Dbl.pinf, Dbl.nan]) (fun _ => 0) 5 i = Dbl.fin q ∧
          0 ≤ q ∧ q ≤ 1) ∧
      (∀ i j, i < 5 → j < 5 →
        rankVal (arr [3, 1, 2, Dbl.pinf, Dbl.nan]) (Dbl.fin M) i
          = rankVal (arr [3, 1, 2, Dbl.pinf, Dbl.nan]) (Dbl.fin M) j →
        rankNorm (arr [3, 1, 2, Dbl.pinf, Dbl.nan]) (fun _ => 0) 5 i
          = rankNorm (arr [3, 1, 2, Dbl.pinf, Dbl.nan]) (fun _ => 0) 5 j) ∧
      (∀ i j, i < 5 → j < 5 →
        (rankVal (arr [3, 1, 2, Dbl.pinf, Dbl.nan]) (Dbl.fin M) i).le
          (rankVal (arr [3, 1, 2, Dbl.pinf, Dbl.nan]) (Dbl.fin M) j) = true →
        (rankNorm (arr [3, 1, 2, Dbl.pinf, Dbl.nan]) (fun _ => 0) 5 i).le
          (rankNorm (arr [3, 1, 2, Dbl.pinf, Dbl.nan]) (fun _ => 0) 5 j) = true)) :=
  ⟨by decide, by decide, by decide, by decide!, by decide!,
    C27_rankNorm_reference (arr [3, 1, 2, Dbl.pinf, Dbl.nan]) (fun _ => 0) 5 (by decide)
      (by decide) 0 (by decide) (by decide!) (by decide!)⟩

/-! ## C28: curve sampling -/

/-- Curve sampling evaluated on the sample curve: at `t = -5/8` the polyline
entry interpolates the points 1 and 2 halfway, at `t = 7/8` it interpolates
the last point with the first, and the cloud entry takes the point `lo`. -/
theorem curve_samples :
    (sampleAt flatSample 0 1 4 (Dbl.fin (-5 / 8))).map (fun s => (s.re, s.im, s.reads))
      = some (Dbl.fin 5, Dbl.fin 6, [4, 6, 5, 7]) ∧
    (sampleAt flatSample 0 1 4 (Dbl.fin (7 / 8))).map (fun s => (s.re, s.im, s.reads))
      = some (Dbl.fin 5, Dbl.fin 6, [8, 2, 9, 3]) ∧
    (sampleAt flatSample 1 1 4 (Dbl.fin (7 / 8))).map (fun s => (s.re, s.im, s.reads))
      = some (Dbl.fin 8, Dbl.fin 9, [8, 9]) ∧
    (sampleEntry flatSample 0 1 1 4 (Dbl.fin (5 / 4)) (Dbl.fin (1 / 2))).map
        (fun s => (s.re, s.im, s.reads))
      = some (Dbl.fin 5, Dbl.fin 6, [4, 6, 5, 7]) := by
  refine ⟨by decide!, by decide!, by decide!, by decide!⟩

/-- The step of coefficient `k` writes entry `k` only. -/
theorem pathBlendStep_other (sqrt : Dbl → Dbl) (pathType ccw : Int) (minor cosT sinT : Dbl)
    (morphRe morphIm : DArr) (w : DArr × DArr) (k m : Nat) (h : m ≠ k) :
    (pathBlendStep sqrt pathType ccw minor cosT sinT morphRe morphIm w k).1 m = w.1 m ∧
    (pathBlendStep sqrt pathType ccw minor cosT sinT morphRe morphIm w k).2 m = w.2 m := by
  unfold pathBlendStep
  simp only []
  split_ifs <;> simp [wr, h]

/-- The step of coefficient `m` reads entry `m` only. -/
theorem pathBlendStep_congr (sqrt : Dbl → Dbl) (pathType ccw : Int) (minor cosT sinT : Dbl)
    (morphRe morphIm : DArr) (w w2 : DArr × DArr) (m : Nat) (h1 : w2.1 m = w.1 m)
    (h2 : w2.2 m = w.2 m) :
    (pathBlendStep sqrt pathType ccw minor cosT sinT morphRe morphIm w2 m).1 m
      = (pathBlendStep sqrt pathType ccw minor cosT sinT morphRe morphIm w m).1 m ∧
    (pathBlendStep sqrt pathType ccw minor cosT sinT morphRe morphIm w2 m).2 m
      = (pathBlendStep sqrt pathType ccw minor cosT sinT morphRe morphIm w m).2 m := by
  unfold pathBlendStep
  simp only [h1, h2]
  split_ifs <;> simp [wr, h1, h2]

/-- The non-line branch entry by entry. -/
theorem pathBlend_apply (sqrt : Dbl → Dbl) (pathType ccw : Int) (minor cosT sinT : Dbl)
    (workRe workIm morphRe morphIm : DArr) (nc m : Nat) :
    (pathBlend sqrt pathType ccw minor cosT sinT workRe workIm morphRe morphIm nc).1 m
      = (if m < nc then
          (pathBlendStep sqrt pathType ccw minor cosT sinT morphRe morphIm (workRe, workIm) m).1 m
        else workRe m) ∧
    (pathBlend sqrt pathType ccw minor cosT sinT workRe workIm morphRe morphIm nc).2 m
      = (if m < nc then
          (pathBlendStep sqrt pathType ccw minor cosT sinT morphRe morphIm (workRe, workIm) m).2 m
        else workIm m) := by
  unfold pathBlend
  induction nc with
  | zero => simp
  | succ n ih =>
    rw [List.range_succ, List.foldl_append]
    simp only [List.foldl_cons, List.foldl_nil]
    generalize (List.range n).foldl
      (pathBlendStep sqrt pathType ccw minor cosT sinT morphRe morphIm) (workRe, workIm) = g
      at ih ⊢
    by_cases hm : m = n
    · subst hm
      rw [if_neg (by omega)] at ih
      rw [if_neg (by omega)] at ih
      rw [if_pos (by omega), if_pos (by omega)]
      exact pathBlendStep_congr sqrt pathType ccw minor cosT sinT morphRe morphIm
        (workRe, workIm) g m ih.1 ih.2
    · have ho := pathBlendStep_other sqrt pathType ccw minor cosT sinT morphRe morphIm g n m hm
      rw [ho.1, ho.2, ih.1, ih.2]
      have hlt : m < n + 1 ↔ m < n := by omega
      simp only [hlt]
      exact ⟨trivial, trivial⟩
/-- The step of a non-line path on finite values, for a coefficient with
`|D - C|^2 >= 1e-30` and a square root `len` that is finite and not 0: the
value written is `mid + lx*u + ly*v`, in which `len` cancels. -/
theorem pathBlendStep_fin (sqrt : Dbl → Dbl) (pathType ccw : Int) (mu c s : ℚ)
    (morphRe morphIm : DArr) (w : DArr × DArr) (m : Nat) (cR cI dR dI len : ℚ)
    (hw1 : w.1 m = Dbl.fin cR) (hw2 : w.2 m = Dbl.fin cI)
    (hm1 : morphRe m = Dbl.fin dR) (hm2 : morphIm m = Dbl.fin dI)
    (hge : 1 / 10 ^ 30 ≤ (dR - cR) * (dR - cR) + (dI - cI) * (dI - cI))
    (hs : sqrt (Dbl.fin ((dR - cR) * (dR - cR) + (dI - cI) * (dI - cI))) = Dbl.fin len)
    (hl : len ≠ 0) :
    (pathBlendStep sqrt pathType ccw (Dbl.fin mu) (Dbl.fin c) (Dbl.fin s) morphRe morphIm w
        m).1 m
      = Dbl.fin ((cR + dR) / 2 - c * (dR - cR) / 2
          - (if ccw ≠ 0 then 1 else -1)
            * (if pathType = 1 then s / 2 else if pathType = 2 then mu * s / 2 else s * c / 2)
            * (dI - cI)) ∧
    (pathBlendStep sqrt pathType ccw (Dbl.fin mu) (Dbl.fin c) (Dbl.fin s) morphRe morphIm w
        m).2 m
      = Dbl.fin ((cI + dI) / 2 - c * (dI - cI) / 2
          + (if ccw ≠ 0 then 1 else -1)
            * (if pathType = 1 then s / 2 else if pathType = 2 then mu * s / 2 else s * c / 2)
            * (dR - cR)) := by
  unfold pathBlendStep
  simp only [hw1, hw2, hm1, hm2, Dbl.fin_sub, Dbl.fin_mul, Dbl.fin_add, c1em30, Dbl.fin_lt,
    decide_eq_true_eq]
  rw [if_neg (not_lt.mpr hge), hs]
  simp only [Dbl.fin_div _ _ hl, chalf, Dbl.fin_mul, Dbl.fin_neg, Dbl.ofNat_eq, wr, if_true]
  obtain ⟨a, ha⟩ : ∃ a, dR - cR = len * a := ⟨(dR - cR) / len, by field_simp⟩
  obtain ⟨b, hb⟩ : ∃ b, dI - cI = len * b := ⟨(dI - cI) / len, by field_simp⟩
  by_cases hc : ccw ≠ 0
  · simp only [if_pos hc, Dbl.ofNat_eq, Dbl.fin_mul]
    by_cases h1 : pathType = 1
    · simp only [if_pos h1, Dbl.fin_mul, Dbl.fin_add]
      constructor <;> congr 1 <;> simp only [ha, hb, mul_div_cancel_left₀ _ hl] <;> ring
    · by_cases h2 : pathType = 2
      · simp only [if_neg h1, if_pos h2, Dbl.fin_mul, Dbl.fin_add]
        constructor <;> congr 1 <;> simp only [ha, hb, mul_div_cancel_left₀ _ hl] <;> ring
      · simp only [if_neg h1, if_neg h2, Dbl.fin_mul, Dbl.fin_add]
        constructor <;> congr 1 <;> simp only [ha, hb, mul_div_cancel_left₀ _ hl] <;> ring
  · simp only [if_neg hc, Dbl.ofNat_eq, Dbl.fin_mul, Dbl.fin_neg]
    by_cases h1 : pathType = 1
    · simp only [if_pos h1, Dbl.fin_mul, Dbl.fin_add]
      constructor <;> congr 1 <;> simp only [ha, hb, mul_div_cancel_left₀ _ hl] <;> ring
    · by_cases h2 : pathType = 2
      · simp only [if_neg h1, if_pos h2, Dbl.fin_mul, Dbl.fin_add]
        constructor <;> congr 1 <;> simp only [ha, hb, mul_div_cancel_left₀ _ hl] <;> ring
      · simp only [if_neg h1, if_neg h2, Dbl.fin_mul, Dbl.fin_add]
        constructor <;> congr 1 <;> simp only [ha, hb, mul_div_cancel_left₀ _ hl] <;> ring
/-- The step of a non-line path leaves a coefficient with
`|D - C|^2 < 1e-30` alone. -/
theorem pathBlendStep_keep (sqrt : Dbl → Dbl) (pathType ccw : Int) (minor cosT sinT : Dbl)
    (morphRe morphIm : DArr) (w : DArr × DArr) (m : Nat) (cR cI dR dI : ℚ)
    (hw1 : w.1 m = Dbl.fin cR) (hw2 : w.2 m = Dbl.fin cI)
    (hm1 : morphRe m = Dbl.fin dR) (hm2 : morphIm m = Dbl.fin dI)
    (hlt : (dR - cR) * (dR - cR) + (dI - cI) * (dI - cI) < 1 / 10 ^ 30) :
    pathBlendStep sqrt pathType ccw minor cosT sinT morphRe morphIm w m = w := by
  unfold pathBlendStep
  simp only [hw1, hw2, hm1, hm2, Dbl.fin_sub, Dbl.fin_mul, Dbl.fin_add, c1em30, Dbl.fin_lt,
    decide_eq_true_eq]
  rw [if_pos hlt]

/-- C29. Non-line morph paths connect C to D, on finite values, the square
root of `|D - C|^2` being finite and not 0.  For a path type other than 0
(circle for 1, ellipse for 2, figure-8 otherwise, in particular for 3), either
direction and any minor ratio, and a coefficient `m < nc` with
`|D - C|^2 >= 1e-30`, the blended value `mid + lx*u + ly*v` is
`(C+D)/2 - cos(theta)*(D-C)/2 + k*i*(D-C)`, where `ly*v = k*i*(D-C)` with
`k = sign*sin/2` on the circle, `sign*minor*sin/2` on the ellipse and
`sign*sin*cos/2` on the figure-8; it is exactly D at
`(cos theta, sin theta) = (-1, 0)` and the formula gives exactly C at `(1, 0)`;
and a coefficient with `|D - C|^2 < 1e-30` keeps the value C. -/
theorem C29_path_morph (sqrt : Dbl → Dbl) (pathType ccw : Int) (mu c s : ℚ)
    (workRe workIm morphRe morphIm : DArr) (nc m : Nat) (cR cI dR dI : ℚ)
    (hp : pathType ≠ 0) (hm : m < nc)
    (hw1 : workRe m = Dbl.fin cR) (hw2 : workIm m = Dbl.fin cI)
    (hm1 : morphRe m = Dbl.fin dR) (hm2 : morphIm m = Dbl.fin dI)
    (hsqrt : 1 / 10 ^ 30 ≤ (dR - cR) * (dR - cR) + (dI - cI) * (dI - cI) →
      ∃ l : ℚ, sqrt (Dbl.fin ((dR - cR) * (dR - cR) + (dI - cI) * (dI - cI))) = Dbl.fin l ∧
        l ≠ 0) :
    (1 / 10 ^ 30 ≤ (dR - cR) * (dR - cR) + (dI - cI) * (dI - cI) →
      (pathBlend sqrt pathType ccw (Dbl.fin mu) (Dbl.fin c) (Dbl.fin s) workRe workIm
          morphRe morphIm nc).1 m
        = Dbl.fin ((cR + dR) / 2 - c * (dR - cR) / 2
            - (if ccw ≠ 0 then 1 else -1)
              * (if pathType = 1 then s / 2 else if pathType = 2 then mu * s / 2 else s * c / 2)
              * (dI - cI)) ∧
      (pathBlend sqrt pathType ccw (Dbl.fin mu) (Dbl.fin c) (Dbl.fin s) workRe workIm
          morphRe morphIm nc).2 m
        = Dbl.fin ((cI + dI) / 2 - c * (dI - cI) / 2
            + (if ccw ≠ 0 then 1 else -1)
              * (if pathType = 1 then s / 2 else if pathType = 2 then mu * s / 2 else s * c / 2)
              * (dR - cR)) ∧
      (blendSkip (Dbl.fin c) (Dbl.fin s) = false →
        morphBlend sqrt true pathType ccw (Dbl.fin mu) (Dbl.fin c) (Dbl.fin s) workRe workIm
            morphRe morphIm nc
          = pathBlend sqrt pathType ccw (Dbl.fin mu) (Dbl.fin c) (Dbl.fin s) workRe workIm
            morphRe morphIm nc) ∧
      (morphBlend sqrt true pathType ccw (Dbl.fin mu) (Dbl.fin (-1)) (Dbl.fin 0) workRe workIm
          morphRe morphIm nc).1 m = Dbl.fin dR ∧
      (morphBlend sqrt true pathType ccw (Dbl.fin mu) (Dbl.fin (-1)) (Dbl.fin 0) workRe workIm
          morphRe morphIm nc).2 m = Dbl.fin dI ∧
      (pathBlend sqrt pathType ccw (Dbl.fin mu) (Dbl.fin 1) (Dbl.fin 0) workRe workIm
          morphRe morphIm nc).1 m = Dbl.fin cR ∧
      (pathBlend sqrt pathType ccw (Dbl.fin mu) (Dbl.fin 1) (Dbl.fin 0) workRe workIm
          morphRe morphIm nc).2 m = Dbl.fin cI) ∧
    ((dR - cR) * (dR - cR) + (dI - cI) * (dI - cI) < 1 / 10 ^ 30 →
      (pathBlend sqrt pathType ccw (Dbl.fin mu) (Dbl.fin c) (Dbl.fin s) workRe workIm
          morphRe morphIm nc).1 m = Dbl.fin cR ∧
      (pathBlend sqrt pathType ccw (Dbl.fin mu) (Dbl.fin c) (Dbl.fin s) workRe workIm
          morphRe morphIm nc).2 m = Dbl.fin cI ∧
      (morphBlend sqrt true pathType ccw (Dbl.fin mu) (Dbl.fin c) (Dbl.fin s) workRe workIm
          morphRe morphIm nc).1 m = Dbl.fin cR ∧
      (morphBlend sqrt true pathType ccw (Dbl.fin mu) (Dbl.fin c) (Dbl.fin s) workRe workIm
          morphRe morphIm nc).2 m = Dbl.fin cI) := by
  have happ : ∀ c2 s2 : ℚ,
      (pathBlend sqrt pathType ccw (Dbl.fin mu) (Dbl.fin c2) (Dbl.fin s2) workRe workIm
          morphRe morphIm nc).1 m
        = (pathBlendStep sqrt pathType ccw (Dbl.fin mu) (Dbl.fin c2) (Dbl.fin s2) morphRe
            morphIm (workRe, workIm) m).1 m ∧
      (pathBlend sqrt pathType ccw (Dbl.fin mu) (Dbl.fin c2) (Dbl.fin s2) workRe workIm
          morphRe morphIm nc).2 m
        = (pathBlendStep sqrt pathType ccw (Dbl.fin mu) (Dbl.fin c2) (Dbl.fin s2) morphRe
            morphIm (workRe, workIm) m).2 m := by
    intro c2 s2
    have := pathBlend_apply sqrt pathType ccw (Dbl.fin mu) (Dbl.fin c2) (Dbl.fin s2) workRe
      workIm morphRe morphIm nc m
    rw [if_pos hm, if_pos hm] at this
    exact this
  have hmb : ∀ c2 s2 : ℚ, blendSkip (Dbl.fin c2) (Dbl.fin s2) = false →
      morphBlend sqrt true pathType ccw (Dbl.fin mu) (Dbl.fin c2) (Dbl.fin s2) workRe workIm
          morphRe morphIm nc
        = pathBlend sqrt pathType ccw (Dbl.fin mu) (Dbl.fin c2) (Dbl.fin s2) workRe workIm
          morphRe morphIm nc := by
    intro c2 s2 hsk
    unfold morphBlend
    rw [hsk]
    simp only [Bool.not_false, Bool.and_self, if_true, if_neg hp]
  constructor
  · intro hge
    obtain ⟨len, hs, hl⟩ := hsqrt hge
    have hfin := fun c2 s2 => pathBlendStep_fin sqrt pathType ccw mu c2 s2 morphRe morphIm
      (workRe, workIm) m cR cI dR dI len hw1 hw2 hm1 hm2 hge hs hl
    refine ⟨?_, ?_, hmb c s, ?_, ?_, ?_, ?_⟩
    · rw [(happ c s).1, (hfin c s).1]
    · rw [(happ c s).2, (hfin c s).2]
    · rw [hmb (-1) 0 (by decide!), (happ (-1) 0).1, (hfin (-1) 0).1]
      congr 1
      split_ifs <;> ring
    · rw [hmb (-1) 0 (by decide!), (happ (-1) 0).2, (hfin (-1) 0).2]
      congr 1
      split_ifs <;> ring
    · rw [(happ 1 0).1, (hfin 1 0).1]
      congr 1
      split_ifs <;> ring
    · rw [(happ 1 0).2, (hfin 1 0).2]
      congr 1
      split_ifs <;> ring
  · intro hlt
    have hk := pathBlendStep_keep sqrt pathType ccw (Dbl.fin mu) (Dbl.fin c) (Dbl.fin s)
      morphRe morphIm (workRe, workIm) m cR cI dR dI hw1 hw2 hm1 hm2 hlt
    have h1 : (pathBlend sqrt pathType ccw (Dbl.fin mu) (Dbl.fin c) (Dbl.fin s) workRe workIm
        morphRe morphIm nc).1 m = Dbl.fin cR := by
      rw [(happ c s).1, hk]
      exact hw1
    have h2 : (pathBlend sqrt pathType ccw (Dbl.fin mu) (Dbl.fin c) (Dbl.fin s) workRe workIm
        morphRe morphIm nc).2 m = Dbl.fin cI := by
      rw [(happ c s).2, hk]
      exact hw2
    refine ⟨h1, h2, ?_⟩
    by_cases hsk : blendSkip (Dbl.fin c) (Dbl.fin s) = false
    · rw [hmb c s hsk]
      exact ⟨h1, h2⟩
    · unfold morphBlend
      have : blendSkip (Dbl.fin c) (Dbl.fin s) = true := by simpa using hsk
      rw [this]
      simp only [Bool.not_true, Bool.and_false, Bool.false_eq_true, if_false]
      exact ⟨hw1, hw2⟩
/-- C29 on the circle, counter-clockwise, at `theta = pi/2`, for `C = 0` and
`D = 3 + 4i`, whose distance 5 the sample square root finds. -/
theorem C29_path_morph_witness :
    (1 : Int) ≠ 0 ∧ 0 < 1 ∧
    arr [0] 0 = Dbl.fin 0 ∧ arr [0] 0 = Dbl.fin 0 ∧
    arr [3] 0 = Dbl.fin 3 ∧ arr [4] 0 = Dbl.fin 4 ∧
    (1 / 10 ^ 30 ≤ ((3 : ℚ) - (0 : ℚ)) * ((3 : ℚ) - (0 : ℚ)) + ((4 : ℚ) - (0 : ℚ)) * ((4 : ℚ) - (0 : ℚ)) →
      ∃ l : ℚ, sqrtSample (Dbl.fin (((3 : ℚ) - (0 : ℚ)) * ((3 : ℚ) - (0 : ℚ)) + ((4 : ℚ) - (0 : ℚ)) * ((4 : ℚ) - (0 : ℚ)))) = Dbl.fin l ∧
        l ≠ 0) ∧
    ((1 / 10 ^ 30 ≤ ((3 : ℚ) - (0 : ℚ)) * ((3 : ℚ) - (0 : ℚ)) + ((4 : ℚ) - (0 : ℚ)) * ((4 : ℚ) - (0 : ℚ)) →
      (pathBlend sqrtSample (1 : Int) (1 : Int) (Dbl.fin (1 / 2 : ℚ)) (Dbl.fin (0 : ℚ)) (Dbl.fin (1 : ℚ)) (arr [0]) (arr [0])
          (arr [3]) (arr [4]) 1).1 0
        = Dbl.fin (((0 : ℚ) + (3 : ℚ)) / 2 - (0 : ℚ) * ((3 : ℚ) - (0 : ℚ)) / 2
            - (if (1 : Int) ≠ 0 then 1 else -1)
              * (if (1 : Int) = 1 then (1 : ℚ) / 2 else if (1 : Int) = 2 then (1 / 2 : ℚ) * (1 : ℚ) / 2 else (1 : ℚ) * (0 : ℚ) / 2)
              * ((4 : ℚ) - (0 : ℚ))) ∧
      (pathBlend sqrtSample (1 : Int) (1 : Int) (Dbl.fin (1 / 2 : ℚ)) (Dbl.fin (0 : ℚ)) (Dbl.fin (1 : ℚ)) (arr [0]) (arr [0])
          (arr [3]) (arr [4]) 1).2 0
        = Dbl.fin (((0 : ℚ) + (4 : ℚ)) / 2 - (0 : ℚ) * ((4 : ℚ) - (0 : ℚ)) / 2
            + (if (1 : Int) ≠ 0 then 1 else -1)
              * (if (1 : Int) = 1 then (1 : ℚ) / 2 else if (1 : Int) = 2 then (1 / 2 : ℚ) * (1 : ℚ) / 2 else (1 : ℚ) * (0 : ℚ) / 2)
              * ((3 : ℚ) - (0 : ℚ))) ∧
      (blendSkip (Dbl.fin (0 : ℚ)) (Dbl.fin (1 : ℚ)) = false →
        morphBlend sqrtSample true (1 : Int) (1 : Int) (Dbl.fin (1 / 2 : ℚ)) (Dbl.fin (0 : ℚ)) (Dbl.fin (1 : ℚ)) (arr [0]) (arr [0])
            (arr [3]) (arr [4]) 1
          = pathBlend sqrtSample (1 : Int) (1 : Int) (Dbl.fin (1 / 2 : ℚ)) (Dbl.fin (0 : ℚ)) (Dbl.fin (1 : ℚ)) (arr [0]) (arr [0])
            (arr [3]) (arr [4]) 1) ∧
      (morphBlend sqrtSample true (1 : Int) (1 : Int) (Dbl.fin (1 / 2 : ℚ)) (Dbl.fin (-1)) (Dbl.fin 0) (arr [0]) (arr [0])
          (arr [3]) (arr [4]) 1).1 0 = Dbl.fin (3 : ℚ) ∧
      (morphBlend sqrtSample true (1 : Int) (1 : Int) (Dbl.fin (1 / 2 : ℚ)) (Dbl.fin (-1)) (Dbl.fin 0) (arr [0]) (arr [0])
          (arr [3]) (arr [4]) 1).2 0 = Dbl.fin (4 : ℚ) ∧
      (pathBlend sqrtSample (1 : Int) (1 : Int) (Dbl.fin (1 / 2 : ℚ)) (Dbl.fin 1) (Dbl.fin 0) (arr [0]) (arr [0])
          (arr [3]) (arr [4]) 1).1 0 = Dbl.fin (0 : ℚ) ∧
      (pathBlend sqrtSample (1 : Int) (1 : Int) (Dbl.fin (1 / 2 : ℚ)) (Dbl.fin 1) (Dbl.fin 0) (arr [0]) (arr [0])
          (arr [3]) (arr [4]) 1).2 0 = Dbl.fin (0 : ℚ)) ∧
    (((3 : ℚ) - (0 : ℚ)) * ((3 : ℚ) - (0 : ℚ)) + ((4 : ℚ) - (0 : ℚ)) * ((4 : ℚ) - (0 : ℚ)) < 1 / 10 ^ 30 →
      (pathBlend sqrtSample (1 : Int) (1 : Int) (Dbl.fin (1 / 2 : ℚ)) (Dbl.fin (0 : ℚ)) (Dbl.fin (1 : ℚ)) (arr [0]) (arr [0])
          (arr [3]) (arr [4]) 1).1 0 = Dbl.fin (0 : ℚ) ∧
      (pathBlend sqrtSample (1 : Int) (1 : Int) (Dbl.fin (1 / 2 : ℚ)) (Dbl.fin (0 : ℚ)) (Dbl.fin (1 : ℚ)) (arr [0]) (arr [0])
          (arr [3]) (arr [4]) 1).2 0 = Dbl.fin (0 : ℚ) ∧
      (morphBlend sqrtSample true (1 : Int) (1 : Int) (Dbl.fin (1 / 2 : ℚ)) (Dbl.fin (0 : ℚ)) (Dbl.fin (1 : ℚ)) (arr [0]) (arr [0])
          (arr [3]) (arr [4]) 1).1 0 = Dbl.fin (0 : ℚ) ∧
      (morphBlend sqrtSample true (1 : Int) (1 : Int) (Dbl.fin (1 / 2 : ℚ)) (Dbl.fin (0 : ℚ)) (Dbl.fin (1 : ℚ)) (arr [0]) (arr [0])
          (arr [3]) (arr [4]) 1).2 0 = Dbl.fin (0 : ℚ))) :=
  ⟨by decide, by decide, by decide!, by decide!, by decide!, by decide!,
    fun _ => ⟨5, by decide!, by norm_num⟩,
    C29_path_morph sqrtSample 1 1 (1 / 2) 0 1 (arr [0]) (arr [0]) (arr [3]) (arr [4]) 1 0
      0 0 3 4 (by decide) (by decide) (by decide!) (by decide!) (by decide!) (by decide!)
      (fun _ => ⟨5, by decide!, by norm_num⟩)⟩

/-- The non-line paths evaluated for `C = 0`, `D = 3 + 4i`: at `theta = pi/2`
the circle passes through `-1/2 + 7/2 i` counter-clockwise and through
`7/2 + 1/2 i` clockwise, the ellipse of minor ratio `1/2` through
`1/2 + 11/4 i`, the figure-8 through the midpoint; at `theta = pi` the circle
is at D. -/
theorem path_samples :
    ((pathBlend sqrtSample 1 1 (Dbl.fin (1 / 2)) 0 1 (arr [0]) (arr [0]) (arr [3]) (arr [4]) 1).1 0,
      (pathBlend sqrtSample 1 1 (Dbl.fin (1 / 2)) 0 1 (arr [0]) (arr [0]) (arr [3]) (arr [4]) 1).2 0)
      = (Dbl.fin (-1 / 2), Dbl.fin (7 / 2)) ∧
    ((pathBlend sqrtSample 1 0 (Dbl.fin (1 / 2)) 0 1 (arr [0]) (arr [0]) (arr [3]) (arr [4]) 1).1 0,
      (pathBlend sqrtSample 1 0 (Dbl.fin (1 / 2)) 0 1 (arr [0]) (arr [0]) (arr [3]) (arr [4]) 1).2 0)
      = (Dbl.fin (7 / 2), Dbl.fin (1 / 2)) ∧
    ((pathBlend sqrtSample 2 1 (Dbl.fin (1 / 2)) 0 1 (arr [0]) (arr [0]) (arr [3]) (arr [4]) 1).1 0,
      (pathBlend sqrtSample 2 1 (Dbl.fin (1 / 2)) 0 1 (arr [0]) (arr [0]) (arr [3]) (arr [4]) 1).2 0)
      = (Dbl.fin (1 / 2), Dbl.fin (11 / 4)) ∧
    ((pathBlend sqrtSample 3 1 (Dbl.fin (1 / 2)) 0 1 (arr [0]) (arr [0]) (arr [3]) (arr [4]) 1).1 0,
      (pathBlend sqrtSample 3 1 (Dbl.fin (1 / 2)) 0 1 (arr [0]) (arr [0]) (arr [3]) (arr [4]) 1).2 0)
      = (Dbl.fin (3 / 2), Dbl.fin 2) ∧
    ((morphBlend sqrtSample true 1 1 (Dbl.fin (1 / 2)) (-1) 0 (arr [0]) (arr [0]) (arr [3])
        (arr [4]) 1).1 0,
      (morphBlend sqrtSample true 1 1 (Dbl.fin (1 / 2)) (-1) 0 (arr [0]) (arr [0]) (arr [3])
        (arr [4]) 1).2 0)
      = (Dbl.fin 3, Dbl.fin 4) := by
  refine ⟨by decide!, by decide!, by decide!, by decide!, by decide!⟩
/-! ## C30: the morph angle schedule -/

/-- One step of the angle pair outside the skip test, on finite values: the
pair is rotated by `(cos dTheta, sin dTheta)`; the renormalisation of the
steps with `k & 1023 == 0` changes nothing when both pairs lie on the unit
circle and the square root of 1 is 1. -/
theorem angleStep_rotate (sqrt : Dbl → Dbl) (c s cd sd : ℚ) (k : Nat)
    (hskip : blendSkip (Dbl.fin c) (Dbl.fin s) = false)
    (hk : k % 1024 ≠ 0 ∨
      (sqrt (Dbl.fin 1) = Dbl.fin 1 ∧ c * c + s * s = 1 ∧ cd * cd + sd * sd = 1)) :
    angleStep sqrt true (Dbl.fin cd) (Dbl.fin sd) (Dbl.fin c, Dbl.fin s) k
      = (Dbl.fin (c * cd - s * sd), Dbl.fin (s * cd + c * sd)) := by
  unfold angleStep
  simp only [hskip, Bool.not_false, Bool.and_self, if_true, Dbl.fin_mul, Dbl.fin_sub,
    Dbl.fin_add]
  by_cases h0 : k % 1024 = 0
  · rcases hk with hk | ⟨h1, h2, h3⟩
    · exact absurd h0 hk
    · rw [if_pos h0]
      have e : (c * cd - s * sd) * (c * cd - s * sd) + (s * cd + c * sd) * (s * cd + c * sd)
          = 1 := by
        have : (c * cd - s * sd) * (c * cd - s * sd) + (s * cd + c * sd) * (s * cd + c * sd)
            = (c * c + s * s) * (cd * cd + sd * sd) := by ring
        rw [this, h2, h3, mul_one]
      rw [e, h1]
      simp only [Dbl.ofNat_eq, Nat.cast_one, Dbl.fin_div _ _ one_ne_zero, Dbl.fin_mul, div_one,
        mul_one]
  · rw [if_neg h0]

/-- C30, the behaviour of the code at `theta0 = 0`.  With morph enabled and
the batch started at `(cos, sin) = (1, 0)`, the skip test of step 6 holds, the
block that contains the advance of the pair is not entered, and the pair is
`(1, 0)` at every step of the batch, for every `dTheta`: for
`(cos dTheta, sin dTheta) = (3/5, 4/5)` it is `(1, 0)` at the second step,
where the schedule has `(3/5, 4/5)`.  A pair that reaches `(1, 0)` during a
batch stays there as well: from `(0, 1)` with `(cos dTheta, sin dTheta) =
(0, -1)` the pair is `(1, 0)` after one step and still after three, where the
schedule has `(-1, 0)`.  Outside the skip test a step is the rotation by
`dTheta`. -/
theorem C30_angle_stuck :
    (∀ (sqrt : Dbl → Dbl) (cosD sinD : Dbl) (n : Nat),
      angleRun sqrt true cosD sinD (1, 0) n = (1, 0)) ∧
    angleRun sqrtSample true (Dbl.fin (3 / 5)) (Dbl.fin (4 / 5)) (1, 0) 1 = (1, 0) ∧
    angleRun sqrtSample true 0 (-1) (0, 1) 1 = (1, 0) ∧
    angleRun sqrtSample true 0 (-1) (0, 1) 3 = (1, 0) ∧
    angleRun sqrtSample true (Dbl.fin (3 / 5)) (Dbl.fin (4 / 5)) (0, 1) 2
      = (Dbl.fin (-24 / 25), Dbl.fin (-7 / 25)) ∧
    (∀ (sqrt : Dbl → Dbl) (c s cd sd : ℚ) (k : Nat),
      blendSkip (Dbl.fin c) (Dbl.fin s) = false →
      (k % 1024 ≠ 0 ∨
        (sqrt (Dbl.fin 1) = Dbl.fin 1 ∧ c * c + s * s = 1 ∧ cd * cd + sd * sd = 1)) →
      angleStep sqrt true (Dbl.fin cd) (Dbl.fin sd) (Dbl.fin c, Dbl.fin s) k
        = (Dbl.fin (c * cd - s * sd), Dbl.fin (s * cd + c * sd))) := by
  refine ⟨?_, by decide!, by decide!, by decide!, by decide!, ?_⟩
  · intro sqrt cosD sinD n
    induction n with
    | zero => rfl
    | succ n ih =>
      unfold angleRun at ih ⊢
      rw [List.range_succ, List.foldl_append, ih]
      simp only [List.foldl_cons, List.foldl_nil]
      unfold angleStep
      have : blendSkip (1 : Dbl) (0 : Dbl) = true := by decide!
      simp only [this, Bool.not_true, Bool.and_false, Bool.false_eq_true, if_false]
  · intro sqrt c s cd sd k hskip hk
    exact angleStep_rotate sqrt c s cd sd k hskip hk

/-! ## C26: index safety and termination of the Hungarian matcher -/

/-- The checks at work: on scenario S4 the checked matcher returns
`{0.1, 1.1}`; on predecessors `{0, 0}` and solved roots `{0, 1e9}`, where a
squared distance reaches the sentinel, no column is selected and the checked
run stops. -/
theorem hungarianChk_samples :
    (StepLoop.hungarianMatchChk (arr [Dbl.fin (11 / 10), Dbl.fin (1 / 10)]) (arr [0, 0])
        (arr [0, 1]) (arr [0, 0]) 2 (fun _ => 7)).map (fun out => rootList out.1 out.2 2)
      = some [(Dbl.fin (1 / 10), Dbl.fin 0), (Dbl.fin (11 / 10), Dbl.fin 0)] ∧
    (StepLoop.hungarianMatchChk (arr [0, Dbl.fin (10 ^ 9)]) (arr [0, 0])
        (arr [0, 0]) (arr [0, 0]) 2 (fun _ => 0)).isSome = false := by
  refine ⟨by decide!, by decide!⟩

/-! ## C31: the state of the generator is never all-zero -/

/-- The left xorshift is additive for the exclusive or. -/
theorem shl_xor (x y k w : Nat) :
    (x ^^^ ((x <<< k) % 2 ^ w)) ^^^ (y ^^^ ((y <<< k) % 2 ^ w))
      = (x ^^^ y) ^^^ (((x ^^^ y) <<< k) % 2 ^ w) := by
  apply Nat.eq_of_testBit_eq
  intro i
  simp only [Nat.testBit_xor, Nat.testBit_mod_two_pow, Nat.testBit_shiftLeft]
  cases decide (i < w) <;> cases decide (i ≥ k) <;> cases x.testBit i <;> cases y.testBit i <;>
    cases x.testBit (i - k) <;> cases y.testBit (i - k) <;> rfl

/-- The right xorshift is additive for the exclusive or. -/
theorem shr_xor (x y k : Nat) :
    (x ^^^ (x >>> k)) ^^^ (y ^^^ (y >>> k)) = (x ^^^ y) ^^^ ((x ^^^ y) >>> k) := by
  apply Nat.eq_of_testBit_eq
  intro i
  simp only [Nat.testBit_xor, Nat.testBit_shiftRight]
  cases x.testBit i <;> cases y.testBit i <;> cases x.testBit (k + i) <;>
    cases y.testBit (k + i) <;> rfl

/-- The step `t ^= t << 11` on 32-bit words is injective. -/
theorem shl11_inj (x y : Nat)
    (h : x ^^^ ((x <<< 11) % 2 ^ 32) = y ^^^ ((y <<< 11) % 2 ^ 32)) : x = y := by
  have h1 := Nat.xor_eq_zero.mpr h
  rw [shl_xor, Nat.xor_eq_zero] at h1
  apply Nat.xor_eq_zero.mp
  generalize x ^^^ y = z at h1
  rw [Nat.shiftLeft_eq] at h1
  omega

/-- The step `t ^= t >> 8` is injective. -/
theorem shr8_inj (x y : Nat) (h : x ^^^ (x >>> 8) = y ^^^ (y >>> 8)) : x = y := by
  have h1 := Nat.xor_eq_zero.mpr h
  rw [shr_xor, Nat.xor_eq_zero] at h1
  apply Nat.xor_eq_zero.mp
  generalize x ^^^ y = z at h1
  rw [Nat.shiftRight_eq_div_pow] at h1
  omega

/-- The two shifts applied to `t` form an injective map that fixes 0. -/
theorem mixT_inj (x y : Nat) (h : mixT x = mixT y) : x = y :=
  shl11_inj x y (shr8_inj _ _ h)

theorem mixT_zero : mixT 0 = 0 := by decide

/-- The two shifts keep a word below `2^32`. -/
theorem mixT_lt (t : Nat) (ht : t < 2 ^ 32) : mixT t < 2 ^ 32 := by
  unfold mixT
  have h1 : t ^^^ ((t <<< 11) % 2 ^ 32) < 2 ^ 32 :=
    Nat.xor_lt_two_pow ht (Nat.mod_lt _ (by norm_num))
  apply Nat.xor_lt_two_pow h1
  rw [Nat.shiftRight_eq_div_pow]
  exact lt_of_le_of_lt (Nat.div_le_self _ _) h1

/-- The word produced by `xorshift128` on a valid state is a 32-bit word and
the new state is valid. -/
theorem xorshift128_valid (r : Rng) (hr : r.Valid) :
    (xorshift128 r).1 < 2 ^ 32 ∧ (xorshift128 r).2.Valid := by
  obtain ⟨h0, h1, h2, h3⟩ := hr
  have hx : mixT r.s3 ^^^ r.s0 ^^^ (r.s0 >>> 19) < 2 ^ 32 := by
    apply Nat.xor_lt_two_pow (Nat.xor_lt_two_pow (mixT_lt _ h3) h0)
    rw [Nat.shiftRight_eq_div_pow]
    exact lt_of_le_of_lt (Nat.div_le_self _ _) h0
  exact ⟨hx, hx, h0, h1, h2⟩

/-- The update of `xorshift128` is injective. -/
theorem xorshift128_inj (r r2 : Rng) (h : (xorshift128 r).2 = (xorshift128 r2).2) : r = r2 := by
  unfold xorshift128 at h
  simp only [Rng.mk.injEq] at h
  obtain ⟨hx, h0, h1, h2⟩ := h
  rw [h0] at hx
  have h3 : r.s3 = r2.s3 := by
    apply mixT_inj
    rw [Nat.xor_assoc, Nat.xor_assoc] at hx
    exact Nat.xor_left_injective hx
  cases r
  cases r2
  simp only [Rng.mk.injEq]
  exact ⟨h0, h1, h2, h3⟩

/-- The update of `xorshift128` fixes the all-zero state. -/
theorem xorshift128_zero :
    (xorshift128 { s0 := 0, s1 := 0, s2 := 0, s3 := 0 }).2
      = { s0 := 0, s1 := 0, s2 := 0, s3 := 0 } := by decide

/-- The update of `xorshift128` maps a state that is not all-zero to a state
that is not all-zero. -/
theorem xorshift128_nonzero (r : Rng) (hr : ¬ r.IsZero) : ¬ (xorshift128 r).2.IsZero := by
  intro hz
  apply hr
  have hz2 : (xorshift128 r).2 = { s0 := 0, s1 := 0, s2 := 0, s3 := 0 } := by
    obtain ⟨a, b, c, d⟩ := hz
    generalize xorshift128 r = q at a b c d
    obtain ⟨x, q2⟩ := q
    cases q2
    simp only at a b c d
    simp only [a, b, c, d]
  have := xorshift128_inj r { s0 := 0, s1 := 0, s2 := 0, s3 := 0 }
    (by rw [hz2, xorshift128_zero])
  rw [this]
  exact ⟨rfl, rfl, rfl, rfl⟩

/-- The seeding leaves a valid state that is not all-zero. -/
theorem seedRng_ok (c0 c1 c2 c3 : Int) :
    (seedRng c0 c1 c2 c3).Valid ∧ ¬ (seedRng c0 c1 c2 c3).IsZero := by
  have hlt : ∀ z : Int, toU32 z < 2 ^ 32 := by
    intro z
    unfold toU32
    have h1 : 0 ≤ z % 2 ^ 32 := Int.emod_nonneg _ (by norm_num)
    have h2 : z % 2 ^ 32 < 2 ^ 32 := Int.emod_lt_of_pos _ (by norm_num)
    omega
  unfold seedRng
  split_ifs with h
  · exact ⟨by decide, by decide⟩
  · exact ⟨⟨hlt _, hlt _, hlt _, hlt _⟩, h⟩

/-- Any number of draws keeps a state valid and not all-zero. -/
theorem draws_ok (n : Nat) : ∀ r : Rng, r.Valid → ¬ r.IsZero →
    (draws n r).Valid ∧ ¬ (draws n r).IsZero := by
  induction n with
  | zero => intro r h1 h2; exact ⟨h1, h2⟩
  | succ n ih =>
    intro r h1 h2
    exact ih _ (xorshift128_valid r h1).2 (xorshift128_nonzero r h2)

/-- C31. The state of the generator is never all-zero: after `init` with any
four seed words (an all-zero seed being replaced by the fixed tuple
`0xDEADBEEF, 0x12345678, 0xABCDEF01, 0x87654321`) the four words are 32-bit
words that are not all zero; the update of `xorshift128` is injective on the
states and fixes the all-zero state, so it maps every state that is not
all-zero to such a state; hence the state is not all-zero after any number of
draws. -/
theorem C31_rng_nonzero :
    (∀ c0 c1 c2 c3 : Int, (seedRng c0 c1 c2 c3).Valid ∧ ¬ (seedRng c0 c1 c2 c3).IsZero) ∧
    seedRng 0 0 0 0
      = { s0 := 0xDEADBEEF, s1 := 0x12345678, s2 := 0xABCDEF01, s3 := 0x87654321 } ∧
    (∀ r r2 : Rng, (xorshift128 r).2 = (xorshift128 r2).2 → r = r2) ∧
    (xorshift128 { s0 := 0, s1 := 0, s2 := 0, s3 := 0 }).2
      = { s0 := 0, s1 := 0, s2 := 0, s3 := 0 } ∧
    (∀ r : Rng, ¬ r.IsZero → ¬ (xorshift128 r).2.IsZero) ∧
    (∀ r : Rng, r.Valid → (xorshift128 r).2.Valid) ∧
    (∀ (n : Nat) (c0 c1 c2 c3 : Int),
      (draws n (seedRng c0 c1 c2 c3)).Valid ∧ ¬ (draws n (seedRng c0 c1 c2 c3)).IsZero) := by
  refine ⟨seedRng_ok, by decide, xorshift128_inj, xorshift128_zero, xorshift128_nonzero,
    fun r hr => (xorshift128_valid r hr).2, ?_⟩
  intro n c0 c1 c2 c3
  exact draws_ok n _ (seedRng_ok c0 c1 c2 c3).1 (seedRng_ok c0 c1 c2 c3).2

/-- The first draw from the all-zero seed, four draws from the seed
`(0, 0, 0, 1)`, and the cast of a negative seed word. -/
theorem rng_samples :
    (xorshift128 (seedRng 0 0 0 0)).1 = 1937543760 ∧
    (xorshift128 (seedRng 0 0 0 0)).2
      = { s0 := 1937543760, s1 := 0xDEADBEEF, s2 := 0x12345678, s3 := 0xABCDEF01 } ∧
    draws 4 (seedRng 0 0 0 1) = { s0 := 2057, s1 := 2057, s2 := 2057, s3 := 2057 } ∧
    seedRng (-1) 0 0 0 = { s0 := 4294967295, s1 := 0, s2 := 0, s3 := 0 } := by
  refine ⟨by decide, by decide, by decide, by decide⟩
/-! ## C32: the range of the uniform draw -/

/-- The uniform draw on a valid state: the word just produced, shifted right
by one bit, over `2^31`. -/
theorem rngUniform_spec (r : Rng) (hr : r.Valid) :
    ∃ u : ℚ, (rngUniform r).1 = Dbl.fin u ∧
      u = (((xorshift128 r).1 >>> 1 : Nat) : ℚ) / 2 ^ 31 ∧ 0 ≤ u ∧ u ≤ 1 - 1 / 2 ^ 31 := by
  have hx := (xorshift128_valid r hr).1
  have hlt : (xorshift128 r).1 >>> 1 ≤ 2 ^ 31 - 1 := by
    rw [Nat.shiftRight_eq_div_pow]
    omega
  unfold rngUniform
  simp only []
  generalize (xorshift128 r).1 >>> 1 = a at hlt
  have ha : (a : ℚ) ≤ 2 ^ 31 - 1 := by
    have : ((a : Nat) : ℚ) ≤ ((2 ^ 31 - 1 : Nat) : ℚ) := by exact_mod_cast hlt
    norm_num at this ⊢
    exact this
  refine ⟨(a : ℚ) / 2 ^ 31, ?_, rfl, ?_, ?_⟩
  · rw [Dbl.fin_div _ _ (by norm_num)]
    norm_num
  · positivity
  · rw [div_le_iff₀ (by positivity)]
    linarith [ha]
/-- The noise term of the morph path dither for a finite `ds > 0`: a value in
`[-ds, ds)`. -/
theorem pathNoise_range (ds : ℚ) (hds : 0 < ds) (r : Rng) (hr : r.Valid) :
    ∃ e : ℚ, (pathNoise (Dbl.fin ds) r).1 = Dbl.fin e ∧ -ds ≤ e ∧ e < ds := by
  obtain ⟨u, hu, -, h0, h1⟩ := rngUniform_spec r hr
  have h2 : u < 1 := by
    have : (0 : ℚ) < 1 / 2 ^ 31 := by positivity
    linarith
  refine ⟨(u - 1 / 2) * 2 * ds, ?_, ?_, ?_⟩
  · unfold pathNoise
    simp only [hu, chalf, Dbl.fin_sub, Dbl.fin_mul, Dbl.ofNat_eq, Nat.cast_ofNat]
  · nlinarith
  · nlinarith

/-- C32. The range of the uniform draw, in exact arithmetic: for every state
of four 32-bit words, `rngUniform` returns exactly `(x >> 1) / 2^31` for the
word `x` just produced by `xorshift128`, a rational in `[0, 1 - 2^-31]`, hence
in `[0, 1)`, and leaves the state `xorshift128` leaves; `rngDither` with
`dist != 0` returns `(u - 0.5) * 2`, a value in `[-1, 1)`; and for a finite
`sigma > 0` each of the two terms `(rngUniform() - 0.5) * 2.0 * sigma` that
the morph path dither adds to the real and to the imaginary part of a
coefficient lies in `[-sigma, sigma)`. -/
theorem C32_uniform_range (gauss : Rng → Dbl × Rng) (dist : Int) (sigma : ℚ) (r : Rng)
    (hr : r.Valid) :
    ∃ u : ℚ, (rngUniform r).1 = Dbl.fin u ∧
      u = (((xorshift128 r).1 >>> 1 : Nat) : ℚ) / 2 ^ 31 ∧
      0 ≤ u ∧ u ≤ 1 - 1 / 2 ^ 31 ∧ u < 1 ∧
      (rngUniform r).2 = (xorshift128 r).2 ∧
      (dist ≠ 0 →
        ∃ d : ℚ, (rngDither gauss dist r).1 = Dbl.fin d ∧ d = (u - 1 / 2) * 2 ∧
          -1 ≤ d ∧ d < 1) ∧
      (0 < sigma →
        ∃ e1 e2 : ℚ, -sigma ≤ e1 ∧ e1 < sigma ∧ -sigma ≤ e2 ∧ e2 < sigma ∧
          ∀ (workRe workIm : DArr) (m : Nat),
            (pathDitherStep (Dbl.fin sigma) ((workRe, workIm), r) m).1.1 m
              = workRe m + Dbl.fin e1 ∧
            (pathDitherStep (Dbl.fin sigma) ((workRe, workIm), r) m).1.2 m
              = workIm m + Dbl.fin e2) := by
  obtain ⟨u, hu, he, h0, h1⟩ := rngUniform_spec r hr
  have h2 : u < 1 := by
    have : (0 : ℚ) < 1 / 2 ^ 31 := by positivity
    linarith
  refine ⟨u, hu, he, h0, h1, h2, rfl, ?_, ?_⟩
  · intro hd
    refine ⟨(u - 1 / 2) * 2, ?_, rfl, by linarith, by linarith⟩
    unfold rngDither
    rw [if_pos hd]
    simp only [hu, chalf, Dbl.fin_sub, Dbl.fin_mul, Dbl.ofNat_eq, Nat.cast_ofNat]
  · intro hs
    obtain ⟨e1, hn1, a1, b1⟩ := pathNoise_range sigma hs r hr
    have hr2 : (pathNoise (Dbl.fin sigma) r).2.Valid := (xorshift128_valid r hr).2
    obtain ⟨e2, hn2, a2, b2⟩ := pathNoise_range sigma hs _ hr2
    refine ⟨e1, e2, a1, b1, a2, b2, ?_⟩
    intro workRe workIm m
    unfold pathDitherStep
    simp only [wr, if_true, hn1, hn2]
    exact ⟨trivial, trivial⟩

/-- C32 on the state left by the all-zero seed. -/
theorem C32_uniform_range_witness :
    (seedRng 0 0 0 0).Valid ∧
    ∃ u : ℚ, (rngUniform (seedRng 0 0 0 0)).1 = Dbl.fin u ∧
      u = (((xorshift128 (seedRng 0 0 0 0)).1 >>> 1 : Nat) : ℚ) / 2 ^ 31 ∧
      0 ≤ u ∧ u ≤ 1 - 1 / 2 ^ 31 ∧ u < 1 ∧
      (rngUniform (seedRng 0 0 0 0)).2 = (xorshift128 (seedRng 0 0 0 0)).2 ∧
      ((1 : Int) ≠ 0 →
        ∃ d : ℚ, (rngDither (fun q => (0, q)) 1 (seedRng 0 0 0 0)).1 = Dbl.fin d ∧
          d = (u - 1 / 2) * 2 ∧ -1 ≤ d ∧ d < 1) ∧
      ((0 : ℚ) < 3 →
        ∃ e1 e2 : ℚ, -3 ≤ e1 ∧ e1 < 3 ∧ -3 ≤ e2 ∧ e2 < 3 ∧
          ∀ (workRe workIm : DArr) (m : Nat),
            (pathDitherStep (Dbl.fin 3) ((workRe, workIm), seedRng 0 0 0 0) m).1.1 m
              = workRe m + Dbl.fin e1 ∧
            (pathDitherStep (Dbl.fin 3) ((workRe, workIm), seedRng 0 0 0 0) m).1.2 m
              = workIm m + Dbl.fin e2) :=
  ⟨by decide, C32_uniform_range (fun q => (0, q)) 1 3 (seedRng 0 0 0 0) (by decide)⟩

/-- The draws evaluated on the state left by the all-zero seed: the word
`1937543760` gives `u = 968771880 / 2^31`; on the state whose next word is
`2^32 - 1` the draw is `1 - 2^-31`, the largest value. -/
theorem uniform_samples :
    (rngUniform (seedRng 0 0 0 0)).1 = Dbl.fin (968771880 / 2 ^ 31) ∧
    (rngDither (fun q => (0, q)) 1 (seedRng 0 0 0 0)).1
      = Dbl.fin ((968771880 / 2 ^ 31 - 1 / 2) * 2) ∧
    (xorshift128 { s0 := 4294959104, s1 := 0, s2 := 0, s3 := 0 }).1 = 4294967295 ∧
    (rngUniform { s0 := 4294959104, s1 := 0, s2 := 0, s3 := 0 }).1
      = Dbl.fin (1 - 1 / 2 ^ 31) := by
  refine ⟨by decide!, by decide!, by decide, by decide!⟩

end Karpo
